import Mathlib

/-!
# Warthog: search nodes and the two-phase CHASE-like bidirectional search

A shallow embedding of `src/search/search_node.h`, `src/search/chase_search.h`, the
label bookkeeping of `src/sipp/jpst_gridmap.h`, and of `src/programs/warthog.cpp` the
function `check_optimality` and the dispatch on `--alg` in `main`.

Conventions of the embedding.

* `double` values are rationals (`ℚ`): no NaN, no infinities. `DBL_MAX` is the exact
  value of the largest finite double. In `search_node` and `chase_search` the sums of
  doubles are exact; the namespace `rounded` repeats `relax`, `expand` and the search
  over them with every sum rounded to the nearest double (`double_round`), for the
  statements that depend on the value of a sum.
* `uint32_t` words are natural numbers; conversions from `double` truncate.
* A `search_node*` is a `node_ptr`: the pool that owns the node (the forward or the
  backward expander's pool) and the key the node was generated under. The two pools
  together form one memory `node_ptr → search_node`.
* `warthog::INF` and `warthog::INF32` come from `constants.h`, which is not among the
  sources; each is a parameter of every definition that uses it.
-/

namespace warthog

/-! ## Constants -/

/-- The constant `NODEID_AND_STATUS_MASK = (1 << 24) - 1` of search_node.h. -/
def NODEID_AND_STATUS_MASK : Nat := (1 <<< 24) - 1

/-- The constant `STATUS_MASK = 1` of search_node.h. -/
def STATUS_MASK : Nat := 1

/-- The largest finite double, `(2^53 - 1) * 2^971`, from the C header `cfloat`. -/
def DBL_MAX : ℚ := (2 ^ 53 - 1) * 2 ^ 971

/-- Subtraction of 32-bit words (the C operator `-` at type `uint32_t`): it wraps
around. -/
def u32_sub (a b : Nat) : Nat := (a % 2 ^ 32 + 2 ^ 32 - b % 2 ^ 32) % 2 ^ 32

/-- Bitwise complement of a 32-bit word (the C operator `~` at type `uint32_t`). -/
def u32_not (x : Nat) : Nat := (2 ^ 32 - 1) ^^^ (x % 2 ^ 32)

/-- Conversion of a `double` to `uint32_t`: truncation toward zero when the truncated
value fits; otherwise the C++ standard leaves the result undefined and `oor` supplies
the word the platform produces. -/
def double_to_uint32 (oor : ℚ → Nat) (x : ℚ) : Nat :=
  if -1 < x ∧ x < 2 ^ 32 then (Int.toNat ⌊x⌋) else oor x % 2 ^ 32

/-! ## Pointers -/

/-- The address of a search node: `bwd` tells which expander's pool owns it
(`false`: `fexpander_`, `true`: `bexpander_`), `key` is the id it was generated under. -/
structure node_ptr where
  bwd : Bool
  key : Nat
deriving DecidableEq, Repr

/-! ## jps::direction -/

namespace jps

/-- Modelled from the spec: `jps.h` is not among the sources. The nine values of
`parent_direction`: N, NE, E, SE, S, SW, W, NW and NONE. -/
inductive direction where
  | NONE | NORTH | SOUTH | EAST | WEST | NORTHEAST | NORTHWEST | SOUTHEAST | SOUTHWEST
deriving DecidableEq, Repr

/-- Modelled from the spec: `jps.h` is not among the sources. The byte that stores a
direction: one bit per direction, `NONE` is zero. -/
def direction.code : direction → Nat
  | .NONE => 0
  | .NORTH => 1
  | .SOUTH => 2
  | .EAST => 4
  | .WEST => 8
  | .NORTHEAST => 16
  | .NORTHWEST => 32
  | .SOUTHEAST => 64
  | .SOUTHWEST => 128

end jps

/-! ## search_node -/

/-- The fields of `warthog::search_node` (search_node.h, lines 232-238). -/
structure search_node where
  id_and_status_ : Nat
  f_ : ℚ
  g_ : ℚ
  parent_ : Option node_ptr
  priority_ : Nat
  searchid_ : Nat
deriving DecidableEq

namespace search_node

/-- `get_id`: `(id_and_status_ & NODEID_AND_STATUS_MASK) >> 1`. -/
def get_id (n : search_node) : Nat :=
  (n.id_and_status_ &&& NODEID_AND_STATUS_MASK) >>> 1

/-- `set_pdir`: overwrite byte 3 of the (little-endian) word `id_and_status_`. -/
def set_pdir (n : search_node) (d : jps.direction) : search_node :=
  { n with id_and_status_ := n.id_and_status_ % 2 ^ 24 + d.code * 2 ^ 24 }

/-- `get_expanded`: `id_and_status_ & STATUS_MASK`, as a bool. -/
def get_expanded (n : search_node) : Bool :=
  (n.id_and_status_ &&& STATUS_MASK) != 0

/-- `set_expanded`: reset bit 0, then xor the new value in. -/
def set_expanded (n : search_node) (expanded : Bool) : search_node :=
  { n with id_and_status_ :=
      (n.id_and_status_ &&& u32_not STATUS_MASK) ^^^ (if expanded then 1 else 0) }

/-- The constructor `search_node(uint32_t id)`. -/
def mk_node (INF : Nat) (id : Nat) : search_node :=
  set_pdir
    { id_and_status_ := (id <<< 1) % 2 ^ 32, f_ := INF, g_ := INF, parent_ := none,
      priority_ := INF, searchid_ := 0 }
    jps.direction.NONE

/-- `init(searchid, parent, g, f)`. -/
def init (n : search_node) (searchid : Nat) (parent : Option node_ptr) (g f : ℚ) :
    search_node :=
  { n with id_and_status_ := n.id_and_status_ &&& u32_not 1, parent_ := parent,
           f_ := f, g_ := g, searchid_ := searchid }

/-- `get_search_id`. -/
def get_search_id (n : search_node) : Nat := n.searchid_

/-- `get_parent`. -/
def get_parent (n : search_node) : Option node_ptr := n.parent_

/-- `get_g`. -/
def get_g (n : search_node) : ℚ := n.g_

/-- `get_f`. -/
def get_f (n : search_node) : ℚ := n.f_

/-- `relax(g, parent)`: `f_ = (f_ - g_) + g; g_ = g; parent_ = parent`. -/
def relax (n : search_node) (g : ℚ) (parent : Option node_ptr) : search_node :=
  { n with f_ := (n.f_ - n.g_) + g, g_ := g, parent_ := parent }

/-- `operator<`: smaller f first, ties broken in favour of larger g. -/
def lt (a other : search_node) : Bool :=
  if a.f_ < other.f_ then true
  else if a.f_ > other.f_ then false
  else if a.g_ > other.g_ then true
  else false

/-- `operator>` (lines 146-164). -/
def gt (a other : search_node) : Bool :=
  if a.f_ > other.f_ then true
  else if a.f_ < other.f_ then false
  else if a.g_ > other.g_ then true
  else false

/-- `operator==` (lines 166-174). -/
def eq (a other : search_node) : Bool :=
  if !(a.lt other) && !(a.gt other) then true else false

/-- `operator<=` (lines 176-188). -/
def le (a other : search_node) : Bool :=
  if a.lt other then true
  else if !(a.gt other) then true
  else false

/-- `operator>=` (lines 190-202). -/
def ge (a other : search_node) : Bool :=
  if a.gt other then true
  else if !(a.lt other) then true
  else false

/-- `set_id` (lines 63-68): `id = ((id << 1) | (id_and_status_ & 1)) &
NODEID_AND_STATUS_MASK; id_and_status_ |= id`. -/
def set_id (n : search_node) (id : Nat) : search_node :=
  { n with id_and_status_ :=
      n.id_and_status_ |||
        ((((id <<< 1) % 2 ^ 32) ||| (n.id_and_status_ &&& 1)) &&& NODEID_AND_STATUS_MASK) }

/-- `get_pdir`: byte 3 of the (little-endian) word `id_and_status_`, the value the
cast to `jps::direction` carries. -/
def get_pdir (n : search_node) : Nat := n.id_and_status_ / 2 ^ 24 % 2 ^ 8

/-- `get_priority`. -/
def get_priority (n : search_node) : Nat := n.priority_

end search_node

/-! ## pqueue -/

namespace pqueue

/-- Modelled from the spec: `pqueue.h` is not among the sources. The open set is a
min-heap of node pointers ordered by `search_node::operator<`; the model keeps the
pointers in insertion order and `peek` returns the first minimal one. -/
def peek (mem : node_ptr → search_node) : List node_ptr → Option node_ptr
  | [] => none
  | x :: xs =>
      some (xs.foldl (fun b y => if search_node.lt (mem y) (mem b) then y else b) x)

/-- Modelled from the spec: `pqueue.h` is not among the sources. `pop` removes and
returns the element `peek` shows; on an empty queue there is nothing to return. -/
def pop (mem : node_ptr → search_node) (q : List node_ptr) :
    Option (node_ptr × List node_ptr) :=
  match peek mem q with
  | none => none
  | some top => some (top, q.erase top)

/-- Modelled from the spec: `pqueue.h` is not among the sources. `push` adds a pointer. -/
def push (q : List node_ptr) (n : node_ptr) : List node_ptr := q ++ [n]

/-- Modelled from the spec: `pqueue.h` is not among the sources. `contains`. -/
def contains (q : List node_ptr) (n : node_ptr) : Bool := decide (n ∈ q)

end pqueue

/-! ## The collaborators of chase_search -/

/-- An expansion policy `E` as chase_search uses it: `expand` followed by
`first`/`next` yields the successors of a node (keys in the policy's own pool, with
edge costs), `get_rank` and `get_num_nodes`. -/
structure expansion_policy where
  successors : Nat → List (Nat × ℚ)
  get_rank : Nat → Nat
  get_num_nodes : Nat

/-- The fields of `warthog::problem_instance` that chase_search reads. -/
structure problem_instance where
  start_id_ : Nat
  target_id_ : Nat
  instance_id_ : Nat
deriving DecidableEq, Repr

/-- The fields of `warthog::solution` that chase_search writes. -/
structure solution where
  path_ : List Nat
  sum_of_edge_costs_ : ℚ
  nodes_expanded_ : Nat
  nodes_inserted_ : Nat
  nodes_updated_ : Nat
  nodes_touched_ : Nat
deriving DecidableEq

/-- What is fixed when a `chase_search<E, H>` object is constructed. -/
structure chase_config where
  fexpander_ : expansion_policy
  bexpander_ : expansion_policy
  heuristic_ : Nat → Nat → ℚ
  INF : Nat
  oor : ℚ → Nat

namespace chase_config

/-- The expander of a direction (`false`: forward, `true`: backward). -/
def expander (c : chase_config) (d : Bool) : expansion_policy :=
  if d then c.bexpander_ else c.fexpander_

/-- The constructor's `max_phase1_rank_ = fexpander_->get_num_nodes()*0.95`, a
`uint32_t`: the product (taken exactly, with 0.95 = 19/20) is truncated. -/
def max_phase1_rank_ (c : chase_config) : Nat :=
  double_to_uint32 c.oor ((c.fexpander_.get_num_nodes : ℚ) * (19 / 20))

end chase_config

/-- The mutable state of a `chase_search` object during `get_path`, together with
the local variables of `search`. Per-direction members are functions of the
direction: `open_ false` is `fopen_`, `open_ true` is `bopen_`, `norelax_ false` is
`fwd_norelax_`, `core_lb false` is `fwd_core_lb`, and so on. -/
structure chase_state where
  mem : node_ptr → search_node
  open_ : Bool → List node_ptr
  norelax_ : Bool → List node_ptr
  core_lb : Bool → ℚ
  phase_ : Nat
  v_ : Option node_ptr
  w_ : Option node_ptr
  best_cost_ : ℚ
  cannot_improve : Bool
  search_direction : Nat
  sol : solution
  pi_ : problem_instance

/-- How a loop of the model ends. -/
inductive outcome (α : Type) where
  | finished (s : α)
  | null_deref
  | out_of_fuel

namespace chase_search

/-- Pointwise update of a per-direction member. -/
def set_dir {α : Type} (f : Bool → α) (d : Bool) (a : α) : Bool → α :=
  fun e => if e = d then a else f e

/-- Write a node back to memory. -/
def store (mem : node_ptr → search_node) (p : node_ptr) (n : search_node) :
    node_ptr → search_node :=
  fun q => if q = p then n else mem q

/-- The statement `sol.nodes_touched_++` (line 398). -/
def touch (st : chase_state) : chase_state :=
  { st with sol := { st.sol with nodes_touched_ := st.sol.nodes_touched_ + 1 } }

/-- Lines 417-518 of `expand`, "relax (or generate) each neighbour", for the
successor `e` of `current` in direction `d`; `decrease_key` only reorders the heap. -/
def relax_or_generate (c : chase_config) (d : Bool) (current : node_ptr)
    (st : chase_state) (e : Nat × ℚ) : chase_state :=
  let n : node_ptr := ⟨d, e.1⟩
  let cost_to_n : ℚ := e.2
  let gval : ℚ := (st.mem current).get_g + cost_to_n
  if pqueue.contains (st.open_ d) n then
    if gval < (st.mem n).get_g then
      { st with
          sol := { st.sol with nodes_updated_ := st.sol.nodes_updated_ + 1 },
          mem := store st.mem n ((st.mem n).relax gval (some current)) }
    else st
  else
    if st.phase_ = 1 ∧ (st.mem n).get_search_id = (st.mem current).get_search_id then
      if gval < (st.mem n).get_g then
        { st with
            mem := store st.mem n ((st.mem n).relax gval (some current)),
            core_lb := if gval < st.core_lb d then set_dir st.core_lb d gval
                       else st.core_lb }
      else st
    else
      let node : search_node :=
        (st.mem n).init (st.mem current).get_search_id (some current) gval
          (gval + c.heuristic_ (st.mem n).get_id st.pi_.target_id_)
      let st2 : chase_state :=
        { st with
            sol := { st.sol with nodes_inserted_ := st.sol.nodes_inserted_ + 1 },
            mem := store st.mem n node }
      if st2.phase_ = 2 ∨ (c.expander d).get_rank node.get_id < c.max_phase1_rank_ then
        { st2 with open_ := set_dir st2.open_ d (pqueue.push (st2.open_ d) n) }
      else
        { st2 with
            norelax_ := set_dir st2.norelax_ d (st2.norelax_ d ++ [n]),
            core_lb := if gval < st2.core_lb d then set_dir st2.core_lb d gval
                       else st2.core_lb }

/-- Lines 520-541 of `expand`, "update the best solution if possible". -/
def update_best (d : Bool) (current : node_ptr) (st : chase_state) (e : Nat × ℚ) :
    chase_state :=
  let n : node_ptr := ⟨d, e.1⟩
  let cost_to_n : ℚ := e.2
  let reverse_n : node_ptr := ⟨!d, (st.mem n).get_id⟩
  if (st.mem reverse_n).get_search_id = (st.mem n).get_search_id then
    if (st.mem current).get_g + cost_to_n + (st.mem reverse_n).get_g < st.best_cost_ then
      { st with
          v_ := some n, w_ := some reverse_n,
          best_cost_ := (st.mem current).get_g + cost_to_n + (st.mem reverse_n).get_g }
    else st
  else st

/-- One pass of the successor loop of `expand` (chase_search.h, lines 396-542) for
the successor `e` of `current`, in direction `d`: count it, skip it when its expanded
flag is set, otherwise relax or generate it and then try to improve the solution. -/
def expand_succ (c : chase_config) (d : Bool) (current : node_ptr)
    (st0 : chase_state) (e : Nat × ℚ) : chase_state :=
  let n : node_ptr := ⟨d, e.1⟩
  let st := touch st0
  if (st.mem n).get_expanded then st
  else update_best d current (relax_or_generate c d current st e) e

/-- The head of `expand` (lines 374-376): mark `current` expanded and count it. -/
def expand_begin (current : node_ptr) (st : chase_state) : chase_state :=
  { st with
      mem := store st.mem current ((st.mem current).set_expanded true),
      sol := { st.sol with nodes_expanded_ := st.sol.nodes_expanded_ + 1 } }

/-- The member `expand` (chase_search.h, lines 363-554): mark `current` expanded,
ask the policy for its successors, run the successor loop. -/
def expand (c : chase_config) (d : Bool) (current : node_ptr) (st : chase_state) :
    chase_state :=
  ((c.expander d).successors ((expand_begin current st).mem current).get_id).foldl
    (expand_succ c d current) (expand_begin current st)

/-- The direction switch after a pop in direction `d` (lines 230-236 and 252-258):
the other direction if its open set is non-empty, else the same direction if its
open set is non-empty, else 0. -/
def next_direction (d : Bool) (st : chase_state) : Nat :=
  if (st.open_ (!d)).length > 0 then (if d then 1 else 2)
  else if (st.open_ d).length > 0 then (if d then 2 else 1)
  else 0

/-- Cases 1 and 2 of the switch (lines 217-260): pop, expand unless `f >= best_cost_`,
choose the next direction. `none` is a pop from an empty open set. -/
def pop_and_expand (c : chase_config) (d : Bool) (st : chase_state) : Option chase_state :=
  match pqueue.pop st.mem (st.open_ d) with
  | none => none
  | some (current, rest) =>
      let st1 : chase_state := { st with open_ := set_dir st.open_ d rest }
      let st2 : chase_state :=
        if (st1.mem current).get_f ≥ st1.best_cost_ then st1
        else expand c d current st1
      some { st2 with search_direction := next_direction d st2 }

/-- The lower bound of one direction at the end of phase 1 (lines 276-282), stored in
a `uint32_t`. -/
def lower_bound (c : chase_config) (d : Bool) (st : chase_state) : Nat :=
  double_to_uint32 c.oor
    (min (st.core_lb d)
      (match pqueue.peek st.mem (st.open_ d) with
       | some top => (st.mem top).get_f
       | none => DBL_MAX))

/-- The variable `best_bound` (lines 284-285). -/
def best_bound (c : chase_config) (st : chase_state) : Nat :=
  min (lower_bound c false st) (lower_bound c true st)

/-- The switch to phase 2 (lines 308-325). -/
def enter_phase2 (st : chase_state) : chase_state :=
  { st with
      open_ := fun d => (st.norelax_ d).foldl pqueue.push [],
      phase_ := 2,
      cannot_improve := false,
      core_lb := fun _ => DBL_MAX,
      search_direction := 1 }

/-- What one pass of the `while(true)` loop does. -/
inductive iter_result where
  | continue_ (st : chase_state)
  | break_ (st : chase_state)
  | null_deref

/-- The `if(cannot_improve)` block (lines 272-355). -/
def check_termination (c : chase_config) (st : chase_state) : iter_result :=
  if st.cannot_improve then
    if st.phase_ = 1 then
      if ((best_bound c st : Nat) : ℚ) ≥ st.best_cost_ then .break_ st
      else if st.core_lb false = DBL_MAX ∨ st.core_lb true = DBL_MAX then .break_ st
      else .continue_ (enter_phase2 st)
    else .break_ st
  else .continue_ st

/-- One pass of the `while(true)` loop of `search` (lines 207-356). -/
def search_iter (c : chase_config) (st : chase_state) : iter_result :=
  match st.search_direction with
  | 0 => check_termination c { st with cannot_improve := true }
  | 1 =>
      match pop_and_expand c false st with
      | none => .null_deref
      | some st1 => check_termination c st1
  | 2 =>
      match pop_and_expand c true st with
      | none => .null_deref
      | some st1 => check_termination c st1
  | _ => check_termination c st

/-- The `while(true)` loop, with a bound on the number of passes. -/
def search_loop (c : chase_config) : Nat → chase_state → outcome chase_state
  | 0, _ => .out_of_fuel
  | fuel + 1, st =>
      match search_iter c st with
      | .continue_ st1 => search_loop c fuel st1
      | .break_ st1 => .finished st1
      | .null_deref => .null_deref

/-- Modelled from the spec: `bch_expansion_policy.cpp` is not among the sources.
`generate_start_node` returns the forward pool's node of the start id. -/
def generate_start_node (pi : problem_instance) : node_ptr := ⟨false, pi.start_id_⟩

/-- Modelled from the spec: `bch_expansion_policy.cpp` is not among the sources.
`generate_target_node` returns the backward pool's node of the target id. -/
def generate_target_node (pi : problem_instance) : node_ptr := ⟨true, pi.target_id_⟩

/-- The state `search` builds before its loop (lines 166-206), from the memory of
the two pools, the problem instance and the caller's solution. -/
def search_init (c : chase_config) (mem : node_ptr → search_node)
    (pi : problem_instance) (sol : solution) : chase_state :=
  let start := generate_start_node pi
  let target := generate_target_node pi
  let pi1 : problem_instance :=
    { pi with start_id_ := (mem start).get_id, target_id_ := (mem target).get_id }
  let mem1 := store mem start
    ((mem start).init pi1.instance_id_ none 0 (c.heuristic_ pi1.start_id_ pi1.target_id_))
  let mem2 := store mem1 target
    ((mem1 target).init pi1.instance_id_ none 0 (c.heuristic_ pi1.start_id_ pi1.target_id_))
  { mem := mem2,
    open_ := fun d => if d then pqueue.push [] target else pqueue.push [] start,
    norelax_ := fun _ => [],
    core_lb := fun _ => DBL_MAX,
    phase_ := 1,
    v_ := none,
    w_ := none,
    best_cost_ := c.INF,
    cannot_improve := false,
    search_direction := 1,
    sol := sol,
    pi_ := pi1 }

/-- The member `search` (lines 160-361); the timer is not modelled. -/
def search (c : chase_config) (fuel : Nat) (mem : node_ptr → search_node)
    (pi : problem_instance) (sol : solution) : outcome chase_state :=
  search_loop c fuel (search_init c mem pi sol)

/-- The loops of `reconstruct_path` (lines 144-148 and 152-156): the ids met when
following parent pointers from `cur` until the null pointer; `none` when `fuel`
passes do not reach it. -/
def parent_chain (mem : node_ptr → search_node) : Nat → Option node_ptr → Option (List Nat)
  | _, none => some []
  | 0, some _ => none
  | fuel + 1, some p =>
      match parent_chain mem fuel (mem p).get_parent with
      | none => none
      | some ids => some ((mem p).get_id :: ids)

/-- The member `reconstruct_path` (lines 133-158). -/
def reconstruct_path (fuel : Nat) (st : chase_state) : outcome chase_state :=
  let swap : Bool :=
    match st.v_ with
    | some v => decide (v = (⟨true, (st.mem v).get_id⟩ : node_ptr))
    | none => false
  let v1 := if swap then st.w_ else st.v_
  let w1 := if swap then st.v_ else st.w_
  match parent_chain st.mem fuel v1 with
  | none => .out_of_fuel
  | some ids1 =>
      let path1 := (st.sol.path_ ++ ids1).reverse
      match w1 with
      | none => .null_deref
      | some w =>
          match parent_chain st.mem fuel (st.mem w).get_parent with
          | none => .out_of_fuel
          | some ids2 =>
              .finished { st with v_ := v1, w_ := w1,
                                  sol := { st.sol with path_ := path1 ++ ids2 } }

/-- The member `cleanup` (lines 556-563): both open sets are cleared; the expanders'
`clear` does not touch what the model keeps. -/
def cleanup (st : chase_state) : chase_state :=
  { st with open_ := fun _ => [] }

/-- Lines 80-85 of `get_path`: what follows the call of `search`. When `best_cost_`
is not `INF` the cost is written to the solution and `reconstruct_path` runs; then
`cleanup`. -/
def report (c : chase_config) (fuel : Nat) : outcome chase_state → outcome chase_state
  | .finished st =>
      if st.best_cost_ ≠ c.INF then
        match reconstruct_path fuel
            { st with sol := { st.sol with sum_of_edge_costs_ := st.best_cost_ } } with
        | .finished st1 => .finished (cleanup st1)
        | .null_deref => .null_deref
        | .out_of_fuel => .out_of_fuel
      else .finished (cleanup st)
  | .null_deref => .null_deref
  | .out_of_fuel => .out_of_fuel

/-- The member `get_path` (lines 75-97). -/
def get_path (c : chase_config) (fuel : Nat) (mem : node_ptr → search_node)
    (pi : problem_instance) (sol : solution) : outcome chase_state :=
  report c fuel (search c fuel mem pi sol)

/-- The plain bidirectional CH search chase_search is compared with: the same search
run with no core, where every newly generated successor is pushed onto the open set.
It is the loop of `search` started in phase 2, the phase that defers nothing. -/
def bch_search (c : chase_config) (fuel : Nat) (mem : node_ptr → search_node)
    (pi : problem_instance) (sol : solution) : outcome chase_state :=
  search_loop c fuel { search_init c mem pi sol with phase_ := 2 }

/-- The state after `k` passes of the `while(true)` loop, when the loop is still
running then. -/
def run_passes (c : chase_config) : Nat → chase_state → Option chase_state
  | 0, st => some st
  | k + 1, st =>
      match search_iter c st with
      | .continue_ st1 => run_passes c k st1
      | _ => none

/-- The states `search` is in at the head of its `while(true)` loop. -/
inductive at_loop_head (c : chase_config) (mem : node_ptr → search_node)
    (pi : problem_instance) (sol : solution) : chase_state → Prop where
  | init : at_loop_head c mem pi sol (search_init c mem pi sol)
  | pass {st st1 : chase_state} : at_loop_head c mem pi sol st →
      search_iter c st = .continue_ st1 → at_loop_head c mem pi sol st1

/-- The points of a search: the head of the loop, inside `expand` the points before
and after each pass of the successor loop, and the point where the loop is left. -/
inductive at_point (c : chase_config) (mem : node_ptr → search_node)
    (pi : problem_instance) (sol : solution) : chase_state → Prop where
  | head {st : chase_state} : at_loop_head c mem pi sol st → at_point c mem pi sol st
  | inside {st : chase_state} {d : Bool} {current : node_ptr} {rest : List node_ptr}
      {done todo : List (Nat × ℚ)} :
      at_loop_head c mem pi sol st →
      st.search_direction = (if d then 2 else 1) →
      pqueue.pop st.mem (st.open_ d) = some (current, rest) →
      ¬ ((st.mem current).get_f ≥ st.best_cost_) →
      (c.expander d).successors
        ((expand_begin current { st with open_ := set_dir st.open_ d rest }).mem current).get_id
        = done ++ todo →
      at_point c mem pi sol
        (done.foldl (expand_succ c d current)
          (expand_begin current { st with open_ := set_dir st.open_ d rest }))
  | final {st st1 : chase_state} : at_loop_head c mem pi sol st →
      search_iter c st = .break_ st1 → at_point c mem pi sol st1

/-- What holds of the loop's control variables at the head of the loop:
`cannot_improve` is false, `search_direction` is 0, 1 or 2, and it is 0 only when
both open sets are empty. -/
def ctrl_inv (st : chase_state) : Prop :=
  st.cannot_improve = false ∧
  (st.search_direction = 0 → st.open_ false = [] ∧ st.open_ true = []) ∧
  (st.search_direction = 0 ∨ st.search_direction = 1 ∨ st.search_direction = 2)

/-- The seeded node of a direction: the start node forward, the target node
backward. -/
def seed (pi : problem_instance) (d : Bool) : node_ptr :=
  if d then generate_target_node pi else generate_start_node pi

/-- In phase 1 every node of an open set is the seeded node of its direction or has
a rank below `max_phase1_rank_`. -/
def open_below_core (c : chase_config) (pi : problem_instance) (st : chase_state) : Prop :=
  st.phase_ = 1 → ∀ d x, x ∈ st.open_ d →
    x = seed pi d ∨ (c.expander d).get_rank (st.mem x).get_id < c.max_phase1_rank_

/-- What is asked of the input of a search over node ids below `N`: the expanders
yield successors below `N`, start and target are below `N`, every node of the pools
carries the id of its key, and no node carries the search id of this search yet. -/
structure env_ok (c : chase_config) (pi : problem_instance) (N : Nat)
    (mem : node_ptr → search_node) : Prop where
  succ_lt : ∀ d u e, e ∈ (c.expander d).successors u → e.1 < N
  start_lt : pi.start_id_ < N
  target_lt : pi.target_id_ < N
  ids : ∀ p : node_ptr, p.key < N → (mem p).get_id = p.key
  fresh : ∀ p : node_ptr, p.key < N → (mem p).get_search_id ≠ pi.instance_id_

/-- The structural invariant of a search: ids, the phase, what the open sets and
norelax lists hold, and the state of the two seeded nodes. -/
structure basic_inv (c : chase_config) (pi : problem_instance) (N : Nat)
    (mem : node_ptr → search_node) (open_ norelax_ : Bool → List node_ptr)
    (phase_ : Nat) : Prop where
  ids : ∀ p : node_ptr, p.key < N → (mem p).get_id = p.key
  phase : phase_ = 1 ∨ phase_ = 2
  open_ok : ∀ d p, p ∈ open_ d →
    p.bwd = d ∧ p.key < N ∧ (mem p).get_search_id = pi.instance_id_ ∧
      (mem p).get_expanded = false
  norelax_ok : ∀ d p, p ∈ norelax_ d →
    p.bwd = d ∧ p.key < N ∧ (mem p).get_search_id = pi.instance_id_ ∧
      c.max_phase1_rank_ ≤ (c.expander d).get_rank p.key
  norelax_p1 : phase_ = 1 → ∀ d p, p ∈ norelax_ d →
    (mem p).get_expanded = false ∧ p ∉ open_ d
  open_nodup : ∀ d, (open_ d).Nodup
  norelax_nodup : ∀ d, (norelax_ d).Nodup
  open_rank : phase_ = 1 → ∀ d p, p ∈ open_ d →
    p = seed pi d ∨ (c.expander d).get_rank p.key < c.max_phase1_rank_
  seed_lt : ∀ d, (seed pi d).key < N
  seed_sid : ∀ d, (mem (seed pi d)).get_search_id = pi.instance_id_
  seed_ok : ∀ d, (mem (seed pi d)).get_expanded = true ∨
    (norelax_ d = [] ∧ ∀ p ∈ open_ d, p = seed pi d)

/-- The structural invariant inside the expansion of `current` in direction `d`. -/
structure basic_mid (c : chase_config) (pi : problem_instance) (N : Nat) (d : Bool)
    (current : node_ptr) (mem : node_ptr → search_node)
    (open_ norelax_ : Bool → List node_ptr) (phase_ : Nat) : Prop where
  inv : basic_inv c pi N mem open_ norelax_ phase_
  cur_bwd : current.bwd = d
  cur_lt : current.key < N
  cur_sid : (mem current).get_search_id = pi.instance_id_
  cur_expanded : (mem current).get_expanded = true
  seed_expanded : (mem (seed pi d)).get_expanded = true

/-- An open set is stalled when the f-value of each of its nodes has reached
`best_cost_`: every pop from it is dropped. -/
def stalled (mem : node_ptr → search_node) (q : List node_ptr) (best : ℚ) : Prop :=
  ∀ y ∈ q, best ≤ (mem y).get_f

/-- Where a generated, unexpanded node of direction `d` is kept: on the open set, in
phase 1 on the norelax list, or (phase 2) among the nodes below the core that phase 1
left behind. -/
def covered (c : chase_config) (d : Bool) (open_ norelax_ : Bool → List node_ptr)
    (phase_ : Nat) (p : node_ptr) : Prop :=
  p ∈ open_ d ∨ (phase_ = 1 ∧ p ∈ norelax_ d) ∨
    (phase_ = 2 ∧ (c.expander d).get_rank p.key < c.max_phase1_rank_)

/-- Every generated, unexpanded node of direction `d` is kept somewhere. -/
def tight_dir (c : chase_config) (pi : problem_instance) (N : Nat) (d : Bool)
    (mem : node_ptr → search_node) (open_ norelax_ : Bool → List node_ptr)
    (phase_ : Nat) : Prop :=
  ∀ p : node_ptr, p.bwd = d → p.key < N → (mem p).get_search_id = pi.instance_id_ →
    (mem p).get_expanded = false → covered c d open_ norelax_ phase_ p

/-- Every generated, unexpanded node of direction `d` is kept somewhere, or it was
dropped at a pop and the open set of `d` is stalled since. -/
def cover_dir (c : chase_config) (pi : problem_instance) (N : Nat) (d : Bool)
    (mem : node_ptr → search_node) (open_ norelax_ : Bool → List node_ptr)
    (phase_ : Nat) (best : ℚ) : Prop :=
  ∀ p : node_ptr, p.bwd = d → p.key < N → (mem p).get_search_id = pi.instance_id_ →
    (mem p).get_expanded = false →
    covered c d open_ norelax_ phase_ p ∨
      (stalled mem (open_ d) best ∧
        (phase_ = 1 →
          (c.expander d).get_rank p.key < c.max_phase1_rank_ ∨ p = seed pi d))

/-- The least g-value over a list of nodes, `DBL_MAX` for the empty list. -/
def min_g (mem : node_ptr → search_node) (l : List node_ptr) : ℚ :=
  (l.map (fun p => (mem p).get_g)).foldr min DBL_MAX

/-- In phase 1 each direction's core lower bound is the least g-value of its norelax
list. -/
def lb_inv (mem : node_ptr → search_node) (norelax_ : Bool → List node_ptr)
    (core_lb : Bool → ℚ) (phase_ : Nat) : Prop :=
  phase_ = 1 → ∀ d, core_lb d = min_g mem (norelax_ d)

/-- A parent chain of direction `d`: a list of nodes in which each node's parent
pointer is the next node, an expanded node of this search whose expansion produced the
edge, the g-values adding up along the edges; the last node is the seeded node of the
direction, with a null parent and g = 0. -/
def is_chain (c : chase_config) (pi : problem_instance) (N : Nat) (d : Bool)
    (mem : node_ptr → search_node) : List node_ptr → Prop
  | [] => False
  | [p] => p = seed pi d ∧ (mem p).get_parent = none ∧ (mem p).get_g = 0
  | p :: q :: l =>
      (mem p).get_parent = some q ∧ q.bwd = d ∧ q.key < N ∧
      (mem q).get_search_id = pi.instance_id_ ∧ (mem q).get_expanded = true ∧
      (∃ cost, (p.key, cost) ∈ (c.expander d).successors q.key ∧
        (mem p).get_g = (mem q).get_g + cost) ∧
      is_chain c pi N d mem (q :: l)

/-- Every node that carries the current search id heads a parent chain of its
direction. -/
def chain_inv (c : chase_config) (pi : problem_instance) (N : Nat)
    (mem : node_ptr → search_node) : Prop :=
  ∀ p : node_ptr, p.key < N → (mem p).get_search_id = pi.instance_id_ →
    ∃ l, is_chain c pi N p.bwd mem (p :: l)

/-- The record of the best meeting: `best_cost_` never exceeds `INF`; it is `INF`
with `v_` and `w_` null, or it is below `INF` and `v_`, `w_` are the nodes of one id
in the two pools, both carrying the current search id. -/
def meet_inv (c : chase_config) (pi : problem_instance) (N : Nat)
    (mem : node_ptr → search_node) (v_ w_ : Option node_ptr) (best : ℚ) : Prop :=
  best ≤ (c.INF : ℚ) ∧
  ((best = (c.INF : ℚ) ∧ v_ = none ∧ w_ = none) ∨
    (best < (c.INF : ℚ) ∧ ∃ (d : Bool) (k : Nat), k < N ∧
      v_ = some ⟨d, k⟩ ∧ w_ = some ⟨!d, k⟩ ∧
      (mem ⟨d, k⟩).get_search_id = pi.instance_id_ ∧
      (mem ⟨!d, k⟩).get_search_id = pi.instance_id_))

/-- The contract of the BCH expansion policies: every successor has a higher rank
than the node it was expanded from. -/
def upward (c : chase_config) : Prop :=
  ∀ d u e, e ∈ (c.expander d).successors u →
    (c.expander d).get_rank u < (c.expander d).get_rank e.1

/-- An edge from `a` to `b` of cost `cost` that an expansion policy produced: the
forward policy when expanding `a`, or the backward policy when expanding `b`. -/
def policy_edge (c : chase_config) (a b : Nat) (cost : ℚ) : Prop :=
  (b, cost) ∈ c.fexpander_.successors a ∨ (a, cost) ∈ c.bexpander_.successors b

/-- The list `costs` gives, for each consecutive pair of `path`, the cost of an edge
that an expansion policy produced for the pair. -/
def costed_path (c : chase_config) : List Nat → List ℚ → Prop
  | [], [] => True
  | [_], [] => True
  | a :: b :: rest, x :: xs => policy_edge c a b x ∧ costed_path c (b :: rest) xs
  | _, _ => False

/-- The open set the coming pass of the loop pops from, read off the `switch`
(lines 210-261): the forward one (`false`) when `search_direction` is 1, the backward
one (`true`) when it is 2; no pop otherwise. -/
def pop_dir (st : chase_state) : Option Bool :=
  match st.search_direction with
  | 1 => some false
  | 2 => some true
  | _ => none

/-- The number of nodes of one pool, among the keys below `N`, whose expanded flag
is clear. -/
def unexpanded_count (N : Nat) (mem : node_ptr → search_node) (d : Bool) : Nat :=
  Finset.sum (Finset.range N) (fun k => if (mem ⟨d, k⟩).get_expanded then 0 else 1)

/-- A bound on the number of passes the loop of `search` can still make from a state,
for a graph with ids below `N`: the switch of phase happens once, every expansion sets
one more expanded flag, and every other pass with a pop shrinks an open set. -/
def passes_left (N : Nat) (st : chase_state) : Nat :=
  (2 - st.phase_) * (4 * N * N + 4 * N + 1)
    + (unexpanded_count N st.mem false + unexpanded_count N st.mem true) * (2 * N + 1)
    + (st.open_ false).length + (st.open_ true).length

/-- The real-valued lower bound of a direction at the end of phase 1, as the spec
words it: the smaller of `core_lb` and the f-value on top of the open set, the latter
being `DBL_MAX` when the open set is empty. -/
def lower_bound_real (d : Bool) (st : chase_state) : ℚ :=
  min (st.core_lb d)
    (match pqueue.peek st.mem (st.open_ d) with
     | some top => (st.mem top).get_f
     | none => DBL_MAX)

/-- The real-valued `best_bound` of the spec: the smaller of the two directions'
lower bounds. -/
def best_bound_real (st : chase_state) : ℚ :=
  min (lower_bound_real false st) (lower_bound_real true st)

/-- The final state of a finished run. -/
def final_state {α : Type} : outcome α → Option α
  | .finished s => some s
  | _ => none

end chase_search

/-! ## Arithmetic at type `double` -/

/-- Rounding of a rational to an integer: to the nearest, a tie to the even one. -/
def round_half_even (x : ℚ) : ℤ :=
  if x - ⌊x⌋ < 1 / 2 then ⌊x⌋
  else if 1 / 2 < x - ⌊x⌋ then ⌊x⌋ + 1
  else if ⌊x⌋ % 2 = 0 then ⌊x⌋ else ⌊x⌋ + 1

/-- The number of binary digits of `n`, found by halving at most `fuel` times. -/
def bit_length : Nat → Nat → Nat
  | 0, _ => 0
  | fuel + 1, n => if n = 0 then 0 else bit_length fuel (n / 2) + 1

/-- The binary exponent of a positive rational `x`: the `e` with `2^e ≤ x < 2^(e+1)`.
The difference of the digit counts of numerator and denominator is `e` or `e + 1`. -/
def floor_log2 (x : ℚ) : ℤ :=
  if (2 : ℚ) ^ ((bit_length x.num.natAbs x.num.natAbs : ℤ) - (bit_length x.den x.den : ℤ)) ≤ x
  then (bit_length x.num.natAbs x.num.natAbs : ℤ) - (bit_length x.den x.den : ℤ)
  else (bit_length x.num.natAbs x.num.natAbs : ℤ) - (bit_length x.den x.den : ℤ) - 1

/-- The exponent a double of magnitude `x` is stored with: the binary exponent of `x`,
and -1022 for the subnormal magnitudes below `2^(-1022)`. -/
def double_exponent (x : ℚ) : ℤ := max (floor_log2 x) (-1022)

/-- The double nearest to the magnitude `x ≥ 0`: `x` rounded to a multiple of the unit
in the last place of its exponent (a significand of 53 binary digits), ties to even. -/
def round_magnitude (x : ℚ) : ℚ :=
  (round_half_even (x / 2 ^ (double_exponent x - 52)) : ℚ) * 2 ^ (double_exponent x - 52)

/-- The value a C++ operator at type `double` yields when the exact result is `x`:
the nearest double, ties to even (IEEE 754 binary64, round to nearest). Beyond
`DBL_MAX` the machine yields an infinity, which the embedding does not have; there the
function keeps the rounded finite value. -/
def double_round (x : ℚ) : ℚ :=
  if x < 0 then - round_magnitude (-x) else round_magnitude x

/-! ## The sums of `relax` and `expand` at type `double`

In `search_node.relax` and in `chase_search` above the sums are exact. The namespace
`rounded` repeats the functions that compute with g and f, with the result of every
operation on doubles rounded by `double_round` as the machine rounds it, and `search`
and `get_path` over them. What does not compute with doubles is shared. -/

namespace rounded

open chase_search

/-- The member `search_node::relax` (search_node.h, lines 117-124): line 121,
`f_ = (f_ - g_) + g`, is a subtraction and an addition at type `double`, each
rounded. -/
def relax (n : search_node) (g : ℚ) (parent : Option node_ptr) : search_node :=
  { n with f_ := double_round (double_round (n.f_ - n.g_) + g), g_ := g, parent_ := parent }

/-- Lines 417-518 of `expand`, "relax (or generate) each neighbour", for the
successor `e` of `current` in direction `d`: `gval` (line 418) and the f-value of a
new node (line 478) are sums at type `double`; `decrease_key` only reorders the
heap. -/
def relax_or_generate (c : chase_config) (d : Bool) (current : node_ptr)
    (st : chase_state) (e : Nat × ℚ) : chase_state :=
  let n : node_ptr := ⟨d, e.1⟩
  let cost_to_n : ℚ := e.2
  let gval : ℚ := double_round ((st.mem current).get_g + cost_to_n)
  if pqueue.contains (st.open_ d) n then
    if gval < (st.mem n).get_g then
      { st with
          sol := { st.sol with nodes_updated_ := st.sol.nodes_updated_ + 1 },
          mem := store st.mem n (relax (st.mem n) gval (some current)) }
    else st
  else
    if st.phase_ = 1 ∧ (st.mem n).get_search_id = (st.mem current).get_search_id then
      if gval < (st.mem n).get_g then
        { st with
            mem := store st.mem n (relax (st.mem n) gval (some current)),
            core_lb := if gval < st.core_lb d then set_dir st.core_lb d gval
                       else st.core_lb }
      else st
    else
      let node : search_node :=
        (st.mem n).init (st.mem current).get_search_id (some current) gval
          (double_round (gval + c.heuristic_ (st.mem n).get_id st.pi_.target_id_))
      let st2 : chase_state :=
        { st with
            sol := { st.sol with nodes_inserted_ := st.sol.nodes_inserted_ + 1 },
            mem := store st.mem n node }
      if st2.phase_ = 2 ∨ (c.expander d).get_rank node.get_id < c.max_phase1_rank_ then
        { st2 with open_ := set_dir st2.open_ d (pqueue.push (st2.open_ d) n) }
      else
        { st2 with
            norelax_ := set_dir st2.norelax_ d (st2.norelax_ d ++ [n]),
            core_lb := if gval < st2.core_lb d then set_dir st2.core_lb d gval
                       else st2.core_lb }

/-- Lines 520-541 of `expand`, "update the best solution if possible": the candidate
`current->get_g() + cost_to_n + reverse_n->get_g()` is two additions at type `double`,
from the left. -/
def update_best (d : Bool) (current : node_ptr) (st : chase_state) (e : Nat × ℚ) :
    chase_state :=
  let n : node_ptr := ⟨d, e.1⟩
  let cost_to_n : ℚ := e.2
  let reverse_n : node_ptr := ⟨!d, (st.mem n).get_id⟩
  if (st.mem reverse_n).get_search_id = (st.mem n).get_search_id then
    if double_round (double_round ((st.mem current).get_g + cost_to_n)
        + (st.mem reverse_n).get_g) < st.best_cost_ then
      { st with
          v_ := some n, w_ := some reverse_n,
          best_cost_ := double_round (double_round ((st.mem current).get_g + cost_to_n)
            + (st.mem reverse_n).get_g) }
    else st
  else st

/-- One pass of the successor loop of `expand` (chase_search.h, lines 396-542) for
the successor `e` of `current`, in direction `d`: count it, skip it when its expanded
flag is set, otherwise relax or generate it and then try to improve the solution. -/
def expand_succ (c : chase_config) (d : Bool) (current : node_ptr)
    (st0 : chase_state) (e : Nat × ℚ) : chase_state :=
  let n : node_ptr := ⟨d, e.1⟩
  let st := touch st0
  if (st.mem n).get_expanded then st
  else update_best d current (relax_or_generate c d current st e) e

/-- The member `expand` (chase_search.h, lines 363-554): mark `current` expanded,
ask the policy for its successors, run the successor loop. -/
def expand (c : chase_config) (d : Bool) (current : node_ptr) (st : chase_state) :
    chase_state :=
  ((c.expander d).successors ((expand_begin current st).mem current).get_id).foldl
    (expand_succ c d current) (expand_begin current st)

/-- Cases 1 and 2 of the switch (lines 217-260): pop, expand unless `f >= best_cost_`,
choose the next direction. `none` is a pop from an empty open set. -/
def pop_and_expand (c : chase_config) (d : Bool) (st : chase_state) : Option chase_state :=
  match pqueue.pop st.mem (st.open_ d) with
  | none => none
  | some (current, rest) =>
      let st1 : chase_state := { st with open_ := set_dir st.open_ d rest }
      let st2 : chase_state :=
        if (st1.mem current).get_f ≥ st1.best_cost_ then st1
        else expand c d current st1
      some { st2 with search_direction := next_direction d st2 }

/-- One pass of the `while(true)` loop of `search` (lines 207-356). -/
def search_iter (c : chase_config) (st : chase_state) : iter_result :=
  match st.search_direction with
  | 0 => check_termination c { st with cannot_improve := true }
  | 1 =>
      match pop_and_expand c false st with
      | none => .null_deref
      | some st1 => check_termination c st1
  | 2 =>
      match pop_and_expand c true st with
      | none => .null_deref
      | some st1 => check_termination c st1
  | _ => check_termination c st

/-- The `while(true)` loop, with a bound on the number of passes. -/
def search_loop (c : chase_config) : Nat → chase_state → outcome chase_state
  | 0, _ => .out_of_fuel
  | fuel + 1, st =>
      match search_iter c st with
      | .continue_ st1 => search_loop c fuel st1
      | .break_ st1 => .finished st1
      | .null_deref => .null_deref

/-- The member `search` (lines 160-361); the timer is not modelled. -/
def search (c : chase_config) (fuel : Nat) (mem : node_ptr → search_node)
    (pi : problem_instance) (sol : solution) : outcome chase_state :=
  search_loop c fuel (search_init c mem pi sol)

/-- The member `get_path` (lines 75-97). -/
def get_path (c : chase_config) (fuel : Nat) (mem : node_ptr → search_node)
    (pi : problem_instance) (sol : solution) : outcome chase_state :=
  report c fuel (search c fuel mem pi sol)

/-- The states `search` is in at the head of its `while(true)` loop. -/
inductive at_loop_head (c : chase_config) (mem : node_ptr → search_node)
    (pi : problem_instance) (sol : solution) : chase_state → Prop where
  | init : at_loop_head c mem pi sol (search_init c mem pi sol)
  | pass {st st1 : chase_state} : at_loop_head c mem pi sol st →
      search_iter c st = .continue_ st1 → at_loop_head c mem pi sol st1

/-- The points of a search: the head of the loop, inside `expand` the points before
and after each pass of the successor loop, and the point where the loop is left. -/
inductive at_point (c : chase_config) (mem : node_ptr → search_node)
    (pi : problem_instance) (sol : solution) : chase_state → Prop where
  | head {st : chase_state} : at_loop_head c mem pi sol st → at_point c mem pi sol st
  | inside {st : chase_state} {d : Bool} {current : node_ptr} {rest : List node_ptr}
      {done todo : List (Nat × ℚ)} :
      at_loop_head c mem pi sol st →
      st.search_direction = (if d then 2 else 1) →
      pqueue.pop st.mem (st.open_ d) = some (current, rest) →
      ¬ ((st.mem current).get_f ≥ st.best_cost_) →
      (c.expander d).successors
        ((expand_begin current { st with open_ := set_dir st.open_ d rest }).mem current).get_id
        = done ++ todo →
      at_point c mem pi sol
        (done.foldl (expand_succ c d current)
          (expand_begin current { st with open_ := set_dir st.open_ d rest }))
  | final {st st1 : chase_state} : at_loop_head c mem pi sol st →
      search_iter c st = .break_ st1 → at_point c mem pi sol st1

/-- A parent chain of direction `d`: a list of nodes in which each node's parent
pointer is the next node, an expanded node of this search whose expansion produced the
edge, each g-value the double sum of the parent's g-value and the cost of the edge;
the last node is the seeded node of the direction, with a null parent and g = 0. -/
def is_chain (c : chase_config) (pi : problem_instance) (N : Nat) (d : Bool)
    (mem : node_ptr → search_node) : List node_ptr → Prop
  | [] => False
  | [p] => p = seed pi d ∧ (mem p).get_parent = none ∧ (mem p).get_g = 0
  | p :: q :: l =>
      (mem p).get_parent = some q ∧ q.bwd = d ∧ q.key < N ∧
      (mem q).get_search_id = pi.instance_id_ ∧ (mem q).get_expanded = true ∧
      (∃ cost, (p.key, cost) ∈ (c.expander d).successors q.key ∧
        (mem p).get_g = double_round ((mem q).get_g + cost)) ∧
      is_chain c pi N d mem (q :: l)

/-- Every node that carries the current search id heads a parent chain of its
direction. -/
def chain_inv (c : chase_config) (pi : problem_instance) (N : Nat)
    (mem : node_ptr → search_node) : Prop :=
  ∀ p : node_ptr, p.key < N → (mem p).get_search_id = pi.instance_id_ →
    ∃ l, is_chain c pi N p.bwd mem (p :: l)

/-- What ties `best_cost_` to the g-values: it is at most the double sum of the two
g-values of every id generated in both directions (the id that is start and target at
once apart); it is that sum for the recorded meeting; and in phase 2 the open sets
hold core nodes only. -/
def cost_inv (c : chase_config) (pi : problem_instance) (N : Nat)
    (mem : node_ptr → search_node) (open_ : Bool → List node_ptr) (phase_ : Nat)
    (v_ w_ : Option node_ptr) (best : ℚ) : Prop :=
  (∀ (d : Bool) (k : Nat), k < N →
    (mem ⟨d, k⟩).get_search_id = pi.instance_id_ →
    (mem ⟨!d, k⟩).get_search_id = pi.instance_id_ →
    (k = pi.start_id_ ∧ k = pi.target_id_) ∨
      best ≤ double_round ((mem ⟨d, k⟩).get_g + (mem ⟨!d, k⟩).get_g)) ∧
  (∀ (d : Bool) (k : Nat), v_ = some ⟨d, k⟩ → w_ = some ⟨!d, k⟩ →
    best = double_round ((mem ⟨d, k⟩).get_g + (mem ⟨!d, k⟩).get_g)) ∧
  (phase_ = 2 → ∀ d p, p ∈ open_ d →
    c.max_phase1_rank_ ≤ (c.expander d).get_rank p.key)

/-- The g-value the forward search gives the last node of a path whose edges have the
costs `costs`, in path order: from g = 0 at the start, one double addition an edge. -/
def forward_sum (costs : List ℚ) : ℚ :=
  costs.foldl (fun g cost => double_round (g + cost)) 0

/-- The g-value the backward search gives the first node of a path whose edges have
the costs `costs`, in path order: from g = 0 at the target, one double addition an
edge, the last edge first. -/
def backward_sum (costs : List ℚ) : ℚ :=
  costs.foldr (fun cost g => double_round (g + cost)) 0

end rounded

/-! ## Contracted graphs and the BCH expansion policy -/

namespace graph

/-- Modelled from the spec: `xy_graph.h` is not among the sources. A graph is its
number of nodes and its arcs `(tail, head, cost)`; the outgoing and incoming
adjacency lists of a node are read off the arcs. -/
structure xy_graph where
  num_nodes : Nat
  arcs : List (Nat × Nat × ℚ)

/-- The outgoing adjacency list of `u`: `(head, cost)` entries. -/
def xy_graph.outgoing (g : xy_graph) (u : Nat) : List (Nat × ℚ) :=
  (g.arcs.filter (fun a => a.1 = u)).map (fun a => (a.2.1, a.2.2))

/-- The incoming adjacency list of `u`: `(tail, cost)` entries. -/
def xy_graph.incoming (g : xy_graph) (u : Nat) : List (Nat × ℚ) :=
  (g.arcs.filter (fun a => a.2.1 = u)).map (fun a => (a.1, a.2.2))

end graph

/-- Modelled from the spec: `bch_expansion_policy.cpp` is not among the sources. The
forward policy follows outgoing arcs, the backward policy incoming arcs, and each
yields only the neighbours whose rank is higher than the current node's rank. -/
def bch_expansion_policy (g : graph.xy_graph) (rank : Nat → Nat) (backward : Bool) :
    expansion_policy :=
  { successors := fun u =>
      ((if backward then g.incoming u else g.outgoing u).filter
        (fun e => rank u < rank e.1)),
    get_rank := rank,
    get_num_nodes := g.num_nodes }

/-- A `chase_search` object over a contracted graph and its rank array, with the
zero heuristic. -/
def chase_over (g : graph.xy_graph) (rank : Nat → Nat) (INF : Nat) (oor : ℚ → Nat) :
    chase_config :=
  { fexpander_ := bch_expansion_policy g rank false,
    bexpander_ := bch_expansion_policy g rank true,
    heuristic_ := fun _ _ => 0,
    INF := INF,
    oor := oor }

/-- Two pools whose nodes have just been constructed. -/
def fresh_pool (INF : Nat) : node_ptr → search_node :=
  fun p => search_node.mk_node INF p.key

/-- Modelled from the spec: `solution.h` is not among the sources. A solution before
a search: empty path, cost `INF`, counters at zero. -/
def fresh_solution (INF : Nat) : solution :=
  { path_ := [], sum_of_edge_costs_ := INF, nodes_expanded_ := 0, nodes_inserted_ := 0,
    nodes_updated_ := 0, nodes_touched_ := 0 }

/-! ## sipp/jpst_gridmap.h -/

/-- Modelled from the spec: `gridmap.h` is not among the sources. A grid map is a
rectangle of `header_width_` by `header_height_` cells with a pad of one cell on
every side; `db_` gives the label stored for each padded id. -/
structure gridmap where
  header_width_ : Nat
  header_height_ : Nat
  db_ : Nat → Bool

namespace gridmap

/-- Modelled from the spec: `gridmap.h` is not among the sources. `header_width()`. -/
def header_width (m : gridmap) : Nat := m.header_width_

/-- Modelled from the spec: `gridmap.h` is not among the sources. `header_height()`. -/
def header_height (m : gridmap) : Nat := m.header_height_

/-- Modelled from the spec: `gridmap.h` is not among the sources. The width of the
padded grid: one cell of padding on the left and one on the right. -/
def padded_width (m : gridmap) : Nat := m.header_width_ + 2

/-- Modelled from the spec: `gridmap.h` is not among the sources.
`to_padded_id(x, y)`: the padded id `y' * padded_width + x'` of the cell that the
unpadded `(x, y)` is in the padded grid, `(x', y') = (x + 1, y + 1)`; `uint32_t`
arithmetic. -/
def to_padded_id_xy (m : gridmap) (x y : Nat) : Nat :=
  ((y + 1) * m.padded_width + (x + 1)) % 2 ^ 32

/-- Modelled from the spec: `gridmap.h` is not among the sources.
`to_padded_id(node_id)`: the padded id of the cell with the unpadded id
`node_id = y * header_width + x`. -/
def to_padded_id (m : gridmap) (node_id : Nat) : Nat :=
  m.to_padded_id_xy (node_id % m.header_width_) (node_id / m.header_width_)

/-- Modelled from the spec: `gridmap.h` is not among the sources.
`to_unpadded_xy(padded_id, x, y)`: the unpadded coordinates `(x, y)` of a padded
id. -/
def to_unpadded_xy (m : gridmap) (padded_id : Nat) : Nat × Nat :=
  (u32_sub (padded_id % m.padded_width) 1, u32_sub (padded_id / m.padded_width) 1)

/-- Modelled from the spec: `gridmap.h` is not among the sources. `set_label`: write
the label of one padded id. -/
def set_label (m : gridmap) (padded_id : Nat) (label : Bool) : gridmap :=
  { m with db_ := fun i => if i = padded_id then label else m.db_ i }

/-- Modelled from the spec: `gridmap.h` is not among the sources. `get_label`: read
the label of one padded id. -/
def get_label (m : gridmap) (padded_id : Nat) : Bool := m.db_ padded_id

end gridmap

/-- The members of `jpst_gridmap` that `add_obstacle` and `clear_obstacles` write
themselves: the map of temporal obstacles `t_gm_` and its rotated copy `t_gm_r_`.
`gm_` is not touched, and `sipp_map_` is an object of its own. -/
structure jpst_gridmap where
  t_gm_ : gridmap
  t_gm_r_ : gridmap

namespace jpst_gridmap

/-- `map_id_to_rmap_id` (jpst_gridmap.h, lines 95-106); `INF32` is the constant
`warthog::INF32` of `constants.h`, which is not among the sources. -/
def map_id_to_rmap_id (INF32 : Nat) (j : jpst_gridmap) (mapid : Nat) : Nat :=
  if mapid = INF32 then mapid
  else
    let xy := j.t_gm_.to_unpadded_xy mapid
    let ry := xy.1
    let rx := u32_sub (u32_sub j.t_gm_.header_height xy.2) 1
    j.t_gm_r_.to_padded_id_xy rx ry

/-- `rmap_id_to_map_id` (jpst_gridmap.h, lines 110-121). -/
def rmap_id_to_map_id (INF32 : Nat) (j : jpst_gridmap) (rmapid : Nat) : Nat :=
  if rmapid = INF32 then rmapid
  else
    let rxy := j.t_gm_r_.to_unpadded_xy rmapid
    let x := rxy.2
    let y := u32_sub (u32_sub j.t_gm_r_.header_width rxy.1) 1
    j.t_gm_.to_padded_id_xy x y

/-- `add_obstacle` (lines 43-55), the part after the call on `sipp_map_`: the label of
the cell is set in `t_gm_` and in `t_gm_r_`. -/
def add_obstacle (INF32 : Nat) (j : jpst_gridmap) (x y : Nat) : jpst_gridmap :=
  let node_id := (y * j.t_gm_.header_width + x) % 2 ^ 32
  let gm_id := j.t_gm_.to_padded_id node_id
  let gm_r_id := j.map_id_to_rmap_id INF32 gm_id
  { t_gm_ := j.t_gm_.set_label gm_id true,
    t_gm_r_ := j.t_gm_r_.set_label gm_r_id true }

/-- `clear_obstacles` (lines 64-75), the part after the call on `sipp_map_`: the label
of the cell is cleared in `t_gm_` and in `t_gm_r_`. -/
def clear_obstacles (INF32 : Nat) (j : jpst_gridmap) (x y : Nat) : jpst_gridmap :=
  let node_id := (y * j.t_gm_.header_width + x) % 2 ^ 32
  let gm_id := j.t_gm_.to_padded_id node_id
  let gm_r_id := j.map_id_to_rmap_id INF32 gm_id
  { t_gm_ := j.t_gm_.set_label gm_id false,
    t_gm_r_ := j.t_gm_r_.set_label gm_r_id false }

/-- The rotated map is a copy of the unrotated one: every in-bounds cell carries in
`t_gm_` the label that its image under `map_id_to_rmap_id` carries in `t_gm_r_`. -/
def rotated_copy (INF32 : Nat) (j : jpst_gridmap) : Prop :=
  ∀ x y, x < j.t_gm_.header_width → y < j.t_gm_.header_height →
    j.t_gm_.get_label (j.t_gm_.to_padded_id_xy x y)
      = j.t_gm_r_.get_label (j.map_id_to_rmap_id INF32 (j.t_gm_.to_padded_id_xy x y))

end jpst_gridmap

/-! ## programs/warthog.cpp: `check_optimality` -/

/-- The local `precision` of `check_optimality` (warthog.cpp, line 65). -/
def check_optimality.precision : Nat := 1

/-- The local `epsilon` of `check_optimality` (line 66),
`(1 / (int)pow(10, precision)) / 2`: both divisions are divisions of `int`s, which
truncate; the quotient is then converted to `double`. -/
def check_optimality.epsilon : ℚ :=
  (((1 : Int).tdiv ((10 : Int) ^ check_optimality.precision)).tdiv 2 : Int)

/-- The local `delta` of `check_optimality` (line 68),
`fabs(sol.sum_of_edge_costs_ - exp->distance())`. -/
def check_optimality.delta (sol : solution) (distance : ℚ) : ℚ :=
  |sol.sum_of_edge_costs_ - distance|

/-- The function `check_optimality` (warthog.cpp, lines 62-90), given the solution
and the scenario's optimum `exp->distance()`: `.error 1` is `exit(1)` after the
message, `.ok true` is `return true`. -/
def check_optimality (sol : solution) (distance : ℚ) : Except Nat Bool :=
  if |check_optimality.delta sol distance - check_optimality.epsilon|
      > check_optimality.epsilon then .error 1
  else .ok true

/-! ## programs/warthog.cpp: the dispatch on `--alg` in `main` -/

/-- The functions the last part of `main` (warthog.cpp, lines 413-478) can call;
`invalid` is the final `else`, which prints "err; invalid search algorithm". -/
inductive run_target where
  | run_jpsplus | run_jps2 | run_jps2plus | run_jps | run_jps_wgm | run_dijkstra
  | run_astar | run_astar_timex | run_wgm_astar | run_sssp | run_wgm_sssp | run_jpg
  | run_cpg | invalid
deriving DecidableEq, Repr

/-- The chain of `if(alg == ...) ... else if ...` of `main` (lines 413-478), in the
order of the source: what is called for a value of `--alg`. -/
def main_dispatch (alg : String) : run_target :=
  if alg = "jps+" then .run_jpsplus
  else if alg = "jps2" then .run_jps2
  else if alg = "jps2+" then .run_jps2plus
  else if alg = "jps" then .run_jps
  else if alg = "jps_wgm" then .run_jps_wgm
  else if alg = "dijkstra" then .run_dijkstra
  else if alg = "astar" then .run_astar
  else if alg = "astar_timex" then .run_astar_timex
  else if alg = "astar_wgm" then .run_wgm_astar
  else if alg = "sssp" then .run_sssp
  else if alg = "sssp" then .run_wgm_sssp
  else if alg = "jpg" then .run_jpg
  else if alg = "cpg" then .run_cpg
  else .invalid

/-! ## Concrete inputs -/

namespace examples

/-- The 32-bit sentinel used for `warthog::INF` in the concrete runs. -/
def INF32 : Nat := 4294967295

/-- Forty nodes ranked by their id (so ranks 38 and 39 form the core); the path
0 → 38 → 39 climbs to the target 39, the top of the hierarchy. -/
def core_target_graph : graph.xy_graph :=
  { num_nodes := 40, arcs := [(0, 38, 1), (38, 39, 1)] }

/-- A chase_search over `core_target_graph`. -/
def core_target : chase_config := chase_over core_target_graph id INF32 (fun _ => 0)

/-- Forty nodes ranked by their id; 0 and 1 meet at node 2 at cost 1 + 5/4 and both
reach the core node 38 at cost 5/2. -/
def fractional_graph : graph.xy_graph :=
  { num_nodes := 40, arcs := [(0, 2, 1), (0, 38, 5 / 2), (2, 1, 5 / 4), (38, 1, 5 / 2)] }

/-- A chase_search over `fractional_graph`. -/
def fractional : chase_config := chase_over fractional_graph id INF32 (fun _ => 0)

/-- Forty nodes ranked by their id; 0 and 1 meet at node 2 at cost 2 + 3, and only
the forward search reaches the core (node 38, at cost 1). -/
def one_sided_graph : graph.xy_graph :=
  { num_nodes := 40, arcs := [(0, 2, 2), (0, 38, 1), (2, 1, 3)] }

/-- A chase_search over `one_sided_graph`. -/
def one_sided : chase_config := chase_over one_sided_graph id INF32 (fun _ => 0)

/-- Three nodes ranked by their id, and the arc 0 → 2. -/
def three_node_graph : graph.xy_graph :=
  { num_nodes := 3, arcs := [(0, 2, 1)] }

/-- A chase_search over `three_node_graph`. -/
def three_node : chase_config := chase_over three_node_graph id INF32 (fun _ => 0)

/-- The state `search` builds on `fractional_graph` for start 0 and target 1. -/
def fractional_start : chase_state :=
  chase_search.search_init fractional (fresh_pool INF32) ⟨0, 1, 1⟩ (fresh_solution INF32)

/-- The search on `fractional_graph` after its first pass (the forward expansion
of node 0). -/
def fractional_pass1 : chase_state :=
  (chase_search.run_passes fractional 1 fractional_start).getD fractional_start

/-- The search on `fractional_graph` inside its second pass: the target has been
popped from the backward open set and marked expanded. -/
def fractional_mid : chase_state :=
  chase_search.expand_begin ⟨true, 1⟩
    { fractional_pass1 with open_ := chase_search.set_dir fractional_pass1.open_ true [] }

/-- The state `search` builds on `three_node_graph` for start 0 and target 1. -/
def three_node_start : chase_state :=
  chase_search.search_init three_node (fresh_pool INF32) ⟨0, 1, 1⟩ (fresh_solution INF32)

/-- The search on `three_node_graph` inside its first pass: the start has been
popped from the forward open set and marked expanded. -/
def three_node_mid : chase_state :=
  chase_search.expand_begin ⟨false, 0⟩
    { three_node_start with open_ := chase_search.set_dir three_node_start.open_ false [] }

/-- The state `search` builds on `one_sided_graph` for start 0 and target 1. -/
def one_sided_start : chase_state :=
  chase_search.search_init one_sided (fresh_pool INF32) ⟨0, 1, 1⟩ (fresh_solution INF32)

/-- The search on `one_sided_graph` after four passes, when both open sets are
empty and phase 1 is about to end. -/
def one_sided_phase1_end : chase_state :=
  (chase_search.run_passes one_sided 4 one_sided_start).getD one_sided_start

/-- The search on `fractional_graph` after four passes, when both open sets are
empty and phase 1 is about to end. -/
def fractional_phase1_end : chase_state :=
  (chase_search.run_passes fractional 4 fractional_start).getD fractional_start

/-- Forty nodes ranked by their id; the forward search from 0 climbs 0 → 2 → 3 → 4
and the backward search from 1 has nowhere to go. -/
def forward_chain_graph : graph.xy_graph :=
  { num_nodes := 40, arcs := [(0, 2, 1), (2, 3, 1), (3, 4, 1)] }

/-- A chase_search over `forward_chain_graph`. -/
def forward_chain : chase_config := chase_over forward_chain_graph id INF32 (fun _ => 0)

/-- The state `search` builds on `forward_chain_graph` for start 0 and target 1. -/
def forward_chain_start : chase_state :=
  chase_search.search_init forward_chain (fresh_pool INF32) ⟨0, 1, 1⟩ (fresh_solution INF32)

/-- Forty nodes ranked by their id; 0 and 1 both reach 3 through 2 at cost 2, 1 also
by a direct arc of cost 5, and both directions reach the core node 38. -/
def reuse_graph : graph.xy_graph :=
  { num_nodes := 40,
    arcs := [(0, 2, 1), (2, 3, 1), (1, 2, 1), (1, 3, 5), (0, 38, 10), (1, 38, 10),
      (38, 3, 10)] }

/-- A chase_search over `reuse_graph`. -/
def reuse : chase_config := chase_over reuse_graph id INF32 (fun _ => 0)

/-- The first query on `reuse_graph`, from 0 to 3 with search id 1, on fresh pools. -/
def reuse_first : outcome chase_state :=
  chase_search.get_path reuse 100 (fresh_pool INF32) ⟨0, 3, 1⟩ (fresh_solution INF32)

/-- The second query on `reuse_graph`, from 1 to 3 with search id 2, run on the
pools as the first query left them. -/
def reuse_second : Option (outcome chase_state) :=
  (chase_search.final_state reuse_first).map
    (fun r => chase_search.get_path reuse 100 r.mem ⟨1, 3, 2⟩ (fresh_solution INF32))

/-- The second query on `reuse_graph`, run on fresh pools. -/
def reuse_second_fresh : outcome chase_state :=
  chase_search.get_path reuse 100 (fresh_pool INF32) ⟨1, 3, 2⟩ (fresh_solution INF32)

/-- Forty nodes ranked by their id; node 0 has an arc up to the core node 38 and an
arc in from the core node 39, and lies on no cycle. -/
def no_return_graph : graph.xy_graph :=
  { num_nodes := 40, arcs := [(0, 38, 1), (39, 0, 1)] }

/-- A chase_search over `no_return_graph`. -/
def no_return : chase_config := chase_over no_return_graph id INF32 (fun _ => 0)

/-- Forty nodes ranked by their id; node 0 and the core node 38 are joined by an arc
of cost 1 in each direction. -/
def round_trip_graph : graph.xy_graph :=
  { num_nodes := 40, arcs := [(0, 38, 1), (38, 0, 1)] }

/-- A chase_search over `round_trip_graph`. -/
def round_trip : chase_config := chase_over round_trip_graph id INF32 (fun _ => 0)

/-- A node with f = 2 and g = 2. -/
def tie_deep : search_node := (search_node.mk_node INF32 0).init 1 none 2 2

/-- A node with f = 2 and g = 1. -/
def tie_shallow : search_node := (search_node.mk_node INF32 1).init 1 none 1 2

/-- A temporal map of three columns and two rows without temporal obstacles, and its
rotated copy of two columns and three rows. -/
def small_jpst : jpst_gridmap :=
  { t_gm_ := { header_width_ := 3, header_height_ := 2, db_ := fun _ => false },
    t_gm_r_ := { header_width_ := 2, header_height_ := 3, db_ := fun _ => false } }

/-- Forty nodes ranked by their id; 0 and 1 meet at node 2. The arcs into and out of
node 2 cost 3602879701896397 / 2^55 and 3602879701896397 / 2^54, the doubles written
`0.1` and `0.2`; only the detour over the core (node 38) costs 5/2 + 5/2. -/
def tenths_graph : graph.xy_graph :=
  { num_nodes := 40,
    arcs := [(0, 2, 3602879701896397 / 36028797018963968), (0, 38, 5 / 2),
             (2, 1, 3602879701896397 / 18014398509481984), (38, 1, 5 / 2)] }

/-- A chase_search over `tenths_graph`. -/
def tenths : chase_config := chase_over tenths_graph id INF32 (fun _ => 0)

/-- A node with g = 2 and f = 2^57, as `init` leaves one that is generated with
g = 2 under a heuristic value of 2^57: the double sum `2 + 2^57` is 2^57. -/
def far_node : search_node := (search_node.mk_node INF32 0).init 1 none 2 (2 ^ 57)

end examples

/-! ## Theorems -/

/-! ### Bits of `id_and_status_` -/

theorem testBit_mask_fffffffe (i : Nat) (h1 : 1 ≤ i) (h2 : i < 24) :
    Nat.testBit 4294967294 i = true := by
  interval_cases i <;> rfl

theorem testBit_one_high (i : Nat) (h1 : 1 ≤ i) : Nat.testBit 1 i = false := by
  rcases i with _ | i
  · omega
  · simp [Nat.testBit_succ]

theorem u32_not_one : u32_not 1 = 4294967294 := by decide

theorem id_field_congr (x y : Nat)
    (h : ∀ i, 1 ≤ i → i < 24 → x.testBit i = y.testBit i) :
    (x &&& NODEID_AND_STATUS_MASK) >>> 1 = (y &&& NODEID_AND_STATUS_MASK) >>> 1 := by
  apply Nat.eq_of_testBit_eq
  intro j
  have hm : NODEID_AND_STATUS_MASK = 2 ^ 24 - 1 := by decide
  rw [hm]
  simp only [Nat.testBit_shiftRight, Nat.testBit_and, Nat.testBit_two_pow_sub_one]
  by_cases hj : 1 + j < 24
  · simp [hj, h (1 + j) (by omega) hj]
  · simp [hj]

theorem status_bit_eq_testBit (x : Nat) : ((x &&& STATUS_MASK) != 0) = x.testBit 0 := by
  simp [Nat.testBit, Nat.and_comm, STATUS_MASK]

theorem testBit_zero_and_mask (w : Nat) : (w &&& 4294967294).testBit 0 = false := by
  rw [Nat.testBit_and]
  have : Nat.testBit 4294967294 0 = false := by rfl
  simp [this]

namespace search_node

@[simp] theorem get_id_set_expanded (n : search_node) (b : Bool) :
    (n.set_expanded b).get_id = n.get_id := by
  unfold set_expanded get_id
  apply id_field_congr
  intro i h1 h2
  simp only [STATUS_MASK, u32_not_one]
  rw [Nat.testBit_xor, Nat.testBit_and, testBit_mask_fffffffe i h1 h2]
  cases b <;> simp [testBit_one_high i h1]

@[simp] theorem get_expanded_set_expanded (n : search_node) (b : Bool) :
    (n.set_expanded b).get_expanded = b := by
  unfold set_expanded get_expanded
  simp only [status_bit_eq_testBit]
  simp only [STATUS_MASK, u32_not_one]
  rw [Nat.testBit_xor, testBit_zero_and_mask]
  cases b <;> simp

@[simp] theorem get_id_init (n : search_node) (sid : Nat) (p : Option node_ptr) (g f : ℚ) :
    (n.init sid p g f).get_id = n.get_id := by
  unfold init get_id
  apply id_field_congr
  intro i h1 h2
  simp only [u32_not_one]
  rw [Nat.testBit_and, testBit_mask_fffffffe i h1 h2]
  simp

@[simp] theorem get_expanded_init (n : search_node) (sid : Nat) (p : Option node_ptr)
    (g f : ℚ) : (n.init sid p g f).get_expanded = false := by
  unfold init get_expanded
  simp only [status_bit_eq_testBit]
  simp only [u32_not_one]
  exact testBit_zero_and_mask _

@[simp] theorem get_id_relax (n : search_node) (g : ℚ) (p : Option node_ptr) :
    (n.relax g p).get_id = n.get_id := rfl

@[simp] theorem get_expanded_relax (n : search_node) (g : ℚ) (p : Option node_ptr) :
    (n.relax g p).get_expanded = n.get_expanded := rfl

@[simp] theorem get_search_id_relax (n : search_node) (g : ℚ) (p : Option node_ptr) :
    (n.relax g p).get_search_id = n.get_search_id := rfl

@[simp] theorem get_g_relax (n : search_node) (g : ℚ) (p : Option node_ptr) :
    (n.relax g p).get_g = g := rfl

@[simp] theorem get_f_relax (n : search_node) (g : ℚ) (p : Option node_ptr) :
    (n.relax g p).get_f = (n.get_f - n.get_g) + g := rfl

@[simp] theorem get_parent_relax (n : search_node) (g : ℚ) (p : Option node_ptr) :
    (n.relax g p).get_parent = p := rfl

@[simp] theorem get_search_id_init (n : search_node) (sid : Nat) (p : Option node_ptr)
    (g f : ℚ) : (n.init sid p g f).get_search_id = sid := rfl

@[simp] theorem get_g_init (n : search_node) (sid : Nat) (p : Option node_ptr)
    (g f : ℚ) : (n.init sid p g f).get_g = g := rfl

@[simp] theorem get_f_init (n : search_node) (sid : Nat) (p : Option node_ptr)
    (g f : ℚ) : (n.init sid p g f).get_f = f := rfl

@[simp] theorem get_parent_init (n : search_node) (sid : Nat) (p : Option node_ptr)
    (g f : ℚ) : (n.init sid p g f).get_parent = p := rfl

@[simp] theorem get_search_id_set_expanded (n : search_node) (b : Bool) :
    (n.set_expanded b).get_search_id = n.get_search_id := rfl

@[simp] theorem get_g_set_expanded (n : search_node) (b : Bool) :
    (n.set_expanded b).get_g = n.get_g := rfl

@[simp] theorem get_f_set_expanded (n : search_node) (b : Bool) :
    (n.set_expanded b).get_f = n.get_f := rfl

@[simp] theorem get_parent_set_expanded (n : search_node) (b : Bool) :
    (n.set_expanded b).get_parent = n.get_parent := rfl

end search_node

namespace chase_search

@[simp] theorem store_same (mem : node_ptr → search_node) (p : node_ptr) (n : search_node) :
    store mem p n p = n := by simp [store]

theorem store_other (mem : node_ptr → search_node) {p q : node_ptr} (n : search_node)
    (h : q ≠ p) : store mem p n q = mem q := by simp [store, h]

@[simp] theorem set_dir_same {α : Type} (f : Bool → α) (d : Bool) (a : α) :
    set_dir f d a d = a := by simp [set_dir]

theorem set_dir_other {α : Type} (f : Bool → α) {d e : Bool} (a : α) (h : e ≠ d) :
    set_dir f d a e = f e := by simp [set_dir, h]

@[simp] theorem set_dir_not {α : Type} (f : Bool → α) (d : Bool) (a : α) :
    set_dir f d a (!d) = f (!d) := by cases d <;> simp [set_dir]

section frame
variable (c : chase_config) (d : Bool) (current : node_ptr) (st : chase_state) (e : Nat × ℚ)

@[simp] theorem rg_best_cost : (relax_or_generate c d current st e).best_cost_ = st.best_cost_ := by
  unfold relax_or_generate; dsimp only; split_ifs <;> rfl

@[simp] theorem rg_v : (relax_or_generate c d current st e).v_ = st.v_ := by
  unfold relax_or_generate; dsimp only; split_ifs <;> rfl

@[simp] theorem rg_w : (relax_or_generate c d current st e).w_ = st.w_ := by
  unfold relax_or_generate; dsimp only; split_ifs <;> rfl

@[simp] theorem rg_phase : (relax_or_generate c d current st e).phase_ = st.phase_ := by
  unfold relax_or_generate; dsimp only; split_ifs <;> rfl

@[simp] theorem rg_pi : (relax_or_generate c d current st e).pi_ = st.pi_ := by
  unfold relax_or_generate; dsimp only; split_ifs <;> rfl

@[simp] theorem rg_path : (relax_or_generate c d current st e).sol.path_ = st.sol.path_ := by
  unfold relax_or_generate; dsimp only; split_ifs <;> rfl

@[simp] theorem rg_sum : (relax_or_generate c d current st e).sol.sum_of_edge_costs_
    = st.sol.sum_of_edge_costs_ := by
  unfold relax_or_generate; dsimp only; split_ifs <;> rfl

theorem rg_mem_other {p : node_ptr} (h : p ≠ ⟨d, e.1⟩) :
    (relax_or_generate c d current st e).mem p = st.mem p := by
  unfold relax_or_generate; dsimp only; split_ifs <;> simp [store_other _ _ h]

@[simp] theorem rg_get_id (p : node_ptr) :
    ((relax_or_generate c d current st e).mem p).get_id = (st.mem p).get_id := by
  by_cases h : p = ⟨d, e.1⟩
  · subst h
    unfold relax_or_generate; dsimp only; split_ifs <;> simp
  · rw [rg_mem_other c d current st e h]

theorem rg_search_id_succ
    (h : (⟨d, e.1⟩ : node_ptr) ∈ st.open_ d →
      (st.mem ⟨d, e.1⟩).get_search_id = (st.mem current).get_search_id) :
    ((relax_or_generate c d current st e).mem ⟨d, e.1⟩).get_search_id
      = (st.mem current).get_search_id := by
  unfold relax_or_generate; dsimp only
  split_ifs with h1 h2 h3 h4 h5 h6 <;> simp_all [pqueue.contains]

end frame
end chase_search

namespace chase_search

theorem max_phase1_rank_eq (c : chase_config)
    (h : c.fexpander_.get_num_nodes < 2 ^ 32) :
    c.max_phase1_rank_ = 19 * c.fexpander_.get_num_nodes / 20 := by
  unfold chase_config.max_phase1_rank_ double_to_uint32
  have hN : (0 : ℚ) ≤ (c.fexpander_.get_num_nodes : ℚ) := Nat.cast_nonneg _
  have hN2 : (c.fexpander_.get_num_nodes : ℚ) < 2 ^ 32 := by exact_mod_cast h
  rw [if_pos (by constructor <;> linarith)]
  have : (c.fexpander_.get_num_nodes : ℚ) * (19 / 20)
      = ((19 * c.fexpander_.get_num_nodes : ℕ) : ℚ) / ((20 : ℕ) : ℚ) := by
    push_cast; ring
  rw [this, Rat.floor_natCast_div_natCast]
  simp
  omega

end chase_search

namespace chase_search

/-! ### What a pass leaves untouched in the solution -/

section frame
variable (c : chase_config) (d : Bool) (current : node_ptr) (st : chase_state) (e : Nat × ℚ)

@[simp] theorem update_best_sol : (update_best d current st e).sol = st.sol := by
  unfold update_best; dsimp only; split_ifs <;> rfl

@[simp] theorem update_best_mem : (update_best d current st e).mem = st.mem := by
  unfold update_best; dsimp only; split_ifs <;> rfl

@[simp] theorem update_best_open : (update_best d current st e).open_ = st.open_ := by
  unfold update_best; dsimp only; split_ifs <;> rfl

@[simp] theorem update_best_norelax : (update_best d current st e).norelax_ = st.norelax_ := by
  unfold update_best; dsimp only; split_ifs <;> rfl

@[simp] theorem update_best_core_lb : (update_best d current st e).core_lb = st.core_lb := by
  unfold update_best; dsimp only; split_ifs <;> rfl

@[simp] theorem update_best_phase : (update_best d current st e).phase_ = st.phase_ := by
  unfold update_best; dsimp only; split_ifs <;> rfl

@[simp] theorem update_best_pi : (update_best d current st e).pi_ = st.pi_ := by
  unfold update_best; dsimp only; split_ifs <;> rfl

theorem expand_succ_path : (expand_succ c d current st e).sol.path_ = st.sol.path_ := by
  unfold expand_succ; dsimp only; split_ifs <;> simp [touch]

theorem expand_succ_sum : (expand_succ c d current st e).sol.sum_of_edge_costs_
    = st.sol.sum_of_edge_costs_ := by
  unfold expand_succ; dsimp only; split_ifs <;> simp [touch]

end frame

theorem foldl_expand_succ_report (c : chase_config) (d : Bool) (current : node_ptr)
    (l : List (Nat × ℚ)) (st : chase_state) :
    (l.foldl (expand_succ c d current) st).sol.path_ = st.sol.path_ ∧
    (l.foldl (expand_succ c d current) st).sol.sum_of_edge_costs_
      = st.sol.sum_of_edge_costs_ := by
  induction l generalizing st with
  | nil => exact ⟨rfl, rfl⟩
  | cons e l ih =>
    rw [List.foldl_cons]
    obtain ⟨h1, h2⟩ := ih (expand_succ c d current st e)
    exact ⟨h1.trans (expand_succ_path c d current st e),
      h2.trans (expand_succ_sum c d current st e)⟩

theorem pop_and_expand_report (c : chase_config) (d : Bool) (st st1 : chase_state)
    (h : pop_and_expand c d st = some st1) :
    st1.sol.path_ = st.sol.path_ ∧
    st1.sol.sum_of_edge_costs_ = st.sol.sum_of_edge_costs_ := by
  unfold pop_and_expand at h
  split at h
  · exact absurd h (by simp)
  · rename_i current rest hpop
    simp only [Option.some.injEq] at h
    subst h
    dsimp only
    split_ifs
    · exact ⟨rfl, rfl⟩
    · exact foldl_expand_succ_report c d current _ _

theorem check_termination_report (c : chase_config) (st : chase_state) :
    (∀ st1, check_termination c st = .continue_ st1 →
      st1.sol.path_ = st.sol.path_ ∧
      st1.sol.sum_of_edge_costs_ = st.sol.sum_of_edge_costs_) ∧
    (∀ st1, check_termination c st = .break_ st1 →
      st1.sol.path_ = st.sol.path_ ∧
      st1.sol.sum_of_edge_costs_ = st.sol.sum_of_edge_costs_) := by
  unfold check_termination
  constructor <;> intro st1 h <;> split_ifs at h <;> cases h <;> exact ⟨rfl, rfl⟩

theorem search_iter_report (c : chase_config) (st : chase_state) :
    (∀ st1, search_iter c st = .continue_ st1 →
      st1.sol.path_ = st.sol.path_ ∧
      st1.sol.sum_of_edge_costs_ = st.sol.sum_of_edge_costs_) ∧
    (∀ st1, search_iter c st = .break_ st1 →
      st1.sol.path_ = st.sol.path_ ∧
      st1.sol.sum_of_edge_costs_ = st.sol.sum_of_edge_costs_) := by
  unfold search_iter
  split
  · exact check_termination_report c _
  · split
    · constructor <;> intro st1 h <;> cases h
    · rename_i st2 hp
      obtain ⟨h1, h2⟩ := pop_and_expand_report c false st st2 hp
      obtain ⟨k1, k2⟩ := check_termination_report c st2
      exact ⟨fun s h => ⟨(k1 s h).1.trans h1, (k1 s h).2.trans h2⟩,
        fun s h => ⟨(k2 s h).1.trans h1, (k2 s h).2.trans h2⟩⟩
  · split
    · constructor <;> intro st1 h <;> cases h
    · rename_i st2 hp
      obtain ⟨h1, h2⟩ := pop_and_expand_report c true st st2 hp
      obtain ⟨k1, k2⟩ := check_termination_report c st2
      exact ⟨fun s h => ⟨(k1 s h).1.trans h1, (k1 s h).2.trans h2⟩,
        fun s h => ⟨(k2 s h).1.trans h1, (k2 s h).2.trans h2⟩⟩
  · exact check_termination_report c _

theorem search_loop_report (c : chase_config) (fuel : Nat) (st st1 : chase_state)
    (h : search_loop c fuel st = .finished st1) :
    st1.sol.path_ = st.sol.path_ ∧
    st1.sol.sum_of_edge_costs_ = st.sol.sum_of_edge_costs_ := by
  induction fuel generalizing st with
  | zero => simp [search_loop] at h
  | succ fuel ih =>
    unfold search_loop at h
    split at h
    · rename_i st2 hi
      obtain ⟨h1, h2⟩ := (search_iter_report c st).1 st2 hi
      obtain ⟨k1, k2⟩ := ih st2 h
      exact ⟨k1.trans h1, k2.trans h2⟩
    · rename_i st2 hi
      injection h with h
      subst h
      exact (search_iter_report c st).2 _ hi
    · cases h

end chase_search

namespace chase_search

theorem search_iter_zero (c : chase_config) (st : chase_state)
    (h : st.search_direction = 0) :
    search_iter c st = check_termination c { st with cannot_improve := true } := by
  unfold search_iter
  split
  · rfl
  · rename_i h1; rw [h] at h1; exact absurd h1 (by decide)
  · rename_i h1; rw [h] at h1; exact absurd h1 (by decide)
  · rename_i h0 _ _; exact absurd h h0

theorem search_iter_dir (c : chase_config) (st : chase_state) (d : Bool)
    (h : st.search_direction = if d then 2 else 1) :
    search_iter c st =
      match pop_and_expand c d st with
      | none => .null_deref
      | some st1 => check_termination c st1 := by
  unfold search_iter
  cases d
  · simp only [Bool.false_eq_true, if_false] at h
    split
    · rename_i h1; rw [h] at h1; exact absurd h1 (by decide)
    · rfl
    · rename_i h1; rw [h] at h1; exact absurd h1 (by decide)
    · rename_i _ h1 _; exact absurd h h1
  · simp only [if_true] at h
    split
    · rename_i h1; rw [h] at h1; exact absurd h1 (by decide)
    · rename_i h1; rw [h] at h1; exact absurd h1 (by decide)
    · rfl
    · rename_i _ _ h1; exact absurd h h1

end chase_search

namespace chase_search

/-! ### The control variables, and a rule for proving invariants of `search` -/

section frame
variable (c : chase_config) (d : Bool) (current : node_ptr) (st : chase_state) (e : Nat × ℚ)

@[simp] theorem rg_cannot_improve :
    (relax_or_generate c d current st e).cannot_improve = st.cannot_improve := by
  unfold relax_or_generate; dsimp only; split_ifs <;> rfl

@[simp] theorem update_best_cannot_improve :
    (update_best d current st e).cannot_improve = st.cannot_improve := by
  unfold update_best; dsimp only; split_ifs <;> rfl

theorem expand_succ_cannot_improve :
    (expand_succ c d current st e).cannot_improve = st.cannot_improve := by
  unfold expand_succ; dsimp only; split_ifs <;> simp [touch]

theorem expand_succ_get_id (p : node_ptr) :
    ((expand_succ c d current st e).mem p).get_id = (st.mem p).get_id := by
  unfold expand_succ; dsimp only; split_ifs <;> simp [touch]

theorem expand_succ_phase : (expand_succ c d current st e).phase_ = st.phase_ := by
  unfold expand_succ; dsimp only; split_ifs <;> simp [touch]

end frame

theorem foldl_expand_succ_cannot_improve (c : chase_config) (d : Bool) (current : node_ptr)
    (l : List (Nat × ℚ)) (st : chase_state) :
    (l.foldl (expand_succ c d current) st).cannot_improve = st.cannot_improve := by
  induction l generalizing st with
  | nil => rfl
  | cons e l ih =>
    rw [List.foldl_cons, ih]
    exact expand_succ_cannot_improve c d current st e

theorem foldl_expand_succ_inv (c : chase_config) (d : Bool) (current : node_ptr)
    (J : chase_state → Prop) (k : Nat)
    (hsucc : ∀ st e, J st → (st.mem current).get_id = k →
      e ∈ (c.expander d).successors k → J (expand_succ c d current st e))
    (l : List (Nat × ℚ)) (hl : ∀ e ∈ l, e ∈ (c.expander d).successors k)
    (st : chase_state) (hJ : J st) (hk : (st.mem current).get_id = k) :
    J (l.foldl (expand_succ c d current) st) := by
  induction l generalizing st with
  | nil => exact hJ
  | cons e l ih =>
    rw [List.foldl_cons]
    apply ih (fun x hx => hl x (List.mem_cons_of_mem _ hx))
    · exact hsucc st e hJ hk (hl e (List.mem_cons_self _ _))
    · rw [expand_succ_get_id]; exact hk

theorem check_termination_of_not_cannot_improve (c : chase_config) (st : chase_state)
    (h : st.cannot_improve = false) : check_termination c st = .continue_ st := by
  unfold check_termination
  rw [h]
  simp

theorem next_direction_cases (d : Bool) (st : chase_state) :
    (next_direction d st = 0 → st.open_ false = [] ∧ st.open_ true = []) ∧
    (next_direction d st = 0 ∨ next_direction d st = 1 ∨ next_direction d st = 2) := by
  unfold next_direction
  cases d <;> simp only [Bool.not_false, Bool.not_true] <;> split_ifs with h1 h2 <;>
    simp_all [List.length_eq_zero]

/-- A rule for invariants of `search`: `I` is to hold at the head of the loop and
where the loop is left, `J d current` inside the expansion of `current` in
direction `d`. -/
theorem search_invariant {c : chase_config} {mem : node_ptr → search_node}
    {pi : problem_instance} {sol : solution}
    (I : chase_state → Prop) (J : Bool → node_ptr → chase_state → Prop)
    (hinit : I (search_init c mem pi sol))
    (hdir : ∀ st k, I st → I { st with search_direction := k })
    (hci : ∀ st b, I st → I { st with cannot_improve := b })
    (hdrop : ∀ st d cur rest, I st → pqueue.pop st.mem (st.open_ d) = some (cur, rest) →
      (st.mem cur).get_f ≥ st.best_cost_ →
      I { st with open_ := set_dir st.open_ d rest })
    (hbegin : ∀ st d cur rest, I st → pqueue.pop st.mem (st.open_ d) = some (cur, rest) →
      ¬ ((st.mem cur).get_f ≥ st.best_cost_) →
      J d cur (expand_begin cur { st with open_ := set_dir st.open_ d rest }))
    (hsucc : ∀ st d cur e, J d cur st →
      e ∈ (c.expander d).successors (st.mem cur).get_id →
      J d cur (expand_succ c d cur st e))
    (hend : ∀ st d cur, J d cur st → I st)
    (hphase2 : ∀ st, I st → st.phase_ = 1 → st.open_ false = [] → st.open_ true = [] →
      st.core_lb false ≠ DBL_MAX → st.core_lb true ≠ DBL_MAX → I (enter_phase2 st)) :
    (∀ st, at_loop_head c mem pi sol st → I st ∧ ctrl_inv st) ∧
    (∀ st, at_point c mem pi sol st → I st ∨ ∃ d cur, J d cur st) := by
  have hfold : ∀ (d : Bool) (cur : node_ptr) (l : List (Nat × ℚ)) (st : chase_state),
      J d cur st → (∀ e ∈ l, e ∈ (c.expander d).successors (st.mem cur).get_id) →
      J d cur (l.foldl (expand_succ c d cur) st) := by
    intro d cur l st hJ hl
    exact foldl_expand_succ_inv c d cur (J d cur) (st.mem cur).get_id
      (fun s e hs hk he => hsucc s d cur e hs (by rw [hk]; exact he)) l hl st hJ rfl
  have hpop : ∀ (d : Bool) (st st1 : chase_state), I st →
      pop_and_expand c d st = some st1 →
      I st1 ∧ st1.cannot_improve = st.cannot_improve ∧
      (st1.search_direction = 0 → st1.open_ false = [] ∧ st1.open_ true = []) ∧
      (st1.search_direction = 0 ∨ st1.search_direction = 1 ∨ st1.search_direction = 2) := by
    intro d st st1 hI hp
    unfold pop_and_expand at hp
    split at hp
    · exact absurd hp (by simp)
    · rename_i cur rest hpop
      simp only [Option.some.injEq] at hp
      subst hp
      dsimp only
      split_ifs with hf
      · refine ⟨hdir _ _ (hdrop st d cur rest hI hpop hf), rfl, ?_, ?_⟩
        · exact (next_direction_cases d _).1
        · exact (next_direction_cases d _).2
      · refine ⟨hdir _ _ (hend _ d cur (hfold d cur _ _ (hbegin st d cur rest hI hpop hf)
          (fun e he => he))), ?_, ?_, ?_⟩
        · unfold expand
          exact foldl_expand_succ_cannot_improve c d cur _ _
        · exact (next_direction_cases d _).1
        · exact (next_direction_cases d _).2
  have hhead : ∀ st, at_loop_head c mem pi sol st → I st ∧ ctrl_inv st := by
    intro st h
    induction h with
    | init =>
      refine ⟨hinit, rfl, ?_, Or.inr (Or.inl rfl)⟩
      intro h0
      exact absurd h0 (by simp [search_init])
    | @pass st st1 _ hiter ih =>
      obtain ⟨hI, hc1, hc2, hc3⟩ := ih
      rcases hc3 with h0 | h12
      · rw [search_iter_zero c st h0] at hiter
        unfold check_termination at hiter
        simp only [if_true] at hiter
        split_ifs at hiter with hp hb hl
        · injection hiter with hiter
          subst hiter
          have hl2 : st.core_lb false ≠ DBL_MAX ∧ st.core_lb true ≠ DBL_MAX := by
            constructor
            · intro h; exact hl (Or.inl h)
            · intro h; exact hl (Or.inr h)
          refine ⟨hphase2 st hI hp (hc2 h0).1 (hc2 h0).2 hl2.1 hl2.2, rfl, ?_,
            Or.inr (Or.inl rfl)⟩
          intro h
          exact absurd h (by simp [enter_phase2])
      · have hd : ∃ d : Bool, st.search_direction = if d then 2 else 1 := by
          rcases h12 with h | h
          · exact ⟨false, by simpa using h⟩
          · exact ⟨true, by simpa using h⟩
        obtain ⟨d, hd⟩ := hd
        rw [search_iter_dir c st d hd] at hiter
        split at hiter
        · cases hiter
        · rename_i st2 hp
          obtain ⟨h1, h2, h3, h4⟩ := hpop d st st2 hI hp
          rw [check_termination_of_not_cannot_improve c st2 (h2.trans hc1)] at hiter
          injection hiter with hiter
          subst hiter
          exact ⟨h1, h2.trans hc1, h3, h4⟩
  refine ⟨hhead, ?_⟩
  intro st h
  cases h with
  | head h => exact Or.inl (hhead st h).1
  | @inside st0 d cur rest done todo h0 hd hpop hf hs =>
    right
    refine ⟨d, cur, hfold d cur done _ (hbegin st0 d cur rest (hhead st0 h0).1 hpop hf) ?_⟩
    intro e he
    rw [hs]
    exact List.mem_append_left _ he
  | @final st0 st1 h0 hiter =>
    left
    obtain ⟨hI, hc1, hc2, hc3⟩ := hhead st0 h0
    rcases hc3 with h0' | h12
    · rw [search_iter_zero c st0 h0'] at hiter
      unfold check_termination at hiter
      simp only [if_true] at hiter
      split_ifs at hiter <;> injection hiter with hiter <;> subst hiter <;>
        exact hci _ _ hI
    · have hd : ∃ d : Bool, st0.search_direction = if d then 2 else 1 := by
        rcases h12 with h | h
        · exact ⟨false, by simpa using h⟩
        · exact ⟨true, by simpa using h⟩
      obtain ⟨d, hd⟩ := hd
      rw [search_iter_dir c st0 d hd] at hiter
      split at hiter
      · cases hiter
      · rename_i st2 hp
        obtain ⟨h1, h2, h3, h4⟩ := hpop d st0 st2 hI hp
        rw [check_termination_of_not_cannot_improve c st2 (h2.trans hc1)] at hiter
        cases hiter

end chase_search

namespace chase_search

theorem search_loop_finished_at_point {c : chase_config} {mem : node_ptr → search_node}
    {pi : problem_instance} {sol : solution} (fuel : Nat) (st0 st : chase_state)
    (h0 : at_loop_head c mem pi sol st0) (h : search_loop c fuel st0 = .finished st) :
    ∃ st1, at_loop_head c mem pi sol st1 ∧ search_iter c st1 = .break_ st := by
  induction fuel generalizing st0 with
  | zero => simp [search_loop] at h
  | succ fuel ih =>
    unfold search_loop at h
    split at h
    · rename_i st2 hi
      exact ih st2 (at_loop_head.pass h0 hi) h
    · rename_i st2 hi
      injection h with h
      subst h
      exact ⟨st0, h0, hi⟩
    · cases h

theorem search_finished_at_point {c : chase_config} {mem : node_ptr → search_node}
    {pi : problem_instance} {sol : solution} {fuel : Nat} {st : chase_state}
    (h : search c fuel mem pi sol = .finished st) : at_point c mem pi sol st := by
  obtain ⟨st1, h1, h2⟩ := search_loop_finished_at_point fuel _ st at_loop_head.init h
  exact at_point.final h1 h2

/-! ### The cases of one pass of the successor loop -/

theorem core_lb_update_eq (f : Bool → ℚ) (d : Bool) (g : ℚ) :
    (if g < f d then set_dir f d g else f) = set_dir f d (min g (f d)) := by
  funext x
  by_cases h1 : g < f d
  · rw [if_pos h1, min_eq_left (le_of_lt h1)]
  · rw [if_neg h1, min_eq_right (not_lt.mp h1)]
    by_cases h2 : x = d
    · subst h2; rw [set_dir_same]
    · rw [set_dir_other _ _ h2]

/-- The five ways lines 417-518 can go for a successor `n`: nothing changes; a node
of the open set is relaxed; a node outside the open set is relaxed in place (phase
1); the node is initialised and pushed; the node is initialised and deferred. -/
theorem rg_cases (c : chase_config) (d : Bool) (current : node_ptr) (st : chase_state)
    (e : Nat × ℚ) :
    (¬ ((st.mem current).get_g + e.2 < (st.mem ⟨d, e.1⟩).get_g) ∧
      ((⟨d, e.1⟩ : node_ptr) ∈ st.open_ d ∨
        (st.phase_ = 1 ∧
          (st.mem ⟨d, e.1⟩).get_search_id = (st.mem current).get_search_id)) ∧
      (relax_or_generate c d current st e).mem = st.mem ∧
      (relax_or_generate c d current st e).open_ = st.open_ ∧
      (relax_or_generate c d current st e).norelax_ = st.norelax_ ∧
      (relax_or_generate c d current st e).core_lb = st.core_lb) ∨
    ((⟨d, e.1⟩ : node_ptr) ∈ st.open_ d ∧
      (st.mem current).get_g + e.2 < (st.mem ⟨d, e.1⟩).get_g ∧
      (relax_or_generate c d current st e).mem = store st.mem ⟨d, e.1⟩
        ((st.mem ⟨d, e.1⟩).relax ((st.mem current).get_g + e.2) (some current)) ∧
      (relax_or_generate c d current st e).open_ = st.open_ ∧
      (relax_or_generate c d current st e).norelax_ = st.norelax_ ∧
      (relax_or_generate c d current st e).core_lb = st.core_lb) ∨
    ((⟨d, e.1⟩ : node_ptr) ∉ st.open_ d ∧ st.phase_ = 1 ∧
      (st.mem ⟨d, e.1⟩).get_search_id = (st.mem current).get_search_id ∧
      (st.mem current).get_g + e.2 < (st.mem ⟨d, e.1⟩).get_g ∧
      (relax_or_generate c d current st e).mem = store st.mem ⟨d, e.1⟩
        ((st.mem ⟨d, e.1⟩).relax ((st.mem current).get_g + e.2) (some current)) ∧
      (relax_or_generate c d current st e).open_ = st.open_ ∧
      (relax_or_generate c d current st e).norelax_ = st.norelax_ ∧
      (relax_or_generate c d current st e).core_lb
        = set_dir st.core_lb d (min ((st.mem current).get_g + e.2) (st.core_lb d))) ∨
    ((⟨d, e.1⟩ : node_ptr) ∉ st.open_ d ∧
      ¬ (st.phase_ = 1 ∧
        (st.mem ⟨d, e.1⟩).get_search_id = (st.mem current).get_search_id) ∧
      (st.phase_ = 2 ∨
        (c.expander d).get_rank (st.mem ⟨d, e.1⟩).get_id < c.max_phase1_rank_) ∧
      (relax_or_generate c d current st e).mem = store st.mem ⟨d, e.1⟩
        ((st.mem ⟨d, e.1⟩).init (st.mem current).get_search_id (some current)
          ((st.mem current).get_g + e.2)
          ((st.mem current).get_g + e.2
            + c.heuristic_ (st.mem ⟨d, e.1⟩).get_id st.pi_.target_id_)) ∧
      (relax_or_generate c d current st e).open_
        = set_dir st.open_ d (st.open_ d ++ [⟨d, e.1⟩]) ∧
      (relax_or_generate c d current st e).norelax_ = st.norelax_ ∧
      (relax_or_generate c d current st e).core_lb = st.core_lb) ∨
    ((⟨d, e.1⟩ : node_ptr) ∉ st.open_ d ∧
      ¬ (st.phase_ = 1 ∧
        (st.mem ⟨d, e.1⟩).get_search_id = (st.mem current).get_search_id) ∧
      ¬ (st.phase_ = 2 ∨
        (c.expander d).get_rank (st.mem ⟨d, e.1⟩).get_id < c.max_phase1_rank_) ∧
      (relax_or_generate c d current st e).mem = store st.mem ⟨d, e.1⟩
        ((st.mem ⟨d, e.1⟩).init (st.mem current).get_search_id (some current)
          ((st.mem current).get_g + e.2)
          ((st.mem current).get_g + e.2
            + c.heuristic_ (st.mem ⟨d, e.1⟩).get_id st.pi_.target_id_)) ∧
      (relax_or_generate c d current st e).open_ = st.open_ ∧
      (relax_or_generate c d current st e).norelax_
        = set_dir st.norelax_ d (st.norelax_ d ++ [⟨d, e.1⟩]) ∧
      (relax_or_generate c d current st e).core_lb
        = set_dir st.core_lb d (min ((st.mem current).get_g + e.2) (st.core_lb d))) := by
  unfold relax_or_generate
  dsimp only
  by_cases h1 : (⟨d, e.1⟩ : node_ptr) ∈ st.open_ d
  · have hc : pqueue.contains (st.open_ d) ⟨d, e.1⟩ = true := by
      simpa [pqueue.contains] using h1
    rw [hc]
    simp only [if_true]
    by_cases h2 : (st.mem current).get_g + e.2 < (st.mem ⟨d, e.1⟩).get_g
    · rw [if_pos h2]
      exact Or.inr (Or.inl ⟨h1, h2, rfl, rfl, rfl, rfl⟩)
    · rw [if_neg h2]
      exact Or.inl ⟨h2, Or.inl h1, rfl, rfl, rfl, rfl⟩
  · have hc : pqueue.contains (st.open_ d) ⟨d, e.1⟩ = false := by
      simpa [pqueue.contains] using h1
    rw [hc]
    simp only [Bool.false_eq_true, if_false]
    by_cases h3 : st.phase_ = 1 ∧
        (st.mem ⟨d, e.1⟩).get_search_id = (st.mem current).get_search_id
    · rw [if_pos h3]
      by_cases h2 : (st.mem current).get_g + e.2 < (st.mem ⟨d, e.1⟩).get_g
      · rw [if_pos h2]
        exact Or.inr (Or.inr (Or.inl ⟨h1, h3.1, h3.2, h2, rfl, rfl, rfl,
          core_lb_update_eq _ _ _⟩))
      · rw [if_neg h2]
        exact Or.inl ⟨h2, Or.inr h3, rfl, rfl, rfl, rfl⟩
    · rw [if_neg h3]
      by_cases h5 : st.phase_ = 2 ∨
          (c.expander d).get_rank (st.mem ⟨d, e.1⟩).get_id < c.max_phase1_rank_
      · rw [if_pos (by simpa using h5)]
        exact Or.inr (Or.inr (Or.inr (Or.inl ⟨h1, h3, h5, rfl, rfl, rfl, rfl⟩)))
      · rw [if_neg (by simpa using h5)]
        exact Or.inr (Or.inr (Or.inr (Or.inr ⟨h1, h3, h5, rfl, rfl, rfl,
          core_lb_update_eq _ _ _⟩)))

end chase_search

namespace chase_search

/-! ### The open set: `pop` returns a node of least f -/

theorem lt_false_imp_f_le (a b : search_node) (h : search_node.lt a b = false) :
    b.f_ ≤ a.f_ := by
  unfold search_node.lt at h
  split_ifs at h with h1 h2 h3
  · exact le_of_lt h2
  · exact not_lt.mp h1

theorem lt_true_imp_f_le (a b : search_node) (h : search_node.lt a b = true) :
    a.f_ ≤ b.f_ := by
  unfold search_node.lt at h
  split_ifs at h with h1 h2 h3
  · exact le_of_lt h1
  · exact not_lt.mp h2

theorem foldl_min_spec (mem : node_ptr → search_node) (xs : List node_ptr) (x : node_ptr) :
    xs.foldl (fun b y => if search_node.lt (mem y) (mem b) then y else b) x ∈ x :: xs ∧
    ∀ y ∈ x :: xs,
      (mem (xs.foldl (fun b y => if search_node.lt (mem y) (mem b) then y else b) x)).f_
        ≤ (mem y).f_ := by
  induction xs generalizing x with
  | nil => simp
  | cons z zs ih =>
    rw [List.foldl_cons]
    generalize hb : (if search_node.lt (mem z) (mem x) then z else x) = b0
    have hb0 : b0 = x ∨ b0 = z := by
      rw [← hb]; split_ifs
      · exact Or.inr rfl
      · exact Or.inl rfl
    have hbx : (mem b0).f_ ≤ (mem x).f_ := by
      rw [← hb]
      by_cases hlt : search_node.lt (mem z) (mem x) = true
      · rw [if_pos hlt]; exact lt_true_imp_f_le _ _ hlt
      · rw [if_neg hlt]
    have hbz : (mem b0).f_ ≤ (mem z).f_ := by
      rw [← hb]
      by_cases hlt : search_node.lt (mem z) (mem x) = true
      · rw [if_pos hlt]
      · rw [if_neg hlt]; exact lt_false_imp_f_le _ _ (by simpa using hlt)
    obtain ⟨h1, h2⟩ := ih b0
    constructor
    · rcases List.mem_cons.mp h1 with h | h
      · rw [h]
        rcases hb0 with h0 | h0 <;> rw [h0] <;> simp
      · exact List.mem_cons_of_mem _ (List.mem_cons_of_mem _ h)
    · intro y hy
      have h3 := h2 b0 (List.mem_cons_self _ _)
      rcases List.mem_cons.mp hy with h | h
      · rw [h]; exact le_trans h3 hbx
      · rcases List.mem_cons.mp h with h | h
        · rw [h]; exact le_trans h3 hbz
        · exact h2 y (List.mem_cons_of_mem _ h)

theorem pop_spec {mem : node_ptr → search_node} {q rest : List node_ptr} {cur : node_ptr}
    (h : pqueue.pop mem q = some (cur, rest)) :
    cur ∈ q ∧ rest = q.erase cur ∧ ∀ y ∈ q, (mem cur).get_f ≤ (mem y).get_f := by
  unfold pqueue.pop at h
  cases q with
  | nil => simp [pqueue.peek] at h
  | cons x xs =>
    simp only [pqueue.peek, Option.some.injEq, Prod.mk.injEq] at h
    obtain ⟨h1, h2⟩ := h
    obtain ⟨k1, k2⟩ := foldl_min_spec mem xs x
    rw [h1] at k1 k2 h2
    exact ⟨k1, h2.symm, k2⟩

/-! ### Where the open sets change in one pass of the successor loop -/

section lists
variable (c : chase_config) (d : Bool) (current : node_ptr) (st : chase_state) (e : Nat × ℚ)

theorem rg_open_mem {x : node_ptr} {d1 : Bool}
    (h : x ∈ (relax_or_generate c d current st e).open_ d1) :
    x ∈ st.open_ d1 ∨
      (x = ⟨d, e.1⟩ ∧ d1 = d ∧ (⟨d, e.1⟩ : node_ptr) ∉ st.open_ d ∧
        (st.phase_ = 2 ∨
          (c.expander d).get_rank (st.mem ⟨d, e.1⟩).get_id < c.max_phase1_rank_)) := by
  rcases rg_cases c d current st e with
    ⟨_, _, _, ho, _, _⟩ | ⟨_, _, _, ho, _, _⟩ | ⟨_, _, _, _, _, ho, _, _⟩ |
    ⟨h1, _, h3, _, ho, _, _⟩ | ⟨_, _, _, _, ho, _, _⟩
  · rw [ho] at h; exact Or.inl h
  · rw [ho] at h; exact Or.inl h
  · rw [ho] at h; exact Or.inl h
  · rw [ho] at h
    by_cases hd : d1 = d
    · subst hd
      rw [set_dir_same, List.mem_append, List.mem_singleton] at h
      rcases h with h | h
      · exact Or.inl h
      · exact Or.inr ⟨h, rfl, h1, h3⟩
    · rw [set_dir_other _ _ hd] at h
      exact Or.inl h
  · rw [ho] at h; exact Or.inl h

theorem expand_succ_open_mem {x : node_ptr} {d1 : Bool}
    (h : x ∈ (expand_succ c d current st e).open_ d1) :
    x ∈ st.open_ d1 ∨
      (x = ⟨d, e.1⟩ ∧ d1 = d ∧ (⟨d, e.1⟩ : node_ptr) ∉ st.open_ d ∧
        (st.phase_ = 2 ∨
          (c.expander d).get_rank (st.mem ⟨d, e.1⟩).get_id < c.max_phase1_rank_)) := by
  unfold expand_succ at h
  dsimp only at h
  split_ifs at h
  · exact Or.inl h
  · rw [update_best_open] at h
    exact rg_open_mem c d current (touch st) e h

end lists

theorem open_below_core_invariant (c : chase_config) (mem : node_ptr → search_node)
    (pi : problem_instance) (sol : solution) (st : chase_state)
    (h : at_point c mem pi sol st) : open_below_core c pi st := by
  have key := (@search_invariant c mem pi sol
    (open_below_core c pi) (fun _ _ => open_below_core c pi)
    ?_ ?_ ?_ ?_ ?_ ?_ ?_ ?_).2 st h
  · rcases key with h | ⟨_, _, h⟩ <;> exact h
  · intro _ d x hx
    left
    cases d <;> simpa [search_init, pqueue.push, seed] using hx
  · intro st k h; exact h
  · intro st b h; exact h
  · intro st d cur rest hI hpop hf hp d1 x hx
    apply hI hp d1 x
    by_cases hd : d1 = d
    · subst hd
      simp only [set_dir_same] at hx
      rw [(pop_spec hpop).2.1] at hx
      exact List.mem_of_mem_erase hx
    · simpa [set_dir_other _ _ hd] using hx
  · intro st d cur rest hI hpop hf hp d1 x hx
    have hid : ∀ p, ((expand_begin cur
        { st with open_ := set_dir st.open_ d rest }).mem p).get_id = (st.mem p).get_id := by
      intro p
      unfold expand_begin store
      dsimp only
      split_ifs with hq
      · rw [search_node.get_id_set_expanded, hq]
      · rfl
    rw [hid]
    apply hI hp d1 x
    by_cases hd : d1 = d
    · subst hd
      simp only [expand_begin, set_dir_same] at hx
      rw [(pop_spec hpop).2.1] at hx
      exact List.mem_of_mem_erase hx
    · simpa [expand_begin, set_dir_other _ _ hd] using hx
  · intro st d cur e hJ _ hp d1 x hx
    rw [expand_succ_phase] at hp
    rw [expand_succ_get_id]
    rcases expand_succ_open_mem c d cur st e hx with h | ⟨h1, h2, _, h4⟩
    · exact hJ hp d1 x h
    · subst h1 h2
      right
      rcases h4 with h4 | h4
      · rw [hp] at h4; exact absurd h4 (by decide)
      · exact h4
  · intro st d cur h; exact h
  · intro st hI hp _ _ _ _ hp2
    exact absurd hp2 (by simp [enter_phase2])

end chase_search

namespace chase_search

theorem run_passes_at_loop_head {c : chase_config} {mem : node_ptr → search_node}
    {pi : problem_instance} {sol : solution} (k : Nat) (st0 st : chase_state)
    (h0 : at_loop_head c mem pi sol st0) (h : run_passes c k st0 = some st) :
    at_loop_head c mem pi sol st := by
  induction k generalizing st0 with
  | zero =>
    simp only [run_passes, Option.some.injEq] at h
    rw [← h]; exact h0
  | succ k ih =>
    unfold run_passes at h
    split at h
    · rename_i st1 hi
      exact ih st1 (at_loop_head.pass h0 hi) h
    · cases h

theorem run_passes_getD_at_loop_head {c : chase_config} {mem : node_ptr → search_node}
    {pi : problem_instance} {sol : solution} (k : Nat)
    (h : (run_passes c k (search_init c mem pi sol)).isSome = true) :
    at_loop_head c mem pi sol
      ((run_passes c k (search_init c mem pi sol)).getD (search_init c mem pi sol)) := by
  cases hr : run_passes c k (search_init c mem pi sol) with
  | none => rw [hr] at h; cases h
  | some st => exact run_passes_at_loop_head k _ st at_loop_head.init hr

end chase_search

namespace chase_search

/-! ### The structural invariant -/

theorem foldl_push_nil (l : List node_ptr) : l.foldl pqueue.push [] = l := by
  have h : ∀ (acc : List node_ptr), l.foldl pqueue.push acc = acc ++ l := by
    induction l with
    | nil => intro acc; simp
    | cons x xs ih => intro acc; simp [List.foldl_cons, ih, pqueue.push]
  simpa using h []

theorem seed_bwd (pi : problem_instance) (d : Bool) : (seed pi d).bwd = d := by
  cases d <;> rfl

section basic
variable {c : chase_config} {pi : problem_instance} {N : Nat}
  {mem : node_ptr → search_node} {o nr : Bool → List node_ptr} {ph : Nat}

theorem basic_inv_store (hb : basic_inv c pi N mem o nr ph) (n : node_ptr)
    (node : search_node) (hid : node.get_id = (mem n).get_id)
    (hexp : node.get_expanded = (mem n).get_expanded)
    (hsid : (mem n).get_search_id = pi.instance_id_ → node.get_search_id = pi.instance_id_) :
    basic_inv c pi N (store mem n node) o nr ph := by
  have hS : ∀ p, (mem p).get_search_id = pi.instance_id_ →
      (store mem n node p).get_search_id = pi.instance_id_ := by
    intro p hp
    by_cases h : p = n
    · subst h; rw [store_same]; exact hsid hp
    · rw [store_other _ _ h]; exact hp
  have hE : ∀ p, (store mem n node p).get_expanded = (mem p).get_expanded := by
    intro p
    by_cases h : p = n
    · subst h; rw [store_same]; exact hexp
    · rw [store_other _ _ h]
  refine ⟨?_, hb.phase, ?_, ?_, ?_, hb.open_nodup, hb.norelax_nodup, hb.open_rank,
    hb.seed_lt, ?_, ?_⟩
  · intro p hp
    by_cases h : p = n
    · subst h; rw [store_same, hid]; exact hb.ids p hp
    · rw [store_other _ _ h]; exact hb.ids p hp
  · intro d p hp
    obtain ⟨h1, h2, h3, h4⟩ := hb.open_ok d p hp
    exact ⟨h1, h2, hS p h3, by rw [hE]; exact h4⟩
  · intro d p hp
    obtain ⟨h1, h2, h3, h4⟩ := hb.norelax_ok d p hp
    exact ⟨h1, h2, hS p h3, h4⟩
  · intro h1 d p hp
    obtain ⟨h2, h3⟩ := hb.norelax_p1 h1 d p hp
    exact ⟨by rw [hE]; exact h2, h3⟩
  · intro d; exact hS _ (hb.seed_sid d)
  · intro d
    rcases hb.seed_ok d with h | h
    · left; rw [hE]; exact h
    · right; exact h

theorem basic_inv_push (hb : basic_inv c pi N mem o nr ph) (d : Bool) (n : node_ptr)
    (hno : n ∉ o d) (hbwd : n.bwd = d) (hlt : n.key < N)
    (hsid : (mem n).get_search_id = pi.instance_id_)
    (hexp : (mem n).get_expanded = false)
    (hp1 : ph = 1 → n ∉ nr d ∧ (c.expander d).get_rank n.key < c.max_phase1_rank_)
    (hseed : (mem (seed pi d)).get_expanded = true) :
    basic_inv c pi N mem (set_dir o d (o d ++ [n])) nr ph := by
  have hmem : ∀ d1 p, p ∈ set_dir o d (o d ++ [n]) d1 → p ∈ o d1 ∨ (d1 = d ∧ p = n) := by
    intro d1 p hp
    by_cases hd : d1 = d
    · subst hd
      rw [set_dir_same, List.mem_append, List.mem_singleton] at hp
      rcases hp with h | h
      · exact Or.inl h
      · exact Or.inr ⟨rfl, h⟩
    · rw [set_dir_other _ _ hd] at hp; exact Or.inl hp
  refine ⟨hb.ids, hb.phase, ?_, hb.norelax_ok, ?_, ?_, hb.norelax_nodup, ?_,
    hb.seed_lt, hb.seed_sid, ?_⟩
  · intro d1 p hp
    rcases hmem d1 p hp with h | ⟨h1, h2⟩
    · exact hb.open_ok d1 p h
    · subst h1 h2; exact ⟨hbwd, hlt, hsid, hexp⟩
  · intro h1 d1 p hp
    obtain ⟨h2, h3⟩ := hb.norelax_p1 h1 d1 p hp
    refine ⟨h2, ?_⟩
    intro h4
    rcases hmem d1 p h4 with h | ⟨h5, h6⟩
    · exact h3 h
    · subst h5 h6; exact (hp1 h1).1 hp
  · intro d1
    by_cases hd : d1 = d
    · subst hd
      rw [set_dir_same]
      exact List.Nodup.append (hb.open_nodup d1) (List.nodup_singleton n)
        (by simpa using hno)
    · rw [set_dir_other _ _ hd]; exact hb.open_nodup d1
  · intro h1 d1 p hp
    rcases hmem d1 p hp with h | ⟨h2, h3⟩
    · exact hb.open_rank h1 d1 p h
    · subst h2 h3; exact Or.inr (hp1 h1).2
  · intro d1
    by_cases hd : d1 = d
    · subst hd; exact Or.inl hseed
    · rcases hb.seed_ok d1 with h | h
      · exact Or.inl h
      · right; rw [set_dir_other _ _ hd]; exact h

theorem basic_inv_defer (hb : basic_inv c pi N mem o nr ph) (d : Bool) (n : node_ptr)
    (hnn : n ∉ nr d) (hno : n ∉ o d) (hbwd : n.bwd = d) (hlt : n.key < N)
    (hsid : (mem n).get_search_id = pi.instance_id_)
    (hexp : (mem n).get_expanded = false)
    (hrank : c.max_phase1_rank_ ≤ (c.expander d).get_rank n.key)
    (hseed : (mem (seed pi d)).get_expanded = true) :
    basic_inv c pi N mem o (set_dir nr d (nr d ++ [n])) ph := by
  have hmem : ∀ d1 p, p ∈ set_dir nr d (nr d ++ [n]) d1 → p ∈ nr d1 ∨ (d1 = d ∧ p = n) := by
    intro d1 p hp
    by_cases hd : d1 = d
    · subst hd
      rw [set_dir_same, List.mem_append, List.mem_singleton] at hp
      rcases hp with h | h
      · exact Or.inl h
      · exact Or.inr ⟨rfl, h⟩
    · rw [set_dir_other _ _ hd] at hp; exact Or.inl hp
  refine ⟨hb.ids, hb.phase, hb.open_ok, ?_, ?_, hb.open_nodup, ?_, hb.open_rank,
    hb.seed_lt, hb.seed_sid, ?_⟩
  · intro d1 p hp
    rcases hmem d1 p hp with h | ⟨h1, h2⟩
    · exact hb.norelax_ok d1 p h
    · subst h1 h2; exact ⟨hbwd, hlt, hsid, hrank⟩
  · intro h1 d1 p hp
    rcases hmem d1 p hp with h | ⟨h2, h3⟩
    · exact hb.norelax_p1 h1 d1 p h
    · subst h2 h3; exact ⟨hexp, hno⟩
  · intro d1
    by_cases hd : d1 = d
    · subst hd
      rw [set_dir_same]
      exact List.Nodup.append (hb.norelax_nodup d1) (List.nodup_singleton n)
        (by simpa using hnn)
    · rw [set_dir_other _ _ hd]; exact hb.norelax_nodup d1
  · intro d1
    by_cases hd : d1 = d
    · subst hd; exact Or.inl hseed
    · rcases hb.seed_ok d1 with h | h
      · exact Or.inl h
      · right; rw [set_dir_other _ _ hd]; exact h

theorem basic_inv_erase (hb : basic_inv c pi N mem o nr ph) (d : Bool) (cur : node_ptr) :
    basic_inv c pi N mem (set_dir o d ((o d).erase cur)) nr ph := by
  have hmem : ∀ d1 p, p ∈ set_dir o d ((o d).erase cur) d1 → p ∈ o d1 := by
    intro d1 p hp
    by_cases hd : d1 = d
    · subst hd
      rw [set_dir_same] at hp
      exact List.mem_of_mem_erase hp
    · rw [set_dir_other _ _ hd] at hp; exact hp
  refine ⟨hb.ids, hb.phase, ?_, hb.norelax_ok, ?_, ?_, hb.norelax_nodup, ?_,
    hb.seed_lt, hb.seed_sid, ?_⟩
  · intro d1 p hp; exact hb.open_ok d1 p (hmem d1 p hp)
  · intro h1 d1 p hp
    obtain ⟨h2, h3⟩ := hb.norelax_p1 h1 d1 p hp
    exact ⟨h2, fun h => h3 (hmem d1 p h)⟩
  · intro d1
    by_cases hd : d1 = d
    · subst hd
      rw [set_dir_same]
      exact (hb.open_nodup d1).erase cur
    · rw [set_dir_other _ _ hd]; exact hb.open_nodup d1
  · intro h1 d1 p hp; exact hb.open_rank h1 d1 p (hmem d1 p hp)
  · intro d1
    rcases hb.seed_ok d1 with h | h
    · exact Or.inl h
    · exact Or.inr ⟨h.1, fun p hp => h.2 p (hmem d1 p hp)⟩

theorem basic_begin (hb : basic_inv c pi N mem o nr ph) (d : Bool) (cur : node_ptr)
    (hcur : cur ∈ o d) :
    basic_mid c pi N d cur (store mem cur ((mem cur).set_expanded true))
      (set_dir o d ((o d).erase cur)) nr ph := by
  obtain ⟨c1, c2, c3, c4⟩ := hb.open_ok d cur hcur
  have hb1 := basic_inv_erase hb d cur
  have hnot : ∀ d1, cur ∉ set_dir o d ((o d).erase cur) d1 := by
    intro d1 h
    by_cases hd : d1 = d
    · subst hd
      rw [set_dir_same] at h
      exact (List.Nodup.mem_erase_iff (hb.open_nodup d1)).mp h |>.1 rfl
    · rw [set_dir_other _ _ hd] at h
      exact hd ((hb.open_ok d1 cur h).1.symm.trans c1)
  have hE : ∀ p, p ≠ cur →
      (store mem cur ((mem cur).set_expanded true) p) = mem p :=
    fun p hp => store_other _ _ hp
  have hS : ∀ p, (store mem cur ((mem cur).set_expanded true) p).get_search_id
      = (mem p).get_search_id := by
    intro p
    by_cases h : p = cur
    · subst h; rw [store_same]; rfl
    · rw [hE p h]
  have hX : ∀ p, (mem p).get_expanded = true →
      (store mem cur ((mem cur).set_expanded true) p).get_expanded = true := by
    intro p hp
    by_cases h : p = cur
    · subst h; rw [store_same]; simp
    · rw [hE p h]; exact hp
  have hseedd : (store mem cur ((mem cur).set_expanded true) (seed pi d)).get_expanded
      = true := by
    rcases hb.seed_ok d with h | h
    · exact hX _ h
    · rw [← h.2 cur hcur, store_same]; simp
  refine ⟨⟨?_, hb.phase, ?_, ?_, ?_, hb1.open_nodup, hb.norelax_nodup, hb1.open_rank,
    hb.seed_lt, ?_, ?_⟩, c1, c2, ?_, ?_, hseedd⟩
  · intro p hp
    by_cases h : p = cur
    · subst h; rw [store_same, search_node.get_id_set_expanded]; exact hb.ids p hp
    · rw [hE p h]; exact hb.ids p hp
  · intro d1 p hp
    have hne : p ≠ cur := fun h => hnot d1 (h ▸ hp)
    rw [hE p hne]
    exact hb1.open_ok d1 p hp
  · intro d1 p hp
    obtain ⟨h1, h2, h3, h4⟩ := hb.norelax_ok d1 p hp
    exact ⟨h1, h2, by rw [hS]; exact h3, h4⟩
  · intro h1 d1 p hp
    obtain ⟨h2, h3⟩ := hb.norelax_p1 h1 d1 p hp
    have hne : p ≠ cur := by
      intro h
      subst h
      by_cases hd : d1 = d
      · subst hd; exact h3 hcur
      · exact hd ((hb.norelax_ok d1 p hp).1.symm.trans c1)
    rw [hE p hne]
    exact ⟨h2, (hb1.norelax_p1 h1 d1 p hp).2⟩
  · intro d1; rw [hS]; exact hb.seed_sid d1
  · intro d1
    rcases hb1.seed_ok d1 with h | h
    · exact Or.inl (hX _ h)
    · exact Or.inr h
  · rw [hS]; exact c3
  · rw [store_same]; simp

theorem basic_phase2 (hb : basic_inv c pi N mem o nr ph) (hph : ph = 1) :
    basic_inv c pi N mem (fun d => (nr d).foldl pqueue.push []) nr 2 := by
  refine ⟨hb.ids, Or.inr rfl, ?_, hb.norelax_ok, ?_, ?_, hb.norelax_nodup, ?_,
    hb.seed_lt, hb.seed_sid, ?_⟩
  · intro d p hp
    rw [foldl_push_nil] at hp
    obtain ⟨h1, h2, h3, _⟩ := hb.norelax_ok d p hp
    exact ⟨h1, h2, h3, (hb.norelax_p1 hph d p hp).1⟩
  · intro h; exact absurd h (by decide)
  · intro d; rw [foldl_push_nil]; exact hb.norelax_nodup d
  · intro h; exact absurd h (by decide)
  · intro d
    rcases hb.seed_ok d with h | h
    · exact Or.inl h
    · right
      refine ⟨h.1, ?_⟩
      intro p hp
      rw [foldl_push_nil, h.1] at hp
      cases hp

end basic

end chase_search

namespace chase_search

section basic_steps
variable {c : chase_config} {pi : problem_instance} {N : Nat}

theorem basic_init {mem : node_ptr → search_node} (henv : env_ok c pi N mem)
    (sol : solution) :
    basic_inv c pi N (search_init c mem pi sol).mem (search_init c mem pi sol).open_
      (search_init c mem pi sol).norelax_ (search_init c mem pi sol).phase_ := by
  have hne : (generate_target_node pi) ≠ (generate_start_node pi) := by
    intro h
    have := congrArg node_ptr.bwd h
    simp [generate_target_node, generate_start_node] at this
  have hseedlt : ∀ d, (seed pi d).key < N := by
    intro d
    cases d
    · exact henv.start_lt
    · exact henv.target_lt
  have hopen : ∀ d p, p ∈ (search_init c mem pi sol).open_ d → p = seed pi d := by
    intro d p hp
    cases d <;> simpa [search_init, pqueue.push, seed] using hp
  have hsid : ∀ d, ((search_init c mem pi sol).mem (seed pi d)).get_search_id
      = pi.instance_id_ := by
    intro d
    cases d
    · simp [search_init, seed, store_other _ _ hne.symm]
    · simp [search_init, seed]
  have hexp : ∀ d, ((search_init c mem pi sol).mem (seed pi d)).get_expanded = false := by
    intro d
    cases d
    · simp [search_init, seed, store_other _ _ hne.symm]
    · simp [search_init, seed]
  refine ⟨?_, Or.inl rfl, ?_, ?_, ?_, ?_, ?_, ?_, hseedlt, hsid, ?_⟩
  · intro p hp
    simp only [search_init]
    by_cases h1 : p = generate_target_node pi
    · subst h1
      rw [store_same, search_node.get_id_init, store_other _ _ hne]
      exact henv.ids _ hp
    · rw [store_other _ _ h1]
      by_cases h2 : p = generate_start_node pi
      · subst h2
        rw [store_same, search_node.get_id_init]
        exact henv.ids _ hp
      · rw [store_other _ _ h2]
        exact henv.ids _ hp
  · intro d p hp
    rw [hopen d p hp]
    exact ⟨seed_bwd pi d, hseedlt d, hsid d, hexp d⟩
  · intro d p hp
    simp [search_init] at hp
  · intro _ d p hp
    simp [search_init] at hp
  · intro d
    cases d <;> simp [search_init, pqueue.push]
  · intro d
    simp [search_init]
  · intro _ d p hp
    exact Or.inl (hopen d p hp)
  · intro d
    right
    exact ⟨by simp [search_init], hopen d⟩

theorem basic_rg {d : Bool} {cur : node_ptr} {st : chase_state} {e : Nat × ℚ}
    (hm : basic_mid c pi N d cur st.mem st.open_ st.norelax_ st.phase_)
    (he : e.1 < N) (hn : (st.mem ⟨d, e.1⟩).get_expanded = false) :
    basic_mid c pi N d cur (relax_or_generate c d cur st e).mem
      (relax_or_generate c d cur st e).open_ (relax_or_generate c d cur st e).norelax_
      (relax_or_generate c d cur st e).phase_ := by
  have hb := hm.inv
  have hnc : cur ≠ ⟨d, e.1⟩ := by
    intro h
    have := hm.cur_expanded
    rw [h, hn] at this
    cases this
  have hns : seed pi d ≠ ⟨d, e.1⟩ := by
    intro h
    have := hm.seed_expanded
    rw [h, hn] at this
    cases this
  have hidn : (st.mem ⟨d, e.1⟩).get_id = e.1 := hb.ids ⟨d, e.1⟩ he
  rw [rg_phase]
  rcases rg_cases c d cur st e with
    ⟨_, _, hmem, ho, hnr, _⟩ | ⟨_, _, hmem, ho, hnr, _⟩ | ⟨_, _, _, _, hmem, ho, hnr, _⟩ |
    ⟨h1, h2, h3, hmem, ho, hnr, _⟩ | ⟨h1, h2, h3, hmem, ho, hnr, _⟩
  · rw [hmem, ho, hnr]; exact hm
  · rw [hmem, ho, hnr]
    exact ⟨basic_inv_store hb _ _ rfl rfl id, hm.cur_bwd, hm.cur_lt,
      by rw [store_other _ _ hnc]; exact hm.cur_sid,
      by rw [store_other _ _ hnc]; exact hm.cur_expanded,
      by rw [store_other _ _ hns]; exact hm.seed_expanded⟩
  · rw [hmem, ho, hnr]
    exact ⟨basic_inv_store hb _ _ rfl rfl id, hm.cur_bwd, hm.cur_lt,
      by rw [store_other _ _ hnc]; exact hm.cur_sid,
      by rw [store_other _ _ hnc]; exact hm.cur_expanded,
      by rw [store_other _ _ hns]; exact hm.seed_expanded⟩
  · rw [hmem, ho, hnr]
    have hst := basic_inv_store hb ⟨d, e.1⟩
      ((st.mem ⟨d, e.1⟩).init (st.mem cur).get_search_id (some cur)
        ((st.mem cur).get_g + e.2)
        ((st.mem cur).get_g + e.2
          + c.heuristic_ (st.mem ⟨d, e.1⟩).get_id st.pi_.target_id_))
      (by simp) (by simp [hn]) (fun _ => by simp [hm.cur_sid])
    refine ⟨basic_inv_push hst d ⟨d, e.1⟩ h1 rfl he (by simp [hm.cur_sid]) (by simp)
      ?_ (by rw [store_other _ _ hns]; exact hm.seed_expanded), hm.cur_bwd, hm.cur_lt,
      by rw [store_other _ _ hnc]; exact hm.cur_sid,
      by rw [store_other _ _ hnc]; exact hm.cur_expanded,
      by rw [store_other _ _ hns]; exact hm.seed_expanded⟩
    intro hp
    constructor
    · intro hmemn
      apply h2
      exact ⟨hp, (hb.norelax_ok d _ hmemn).2.2.1.trans hm.cur_sid.symm⟩
    · rcases h3 with h3 | h3
      · rw [hp] at h3; exact absurd h3 (by decide)
      · rw [hidn] at h3; exact h3
  · rw [hmem, ho, hnr]
    have hp : st.phase_ = 1 := by
      rcases hb.phase with h | h
      · exact h
      · exact absurd (Or.inl h) h3
    have hst := basic_inv_store hb ⟨d, e.1⟩
      ((st.mem ⟨d, e.1⟩).init (st.mem cur).get_search_id (some cur)
        ((st.mem cur).get_g + e.2)
        ((st.mem cur).get_g + e.2
          + c.heuristic_ (st.mem ⟨d, e.1⟩).get_id st.pi_.target_id_))
      (by simp) (by simp [hn]) (fun _ => by simp [hm.cur_sid])
    refine ⟨basic_inv_defer hst d ⟨d, e.1⟩ ?_ h1 rfl he (by simp [hm.cur_sid]) (by simp)
      ?_ (by rw [store_other _ _ hns]; exact hm.seed_expanded), hm.cur_bwd, hm.cur_lt,
      by rw [store_other _ _ hnc]; exact hm.cur_sid,
      by rw [store_other _ _ hnc]; exact hm.cur_expanded,
      by rw [store_other _ _ hns]; exact hm.seed_expanded⟩
    · intro hmemn
      apply h2
      exact ⟨hp, (hb.norelax_ok d _ hmemn).2.2.1.trans hm.cur_sid.symm⟩
    · have h4 : ¬ ((c.expander d).get_rank (st.mem ⟨d, e.1⟩).get_id < c.max_phase1_rank_) :=
        fun h => h3 (Or.inr h)
      rw [hidn] at h4
      exact Nat.not_lt.mp h4

theorem basic_succ {d : Bool} {cur : node_ptr} {st : chase_state} {e : Nat × ℚ}
    (hm : basic_mid c pi N d cur st.mem st.open_ st.norelax_ st.phase_)
    (he : e.1 < N) :
    basic_mid c pi N d cur (expand_succ c d cur st e).mem
      (expand_succ c d cur st e).open_ (expand_succ c d cur st e).norelax_
      (expand_succ c d cur st e).phase_ := by
  unfold expand_succ
  dsimp only
  by_cases hn : ((touch st).mem ⟨d, e.1⟩).get_expanded = true
  · rw [if_pos hn]; exact hm
  · rw [if_neg hn]
    simp only [update_best_mem, update_best_open, update_best_norelax, update_best_phase]
    exact @basic_rg c pi N d cur (touch st) e hm he (by simpa using hn)

end basic_steps

end chase_search

namespace chase_search

/-! ### Where generated nodes are kept -/

section lists2
variable (c : chase_config) (d : Bool) (current : node_ptr) (st : chase_state) (e : Nat × ℚ)

theorem rg_open_other : (relax_or_generate c d current st e).open_ (!d) = st.open_ (!d) := by
  rcases rg_cases c d current st e with
    ⟨_, _, _, ho, _, _⟩ | ⟨_, _, _, ho, _, _⟩ | ⟨_, _, _, _, _, ho, _, _⟩ |
    ⟨_, _, _, _, ho, _, _⟩ | ⟨_, _, _, _, ho, _, _⟩ <;> rw [ho]
  rw [set_dir_not]

theorem rg_norelax_other :
    (relax_or_generate c d current st e).norelax_ (!d) = st.norelax_ (!d) := by
  rcases rg_cases c d current st e with
    ⟨_, _, _, _, ho, _⟩ | ⟨_, _, _, _, ho, _⟩ | ⟨_, _, _, _, _, _, ho, _⟩ |
    ⟨_, _, _, _, _, ho, _⟩ | ⟨_, _, _, _, _, ho, _⟩ <;> rw [ho]
  rw [set_dir_not]

theorem rg_open_sub {x : node_ptr} {d1 : Bool} (h : x ∈ st.open_ d1) :
    x ∈ (relax_or_generate c d current st e).open_ d1 := by
  rcases rg_cases c d current st e with
    ⟨_, _, _, ho, _, _⟩ | ⟨_, _, _, ho, _, _⟩ | ⟨_, _, _, _, _, ho, _, _⟩ |
    ⟨_, _, _, _, ho, _, _⟩ | ⟨_, _, _, _, ho, _, _⟩ <;> rw [ho] <;> try exact h
  by_cases hd : d1 = d
  · subst hd; rw [set_dir_same]; exact List.mem_append_left _ h
  · rw [set_dir_other _ _ hd]; exact h

theorem rg_norelax_sub {x : node_ptr} {d1 : Bool} (h : x ∈ st.norelax_ d1) :
    x ∈ (relax_or_generate c d current st e).norelax_ d1 := by
  rcases rg_cases c d current st e with
    ⟨_, _, _, _, ho, _⟩ | ⟨_, _, _, _, ho, _⟩ | ⟨_, _, _, _, _, _, ho, _⟩ |
    ⟨_, _, _, _, _, ho, _⟩ | ⟨_, _, _, _, _, ho, _⟩ <;> rw [ho] <;> try exact h
  by_cases hd : d1 = d
  · subst hd; rw [set_dir_same]; exact List.mem_append_left _ h
  · rw [set_dir_other _ _ hd]; exact h

theorem update_best_best_le :
    (update_best d current st e).best_cost_ ≤ st.best_cost_ := by
  unfold update_best
  dsimp only
  split_ifs with h1 h2
  · exact le_of_lt h2
  · exact le_refl _
  · exact le_refl _

end lists2

section cover
variable {c : chase_config} {pi : problem_instance} {N : Nat}

theorem covered_mono {d : Bool} {o nr o1 nr1 : Bool → List node_ptr} {ph : Nat}
    {p : node_ptr} (h : covered c d o nr ph p)
    (ho : ∀ x, x ∈ o d → x ∈ o1 d) (hn : ∀ x, x ∈ nr d → x ∈ nr1 d) :
    covered c d o1 nr1 ph p := by
  rcases h with h | h | h
  · exact Or.inl (ho p h)
  · exact Or.inr (Or.inl ⟨h.1, hn p h.2⟩)
  · exact Or.inr (Or.inr h)

theorem cover_dir_congr {d : Bool} {mem mem1 : node_ptr → search_node}
    {o nr o1 nr1 : Bool → List node_ptr} {ph : Nat} {best best1 : ℚ}
    (h : cover_dir c pi N d mem o nr ph best)
    (hmem : ∀ p : node_ptr, p.bwd = d → mem1 p = mem p)
    (hbwd : ∀ p, p ∈ o d → p.bwd = d)
    (ho : o1 d = o d) (hn : nr1 d = nr d) (hbest : best1 ≤ best) :
    cover_dir c pi N d mem1 o1 nr1 ph best1 := by
  intro p h1 h2 h3 h4
  rw [hmem p h1] at h3 h4
  rcases h p h1 h2 h3 h4 with h5 | h5
  · left
    exact covered_mono h5 (fun x hx => by rw [ho]; exact hx) (fun x hx => by rw [hn]; exact hx)
  · right
    refine ⟨?_, h5.2⟩
    intro y hy
    rw [ho] at hy
    rw [hmem y (hbwd y hy)]
    exact le_trans hbest (h5.1 y hy)

theorem tight_imp_cover {d : Bool} {mem : node_ptr → search_node}
    {o nr : Bool → List node_ptr} {ph : Nat} (best : ℚ)
    (h : tight_dir c pi N d mem o nr ph) : cover_dir c pi N d mem o nr ph best :=
  fun p h1 h2 h3 h4 => Or.inl (h p h1 h2 h3 h4)

theorem cover_init {mem : node_ptr → search_node} (henv : env_ok c pi N mem)
    (sol : solution) (d : Bool) :
    tight_dir c pi N d (search_init c mem pi sol).mem (search_init c mem pi sol).open_
      (search_init c mem pi sol).norelax_ (search_init c mem pi sol).phase_ := by
  intro p h1 h2 h3 _
  left
  have hp : p = seed pi d := by
    by_contra hne
    have hs : p ≠ generate_start_node pi := by
      intro h
      apply hne
      rw [h] at h1
      rw [h, ← h1]; rfl
    have ht : p ≠ generate_target_node pi := by
      intro h
      apply hne
      rw [h] at h1
      rw [h, ← h1]; rfl
    simp only [search_init] at h3
    rw [store_other _ _ ht, store_other _ _ hs] at h3
    exact henv.fresh p h2 h3
  rw [hp]
  cases d <;> simp [search_init, pqueue.push, seed]

theorem cover_drop {st : chase_state} {d : Bool} {cur : node_ptr} {rest : List node_ptr}
    (hb : basic_inv c pi N st.mem st.open_ st.norelax_ st.phase_)
    (hc : ∀ d1, cover_dir c pi N d1 st.mem st.open_ st.norelax_ st.phase_ st.best_cost_)
    (hpop : pqueue.pop st.mem (st.open_ d) = some (cur, rest))
    (hf : (st.mem cur).get_f ≥ st.best_cost_) (d1 : Bool) :
    cover_dir c pi N d1 st.mem (set_dir st.open_ d rest) st.norelax_ st.phase_
      st.best_cost_ := by
  obtain ⟨hcur, hrest, hmin⟩ := pop_spec hpop
  by_cases hd : d1 = d
  · subst hd
    have hst : stalled st.mem (set_dir st.open_ d1 rest d1) st.best_cost_ := by
      intro y hy
      rw [set_dir_same, hrest] at hy
      exact le_trans hf (hmin y (List.mem_of_mem_erase hy))
    intro p h1 h2 h3 h4
    by_cases hp : p = cur
    · right
      refine ⟨hst, ?_⟩
      intro hph
      rcases hb.open_rank hph d1 cur hcur with h | h
      · right; rw [hp]; exact h
      · left; rw [hp]; exact h
    · rcases hc d1 p h1 h2 h3 h4 with h5 | h5
      · left
        rcases h5 with h5 | h5 | h5
        · left
          rw [set_dir_same, hrest]
          exact (List.mem_erase_of_ne hp).mpr h5
        · exact Or.inr (Or.inl h5)
        · exact Or.inr (Or.inr h5)
      · right
        exact ⟨hst, h5.2⟩
  · exact cover_dir_congr (hc d1) (fun _ _ => rfl) (fun p hp => (hb.open_ok d1 p hp).1)
      (set_dir_other _ _ hd) rfl (le_refl _)

theorem cover_begin {st : chase_state} {d : Bool} {cur : node_ptr} {rest : List node_ptr}
    (hb : basic_inv c pi N st.mem st.open_ st.norelax_ st.phase_)
    (hc : ∀ d1, cover_dir c pi N d1 st.mem st.open_ st.norelax_ st.phase_ st.best_cost_)
    (hpop : pqueue.pop st.mem (st.open_ d) = some (cur, rest))
    (hf : ¬ ((st.mem cur).get_f ≥ st.best_cost_)) :
    tight_dir c pi N d (store st.mem cur ((st.mem cur).set_expanded true))
      (set_dir st.open_ d rest) st.norelax_ st.phase_ ∧
    cover_dir c pi N (!d) (store st.mem cur ((st.mem cur).set_expanded true))
      (set_dir st.open_ d rest) st.norelax_ st.phase_ st.best_cost_ := by
  obtain ⟨hcur, hrest, hmin⟩ := pop_spec hpop
  constructor
  · intro p h1 h2 h3 h4
    have hp : p ≠ cur := by
      intro h
      rw [h, store_same] at h4
      simp at h4
    rw [store_other _ _ hp] at h3 h4
    rcases hc d p h1 h2 h3 h4 with h5 | h5
    · rcases h5 with h5 | h5 | h5
      · left
        rw [set_dir_same, hrest]
        exact (List.mem_erase_of_ne hp).mpr h5
      · exact Or.inr (Or.inl h5)
      · exact Or.inr (Or.inr h5)
    · exact absurd (h5.1 cur hcur) hf
  · apply cover_dir_congr (hc (!d)) ?_ (fun p hp => (hb.open_ok (!d) p hp).1)
      (set_dir_not _ _ _) rfl (le_refl _)
    intro p hp
    apply store_other
    intro h
    rw [h, (hb.open_ok d cur hcur).1] at hp
    cases d <;> simp at hp

theorem cover_rg {d : Bool} {cur : node_ptr} {st : chase_state} {e : Nat × ℚ}
    (hm : basic_mid c pi N d cur st.mem st.open_ st.norelax_ st.phase_)
    (ht : tight_dir c pi N d st.mem st.open_ st.norelax_ st.phase_)
    (hn : (st.mem ⟨d, e.1⟩).get_expanded = false) :
    tight_dir c pi N d (relax_or_generate c d cur st e).mem
      (relax_or_generate c d cur st e).open_ (relax_or_generate c d cur st e).norelax_
      (relax_or_generate c d cur st e).phase_ := by
  intro p h1 h2 h3 h4
  rw [rg_phase]
  by_cases hp : p = ⟨d, e.1⟩
  · subst hp
    rcases rg_cases c d cur st e with
      ⟨_, _, hmem, ho, hnr, _⟩ | ⟨k1, _, hmem, ho, hnr, _⟩ |
      ⟨k1, k2, k3, _, hmem, ho, hnr, _⟩ |
      ⟨k1, k2, k3, hmem, ho, hnr, _⟩ | ⟨k1, k2, k3, hmem, ho, hnr, _⟩
    · rw [hmem] at h3 h4
      rw [ho, hnr]
      exact ht _ h1 h2 h3 h4
    · rw [ho]; exact Or.inl k1
    · rw [ho, hnr]
      exact ht _ h1 h2 (k3.trans hm.cur_sid) hn
    · rw [ho]
      left
      rw [set_dir_same]
      exact List.mem_append_right _ (List.mem_singleton_self _)
    · rw [hnr]
      right; left
      refine ⟨?_, ?_⟩
      · rcases hm.inv.phase with h | h
        · exact h
        · exact absurd (Or.inl h) k3
      · rw [set_dir_same]
        exact List.mem_append_right _ (List.mem_singleton_self _)
  · rw [rg_mem_other c d cur st e hp] at h3 h4
    exact covered_mono (ht p h1 h2 h3 h4) (fun x hx => rg_open_sub c d cur st e hx)
      (fun x hx => rg_norelax_sub c d cur st e hx)

theorem cover_succ {d : Bool} {cur : node_ptr} {st : chase_state} {e : Nat × ℚ}
    (hm : basic_mid c pi N d cur st.mem st.open_ st.norelax_ st.phase_)
    (ht : tight_dir c pi N d st.mem st.open_ st.norelax_ st.phase_)
    (hc : cover_dir c pi N (!d) st.mem st.open_ st.norelax_ st.phase_ st.best_cost_) :
    tight_dir c pi N d (expand_succ c d cur st e).mem (expand_succ c d cur st e).open_
      (expand_succ c d cur st e).norelax_ (expand_succ c d cur st e).phase_ ∧
    cover_dir c pi N (!d) (expand_succ c d cur st e).mem (expand_succ c d cur st e).open_
      (expand_succ c d cur st e).norelax_ (expand_succ c d cur st e).phase_
      (expand_succ c d cur st e).best_cost_ := by
  unfold expand_succ
  dsimp only
  by_cases hn : ((touch st).mem ⟨d, e.1⟩).get_expanded = true
  · rw [if_pos hn]; exact ⟨ht, hc⟩
  · rw [if_neg hn]
    simp only [update_best_mem, update_best_open, update_best_norelax, update_best_phase]
    refine ⟨@cover_rg c pi N d cur (touch st) e hm ht (by simpa using hn), ?_⟩
    rw [rg_phase]
    apply cover_dir_congr hc ?_ (fun p hp => (hm.inv.open_ok (!d) p hp).1)
      (rg_open_other c d cur (touch st) e) (rg_norelax_other c d cur (touch st) e)
    · exact le_trans (update_best_best_le d cur _ e) (le_of_eq (rg_best_cost c d cur _ e))
    · intro p hp
      apply rg_mem_other
      intro h
      rw [h] at hp
      cases d <;> simp at hp

theorem cover_phase2 {st : chase_state}
    (hb : basic_inv c pi N st.mem st.open_ st.norelax_ st.phase_)
    (hc : ∀ d1, cover_dir c pi N d1 st.mem st.open_ st.norelax_ st.phase_ st.best_cost_)
    (hph : st.phase_ = 1) (hempty : ∀ d1, st.open_ d1 = []) (d : Bool) :
    cover_dir c pi N d st.mem (fun d1 => (st.norelax_ d1).foldl pqueue.push [])
      st.norelax_ 2 st.best_cost_ := by
  intro p h1 h2 h3 h4
  rcases hc d p h1 h2 h3 h4 with h5 | h5
  · rcases h5 with h5 | h5 | h5
    · rw [hempty d] at h5; cases h5
    · left; left
      simp only [foldl_push_nil]; exact h5.2
    · rw [hph] at h5; exact absurd h5.1 (by decide)
  · rcases h5.2 hph with h6 | h6
    · left; right; right
      exact ⟨rfl, h6⟩
    · right
      refine ⟨?_, fun h => absurd h (by decide)⟩
      rw [h6] at h4
      rcases hb.seed_ok d with h7 | h7
      · rw [h7] at h4; cases h4
      · intro y hy
        simp only [foldl_push_nil, h7.1] at hy
        cases hy

end cover

end chase_search

namespace chase_search

/-! ### The core lower bounds -/

theorem foldr_min_min (l : List ℚ) (a D : ℚ) :
    l.foldr min (min a D) = min a (l.foldr min D) := by
  induction l with
  | nil => rfl
  | cons x xs ih => simp only [List.foldr_cons, ih]; exact min_left_comm x a _

theorem min_g_nil (mem : node_ptr → search_node) : min_g mem [] = DBL_MAX := rfl

theorem min_g_cons (mem : node_ptr → search_node) (x : node_ptr) (l : List node_ptr) :
    min_g mem (x :: l) = min (mem x).get_g (min_g mem l) := rfl

theorem min_g_append_singleton (mem : node_ptr → search_node) (l : List node_ptr)
    (n : node_ptr) : min_g mem (l ++ [n]) = min (mem n).get_g (min_g mem l) := by
  unfold min_g
  rw [List.map_append, List.foldr_append]
  simp only [List.map_cons, List.map_nil, List.foldr_cons, List.foldr_nil]
  exact foldr_min_min _ _ _

theorem min_g_congr {mem mem1 : node_ptr → search_node} {l : List node_ptr}
    (h : ∀ p ∈ l, (mem1 p).get_g = (mem p).get_g) : min_g mem1 l = min_g mem l := by
  induction l with
  | nil => rfl
  | cons x xs ih =>
    rw [min_g_cons, min_g_cons, h x (List.mem_cons_self _ _),
      ih (fun p hp => h p (List.mem_cons_of_mem _ hp))]

theorem min_g_le_of_mem {mem : node_ptr → search_node} {l : List node_ptr} {n : node_ptr}
    (h : n ∈ l) : min_g mem l ≤ (mem n).get_g := by
  induction l with
  | nil => cases h
  | cons x xs ih =>
    rw [min_g_cons]
    rcases List.mem_cons.mp h with h1 | h1
    · rw [h1]; exact min_le_left _ _
    · exact le_trans (min_le_right _ _) (ih h1)

theorem min_min_g_store (mem : node_ptr → search_node) (n : node_ptr) (node : search_node)
    (hle : node.get_g ≤ (mem n).get_g) (l : List node_ptr) :
    min node.get_g (min_g (store mem n node) l) = min node.get_g (min_g mem l) := by
  induction l with
  | nil => rfl
  | cons x xs ih =>
    rw [min_g_cons, min_g_cons, min_left_comm, ih]
    by_cases hx : x = n
    · subst hx
      rw [store_same, ← min_assoc, min_self, ← min_assoc, min_eq_left hle]
    · rw [store_other _ _ hx, min_left_comm]

theorem min_g_store_of_mem (mem : node_ptr → search_node) (n : node_ptr)
    (node : search_node) (hle : node.get_g ≤ (mem n).get_g) {l : List node_ptr}
    (hn : n ∈ l) :
    min_g (store mem n node) l = min node.get_g (min_g mem l) := by
  rw [← min_min_g_store mem n node hle l]
  have h : min_g (store mem n node) l ≤ node.get_g := by
    have := @min_g_le_of_mem (store mem n node) l n hn
    rwa [store_same] at this
  exact (min_eq_right h).symm

section lb
variable {c : chase_config} {pi : problem_instance} {N : Nat}

theorem lb_rg {d : Bool} {cur : node_ptr} {st : chase_state} {e : Nat × ℚ}
    (hm : basic_mid c pi N d cur st.mem st.open_ st.norelax_ st.phase_)
    (ht : tight_dir c pi N d st.mem st.open_ st.norelax_ st.phase_)
    (hl : lb_inv st.mem st.norelax_ st.core_lb st.phase_)
    (he : e.1 < N) (hn : (st.mem ⟨d, e.1⟩).get_expanded = false) :
    lb_inv (relax_or_generate c d cur st e).mem (relax_or_generate c d cur st e).norelax_
      (relax_or_generate c d cur st e).core_lb (relax_or_generate c d cur st e).phase_ := by
  have hb := hm.inv
  intro hph d1
  rw [rg_phase] at hph
  have hl1 := hl hph d1
  -- a node that does not carry the search id, or sits on the open set, is on no list
  have hnot_open : (⟨d, e.1⟩ : node_ptr) ∈ st.open_ d → ∀ d2,
      (⟨d, e.1⟩ : node_ptr) ∉ st.norelax_ d2 := by
    intro ho d2 hmem
    by_cases hd : d2 = d
    · subst hd; exact (hb.norelax_p1 hph d2 _ hmem).2 ho
    · exact hd (hb.norelax_ok d2 _ hmem).1.symm
  have hnot_sid : (st.mem ⟨d, e.1⟩).get_search_id ≠ pi.instance_id_ → ∀ d2,
      (⟨d, e.1⟩ : node_ptr) ∉ st.norelax_ d2 :=
    fun hs d2 hmem => hs (hb.norelax_ok d2 _ hmem).2.2.1
  have hcongr : ∀ (node : search_node) (d2 : Bool),
      (⟨d, e.1⟩ : node_ptr) ∉ st.norelax_ d2 →
      min_g (store st.mem ⟨d, e.1⟩ node) (st.norelax_ d2) = min_g st.mem (st.norelax_ d2) := by
    intro node d2 hnm
    apply min_g_congr
    intro p hp
    rw [store_other]
    intro h
    exact hnm (h ▸ hp)
  rcases rg_cases c d cur st e with
    ⟨_, _, hmem, _, hnr, hlb⟩ | ⟨k1, _, hmem, _, hnr, hlb⟩ |
    ⟨k1, _, k3, k4, hmem, _, hnr, hlb⟩ |
    ⟨k1, k2, _, hmem, _, hnr, hlb⟩ | ⟨k1, k2, _, hmem, _, hnr, hlb⟩
  · rw [hmem, hnr, hlb]; exact hl1
  · rw [hmem, hnr, hlb, hcongr _ d1 (hnot_open k1 d1)]; exact hl1
  · rw [hmem, hnr, hlb]
    by_cases hd : d1 = d
    · subst hd
      have hin : (⟨d1, e.1⟩ : node_ptr) ∈ st.norelax_ d1 := by
        rcases ht _ rfl he (k3.trans hm.cur_sid) hn with h | h | h
        · exact absurd h k1
        · exact h.2
        · rw [hph] at h; exact absurd h.1 (by decide)
      rw [set_dir_same, min_g_store_of_mem st.mem ⟨d1, e.1⟩
        ((st.mem ⟨d1, e.1⟩).relax ((st.mem cur).get_g + e.2) (some cur)) (le_of_lt k4) hin,
        hl1]
      rfl
    · rw [set_dir_other _ _ hd, hcongr _ d1 ?_]
      · exact hl1
      · intro hmem1
        exact hd (hb.norelax_ok d1 _ hmem1).1.symm
  · have hs : (st.mem ⟨d, e.1⟩).get_search_id ≠ pi.instance_id_ :=
      fun h => k2 ⟨hph, h.trans hm.cur_sid.symm⟩
    rw [hmem, hnr, hlb, hcongr _ d1 (hnot_sid hs d1)]; exact hl1
  · have hs : (st.mem ⟨d, e.1⟩).get_search_id ≠ pi.instance_id_ :=
      fun h => k2 ⟨hph, h.trans hm.cur_sid.symm⟩
    rw [hmem, hnr, hlb]
    by_cases hd : d1 = d
    · subst hd
      rw [set_dir_same, set_dir_same, min_g_append_singleton, store_same,
        hcongr _ d1 (hnot_sid hs d1), hl1]
      rfl
    · rw [set_dir_other _ _ hd, set_dir_other _ _ hd, hcongr _ d1 (hnot_sid hs d1)]
      exact hl1

theorem lb_succ {d : Bool} {cur : node_ptr} {st : chase_state} {e : Nat × ℚ}
    (hm : basic_mid c pi N d cur st.mem st.open_ st.norelax_ st.phase_)
    (ht : tight_dir c pi N d st.mem st.open_ st.norelax_ st.phase_)
    (hl : lb_inv st.mem st.norelax_ st.core_lb st.phase_)
    (he : e.1 < N) :
    lb_inv (expand_succ c d cur st e).mem (expand_succ c d cur st e).norelax_
      (expand_succ c d cur st e).core_lb (expand_succ c d cur st e).phase_ := by
  unfold expand_succ
  dsimp only
  by_cases hn : ((touch st).mem ⟨d, e.1⟩).get_expanded = true
  · rw [if_pos hn]; exact hl
  · rw [if_neg hn]
    simp only [update_best_mem, update_best_norelax, update_best_phase, update_best_core_lb]
    exact @lb_rg c pi N d cur (touch st) e hm ht hl he (by simpa using hn)

theorem lb_begin {st : chase_state} (cur : node_ptr)
    (hl : lb_inv st.mem st.norelax_ st.core_lb st.phase_) :
    lb_inv (store st.mem cur ((st.mem cur).set_expanded true)) st.norelax_ st.core_lb
      st.phase_ := by
  intro hph d
  rw [hl hph d]
  symm
  apply min_g_congr
  intro p _
  by_cases h : p = cur
  · subst h; rw [store_same]; rfl
  · rw [store_other _ _ h]

end lb

end chase_search

namespace chase_search

theorem min_g_attained (mem : node_ptr → search_node) (l : List node_ptr)
    (hne : l ≠ []) (hle : ∀ p ∈ l, (mem p).get_g ≤ DBL_MAX) :
    ∃ p ∈ l, min_g mem l = (mem p).get_g := by
  induction l with
  | nil => exact absurd rfl hne
  | cons x xs ih =>
    rw [min_g_cons]
    by_cases hxs : xs = []
    · subst hxs
      refine ⟨x, List.mem_cons_self _ _, ?_⟩
      rw [min_g_nil]
      exact min_eq_left (hle x (List.mem_cons_self _ _))
    · obtain ⟨p, hp, hmin⟩ := ih hxs (fun p hp => hle p (List.mem_cons_of_mem _ hp))
      rcases min_choice (mem x).get_g (min_g mem xs) with h | h
      · exact ⟨x, List.mem_cons_self _ _, h⟩
      · exact ⟨p, List.mem_cons_of_mem _ hp, h.trans hmin⟩

/-- The invariant of phase 1: structure, where the generated nodes are kept, and the
core lower bounds. -/
theorem phase1_invariant {c : chase_config} {pi : problem_instance} {N : Nat}
    {mem : node_ptr → search_node} (sol : solution) (henv : env_ok c pi N mem)
    (st : chase_state) (h : at_point c mem pi sol st) :
    basic_inv c pi N st.mem st.open_ st.norelax_ st.phase_ ∧
    lb_inv st.mem st.norelax_ st.core_lb st.phase_ := by
  have key := (@search_invariant c mem pi sol
    (fun st => basic_inv c pi N st.mem st.open_ st.norelax_ st.phase_ ∧
      (∀ d1, cover_dir c pi N d1 st.mem st.open_ st.norelax_ st.phase_ st.best_cost_) ∧
      lb_inv st.mem st.norelax_ st.core_lb st.phase_)
    (fun d cur st => basic_mid c pi N d cur st.mem st.open_ st.norelax_ st.phase_ ∧
      tight_dir c pi N d st.mem st.open_ st.norelax_ st.phase_ ∧
      cover_dir c pi N (!d) st.mem st.open_ st.norelax_ st.phase_ st.best_cost_ ∧
      lb_inv st.mem st.norelax_ st.core_lb st.phase_)
    ?_ ?_ ?_ ?_ ?_ ?_ ?_ ?_).2 st h
  · rcases key with h | ⟨_, _, h⟩
    · exact ⟨h.1, h.2.2⟩
    · exact ⟨h.1.inv, h.2.2.2⟩
  · refine ⟨basic_init henv sol, fun d1 => tight_imp_cover _ (cover_init henv sol d1), ?_⟩
    intro _ d
    rfl
  · intro st k h; exact h
  · intro st b h; exact h
  · intro st d cur rest hI hpop hf
    obtain ⟨hb, hc, hl⟩ := hI
    refine ⟨?_, cover_drop hb hc hpop hf, hl⟩
    rw [(pop_spec hpop).2.1]
    exact basic_inv_erase hb d cur
  · intro st d cur rest hI hpop hf
    obtain ⟨hb, hc, hl⟩ := hI
    obtain ⟨h1, h2⟩ := cover_begin hb hc hpop hf
    refine ⟨?_, h1, h2, lb_begin cur hl⟩
    have := basic_begin hb d cur (pop_spec hpop).1
    rw [← (pop_spec hpop).2.1] at this
    exact this
  · intro st d cur e hJ he
    obtain ⟨hm, ht, hc, hl⟩ := hJ
    have hlt := henv.succ_lt d _ e he
    obtain ⟨h1, h2⟩ := @cover_succ c pi N d cur st e hm ht hc
    exact ⟨basic_succ hm hlt, h1, h2, lb_succ hm ht hl hlt⟩
  · intro st d cur hJ
    obtain ⟨hm, ht, hc, hl⟩ := hJ
    refine ⟨hm.inv, ?_, hl⟩
    intro d1
    by_cases hd : d1 = d
    · subst hd; exact tight_imp_cover _ ht
    · have : d1 = !d := by cases d <;> cases d1 <;> simp_all
      subst this; exact hc
  · intro st hI hph ho1 ho2 _ _
    obtain ⟨hb, hc, hl⟩ := hI
    refine ⟨basic_phase2 hb hph, ?_, ?_⟩
    · intro d1
      exact cover_phase2 hb hc hph (fun d2 => by cases d2 <;> assumption) d1
    · intro h2
      exact absurd h2 (by simp [enter_phase2])

end chase_search

namespace search_node

theorem get_id_mk_node (INF k : Nat) (h : k < 2 ^ 23) : (mk_node INF k).get_id = k := by
  unfold mk_node set_pdir get_id
  simp only [jps.direction.code, Nat.zero_mul, Nat.add_zero]
  have hm : NODEID_AND_STATUS_MASK = 2 ^ 24 - 1 := by decide
  rw [hm, Nat.and_pow_two_sub_one_eq_mod, Nat.shiftRight_eq_div_pow, Nat.shiftLeft_eq]
  omega

theorem get_search_id_mk_node (INF k : Nat) : (mk_node INF k).get_search_id = 0 := rfl

end search_node

namespace chase_search

theorem env_ok_fresh (g : graph.xy_graph) (rank : Nat → Nat) (INF : Nat) (oor : ℚ → Nat)
    (pi : problem_instance) (N : Nat) (hN : N ≤ 2 ^ 23)
    (harcs : ∀ a ∈ g.arcs, a.1 < N ∧ a.2.1 < N)
    (hs : pi.start_id_ < N) (ht : pi.target_id_ < N) (hi : pi.instance_id_ ≠ 0) :
    env_ok (chase_over g rank INF oor) pi N (fresh_pool INF) := by
  refine ⟨?_, hs, ht, ?_, ?_⟩
  · intro d u e he
    cases d
    · simp only [chase_over, chase_config.expander, bch_expansion_policy,
        graph.xy_graph.outgoing, Bool.false_eq_true, if_false, List.mem_filter,
        List.mem_map] at he
      obtain ⟨⟨a, ha, rfl⟩, _⟩ := he
      exact (harcs a ha.1).2
    · simp only [chase_over, chase_config.expander, bch_expansion_policy,
        graph.xy_graph.incoming, if_true, List.mem_filter, List.mem_map] at he
      obtain ⟨⟨a, ha, rfl⟩, _⟩ := he
      exact (harcs a ha.1).1
  · intro p hp
    exact search_node.get_id_mk_node INF p.key (lt_of_lt_of_le hp hN)
  · intro p _ h
    exact hi h.symm

end chase_search

namespace chase_search

/-! ### Parent chains -/

section chain
variable {c : chase_config} {pi : problem_instance} {N : Nat}

theorem is_chain_cons_cons {d : Bool} {mem : node_ptr → search_node} {p q : node_ptr}
    {l : List node_ptr} :
    is_chain c pi N d mem (p :: q :: l) ↔
      ((mem p).get_parent = some q ∧ q.bwd = d ∧ q.key < N ∧
      (mem q).get_search_id = pi.instance_id_ ∧ (mem q).get_expanded = true ∧
      (∃ cost, (p.key, cost) ∈ (c.expander d).successors q.key ∧
        (mem p).get_g = (mem q).get_g + cost) ∧
      is_chain c pi N d mem (q :: l)) := Iff.rfl

theorem is_chain_single {d : Bool} {mem : node_ptr → search_node} {p : node_ptr} :
    is_chain c pi N d mem [p] ↔
      (p = seed pi d ∧ (mem p).get_parent = none ∧ (mem p).get_g = 0) := Iff.rfl

theorem is_chain_mono {d : Bool} {mem mem1 : node_ptr → search_node} (L : List node_ptr)
    (h : is_chain c pi N d mem L)
    (hm : ∀ x ∈ L, (mem1 x).get_parent = (mem x).get_parent ∧
      (mem1 x).get_g = (mem x).get_g ∧
      (mem1 x).get_search_id = (mem x).get_search_id ∧
      ((mem x).get_expanded = true → (mem1 x).get_expanded = true)) :
    is_chain c pi N d mem1 L := by
  induction L with
  | nil => exact h
  | cons p l ih =>
    cases l with
    | nil =>
      rw [is_chain_single] at h ⊢
      obtain ⟨h1, h2, h3⟩ := h
      obtain ⟨k1, k2, _, _⟩ := hm p (List.mem_cons_self _ _)
      exact ⟨h1, k1.trans h2, k2.trans h3⟩
    | cons q l =>
      rw [is_chain_cons_cons] at h ⊢
      obtain ⟨h1, h2, h3, h4, h5, ⟨cost, h6, h7⟩, h8⟩ := h
      obtain ⟨k1, k2, _, _⟩ := hm p (List.mem_cons_self _ _)
      obtain ⟨_, j2, j3, j4⟩ := hm q (List.mem_cons_of_mem _ (List.mem_cons_self _ _))
      refine ⟨k1.trans h1, h2, h3, j3.trans h4, j4 h5, ⟨cost, h6, ?_⟩,
        ih h8 (fun x hx => hm x (List.mem_cons_of_mem _ hx))⟩
      rw [k2, j2]; exact h7

theorem is_chain_congr {d : Bool} {mem mem1 : node_ptr → search_node} (L : List node_ptr)
    (h : is_chain c pi N d mem L) (hm : ∀ x ∈ L, mem1 x = mem x) :
    is_chain c pi N d mem1 L :=
  is_chain_mono L h (fun x hx => by rw [hm x hx]; exact ⟨rfl, rfl, rfl, id⟩)

theorem is_chain_tail {d : Bool} {mem : node_ptr → search_node} (p : node_ptr)
    (l : List node_ptr) (h : is_chain c pi N d mem (p :: l)) :
    ∀ q ∈ l, q.bwd = d ∧ q.key < N ∧ (mem q).get_search_id = pi.instance_id_ ∧
      (mem q).get_expanded = true := by
  induction l generalizing p with
  | nil => intro q hq; cases hq
  | cons x xs ih =>
    rw [is_chain_cons_cons] at h
    obtain ⟨_, h2, h3, h4, h5, _, h8⟩ := h
    intro q hq
    rcases List.mem_cons.mp hq with h | h
    · rw [h]; exact ⟨h2, h3, h4, h5⟩
    · exact ih x h8 q h

theorem chain_store_link {mem : node_ptr → search_node} (hc : chain_inv c pi N mem)
    (n cur : node_ptr) (node : search_node) (cost : ℚ)
    (hn : (mem n).get_expanded = false)
    (hbwd : cur.bwd = n.bwd) (hlt : cur.key < N)
    (hsid : (mem cur).get_search_id = pi.instance_id_)
    (hexp : (mem cur).get_expanded = true)
    (hpar : node.get_parent = some cur)
    (hg : node.get_g = (mem cur).get_g + cost)
    (hedge : (n.key, cost) ∈ (c.expander n.bwd).successors cur.key) :
    chain_inv c pi N (store mem n node) := by
  have hnc : cur ≠ n := by
    intro h
    rw [h, hn] at hexp
    cases hexp
  have hfree : ∀ (p : node_ptr) (l : List node_ptr), p ≠ n →
      is_chain c pi N p.bwd mem (p :: l) → ∀ x ∈ p :: l, store mem n node x = mem x := by
    intro p l hp hch x hx
    apply store_other
    rcases List.mem_cons.mp hx with h | h
    · rw [h]; exact hp
    · intro hxn
      have := (is_chain_tail p l hch x h).2.2.2
      rw [hxn, hn] at this
      cases this
  intro p hp hs
  by_cases hpn : p = n
  · subst hpn
    obtain ⟨lc, hlc⟩ := hc cur hlt hsid
    refine ⟨cur :: lc, ?_⟩
    rw [is_chain_cons_cons]
    rw [hbwd] at hlc
    refine ⟨by rw [store_same]; exact hpar, hbwd, hlt,
      by rw [store_other _ _ hnc]; exact hsid,
      by rw [store_other _ _ hnc]; exact hexp,
      ⟨cost, hedge, by rw [store_same, store_other _ _ hnc]; exact hg⟩, ?_⟩
    apply is_chain_congr _ hlc
    have := hfree cur lc hnc (by rw [hbwd]; exact hlc)
    exact this
  · rw [store_other _ _ hpn] at hs
    obtain ⟨l, hl⟩ := hc p hp hs
    exact ⟨l, is_chain_congr _ hl (hfree p l hpn hl)⟩

theorem chain_begin {mem : node_ptr → search_node} (hc : chain_inv c pi N mem)
    (cur : node_ptr) :
    chain_inv c pi N (store mem cur ((mem cur).set_expanded true)) := by
  have hall : ∀ x, (store mem cur ((mem cur).set_expanded true) x).get_parent
        = (mem x).get_parent ∧
      (store mem cur ((mem cur).set_expanded true) x).get_g = (mem x).get_g ∧
      (store mem cur ((mem cur).set_expanded true) x).get_search_id
        = (mem x).get_search_id ∧
      ((mem x).get_expanded = true →
        (store mem cur ((mem cur).set_expanded true) x).get_expanded = true) := by
    intro x
    by_cases h : x = cur
    · subst h; rw [store_same]; exact ⟨rfl, rfl, rfl, fun _ => by simp⟩
    · rw [store_other _ _ h]; exact ⟨rfl, rfl, rfl, id⟩
  intro p hp hs
  rw [(hall p).2.2.1] at hs
  obtain ⟨l, hl⟩ := hc p hp hs
  exact ⟨l, is_chain_mono _ hl (fun x _ => hall x)⟩

theorem chain_init {mem : node_ptr → search_node} (henv : env_ok c pi N mem)
    (sol : solution) : chain_inv c pi N (search_init c mem pi sol).mem := by
  have hne : (generate_target_node pi) ≠ (generate_start_node pi) := by
    intro h
    have := congrArg node_ptr.bwd h
    simp [generate_target_node, generate_start_node] at this
  intro p hp hs
  refine ⟨[], ?_⟩
  rw [is_chain_single]
  by_cases h1 : p = generate_target_node pi
  · subst h1
    refine ⟨rfl, ?_, ?_⟩ <;> simp [search_init]
  · by_cases h2 : p = generate_start_node pi
    · subst h2
      refine ⟨rfl, ?_, ?_⟩ <;> simp [search_init, store_other _ _ hne.symm]
    · simp only [search_init] at hs
      rw [store_other _ _ h1, store_other _ _ h2] at hs
      exact absurd hs (henv.fresh p hp)

theorem chain_rg {d : Bool} {cur : node_ptr} {st : chase_state} {e : Nat × ℚ}
    (hm : basic_mid c pi N d cur st.mem st.open_ st.norelax_ st.phase_)
    (hc : chain_inv c pi N st.mem)
    (he : e ∈ (c.expander d).successors (st.mem cur).get_id)
    (hn : (st.mem ⟨d, e.1⟩).get_expanded = false) :
    chain_inv c pi N (relax_or_generate c d cur st e).mem := by
  have hedge : ((⟨d, e.1⟩ : node_ptr).key, e.2)
      ∈ (c.expander (⟨d, e.1⟩ : node_ptr).bwd).successors cur.key := by
    rw [hm.inv.ids cur hm.cur_lt] at he
    exact he
  rcases rg_cases c d cur st e with
    ⟨_, _, hmem, _⟩ | ⟨_, _, hmem, _⟩ | ⟨_, _, _, _, hmem, _⟩ |
    ⟨_, _, _, hmem, _⟩ | ⟨_, _, _, hmem, _⟩ <;> rw [hmem]
  · exact hc
  · exact chain_store_link hc ⟨d, e.1⟩ cur _ e.2 hn hm.cur_bwd hm.cur_lt hm.cur_sid
      hm.cur_expanded rfl rfl hedge
  · exact chain_store_link hc ⟨d, e.1⟩ cur _ e.2 hn hm.cur_bwd hm.cur_lt hm.cur_sid
      hm.cur_expanded rfl rfl hedge
  · exact chain_store_link hc ⟨d, e.1⟩ cur _ e.2 hn hm.cur_bwd hm.cur_lt hm.cur_sid
      hm.cur_expanded rfl rfl hedge
  · exact chain_store_link hc ⟨d, e.1⟩ cur _ e.2 hn hm.cur_bwd hm.cur_lt hm.cur_sid
      hm.cur_expanded rfl rfl hedge

theorem chain_succ {d : Bool} {cur : node_ptr} {st : chase_state} {e : Nat × ℚ}
    (hm : basic_mid c pi N d cur st.mem st.open_ st.norelax_ st.phase_)
    (hc : chain_inv c pi N st.mem)
    (he : e ∈ (c.expander d).successors (st.mem cur).get_id) :
    chain_inv c pi N (expand_succ c d cur st e).mem := by
  unfold expand_succ
  dsimp only
  by_cases hn : ((touch st).mem ⟨d, e.1⟩).get_expanded = true
  · rw [if_pos hn]; exact hc
  · rw [if_neg hn, update_best_mem]
    exact @chain_rg c pi N d cur (touch st) e hm hc he (by simpa using hn)

end chain

end chase_search

namespace chase_search

/-! ### The record of the best meeting -/

section meet
variable {c : chase_config} {pi : problem_instance} {N : Nat}

theorem meet_inv_mem {mem mem1 : node_ptr → search_node} {v w : Option node_ptr}
    {best : ℚ} (h : meet_inv c pi N mem v w best)
    (hs : ∀ p, (mem p).get_search_id = pi.instance_id_ →
      (mem1 p).get_search_id = pi.instance_id_) :
    meet_inv c pi N mem1 v w best := by
  obtain ⟨h1, h2⟩ := h
  refine ⟨h1, ?_⟩
  rcases h2 with h2 | ⟨h2, d, k, h3, h4, h5, h6, h7⟩
  · exact Or.inl h2
  · exact Or.inr ⟨h2, d, k, h3, h4, h5, hs _ h6, hs _ h7⟩

theorem rg_sid_mono {d : Bool} {cur : node_ptr} {st : chase_state} {e : Nat × ℚ}
    (hcur : (st.mem cur).get_search_id = pi.instance_id_) (p : node_ptr)
    (hp : (st.mem p).get_search_id = pi.instance_id_) :
    ((relax_or_generate c d cur st e).mem p).get_search_id = pi.instance_id_ := by
  by_cases hpn : p = ⟨d, e.1⟩
  · subst hpn
    rcases rg_cases c d cur st e with
      ⟨_, _, hmem, _⟩ | ⟨_, _, hmem, _⟩ | ⟨_, _, _, _, hmem, _⟩ |
      ⟨_, _, _, hmem, _⟩ | ⟨_, _, _, hmem, _⟩ <;> rw [hmem]
    · exact hp
    · rw [store_same]; exact hp
    · rw [store_same]; exact hp
    · rw [store_same]; exact hcur
    · rw [store_same]; exact hcur
  · rw [rg_mem_other c d cur st e hpn]; exact hp

theorem meet_succ {d : Bool} {cur : node_ptr} {st : chase_state} {e : Nat × ℚ}
    (hm : basic_mid c pi N d cur st.mem st.open_ st.norelax_ st.phase_)
    (hmeet : meet_inv c pi N st.mem st.v_ st.w_ st.best_cost_)
    (he : e.1 < N) :
    meet_inv c pi N (expand_succ c d cur st e).mem (expand_succ c d cur st e).v_
      (expand_succ c d cur st e).w_ (expand_succ c d cur st e).best_cost_ := by
  unfold expand_succ
  dsimp only
  by_cases hn : ((touch st).mem ⟨d, e.1⟩).get_expanded = true
  · rw [if_pos hn]; exact hmeet
  · rw [if_neg hn]
    have hn1 : (st.mem ⟨d, e.1⟩).get_expanded = false := by simpa using hn
    have h1 : meet_inv c pi N (relax_or_generate c d cur (touch st) e).mem st.v_ st.w_
        st.best_cost_ :=
      meet_inv_mem hmeet (fun p hp => @rg_sid_mono c pi d cur (touch st) e hm.cur_sid p hp)
    have hpost := @basic_rg c pi N d cur (touch st) e hm he hn1
    have hsn : ((relax_or_generate c d cur (touch st) e).mem ⟨d, e.1⟩).get_search_id
        = pi.instance_id_ := by
      rw [rg_search_id_succ c d cur (touch st) e]
      · exact hm.cur_sid
      · intro ho
        exact ((hm.inv.open_ok d _ ho).2.2.1).trans hm.cur_sid.symm
    have hidn : ((relax_or_generate c d cur (touch st) e).mem ⟨d, e.1⟩).get_id = e.1 :=
      hpost.inv.ids ⟨d, e.1⟩ he
    unfold update_best
    dsimp only
    rw [hidn, hsn]
    split_ifs with k1 k2
    · dsimp only
      have hlt : (relax_or_generate c d cur (touch st) e).best_cost_ ≤ (c.INF : ℚ) := by
        rw [rg_best_cost]; exact hmeet.1
      have hlt2 := lt_of_lt_of_le k2 hlt
      exact ⟨le_of_lt hlt2, Or.inr ⟨hlt2, d, e.1, he, rfl, rfl, hsn, k1⟩⟩
    · simpa using h1
    · simpa using h1

theorem meet_begin {mem : node_ptr → search_node} {v w : Option node_ptr} {best : ℚ}
    (h : meet_inv c pi N mem v w best) (cur : node_ptr) :
    meet_inv c pi N (store mem cur ((mem cur).set_expanded true)) v w best := by
  apply meet_inv_mem h
  intro p hp
  by_cases hpc : p = cur
  · subst hpc; rw [store_same]; exact hp
  · rw [store_other _ _ hpc]; exact hp

/-- The invariant behind the reconstructed path: structure, parent chains and the
record of the best meeting. -/
theorem path_invariant {c : chase_config} {pi : problem_instance} {N : Nat}
    {mem : node_ptr → search_node} (sol : solution) (henv : env_ok c pi N mem)
    (st : chase_state) (h : at_point c mem pi sol st) :
    basic_inv c pi N st.mem st.open_ st.norelax_ st.phase_ ∧
    chain_inv c pi N st.mem ∧
    meet_inv c pi N st.mem st.v_ st.w_ st.best_cost_ := by
  have key := (@search_invariant c mem pi sol
    (fun st => basic_inv c pi N st.mem st.open_ st.norelax_ st.phase_ ∧
      chain_inv c pi N st.mem ∧
      meet_inv c pi N st.mem st.v_ st.w_ st.best_cost_)
    (fun d cur st => basic_mid c pi N d cur st.mem st.open_ st.norelax_ st.phase_ ∧
      chain_inv c pi N st.mem ∧
      meet_inv c pi N st.mem st.v_ st.w_ st.best_cost_)
    ?_ ?_ ?_ ?_ ?_ ?_ ?_ ?_).2 st h
  · rcases key with h | ⟨_, _, h⟩
    · exact h
    · exact ⟨h.1.inv, h.2⟩
  · exact ⟨basic_init henv sol, chain_init henv sol, le_refl _, Or.inl ⟨rfl, rfl, rfl⟩⟩
  · intro st k h; exact h
  · intro st b h; exact h
  · intro st d cur rest hI hpop hf
    obtain ⟨hb, hc, hm⟩ := hI
    refine ⟨?_, hc, hm⟩
    rw [(pop_spec hpop).2.1]
    exact basic_inv_erase hb d cur
  · intro st d cur rest hI hpop hf
    obtain ⟨hb, hc, hm⟩ := hI
    refine ⟨?_, chain_begin hc cur, meet_begin hm cur⟩
    have := basic_begin hb d cur (pop_spec hpop).1
    rw [← (pop_spec hpop).2.1] at this
    exact this
  · intro st d cur e hJ he
    obtain ⟨hm, hc, hmeet⟩ := hJ
    have hlt := henv.succ_lt d _ e he
    exact ⟨basic_succ hm hlt, chain_succ hm hc he, meet_succ hm hmeet hlt⟩
  · intro st d cur hJ
    exact ⟨hJ.1.inv, hJ.2⟩
  · intro st hI hph _ _ _ _
    obtain ⟨hb, hc, hm⟩ := hI
    exact ⟨basic_phase2 hb hph, hc, hm⟩

end meet

/-! ### `reconstruct_path` on parent chains -/

theorem parent_chain_of_is_chain {c : chase_config} {pi : problem_instance} {N : Nat}
    {d : Bool} {mem : node_ptr → search_node}
    (hids : ∀ p : node_ptr, p.key < N → (mem p).get_id = p.key)
    (l : List node_ptr) (p : node_ptr) (hp : p.key < N)
    (h : is_chain c pi N d mem (p :: l)) (fuel : Nat) (hf : l.length + 1 ≤ fuel) :
    parent_chain mem fuel (some p) = some ((p :: l).map node_ptr.key) := by
  induction l generalizing p fuel with
  | nil =>
    rw [is_chain_single] at h
    cases fuel with
    | zero => simp at hf
    | succ fuel =>
      have hpar : (mem p).get_parent = none := h.2.1
      unfold parent_chain
      rw [hpar]
      unfold parent_chain
      simp [hids p hp]
  | cons q l ih =>
    rw [is_chain_cons_cons] at h
    obtain ⟨h1, _, h3, _, _, _, h8⟩ := h
    cases fuel with
    | zero => simp at hf
    | succ fuel =>
      unfold parent_chain
      rw [h1, ih q h3 h8 fuel (by simpa using hf)]
      simp [hids p hp]

theorem search_loop_mono (c : chase_config) (fuel fuel2 : Nat) (st0 st : chase_state)
    (h : search_loop c fuel st0 = .finished st) (hle : fuel ≤ fuel2) :
    search_loop c fuel2 st0 = .finished st := by
  induction fuel generalizing st0 fuel2 with
  | zero => simp [search_loop] at h
  | succ fuel ih =>
    cases fuel2 with
    | zero => omega
    | succ fuel2 =>
      unfold search_loop at h ⊢
      split at h
      · rename_i st1 hi
        exact ih fuel2 st1 h (by omega)
      · exact h
      · cases h

end chase_search

namespace chase_search

theorem parent_chain_none (mem : node_ptr → search_node) (fuel : Nat) :
    parent_chain mem fuel none = some [] := by
  cases fuel <;> rfl

theorem is_chain_getLast {c : chase_config} {pi : problem_instance} {N : Nat} {d : Bool}
    {mem : node_ptr → search_node} (l : List node_ptr) (p : node_ptr)
    (h : is_chain c pi N d mem (p :: l)) : (p :: l).getLast? = some (seed pi d) := by
  induction l generalizing p with
  | nil =>
    rw [is_chain_single] at h
    simp [h.1]
  | cons q l ih =>
    rw [is_chain_cons_cons] at h
    rw [List.getLast?_cons_cons]
    exact ih q h.2.2.2.2.2.2

theorem parent_chain_of_tail {c : chase_config} {pi : problem_instance} {N : Nat}
    {d : Bool} {mem : node_ptr → search_node}
    (hids : ∀ p : node_ptr, p.key < N → (mem p).get_id = p.key)
    (l : List node_ptr) (p : node_ptr)
    (h : is_chain c pi N d mem (p :: l)) (fuel : Nat) (hf : l.length + 1 ≤ fuel) :
    parent_chain mem fuel (mem p).get_parent = some (l.map node_ptr.key) := by
  cases l with
  | nil =>
    rw [is_chain_single] at h
    rw [h.2.1, parent_chain_none]
    rfl
  | cons q l =>
    rw [is_chain_cons_cons] at h
    obtain ⟨h1, _, h3, _, _, _, h8⟩ := h
    rw [h1]
    exact parent_chain_of_is_chain hids l q h3 h8 fuel (by simp at hf; omega)

theorem reconstruct_path_of_chains {c : chase_config} {pi : problem_instance} {N : Nat}
    (st : chase_state)
    (hids : ∀ p : node_ptr, p.key < N → (st.mem p).get_id = p.key)
    (k : Nat) (hk : k < N) (lf lb : List node_ptr)
    (hv : (st.v_ = some ⟨false, k⟩ ∧ st.w_ = some ⟨true, k⟩) ∨
      (st.v_ = some ⟨true, k⟩ ∧ st.w_ = some ⟨false, k⟩))
    (hf : is_chain c pi N false st.mem (⟨false, k⟩ :: lf))
    (hb : is_chain c pi N true st.mem (⟨true, k⟩ :: lb))
    (fuel : Nat) (h1 : lf.length + 1 ≤ fuel) (h2 : lb.length + 1 ≤ fuel) :
    reconstruct_path fuel st =
      .finished { st with
        v_ := some ⟨false, k⟩, w_ := some ⟨true, k⟩,
        sol := { st.sol with
          path_ := (st.sol.path_ ++ ((⟨false, k⟩ : node_ptr) :: lf).map node_ptr.key).reverse
            ++ lb.map node_ptr.key } } := by
  have hc1 := parent_chain_of_is_chain hids lf ⟨false, k⟩ hk hf fuel h1
  have hc2 := parent_chain_of_tail hids lb ⟨true, k⟩ hb fuel h2
  unfold reconstruct_path
  rcases hv with ⟨hv, hw⟩ | ⟨hv, hw⟩
  · rw [hv, hw]
    simp only [node_ptr.mk.injEq, Bool.false_eq_true, false_and, decide_False,
      if_false]
    rw [hc1]
    dsimp only
    rw [hc2]
  · rw [hv, hw]
    have : (st.mem ⟨true, k⟩).get_id = k := hids ⟨true, k⟩ hk
    simp only [this, decide_True, if_true]
    rw [hc1]
    dsimp only
    rw [hc2]

end chase_search

namespace chase_search

theorem pair_cases (d d1 : Bool) (k k1 : Nat) :
    ((⟨d1, k1⟩ : node_ptr) ≠ ⟨d, k⟩ ∧ (⟨!d1, k1⟩ : node_ptr) ≠ ⟨d, k⟩) ∨
    (d1 = d ∧ k1 = k) ∨ (d1 = !d ∧ k1 = k) := by
  by_cases hk : k1 = k
  · subst hk
    by_cases hd : d1 = d
    · exact Or.inr (Or.inl ⟨hd, rfl⟩)
    · right; right
      exact ⟨by cases d <;> cases d1 <;> simp_all, rfl⟩
  · left
    constructor <;> intro h <;> exact hk (congrArg node_ptr.key h)

/-! ### The edge costs along a path -/

theorem costed_path_single (c : chase_config) (a : Nat) (cs : List ℚ) :
    costed_path c [a] cs ↔ cs = [] := by
  cases cs <;> simp [costed_path]

theorem costed_path_cons_cons (c : chase_config) (a b : Nat) (rest : List Nat)
    (cs : List ℚ) :
    costed_path c (a :: b :: rest) cs ↔
      ∃ x xs, cs = x :: xs ∧ policy_edge c a b x ∧ costed_path c (b :: rest) xs := by
  cases cs with
  | nil => simp [costed_path]
  | cons x xs =>
    constructor
    · intro h
      exact ⟨x, xs, rfl, h⟩
    · rintro ⟨y, ys, h1, h2⟩
      cases h1
      exact h2

theorem costed_path_append (c : chase_config) (a : Nat) (l2 : List Nat) (cs2 : List ℚ)
    (h2 : costed_path c (a :: l2) cs2) (l1 : List Nat) (cs1 : List ℚ)
    (h1 : costed_path c (l1 ++ [a]) cs1) :
    costed_path c (l1 ++ a :: l2) (cs1 ++ cs2) := by
  induction l1 generalizing cs1 with
  | nil =>
    rw [List.nil_append, costed_path_single] at h1
    subst h1
    exact h2
  | cons x t ih =>
    cases t with
    | nil =>
      rw [show [x] ++ [a] = x :: a :: [] from rfl, costed_path_cons_cons] at h1
      obtain ⟨y, ys, rfl, hy, hys⟩ := h1
      rw [costed_path_single] at hys
      subst hys
      rw [show [x] ++ a :: l2 = x :: a :: l2 from rfl, costed_path_cons_cons]
      exact ⟨y, cs2, rfl, hy, h2⟩
    | cons z t =>
      rw [show x :: z :: t ++ [a] = x :: z :: (t ++ [a]) from rfl,
        costed_path_cons_cons] at h1
      obtain ⟨y, ys, rfl, hy, hys⟩ := h1
      rw [show x :: z :: t ++ a :: l2 = x :: z :: (t ++ a :: l2) from rfl,
        costed_path_cons_cons]
      exact ⟨y, ys ++ cs2, rfl, hy, ih ys hys⟩

theorem upward_chase_over (g : graph.xy_graph) (rank : Nat → Nat) (INF : Nat)
    (oor : ℚ → Nat) : upward (chase_over g rank INF oor) := by
  intro d u e he
  cases d
  · simp only [chase_over, chase_config.expander, bch_expansion_policy,
      Bool.false_eq_true, if_false, List.mem_filter, decide_eq_true_eq] at he ⊢
    exact he.2
  · simp only [chase_over, chase_config.expander, bch_expansion_policy,
      if_true, List.mem_filter, decide_eq_true_eq] at he ⊢
    exact he.2

end chase_search

namespace search_node

theorem get_pdir_init (n : search_node) (sid : Nat) (p : Option node_ptr) (g f : ℚ) :
    (n.init sid p g f).get_pdir = n.get_pdir := by
  unfold init get_pdir
  simp only [u32_not_one]
  apply Nat.eq_of_testBit_eq
  intro j
  simp only [Nat.testBit_mod_two_pow, ← Nat.shiftRight_eq_div_pow, Nat.testBit_shiftRight,
    Nat.testBit_and]
  by_cases hj : j < 8
  · have : Nat.testBit 4294967294 (24 + j) = true := by
      interval_cases j <;> rfl
    simp [hj, this]
  · simp [hj]

end search_node

theorem check_optimality_epsilon_eq : check_optimality.epsilon = 0 := by
  unfold check_optimality.epsilon check_optimality.precision
  decide

namespace chase_search

/-! ### One pass of the loop: directions, the switch of phase, expanded flags -/

theorem ctrl_inv_at_loop_head {c : chase_config} {mem : node_ptr → search_node}
    {pi : problem_instance} {sol : solution} (st : chase_state)
    (h : at_loop_head c mem pi sol st) : ctrl_inv st :=
  ((@search_invariant c mem pi sol (fun _ => True) (fun _ _ _ => True) trivial
    (fun _ _ _ => trivial) (fun _ _ _ => trivial) (fun _ _ _ _ _ _ _ => trivial)
    (fun _ _ _ _ _ _ _ => trivial) (fun _ _ _ _ _ _ => trivial) (fun _ _ _ _ => trivial)
    (fun _ _ _ _ _ _ _ => trivial)).1 st h).2

theorem foldl_expand_succ_phase (c : chase_config) (d : Bool) (current : node_ptr)
    (l : List (Nat × ℚ)) (st : chase_state) :
    (l.foldl (expand_succ c d current) st).phase_ = st.phase_ := by
  induction l generalizing st with
  | nil => rfl
  | cons e l ih =>
    rw [List.foldl_cons, ih]
    exact expand_succ_phase c d current st e

theorem pop_and_expand_ctrl (c : chase_config) (d : Bool) (st st1 : chase_state)
    (h : pop_and_expand c d st = some st1) :
    st1.cannot_improve = st.cannot_improve ∧ st1.phase_ = st.phase_ ∧
    st1.search_direction = next_direction d st1 ∧
    ∃ cur rest, pqueue.pop st.mem (st.open_ d) = some (cur, rest) := by
  unfold pop_and_expand at h
  split at h
  · exact absurd h (by simp)
  · rename_i current rest hpop
    simp only [Option.some.injEq] at h
    subst h
    dsimp only
    refine ⟨?_, ?_, rfl, current, rest, hpop⟩
    · split_ifs
      · rfl
      · exact foldl_expand_succ_cannot_improve c d current _ _
    · split_ifs
      · rfl
      · exact foldl_expand_succ_phase c d current _ _

theorem search_iter_continue_cases (c : chase_config) (st st1 : chase_state)
    (hc : ctrl_inv st) (h : search_iter c st = .continue_ st1) :
    (st.search_direction = 0 ∧ st.phase_ = 1 ∧
      st.core_lb false ≠ DBL_MAX ∧ st.core_lb true ≠ DBL_MAX ∧
      st1 = enter_phase2 { st with cannot_improve := true }) ∨
    (∃ d : Bool, st.search_direction = (if d then 2 else 1) ∧
      pop_and_expand c d st = some st1) := by
  obtain ⟨hc1, _, hc3⟩ := hc
  rcases hc3 with h0 | h12
  · left
    rw [search_iter_zero c st h0] at h
    unfold check_termination at h
    simp only [if_true] at h
    split_ifs at h with hp hb hl
    · injection h with h
      have hl2 := not_or.mp hl
      exact ⟨h0, hp, hl2.1, hl2.2, h.symm⟩
  · right
    have hd : ∃ d : Bool, st.search_direction = if d then 2 else 1 := by
      rcases h12 with h | h
      · exact ⟨false, by simpa using h⟩
      · exact ⟨true, by simpa using h⟩
    obtain ⟨d, hd⟩ := hd
    refine ⟨d, hd, ?_⟩
    rw [search_iter_dir c st d hd] at h
    split at h
    · cases h
    · rename_i st2 hp
      have h2 := (pop_and_expand_ctrl c d st st2 hp).1
      rw [check_termination_of_not_cannot_improve c st2 (h2.trans hc1)] at h
      injection h with h
      rw [hp, h]

theorem run_passes_one (c : chase_config) (st st1 : chase_state) :
    run_passes c 1 st = some st1 ↔ search_iter c st = .continue_ st1 := by
  unfold run_passes
  split
  · rename_i st2 hi
    simp only [run_passes, Option.some.injEq]
    constructor
    · intro h; rw [hi, h]
    · intro h; rw [hi] at h; injection h
  · rename_i hn
    constructor
    · intro h; cases h
    · intro h; exact absurd h (hn st1)

theorem expand_succ_expanded_mono (c : chase_config) (d : Bool) (current : node_ptr)
    (st : chase_state) (e : Nat × ℚ) (p : node_ptr)
    (h : (st.mem p).get_expanded = true) :
    ((expand_succ c d current st e).mem p).get_expanded = true := by
  unfold expand_succ
  dsimp only
  split_ifs with hn
  · exact h
  · rw [update_best_mem]
    have hp : p ≠ ⟨d, e.1⟩ := by
      intro hp
      subst hp
      exact hn h
    rw [rg_mem_other c d current (touch st) e hp]
    exact h

theorem foldl_expand_succ_expanded_mono (c : chase_config) (d : Bool) (current : node_ptr)
    (l : List (Nat × ℚ)) (st : chase_state) (p : node_ptr)
    (h : (st.mem p).get_expanded = true) :
    ((l.foldl (expand_succ c d current) st).mem p).get_expanded = true := by
  induction l generalizing st with
  | nil => exact h
  | cons e l ih =>
    rw [List.foldl_cons]
    exact ih _ (expand_succ_expanded_mono c d current st e p h)

theorem pop_and_expand_expanded_mono (c : chase_config) (d : Bool) (st st1 : chase_state)
    (h : pop_and_expand c d st = some st1) (p : node_ptr)
    (hp : (st.mem p).get_expanded = true) : (st1.mem p).get_expanded = true := by
  unfold pop_and_expand at h
  split at h
  · exact absurd h (by simp)
  · rename_i current rest hpop
    simp only [Option.some.injEq] at h
    subst h
    dsimp only
    split_ifs
    · exact hp
    · unfold expand
      apply foldl_expand_succ_expanded_mono
      unfold expand_begin
      dsimp only
      by_cases hpc : p = current
      · subst hpc
        rw [store_same]
        exact search_node.get_expanded_set_expanded _ _
      · rw [store_other _ _ hpc]
        exact hp

theorem check_termination_mem (c : chase_config) (st : chase_state) :
    (∀ st1, check_termination c st = .continue_ st1 → st1.mem = st.mem) ∧
    (∀ st1, check_termination c st = .break_ st1 → st1.mem = st.mem) := by
  unfold check_termination
  constructor <;> intro st1 h <;> split_ifs at h <;> cases h <;> rfl

theorem search_iter_expanded_mono (c : chase_config) (st : chase_state) (p : node_ptr)
    (hp : (st.mem p).get_expanded = true) :
    (∀ st1, search_iter c st = .continue_ st1 → (st1.mem p).get_expanded = true) ∧
    (∀ st1, search_iter c st = .break_ st1 → (st1.mem p).get_expanded = true) := by
  have hdir : ∀ (d : Bool) (r : iter_result),
      (match pop_and_expand c d st with
        | none => iter_result.null_deref
        | some st2 => check_termination c st2) = r →
      (∀ st1, r = .continue_ st1 → (st1.mem p).get_expanded = true) ∧
      (∀ st1, r = .break_ st1 → (st1.mem p).get_expanded = true) := by
    intro d r hr
    split at hr
    · subst hr
      constructor <;> intro st1 h <;> cases h
    · rename_i st2 hpe
      have h2 := pop_and_expand_expanded_mono c d st st2 hpe p hp
      obtain ⟨k1, k2⟩ := check_termination_mem c st2
      subst hr
      exact ⟨fun s h => by rw [k1 s h]; exact h2, fun s h => by rw [k2 s h]; exact h2⟩
  have hct : ∀ st0 : chase_state, st0.mem = st.mem →
      (∀ st1, check_termination c st0 = .continue_ st1 → (st1.mem p).get_expanded = true) ∧
      (∀ st1, check_termination c st0 = .break_ st1 → (st1.mem p).get_expanded = true) := by
    intro st0 h0
    obtain ⟨k1, k2⟩ := check_termination_mem c st0
    exact ⟨fun s h => by rw [k1 s h, h0]; exact hp, fun s h => by rw [k2 s h, h0]; exact hp⟩
  unfold search_iter
  split
  · exact hct _ rfl
  · exact hdir false _ rfl
  · exact hdir true _ rfl
  · exact hct _ rfl

end chase_search

namespace search_node

theorem get_pdir_set_expanded (n : search_node) (b : Bool) :
    (n.set_expanded b).get_pdir = n.get_pdir := by
  unfold set_expanded get_pdir
  simp only [STATUS_MASK, u32_not_one]
  apply Nat.eq_of_testBit_eq
  intro j
  simp only [Nat.testBit_mod_two_pow, ← Nat.shiftRight_eq_div_pow, Nat.testBit_shiftRight,
    Nat.testBit_xor, Nat.testBit_and]
  by_cases hj : j < 8
  · have h1 : Nat.testBit 4294967294 (24 + j) = true := by
      interval_cases j <;> rfl
    have h2 : Nat.testBit (if b = true then 1 else 0) (24 + j) = false := by
      cases b
      · simp
      · simp only [if_true]
        exact testBit_one_high _ (by omega)
    simp [hj, h1, h2]
  · simp [hj]

theorem get_pdir_set_pdir (n : search_node) (d : jps.direction) :
    (n.set_pdir d).get_pdir = d.code := by
  unfold set_pdir get_pdir
  have hc : d.code < 2 ^ 8 := by cases d <;> decide
  have h1 : n.id_and_status_ % 2 ^ 24 < 2 ^ 24 := Nat.mod_lt _ (by decide)
  simp only
  omega

theorem get_id_set_pdir (n : search_node) (d : jps.direction) :
    (n.set_pdir d).get_id = n.get_id := by
  unfold set_pdir get_id
  have hm : NODEID_AND_STATUS_MASK = 2 ^ 24 - 1 := by decide
  simp only [hm, Nat.and_pow_two_sub_one_eq_mod]
  congr 1
  omega

theorem get_expanded_set_pdir (n : search_node) (d : jps.direction) :
    (n.set_pdir d).get_expanded = n.get_expanded := by
  unfold set_pdir get_expanded
  simp only [status_bit_eq_testBit, Nat.testBit_zero]
  have h : (n.id_and_status_ % 2 ^ 24 + d.code * 2 ^ 24) % 2 = n.id_and_status_ % 2 := by
    omega
  rw [h]

end search_node

theorem ite_ne_of {α : Type} {p : Prop} [Decidable p] {a b c : α} (ha : a ≠ c)
    (hb : b ≠ c) : (if p then a else b) ≠ c := by
  split_ifs
  · exact ha
  · exact hb

namespace chase_search

/-! ### One pass of the loop: what is popped, expanded and dropped -/

theorem expand_succ_expanded_anti (c : chase_config) (d : Bool) (current : node_ptr)
    (st : chase_state) (e : Nat × ℚ) (p : node_ptr)
    (h : ((expand_succ c d current st e).mem p).get_expanded = true) :
    (st.mem p).get_expanded = true := by
  unfold expand_succ at h
  dsimp only at h
  split_ifs at h with hn
  · exact h
  · rw [update_best_mem] at h
    by_cases hp : p = ⟨d, e.1⟩
    · subst hp
      exfalso
      have hf : ((touch st).mem ⟨d, e.1⟩).get_expanded = false := by simpa using hn
      rcases rg_cases c d current (touch st) e with
        ⟨_, _, k, _⟩ | ⟨_, _, k, _⟩ | ⟨_, _, _, _, k, _⟩ | ⟨_, _, _, k, _⟩ | ⟨_, _, _, k, _⟩
      · rw [k, hf] at h; cases h
      · rw [k, store_same, search_node.get_expanded_relax, hf] at h; cases h
      · rw [k, store_same, search_node.get_expanded_relax, hf] at h; cases h
      · rw [k, store_same, search_node.get_expanded_init] at h; cases h
      · rw [k, store_same, search_node.get_expanded_init] at h; cases h
    · rw [rg_mem_other c d current (touch st) e hp] at h
      exact h

theorem foldl_expand_succ_expanded_anti (c : chase_config) (d : Bool) (current : node_ptr)
    (l : List (Nat × ℚ)) (st : chase_state) (p : node_ptr)
    (h : ((l.foldl (expand_succ c d current) st).mem p).get_expanded = true) :
    (st.mem p).get_expanded = true := by
  induction l generalizing st with
  | nil => exact h
  | cons e l ih =>
    rw [List.foldl_cons] at h
    exact expand_succ_expanded_anti c d current st e p (ih _ h)

theorem pop_and_expand_drop (c : chase_config) (d : Bool) (st st1 : chase_state)
    (cur : node_ptr) (rest : List node_ptr)
    (hpop : pqueue.pop st.mem (st.open_ d) = some (cur, rest))
    (hf : (st.mem cur).get_f ≥ st.best_cost_)
    (h : pop_and_expand c d st = some st1) :
    st1.mem = st.mem ∧ st1.open_ = set_dir st.open_ d rest ∧
    st1.norelax_ = st.norelax_ ∧ st1.best_cost_ = st.best_cost_ ∧ st1.v_ = st.v_ ∧
    st1.w_ = st.w_ := by
  unfold pop_and_expand at h
  rw [hpop] at h
  simp only [Option.some.injEq] at h
  subst h
  dsimp only
  rw [if_pos hf]
  exact ⟨rfl, rfl, rfl, rfl, rfl, rfl⟩

theorem pop_and_expand_newly_expanded (c : chase_config) (d : Bool) (st st1 : chase_state)
    (cur : node_ptr) (rest : List node_ptr)
    (hpop : pqueue.pop st.mem (st.open_ d) = some (cur, rest))
    (h : pop_and_expand c d st = some st1) (p : node_ptr)
    (h0 : (st.mem p).get_expanded = false) (h1 : (st1.mem p).get_expanded = true) :
    p = cur ∧ (st.mem cur).get_f < st.best_cost_ := by
  unfold pop_and_expand at h
  rw [hpop] at h
  simp only [Option.some.injEq] at h
  subst h
  dsimp only at h1
  split_ifs at h1 with hf
  · rw [h0] at h1; cases h1
  · have h2 := foldl_expand_succ_expanded_anti c d cur _ _ p h1
    unfold expand_begin at h2
    dsimp only at h2
    by_cases hp : p = cur
    · exact ⟨hp, not_le.mp hf⟩
    · rw [store_other _ _ hp, h0] at h2
      cases h2

theorem search_iter_break_cases (c : chase_config) (st st1 : chase_state)
    (hc : ctrl_inv st) (h : search_iter c st = .break_ st1) :
    st.search_direction = 0 ∧ st.open_ false = [] ∧ st.open_ true = [] ∧
    st1 = { st with cannot_improve := true } := by
  obtain ⟨hc1, hc2, hc3⟩ := hc
  rcases hc3 with h0 | h12
  · rw [search_iter_zero c st h0] at h
    unfold check_termination at h
    simp only [if_true] at h
    refine ⟨h0, (hc2 h0).1, (hc2 h0).2, ?_⟩
    split_ifs at h <;> injection h with h <;> exact h.symm
  · exfalso
    have hd : ∃ d : Bool, st.search_direction = if d then 2 else 1 := by
      rcases h12 with h | h
      · exact ⟨false, by simpa using h⟩
      · exact ⟨true, by simpa using h⟩
    obtain ⟨d, hd⟩ := hd
    rw [search_iter_dir c st d hd] at h
    split at h
    · cases h
    · rename_i st2 hp
      have h2 := (pop_and_expand_ctrl c d st st2 hp).1
      rw [check_termination_of_not_cannot_improve c st2 (h2.trans hc1)] at h
      cases h

theorem pop_dir_eq_some (st : chase_state) (d : Bool) :
    pop_dir st = some d ↔ st.search_direction = (if d then 2 else 1) := by
  unfold pop_dir
  split
  · rename_i h; cases d <;> simp [h]
  · rename_i h; cases d <;> simp [h]
  · rename_i h1 h2
    cases d
    · simp only [Bool.false_eq_true, if_false]
      exact ⟨fun h => absurd h (by simp), fun h => absurd h h1⟩
    · simp only [if_true]
      exact ⟨fun h => absurd h (by simp), fun h => absurd h h2⟩

theorem pop_dir_eq_none (st : chase_state) (hc : ctrl_inv st) :
    pop_dir st = none ↔ st.search_direction = 0 := by
  obtain ⟨_, _, h | h | h⟩ := hc <;> simp [pop_dir, h]

theorem open_nonempty_at_loop_head {c : chase_config} {pi : problem_instance} {N : Nat}
    {mem : node_ptr → search_node} (sol : solution) (henv : env_ok c pi N mem)
    (st : chase_state) (h : at_loop_head c mem pi sol st) (d : Bool)
    (hd : st.search_direction = (if d then 2 else 1)) : st.open_ d ≠ [] := by
  induction h generalizing d with
  | init =>
    cases d
    · simp [search_init, pqueue.push]
    · simp [search_init] at hd
  | @pass st0 st1 h0 hi ih =>
    rcases search_iter_continue_cases c st0 st1 (ctrl_inv_at_loop_head st0 h0) hi with
      ⟨_, hph, hf, _, rfl⟩ | ⟨d1, _, hp⟩
    · have hdd : d = false := by
        cases d
        · rfl
        · simp [enter_phase2] at hd
      subst hdd
      have hl := (phase1_invariant sol henv st0 (at_point.head h0)).2 hph false
      simp only [enter_phase2, foldl_push_nil]
      intro he
      apply hf
      rw [hl, he]
      rfl
    · have k3 := (pop_and_expand_ctrl c d1 st0 st1 hp).2.2.1
      rw [k3] at hd
      intro he
      have hl : ¬ (st1.open_ d).length > 0 := by simp [he]
      unfold next_direction at hd
      cases d <;> cases d1 <;>
        simp only [Bool.not_false, Bool.not_true, Bool.false_eq_true, if_false, if_true]
          at hd hl
      · rw [if_neg hl] at hd
        split_ifs at hd
        omega
      · rw [if_neg hl] at hd
        split_ifs at hd
        omega
      · rw [if_neg hl] at hd
        split_ifs at hd
        omega
      · rw [if_neg hl] at hd
        split_ifs at hd
        omega

end chase_search

namespace chase_search

theorem pop_of_ne_nil (mem : node_ptr → search_node) (q : List node_ptr) (h : q ≠ []) :
    ∃ cur rest, pqueue.pop mem q = some (cur, rest) := by
  cases q with
  | nil => exact absurd rfl h
  | cons x xs => exact ⟨_, _, rfl⟩

theorem search_iter_ne_null_deref {c : chase_config} {pi : problem_instance} {N : Nat}
    {mem : node_ptr → search_node} (sol : solution) (henv : env_ok c pi N mem)
    (st : chase_state) (h : at_loop_head c mem pi sol st) :
    search_iter c st ≠ .null_deref := by
  have hc := ctrl_inv_at_loop_head st h
  obtain ⟨hc1, _, hc3⟩ := hc
  rcases hc3 with h0 | h12
  · rw [search_iter_zero c st h0]
    unfold check_termination
    split_ifs <;> simp
  · have hd : ∃ d : Bool, st.search_direction = if d then 2 else 1 := by
      rcases h12 with h | h
      · exact ⟨false, by simpa using h⟩
      · exact ⟨true, by simpa using h⟩
    obtain ⟨d, hd⟩ := hd
    rw [search_iter_dir c st d hd]
    obtain ⟨cur, rest, hpop⟩ :=
      pop_of_ne_nil st.mem (st.open_ d) (open_nonempty_at_loop_head sol henv st h d hd)
    have hp : ∃ st2, pop_and_expand c d st = some st2 := by
      unfold pop_and_expand
      rw [hpop]
      exact ⟨_, rfl⟩
    obtain ⟨st2, hp⟩ := hp
    rw [hp]
    have h2 := (pop_and_expand_ctrl c d st st2 hp).1
    dsimp only
    rw [check_termination_of_not_cannot_improve c st2 (h2.trans hc1)]
    simp

theorem search_loop_ne_null_deref {c : chase_config} {pi : problem_instance} {N : Nat}
    {mem : node_ptr → search_node} (sol : solution) (henv : env_ok c pi N mem)
    (fuel : Nat) (st : chase_state) (h : at_loop_head c mem pi sol st) :
    search_loop c fuel st ≠ .null_deref := by
  induction fuel generalizing st with
  | zero => simp [search_loop]
  | succ fuel ih =>
    unfold search_loop
    split
    · rename_i st1 hi
      exact ih st1 (at_loop_head.pass h hi)
    · simp
    · rename_i hi
      exact absurd hi (search_iter_ne_null_deref sol henv st h)

end chase_search

namespace chase_search

theorem reconstruct_path_frame (fuel : Nat) (st st1 : chase_state)
    (h : reconstruct_path fuel st = .finished st1) :
    st1.mem = st.mem ∧ st1.open_ = st.open_ ∧ st1.norelax_ = st.norelax_ ∧
    st1.best_cost_ = st.best_cost_ := by
  unfold reconstruct_path at h
  dsimp only at h
  split at h
  · cases h
  · split at h
    · cases h
    · split at h
      · cases h
      · injection h with h
        subst h
        exact ⟨rfl, rfl, rfl, rfl⟩

theorem report_frame (c : chase_config) (fuel : Nat) (st r : chase_state)
    (h : report c fuel (.finished st) = .finished r) :
    r.mem = st.mem ∧ (∀ d, r.open_ d = []) ∧ r.norelax_ = st.norelax_ ∧
    r.best_cost_ = st.best_cost_ := by
  unfold report at h
  dsimp only at h
  split_ifs at h with hb
  · split at h
    · rename_i st1 hr
      injection h with h
      subst h
      obtain ⟨k1, _, k3, k4⟩ := reconstruct_path_frame fuel _ st1 hr
      exact ⟨k1, fun _ => rfl, k3, k4⟩
    · cases h
    · cases h
  · injection h with h
    subst h
    exact ⟨rfl, fun _ => rfl, rfl, rfl⟩

end chase_search

namespace chase_search

/-! ### Termination of the loop of `search` -/

theorem unexpanded_count_le (N : Nat) (mem : node_ptr → search_node) (d : Bool) :
    unexpanded_count N mem d ≤ N := by
  unfold unexpanded_count
  calc Finset.sum (Finset.range N) (fun k => if (mem ⟨d, k⟩).get_expanded then 0 else 1)
      ≤ Finset.sum (Finset.range N) (fun _ => 1) := by
        apply Finset.sum_le_sum
        intro k _
        split_ifs <;> omega
    _ = N := by simp

theorem unexpanded_count_mono (N : Nat) (mem mem1 : node_ptr → search_node) (d : Bool)
    (h : ∀ p : node_ptr, (mem p).get_expanded = true → (mem1 p).get_expanded = true) :
    unexpanded_count N mem1 d ≤ unexpanded_count N mem d := by
  unfold unexpanded_count
  apply Finset.sum_le_sum
  intro k _
  by_cases hk : (mem ⟨d, k⟩).get_expanded = true
  · rw [if_pos hk, if_pos (h _ hk)]
  · rw [if_neg hk]
    split_ifs <;> omega

theorem unexpanded_count_lt (N : Nat) (mem mem1 : node_ptr → search_node) (p : node_ptr)
    (h : ∀ q : node_ptr, (mem q).get_expanded = true → (mem1 q).get_expanded = true)
    (hp : p.key < N) (h0 : (mem p).get_expanded = false)
    (h1 : (mem1 p).get_expanded = true) :
    unexpanded_count N mem1 p.bwd < unexpanded_count N mem p.bwd := by
  unfold unexpanded_count
  apply Finset.sum_lt_sum
  · intro k _
    by_cases hk : (mem ⟨p.bwd, k⟩).get_expanded = true
    · rw [if_pos hk, if_pos (h _ hk)]
    · rw [if_neg hk]
      split_ifs <;> omega
  · refine ⟨p.key, Finset.mem_range.mpr hp, ?_⟩
    have e : (⟨p.bwd, p.key⟩ : node_ptr) = p := rfl
    rw [e, if_pos h1, if_neg (by rw [h0]; simp)]
    exact Nat.zero_lt_one

theorem open_length_le {c : chase_config} {pi : problem_instance} {N : Nat}
    {mem : node_ptr → search_node} {o nr : Bool → List node_ptr} {ph : Nat}
    (hb : basic_inv c pi N mem o nr ph) (d : Bool) : (o d).length ≤ N := by
  have hinj : ∀ a ∈ o d, ∀ b ∈ o d, a.key = b.key → a = b := by
    intro a ha b hb2 hk
    have h1 := (hb.open_ok d a ha).1
    have h2 := (hb.open_ok d b hb2).1
    cases a
    cases b
    simp_all
  have hnd : ((o d).map node_ptr.key).Nodup :=
    List.Nodup.map_on hinj (hb.open_nodup d)
  have hsub : ((o d).map node_ptr.key).toFinset ⊆ Finset.range N := by
    intro k hk
    rw [List.mem_toFinset, List.mem_map] at hk
    obtain ⟨a, ha, rfl⟩ := hk
    exact Finset.mem_range.mpr (hb.open_ok d a ha).2.1
  have hc := Finset.card_le_card hsub
  rw [List.toFinset_card_of_nodup hnd, Finset.card_range, List.length_map] at hc
  exact hc

theorem pop_and_expand_expands (c : chase_config) (d : Bool) (st st1 : chase_state)
    (cur : node_ptr) (rest : List node_ptr)
    (hpop : pqueue.pop st.mem (st.open_ d) = some (cur, rest))
    (hf : ¬ (st.mem cur).get_f ≥ st.best_cost_)
    (h : pop_and_expand c d st = some st1) : (st1.mem cur).get_expanded = true := by
  unfold pop_and_expand at h
  rw [hpop] at h
  simp only [Option.some.injEq] at h
  subst h
  dsimp only
  rw [if_neg hf]
  unfold expand
  apply foldl_expand_succ_expanded_mono
  unfold expand_begin
  dsimp only
  rw [store_same]
  exact search_node.get_expanded_set_expanded _ _

end chase_search

namespace chase_search

theorem passes_left_decreases {c : chase_config} {pi : problem_instance} {N : Nat}
    {mem : node_ptr → search_node} (sol : solution) (henv : env_ok c pi N mem)
    (st st1 : chase_state) (h : at_loop_head c mem pi sol st)
    (hs : search_iter c st = .continue_ st1) :
    passes_left N st1 < passes_left N st := by
  have hb := (phase1_invariant sol henv st (at_point.head h)).1
  have hb1 := (phase1_invariant sol henv st1 (at_point.head (at_loop_head.pass h hs))).1
  have ho1f := open_length_le hb1 false
  have ho1t := open_length_le hb1 true
  have huf := unexpanded_count_le N st.mem false
  have hut := unexpanded_count_le N st.mem true
  rcases search_iter_continue_cases c st st1 (ctrl_inv_at_loop_head st h) hs with
    ⟨h0, hph, _, _, he⟩ | ⟨d, hd, hp⟩
  · have hph1 : st1.phase_ = 2 := by rw [he]; rfl
    have hm : st1.mem = st.mem := by rw [he]; rfl
    unfold passes_left
    rw [hph, hph1, hm]
    have hK : (unexpanded_count N st.mem false + unexpanded_count N st.mem true)
        * (2 * N + 1) ≥ 0 := Nat.zero_le _
    have : (2 - 1) * (4 * N * N + 4 * N + 1) = 4 * N * N + 4 * N + 1 := by simp
    rw [this]
    have h2 : (2 - 2) * (4 * N * N + 4 * N + 1) = 0 := by simp
    rw [h2]
    nlinarith [Nat.zero_le (N * N)]
  · obtain ⟨_, hph, _, cur, rest, hpop⟩ := pop_and_expand_ctrl c d st st1 hp
    obtain ⟨p1, p2, _⟩ := pop_spec hpop
    have hmono : ∀ q : node_ptr, (st.mem q).get_expanded = true →
        (st1.mem q).get_expanded = true :=
      fun q hq => pop_and_expand_expanded_mono c d st st1 hp q hq
    unfold passes_left
    rw [hph]
    by_cases hf : (st.mem cur).get_f ≥ st.best_cost_
    · obtain ⟨k1, k2, _⟩ := pop_and_expand_drop c d st st1 cur rest hpop hf hp
      rw [k1, k2]
      have hlen : rest.length + 1 = (st.open_ d).length := by
        rw [p2, List.length_erase_of_mem p1]
        have : 0 < (st.open_ d).length := List.length_pos_of_mem p1
        omega
      cases d
      · rw [set_dir_same, set_dir_other _ _ (by decide : true ≠ false)]
        omega
      · rw [set_dir_same, set_dir_other _ _ (by decide : false ≠ true)]
        omega
    · have hexp := pop_and_expand_expands c d st st1 cur rest hpop hf hp
      have hun := (hb.open_ok d cur p1).2.2.2
      have hlt := (hb.open_ok d cur p1).2.1
      have hbw := (hb.open_ok d cur p1).1
      have hstrict := unexpanded_count_lt N st.mem st1.mem cur hmono hlt hun hexp
      rw [hbw] at hstrict
      have hle := unexpanded_count_mono N st.mem st1.mem (!d) hmono
      have hsum : unexpanded_count N st1.mem false + unexpanded_count N st1.mem true + 1
          ≤ unexpanded_count N st.mem false + unexpanded_count N st.mem true := by
        cases d
        · simp only [Bool.not_false] at hle
          omega
        · simp only [Bool.not_true] at hle
          omega
      have hmul := Nat.mul_le_mul_right (2 * N + 1) hsum
      have hdist : (unexpanded_count N st1.mem false + unexpanded_count N st1.mem true + 1)
          * (2 * N + 1)
          = (unexpanded_count N st1.mem false + unexpanded_count N st1.mem true)
            * (2 * N + 1) + (2 * N + 1) := by ring
      rw [hdist] at hmul
      omega

theorem search_loop_terminates {c : chase_config} {pi : problem_instance} {N : Nat}
    {mem : node_ptr → search_node} (sol : solution) (henv : env_ok c pi N mem)
    (fuel : Nat) (st : chase_state) (h : at_loop_head c mem pi sol st)
    (hm : passes_left N st < fuel) : ∃ st2, search_loop c fuel st = .finished st2 := by
  induction fuel generalizing st with
  | zero => omega
  | succ fuel ih =>
    unfold search_loop
    split
    · rename_i st1 hi
      have := passes_left_decreases sol henv st st1 h hi
      exact ih st1 (at_loop_head.pass h hi) (by omega)
    · exact ⟨_, rfl⟩
    · rename_i hi
      exact absurd hi (search_iter_ne_null_deref sol henv st h)

theorem passes_left_init {c : chase_config} {pi : problem_instance} {N : Nat}
    (mem : node_ptr → search_node) (sol : solution) :
    passes_left N (search_init c mem pi sol) < 8 * N * N + 6 * N + 4 := by
  have huf := unexpanded_count_le N (search_init c mem pi sol).mem false
  have hut := unexpanded_count_le N (search_init c mem pi sol).mem true
  have hmul := Nat.mul_le_mul_right (2 * N + 1) (Nat.add_le_add huf hut)
  have h1 : (search_init c mem pi sol).phase_ = 1 := rfl
  have h2 : ((search_init c mem pi sol).open_ false).length = 1 := rfl
  have h3 : ((search_init c mem pi sol).open_ true).length = 1 := rfl
  unfold passes_left
  rw [h1, h2, h3]
  have : (2 - 1) * (4 * N * N + 4 * N + 1) = 4 * N * N + 4 * N + 1 := by simp
  rw [this]
  have hr : (N + N) * (2 * N + 1) = 4 * N * N + 2 * N := by ring
  rw [hr] at hmul
  nlinarith [hmul]

end chase_search

/-! ### Padded ids and the rotated map -/

theorem u32_sub_of_le (a b : Nat) (ha : a < 2 ^ 32) (hb : b ≤ a) : u32_sub a b = a - b := by
  unfold u32_sub
  have hb2 : b < 2 ^ 32 := lt_of_le_of_lt hb ha
  rw [Nat.mod_eq_of_lt ha, Nat.mod_eq_of_lt hb2]
  omega

theorem mul_add_inj (P a b a1 b1 : Nat) (ha : a < P) (ha1 : a1 < P)
    (h : b * P + a = b1 * P + a1) : a = a1 ∧ b = b1 := by
  have hP : 0 < P := by omega
  have h1 : (b * P + a) % P = a := by
    rw [Nat.add_comm, Nat.add_mul_mod_self_right, Nat.mod_eq_of_lt ha]
  have h2 : (b1 * P + a1) % P = a1 := by
    rw [Nat.add_comm, Nat.add_mul_mod_self_right, Nat.mod_eq_of_lt ha1]
  have e : a = a1 := by rw [← h1, ← h2, h]
  subst e
  have h3 : b * P = b1 * P := by omega
  exact ⟨rfl, Nat.eq_of_mul_eq_mul_right hP h3⟩

theorem padded_lt (w h x y : Nat) (hx : x < w) (hy : y < h) :
    (y + 1) * (w + 2) + (x + 1) < (h + 2) * (w + 2) := by
  have h1 : (y + 2) * (w + 2) ≤ (h + 2) * (w + 2) := Nat.mul_le_mul_right _ (by omega)
  have h2 : (y + 2) * (w + 2) = (y + 1) * (w + 2) + (w + 2) := by ring
  omega

namespace gridmap

theorem to_padded_id_xy_eq (m : gridmap) (x y : Nat)
    (hfit : (m.header_height_ + 2) * (m.header_width_ + 2) < 2 ^ 32)
    (hx : x < m.header_width_) (hy : y < m.header_height_) :
    m.to_padded_id_xy x y = (y + 1) * (m.header_width_ + 2) + (x + 1) := by
  unfold to_padded_id_xy padded_width
  apply Nat.mod_eq_of_lt
  exact lt_trans (padded_lt _ _ x y hx hy) hfit

theorem to_padded_id_eq (m : gridmap) (x y : Nat)
    (hfit : (m.header_height_ + 2) * (m.header_width_ + 2) < 2 ^ 32)
    (hx : x < m.header_width_) (hy : y < m.header_height_) :
    m.to_padded_id ((y * m.header_width + x) % 2 ^ 32)
      = (y + 1) * (m.header_width_ + 2) + (x + 1) := by
  have hlt : y * m.header_width_ + x < 2 ^ 32 := by
    have h1 : y * m.header_width_ ≤ (y + 1) * (m.header_width_ + 2) := by
      apply Nat.mul_le_mul <;> omega
    have := padded_lt _ _ x y hx hy
    omega
  have hw : 0 < m.header_width_ := by omega
  unfold to_padded_id header_width
  rw [Nat.mod_eq_of_lt hlt]
  have h1 : (y * m.header_width_ + x) % m.header_width_ = x := by
    rw [Nat.add_comm, Nat.add_mul_mod_self_right, Nat.mod_eq_of_lt hx]
  have h2 : (y * m.header_width_ + x) / m.header_width_ = y := by
    rw [Nat.add_comm, Nat.add_mul_div_right _ _ hw, Nat.div_eq_of_lt hx, Nat.zero_add]
  rw [h1, h2]
  exact to_padded_id_xy_eq m x y hfit hx hy

theorem to_unpadded_xy_eq (m : gridmap) (x y : Nat)
    (hfit : (m.header_height_ + 2) * (m.header_width_ + 2) < 2 ^ 32)
    (hx : x < m.header_width_) (hy : y < m.header_height_) :
    m.to_unpadded_xy ((y + 1) * (m.header_width_ + 2) + (x + 1)) = (x, y) := by
  unfold to_unpadded_xy padded_width
  have hx1 : x + 1 < m.header_width_ + 2 := by omega
  have hP : 0 < m.header_width_ + 2 := by omega
  have h1 : ((y + 1) * (m.header_width_ + 2) + (x + 1)) % (m.header_width_ + 2) = x + 1 := by
    rw [Nat.add_comm, Nat.add_mul_mod_self_right, Nat.mod_eq_of_lt hx1]
  have h2 : ((y + 1) * (m.header_width_ + 2) + (x + 1)) / (m.header_width_ + 2) = y + 1 := by
    rw [Nat.add_comm, Nat.add_mul_div_right _ _ hP, Nat.div_eq_of_lt hx1, Nat.zero_add]
  have hw : m.header_width_ + 2 ≤ (m.header_height_ + 2) * (m.header_width_ + 2) :=
    Nat.le_mul_of_pos_left _ (by omega)
  have hh : m.header_height_ + 2 ≤ (m.header_height_ + 2) * (m.header_width_ + 2) :=
    Nat.le_mul_of_pos_right _ (by omega)
  rw [h1, h2, u32_sub_of_le _ _ (by omega) (by omega), u32_sub_of_le _ _ (by omega) (by omega)]
  simp

end gridmap

namespace jpst_gridmap

theorem map_id_to_rmap_id_eq (INF32 : Nat) (j : jpst_gridmap) (x y : Nat)
    (hw : j.t_gm_r_.header_width_ = j.t_gm_.header_height_)
    (hh : j.t_gm_r_.header_height_ = j.t_gm_.header_width_)
    (hfit : (j.t_gm_.header_height_ + 2) * (j.t_gm_.header_width_ + 2) < 2 ^ 32)
    (hinf : (j.t_gm_.header_height_ + 2) * (j.t_gm_.header_width_ + 2) ≤ INF32)
    (hx : x < j.t_gm_.header_width_) (hy : y < j.t_gm_.header_height_) :
    j.map_id_to_rmap_id INF32 ((y + 1) * (j.t_gm_.header_width_ + 2) + (x + 1))
      = (x + 1) * (j.t_gm_.header_height_ + 2) + (j.t_gm_.header_height_ - y) := by
  have hlt := padded_lt _ _ x y hx hy
  unfold map_id_to_rmap_id
  rw [if_neg (by omega)]
  dsimp only
  rw [gridmap.to_unpadded_xy_eq _ x y hfit hx hy]
  dsimp only
  have hhh : j.t_gm_.header_height_ + 2 ≤
      (j.t_gm_.header_height_ + 2) * (j.t_gm_.header_width_ + 2) :=
    Nat.le_mul_of_pos_right _ (by omega)
  unfold gridmap.header_height
  have e1 : u32_sub j.t_gm_.header_height_ y = j.t_gm_.header_height_ - y :=
    u32_sub_of_le _ _ (by omega) (by omega)
  have e2 : u32_sub (j.t_gm_.header_height_ - y) 1 = j.t_gm_.header_height_ - y - 1 :=
    u32_sub_of_le _ _ (by omega) (by omega)
  rw [e1, e2]
  have hfit2 : (j.t_gm_r_.header_height_ + 2) * (j.t_gm_r_.header_width_ + 2) < 2 ^ 32 := by
    rw [hw, hh, Nat.mul_comm]
    exact hfit
  rw [gridmap.to_padded_id_xy_eq _ _ _ hfit2 (by omega) (by omega), hw]
  omega

end jpst_gridmap

namespace search_node

theorem lt_eq_true_iff (a other : search_node) :
    a.lt other = true ↔ a.f_ < other.f_ ∨ (a.f_ = other.f_ ∧ other.g_ < a.g_) := by
  unfold lt
  split_ifs with h1 h2 h3
  · simp [h1]
  · simp only [Bool.false_eq_true, false_iff, not_or, not_and]
    exact ⟨h1, fun h => absurd h (ne_of_gt h2)⟩
  · simp only [true_iff]
    exact Or.inr ⟨le_antisymm (not_lt.mp h2) (not_lt.mp h1), h3⟩
  · simp only [Bool.false_eq_true, false_iff, not_or, not_and]
    exact ⟨h1, fun _ => h3⟩

theorem lt_eq_false_iff (a other : search_node) :
    a.lt other = false ↔ ¬ (a.f_ < other.f_ ∨ (a.f_ = other.f_ ∧ other.g_ < a.g_)) := by
  rw [← lt_eq_true_iff]
  simp

end search_node

namespace jpst_gridmap

theorem rmap_id_to_map_id_eq (INF32 : Nat) (j : jpst_gridmap) (rx ry : Nat)
    (hw : j.t_gm_r_.header_width_ = j.t_gm_.header_height_)
    (hh : j.t_gm_r_.header_height_ = j.t_gm_.header_width_)
    (hfit : (j.t_gm_.header_height_ + 2) * (j.t_gm_.header_width_ + 2) < 2 ^ 32)
    (hinf : (j.t_gm_.header_height_ + 2) * (j.t_gm_.header_width_ + 2) ≤ INF32)
    (hx : rx < j.t_gm_r_.header_width_) (hy : ry < j.t_gm_r_.header_height_) :
    j.rmap_id_to_map_id INF32 ((ry + 1) * (j.t_gm_r_.header_width_ + 2) + (rx + 1))
      = (j.t_gm_r_.header_width_ - rx) * (j.t_gm_.header_width_ + 2) + (ry + 1) := by
  have hfit2 : (j.t_gm_r_.header_height_ + 2) * (j.t_gm_r_.header_width_ + 2) < 2 ^ 32 := by
    rw [hw, hh, Nat.mul_comm]
    exact hfit
  have hlt := padded_lt _ _ rx ry hx hy
  have hinf2 : (j.t_gm_r_.header_height_ + 2) * (j.t_gm_r_.header_width_ + 2) ≤ INF32 := by
    rw [hw, hh, Nat.mul_comm]
    exact hinf
  unfold rmap_id_to_map_id
  rw [if_neg (by omega)]
  dsimp only
  rw [gridmap.to_unpadded_xy_eq _ rx ry hfit2 hx hy]
  dsimp only
  have hww : j.t_gm_r_.header_width_ + 2 ≤
      (j.t_gm_r_.header_height_ + 2) * (j.t_gm_r_.header_width_ + 2) :=
    Nat.le_mul_of_pos_left _ (by omega)
  unfold gridmap.header_width
  have e1 : u32_sub j.t_gm_r_.header_width_ rx = j.t_gm_r_.header_width_ - rx :=
    u32_sub_of_le _ _ (by omega) (by omega)
  have e2 : u32_sub (j.t_gm_r_.header_width_ - rx) 1 = j.t_gm_r_.header_width_ - rx - 1 :=
    u32_sub_of_le _ _ (by omega) (by omega)
  rw [e1, e2]
  rw [gridmap.to_padded_id_xy_eq _ _ _ hfit (by omega) (by omega)]
  have e3 : j.t_gm_r_.header_width_ - rx - 1 + 1 = j.t_gm_r_.header_width_ - rx := by omega
  rw [e3]

end jpst_gridmap

/-! ### Rounding to a double is monotone -/

theorem bit_length_spec : ∀ (fuel n : Nat), n ≤ fuel →
    n < 2 ^ bit_length fuel n ∧ (n ≠ 0 → 2 ^ bit_length fuel n ≤ 2 * n) := by
  intro fuel
  induction fuel with
  | zero =>
    intro n hn
    have : n = 0 := by omega
    subst this
    simp [bit_length]
  | succ fuel ih =>
    intro n hn
    unfold bit_length
    by_cases h0 : n = 0
    · subst h0; simp
    · rw [if_neg h0]
      have hle : n / 2 ≤ fuel := by omega
      obtain ⟨h1, h2⟩ := ih (n / 2) hle
      rw [pow_succ]
      constructor
      · omega
      · intro _
        by_cases h3 : n / 2 = 0
        · have hb : bit_length fuel (n / 2) = 0 := by
            rw [h3]; cases fuel <;> simp [bit_length]
          rw [hb]; omega
        · have := h2 h3
          omega

theorem floor_log2_spec (x : ℚ) (hx : 0 < x) :
    (2 : ℚ) ^ floor_log2 x ≤ x ∧ x < (2 : ℚ) ^ (floor_log2 x + 1) := by
  have hnum : 0 < x.num := Rat.num_pos.mpr hx
  obtain ⟨p1, p2⟩ := bit_length_spec x.num.natAbs x.num.natAbs le_rfl
  obtain ⟨q1, q2⟩ := bit_length_spec x.den x.den le_rfl
  have hp0 : x.num.natAbs ≠ 0 := by omega
  have hq0 : x.den ≠ 0 := x.den_nz
  replace p2 := p2 hp0
  replace q2 := q2 hq0
  set P := bit_length x.num.natAbs x.num.natAbs
  set Q := bit_length x.den x.den
  have hxe : x = (x.num.natAbs : ℚ) / (x.den : ℚ) := by
    have : ((x.num.natAbs : ℤ) : ℚ) = (x.num : ℚ) := by
      rw [Int.natAbs_of_nonneg hnum.le]
    rw [← Int.cast_natCast, this]
    exact (Rat.num_div_den x).symm
  have hpq : (0 : ℚ) < (x.num.natAbs : ℚ) := by exact_mod_cast Nat.pos_of_ne_zero hp0
  have hqq : (0 : ℚ) < (x.den : ℚ) := by exact_mod_cast Nat.pos_of_ne_zero hq0
  have p1q : (x.num.natAbs : ℚ) < 2 ^ P := by exact_mod_cast p1
  have p2q : (2 : ℚ) ^ P ≤ 2 * (x.num.natAbs : ℚ) := by exact_mod_cast p2
  have q1q : (x.den : ℚ) < 2 ^ Q := by exact_mod_cast q1
  have q2q : (2 : ℚ) ^ Q ≤ 2 * (x.den : ℚ) := by exact_mod_cast q2
  have hz : ∀ k : ℤ, (2 : ℚ) ^ ((P : ℤ) - (Q : ℤ) + k) = 2 ^ P / 2 ^ Q * 2 ^ k := by
    intro k
    rw [zpow_add₀ (by norm_num), zpow_sub₀ (by norm_num), zpow_natCast, zpow_natCast]
  have hP : (0 : ℚ) < 2 ^ P := by positivity
  have hQ : (0 : ℚ) < 2 ^ Q := by positivity
  have upper : x < (2 : ℚ) ^ ((P : ℤ) - (Q : ℤ) + 1) := by
    rw [hz 1, zpow_one, hxe, div_mul_eq_mul_div, div_lt_div_iff₀ hqq hQ]
    nlinarith
  have lower : (2 : ℚ) ^ ((P : ℤ) - (Q : ℤ) + (-1)) < x := by
    rw [hz (-1), hxe, div_mul_eq_mul_div, div_lt_div_iff₀ hQ hqq]
    rw [zpow_neg, zpow_one]
    nlinarith
  unfold floor_log2
  split_ifs with h
  · exact ⟨h, upper⟩
  · refine ⟨le_of_lt ?_, ?_⟩
    · exact lower
    · rw [sub_add_cancel]
      exact not_le.mp h

theorem round_half_even_bounds (x : ℚ) :
    ⌊x⌋ ≤ round_half_even x ∧ round_half_even x ≤ ⌊x⌋ + 1 := by
  unfold round_half_even
  split_ifs <;> omega

theorem round_half_even_intCast (n : ℤ) : round_half_even (n : ℚ) = n := by
  unfold round_half_even
  rw [Int.floor_intCast]
  simp

theorem round_half_even_mono {a b : ℚ} (h : a ≤ b) :
    round_half_even a ≤ round_half_even b := by
  have hfl : ⌊a⌋ ≤ ⌊b⌋ := Int.floor_mono h
  rcases lt_or_eq_of_le hfl with hlt | heq
  · have h1 := (round_half_even_bounds a).2
    have h2 := (round_half_even_bounds b).1
    omega
  · unfold round_half_even
    rw [← heq]
    split_ifs <;> first | omega | linarith

theorem round_half_even_le {x : ℚ} {n : ℤ} (h : x ≤ (n : ℚ)) : round_half_even x ≤ n := by
  have := round_half_even_mono h
  rwa [round_half_even_intCast] at this

theorem le_round_half_even {x : ℚ} {n : ℤ} (h : (n : ℚ) ≤ x) : n ≤ round_half_even x := by
  have := round_half_even_mono h
  rwa [round_half_even_intCast] at this

theorem double_exponent_upper (x : ℚ) (hx : 0 < x) :
    x < (2 : ℚ) ^ (double_exponent x + 1) := by
  have h := (floor_log2_spec x hx).2
  refine lt_of_lt_of_le h ?_
  apply zpow_le_zpow_right₀ (by norm_num)
  unfold double_exponent
  have := le_max_left (floor_log2 x) (-1022)
  omega

theorem double_exponent_lower (x : ℚ) (hx : 0 < x) (he : -1022 < double_exponent x) :
    (2 : ℚ) ^ double_exponent x ≤ x := by
  have h := (floor_log2_spec x hx).1
  have : double_exponent x = floor_log2 x := by
    unfold double_exponent at he ⊢
    rcases max_cases (floor_log2 x) (-1022) with ⟨h1, _⟩ | ⟨h1, _⟩
    · exact h1
    · rw [h1] at he; omega
  rw [this]
  exact h

theorem double_exponent_ge (x : ℚ) : -1022 ≤ double_exponent x := le_max_right _ _

theorem double_exponent_mono {x y : ℚ} (hx : 0 < x) (h : x ≤ y) :
    double_exponent x ≤ double_exponent y := by
  by_contra hc
  have hlt : double_exponent y < double_exponent x := not_le.mp hc
  have h1 := double_exponent_lower x hx (lt_of_le_of_lt (double_exponent_ge y) hlt)
  have h2 := double_exponent_upper y (lt_of_lt_of_le hx h)
  have h3 : (2 : ℚ) ^ (double_exponent y + 1) ≤ 2 ^ double_exponent x :=
    zpow_le_zpow_right₀ (by norm_num) (by omega)
  linarith

theorem round_magnitude_zero : round_magnitude 0 = 0 := by
  unfold round_magnitude
  rw [zero_div]
  have : round_half_even 0 = 0 := by
    have := round_half_even_intCast 0
    simpa using this
  rw [this]
  simp

theorem round_magnitude_nonneg (x : ℚ) (hx : 0 ≤ x) : 0 ≤ round_magnitude x := by
  unfold round_magnitude
  have hu : (0 : ℚ) < 2 ^ (double_exponent x - 52) := by positivity
  have h0 : (0 : ℤ) ≤ round_half_even (x / 2 ^ (double_exponent x - 52)) := by
    apply le_round_half_even
    simpa using div_nonneg hx hu.le
  have : (0 : ℚ) ≤ (round_half_even (x / 2 ^ (double_exponent x - 52)) : ℚ) := by
    exact_mod_cast h0
  exact mul_nonneg this hu.le

theorem round_magnitude_mono {x y : ℚ} (hx : 0 < x) (h : x ≤ y) :
    round_magnitude x ≤ round_magnitude y := by
  have hy : 0 < y := lt_of_lt_of_le hx h
  have hux : (0 : ℚ) < 2 ^ (double_exponent x - 52) := by positivity
  have huy : (0 : ℚ) < 2 ^ (double_exponent y - 52) := by positivity
  rcases lt_or_eq_of_le (double_exponent_mono hx h) with hlt | heq
  · have hxu : round_magnitude x ≤ 2 ^ (double_exponent x + 1) := by
      unfold round_magnitude
      have e : (2 : ℚ) ^ (double_exponent x + 1) = ((2 ^ 53 : ℤ) : ℚ) * 2 ^ (double_exponent x - 52) := by
        rw [show double_exponent x + 1 = 53 + (double_exponent x - 52) by ring,
          zpow_add₀ (by norm_num)]
        norm_num
      rw [e]
      apply mul_le_mul_of_nonneg_right _ hux.le
      have : round_half_even (x / 2 ^ (double_exponent x - 52)) ≤ (2 ^ 53 : ℤ) := by
        apply round_half_even_le
        rw [div_le_iff₀ hux, ← e]
        exact (double_exponent_upper x hx).le
      exact_mod_cast this
    have hyl : (2 : ℚ) ^ double_exponent y ≤ round_magnitude y := by
      unfold round_magnitude
      have e : (2 : ℚ) ^ double_exponent y = ((2 ^ 52 : ℤ) : ℚ) * 2 ^ (double_exponent y - 52) := by
        rw [show double_exponent y = 52 + (double_exponent y - 52) by ring,
          zpow_add₀ (by norm_num)]
        norm_num
      rw [e]
      apply mul_le_mul_of_nonneg_right _ huy.le
      have : (2 ^ 52 : ℤ) ≤ round_half_even (y / 2 ^ (double_exponent y - 52)) := by
        apply le_round_half_even
        rw [le_div_iff₀ huy, ← e]
        exact double_exponent_lower y hy (lt_of_le_of_lt (double_exponent_ge x) hlt)
      exact_mod_cast this
    have hmid : (2 : ℚ) ^ (double_exponent x + 1) ≤ 2 ^ double_exponent y :=
      zpow_le_zpow_right₀ (by norm_num) (by omega)
    linarith
  · unfold round_magnitude
    rw [← heq]
    apply mul_le_mul_of_nonneg_right _ hux.le
    have : round_half_even (x / 2 ^ (double_exponent x - 52))
        ≤ round_half_even (y / 2 ^ (double_exponent x - 52)) :=
      round_half_even_mono (div_le_div_of_nonneg_right h hux.le)
    exact_mod_cast this

theorem double_round_mono {x y : ℚ} (h : x ≤ y) : double_round x ≤ double_round y := by
  unfold double_round
  split_ifs with hx hy hy
  · have h1 : 0 < -y := by linarith
    have := round_magnitude_mono h1 (by linarith : -y ≤ -x)
    linarith
  · have h1 := round_magnitude_nonneg (-x) (by linarith)
    have h2 := round_magnitude_nonneg y (not_lt.mp hy)
    linarith
  · linarith
  · rcases lt_or_eq_of_le (not_lt.mp hx) with h0 | h0
    · exact round_magnitude_mono h0 h
    · rw [← h0, round_magnitude_zero]
      exact round_magnitude_nonneg y (not_lt.mp hy)

/-! ### The search with rounded sums: its invariants, `best_cost_` and the g-values -/

namespace rounded

open chase_search

@[simp] theorem get_id_relax_rnd (n : search_node) (g : ℚ) (p : Option node_ptr) :
    (relax n g p).get_id = n.get_id := rfl

@[simp] theorem get_expanded_relax_rnd (n : search_node) (g : ℚ) (p : Option node_ptr) :
    (relax n g p).get_expanded = n.get_expanded := rfl

@[simp] theorem get_search_id_relax_rnd (n : search_node) (g : ℚ) (p : Option node_ptr) :
    (relax n g p).get_search_id = n.get_search_id := rfl

@[simp] theorem get_g_relax_rnd (n : search_node) (g : ℚ) (p : Option node_ptr) :
    (relax n g p).get_g = g := rfl

@[simp] theorem get_f_relax_rnd (n : search_node) (g : ℚ) (p : Option node_ptr) :
    (relax n g p).get_f = double_round (double_round (n.get_f - n.get_g) + g) := rfl

@[simp] theorem get_parent_relax_rnd (n : search_node) (g : ℚ) (p : Option node_ptr) :
    (relax n g p).get_parent = p := rfl

section frame
variable (c : chase_config) (d : Bool) (current : node_ptr) (st : chase_state) (e : Nat × ℚ)

@[simp] theorem rg_best_cost_rnd : (relax_or_generate c d current st e).best_cost_ = st.best_cost_ := by
  unfold relax_or_generate; dsimp only; split_ifs <;> rfl

@[simp] theorem rg_v_rnd : (relax_or_generate c d current st e).v_ = st.v_ := by
  unfold relax_or_generate; dsimp only; split_ifs <;> rfl

@[simp] theorem rg_w_rnd : (relax_or_generate c d current st e).w_ = st.w_ := by
  unfold relax_or_generate; dsimp only; split_ifs <;> rfl

@[simp] theorem rg_phase_rnd : (relax_or_generate c d current st e).phase_ = st.phase_ := by
  unfold relax_or_generate; dsimp only; split_ifs <;> rfl

@[simp] theorem rg_pi_rnd : (relax_or_generate c d current st e).pi_ = st.pi_ := by
  unfold relax_or_generate; dsimp only; split_ifs <;> rfl

@[simp] theorem rg_path_rnd : (relax_or_generate c d current st e).sol.path_ = st.sol.path_ := by
  unfold relax_or_generate; dsimp only; split_ifs <;> rfl

@[simp] theorem rg_sum_rnd : (relax_or_generate c d current st e).sol.sum_of_edge_costs_
    = st.sol.sum_of_edge_costs_ := by
  unfold relax_or_generate; dsimp only; split_ifs <;> rfl

theorem rg_mem_other_rnd {p : node_ptr} (h : p ≠ ⟨d, e.1⟩) :
    (relax_or_generate c d current st e).mem p = st.mem p := by
  unfold relax_or_generate; dsimp only; split_ifs <;> simp [store_other _ _ h]

@[simp] theorem rg_get_id_rnd (p : node_ptr) :
    ((relax_or_generate c d current st e).mem p).get_id = (st.mem p).get_id := by
  by_cases h : p = ⟨d, e.1⟩
  · subst h
    unfold relax_or_generate; dsimp only; split_ifs <;> simp
  · rw [rg_mem_other_rnd c d current st e h]

theorem rg_search_id_succ_rnd
    (h : (⟨d, e.1⟩ : node_ptr) ∈ st.open_ d →
      (st.mem ⟨d, e.1⟩).get_search_id = (st.mem current).get_search_id) :
    ((relax_or_generate c d current st e).mem ⟨d, e.1⟩).get_search_id
      = (st.mem current).get_search_id := by
  unfold relax_or_generate; dsimp only
  split_ifs with h1 h2 h3 h4 h5 h6 <;> simp_all [pqueue.contains]

end frame

section frame
variable (c : chase_config) (d : Bool) (current : node_ptr) (st : chase_state) (e : Nat × ℚ)

@[simp] theorem update_best_sol_rnd : (update_best d current st e).sol = st.sol := by
  unfold update_best; dsimp only; split_ifs <;> rfl

@[simp] theorem update_best_mem_rnd : (update_best d current st e).mem = st.mem := by
  unfold update_best; dsimp only; split_ifs <;> rfl

@[simp] theorem update_best_open_rnd : (update_best d current st e).open_ = st.open_ := by
  unfold update_best; dsimp only; split_ifs <;> rfl

@[simp] theorem update_best_norelax_rnd : (update_best d current st e).norelax_ = st.norelax_ := by
  unfold update_best; dsimp only; split_ifs <;> rfl

@[simp] theorem update_best_core_lb_rnd : (update_best d current st e).core_lb = st.core_lb := by
  unfold update_best; dsimp only; split_ifs <;> rfl

@[simp] theorem update_best_phase_rnd : (update_best d current st e).phase_ = st.phase_ := by
  unfold update_best; dsimp only; split_ifs <;> rfl

@[simp] theorem update_best_pi_rnd : (update_best d current st e).pi_ = st.pi_ := by
  unfold update_best; dsimp only; split_ifs <;> rfl

theorem expand_succ_path_rnd : (expand_succ c d current st e).sol.path_ = st.sol.path_ := by
  unfold expand_succ; dsimp only; split_ifs <;> simp [touch]

theorem expand_succ_sum_rnd : (expand_succ c d current st e).sol.sum_of_edge_costs_
    = st.sol.sum_of_edge_costs_ := by
  unfold expand_succ; dsimp only; split_ifs <;> simp [touch]

end frame

theorem foldl_expand_succ_report_rnd (c : chase_config) (d : Bool) (current : node_ptr)
    (l : List (Nat × ℚ)) (st : chase_state) :
    (l.foldl (expand_succ c d current) st).sol.path_ = st.sol.path_ ∧
    (l.foldl (expand_succ c d current) st).sol.sum_of_edge_costs_
      = st.sol.sum_of_edge_costs_ := by
  induction l generalizing st with
  | nil => exact ⟨rfl, rfl⟩
  | cons e l ih =>
    rw [List.foldl_cons]
    obtain ⟨h1, h2⟩ := ih (expand_succ c d current st e)
    exact ⟨h1.trans (expand_succ_path_rnd c d current st e),
      h2.trans (expand_succ_sum_rnd c d current st e)⟩

theorem pop_and_expand_report_rnd (c : chase_config) (d : Bool) (st st1 : chase_state)
    (h : pop_and_expand c d st = some st1) :
    st1.sol.path_ = st.sol.path_ ∧
    st1.sol.sum_of_edge_costs_ = st.sol.sum_of_edge_costs_ := by
  unfold pop_and_expand at h
  split at h
  · exact absurd h (by simp)
  · rename_i current rest hpop
    simp only [Option.some.injEq] at h
    subst h
    dsimp only
    split_ifs
    · exact ⟨rfl, rfl⟩
    · exact foldl_expand_succ_report_rnd c d current _ _

theorem search_iter_report_rnd (c : chase_config) (st : chase_state) :
    (∀ st1, search_iter c st = .continue_ st1 →
      st1.sol.path_ = st.sol.path_ ∧
      st1.sol.sum_of_edge_costs_ = st.sol.sum_of_edge_costs_) ∧
    (∀ st1, search_iter c st = .break_ st1 →
      st1.sol.path_ = st.sol.path_ ∧
      st1.sol.sum_of_edge_costs_ = st.sol.sum_of_edge_costs_) := by
  unfold search_iter
  split
  · exact check_termination_report c _
  · split
    · constructor <;> intro st1 h <;> cases h
    · rename_i st2 hp
      obtain ⟨h1, h2⟩ := pop_and_expand_report_rnd c false st st2 hp
      obtain ⟨k1, k2⟩ := check_termination_report c st2
      exact ⟨fun s h => ⟨(k1 s h).1.trans h1, (k1 s h).2.trans h2⟩,
        fun s h => ⟨(k2 s h).1.trans h1, (k2 s h).2.trans h2⟩⟩
  · split
    · constructor <;> intro st1 h <;> cases h
    · rename_i st2 hp
      obtain ⟨h1, h2⟩ := pop_and_expand_report_rnd c true st st2 hp
      obtain ⟨k1, k2⟩ := check_termination_report c st2
      exact ⟨fun s h => ⟨(k1 s h).1.trans h1, (k1 s h).2.trans h2⟩,
        fun s h => ⟨(k2 s h).1.trans h1, (k2 s h).2.trans h2⟩⟩
  · exact check_termination_report c _

theorem search_loop_report_rnd (c : chase_config) (fuel : Nat) (st st1 : chase_state)
    (h : search_loop c fuel st = .finished st1) :
    st1.sol.path_ = st.sol.path_ ∧
    st1.sol.sum_of_edge_costs_ = st.sol.sum_of_edge_costs_ := by
  induction fuel generalizing st with
  | zero => simp [search_loop] at h
  | succ fuel ih =>
    unfold search_loop at h
    split at h
    · rename_i st2 hi
      obtain ⟨h1, h2⟩ := (search_iter_report_rnd c st).1 st2 hi
      obtain ⟨k1, k2⟩ := ih st2 h
      exact ⟨k1.trans h1, k2.trans h2⟩
    · rename_i st2 hi
      injection h with h
      subst h
      exact (search_iter_report_rnd c st).2 _ hi
    · cases h

theorem search_iter_zero_rnd (c : chase_config) (st : chase_state)
    (h : st.search_direction = 0) :
    search_iter c st = check_termination c { st with cannot_improve := true } := by
  unfold search_iter
  split
  · rfl
  · rename_i h1; rw [h] at h1; exact absurd h1 (by decide)
  · rename_i h1; rw [h] at h1; exact absurd h1 (by decide)
  · rename_i h0 _ _; exact absurd h h0

theorem search_iter_dir_rnd (c : chase_config) (st : chase_state) (d : Bool)
    (h : st.search_direction = if d then 2 else 1) :
    search_iter c st =
      match pop_and_expand c d st with
      | none => .null_deref
      | some st1 => check_termination c st1 := by
  unfold search_iter
  cases d
  · simp only [Bool.false_eq_true, if_false] at h
    split
    · rename_i h1; rw [h] at h1; exact absurd h1 (by decide)
    · rfl
    · rename_i h1; rw [h] at h1; exact absurd h1 (by decide)
    · rename_i _ h1 _; exact absurd h h1
  · simp only [if_true] at h
    split
    · rename_i h1; rw [h] at h1; exact absurd h1 (by decide)
    · rename_i h1; rw [h] at h1; exact absurd h1 (by decide)
    · rfl
    · rename_i _ _ h1; exact absurd h h1

section frame
variable (c : chase_config) (d : Bool) (current : node_ptr) (st : chase_state) (e : Nat × ℚ)

@[simp] theorem rg_cannot_improve_rnd :
    (relax_or_generate c d current st e).cannot_improve = st.cannot_improve := by
  unfold relax_or_generate; dsimp only; split_ifs <;> rfl

@[simp] theorem update_best_cannot_improve_rnd :
    (update_best d current st e).cannot_improve = st.cannot_improve := by
  unfold update_best; dsimp only; split_ifs <;> rfl

theorem expand_succ_cannot_improve_rnd :
    (expand_succ c d current st e).cannot_improve = st.cannot_improve := by
  unfold expand_succ; dsimp only; split_ifs <;> simp [touch]

theorem expand_succ_get_id_rnd (p : node_ptr) :
    ((expand_succ c d current st e).mem p).get_id = (st.mem p).get_id := by
  unfold expand_succ; dsimp only; split_ifs <;> simp [touch]

theorem expand_succ_phase_rnd : (expand_succ c d current st e).phase_ = st.phase_ := by
  unfold expand_succ; dsimp only; split_ifs <;> simp [touch]

end frame

theorem foldl_expand_succ_cannot_improve_rnd (c : chase_config) (d : Bool) (current : node_ptr)
    (l : List (Nat × ℚ)) (st : chase_state) :
    (l.foldl (expand_succ c d current) st).cannot_improve = st.cannot_improve := by
  induction l generalizing st with
  | nil => rfl
  | cons e l ih =>
    rw [List.foldl_cons, ih]
    exact expand_succ_cannot_improve_rnd c d current st e

theorem foldl_expand_succ_inv_rnd (c : chase_config) (d : Bool) (current : node_ptr)
    (J : chase_state → Prop) (k : Nat)
    (hsucc : ∀ st e, J st → (st.mem current).get_id = k →
      e ∈ (c.expander d).successors k → J (expand_succ c d current st e))
    (l : List (Nat × ℚ)) (hl : ∀ e ∈ l, e ∈ (c.expander d).successors k)
    (st : chase_state) (hJ : J st) (hk : (st.mem current).get_id = k) :
    J (l.foldl (expand_succ c d current) st) := by
  induction l generalizing st with
  | nil => exact hJ
  | cons e l ih =>
    rw [List.foldl_cons]
    apply ih (fun x hx => hl x (List.mem_cons_of_mem _ hx))
    · exact hsucc st e hJ hk (hl e (List.mem_cons_self _ _))
    · rw [expand_succ_get_id_rnd]; exact hk

/-- A rule for invariants of `search`: `I` is to hold at the head of the loop and
where the loop is left, `J d current` inside the expansion of `current` in
direction `d`. -/
theorem search_invariant_rnd {c : chase_config} {mem : node_ptr → search_node}
    {pi : problem_instance} {sol : solution}
    (I : chase_state → Prop) (J : Bool → node_ptr → chase_state → Prop)
    (hinit : I (search_init c mem pi sol))
    (hdir : ∀ st k, I st → I { st with search_direction := k })
    (hci : ∀ st b, I st → I { st with cannot_improve := b })
    (hdrop : ∀ st d cur rest, I st → pqueue.pop st.mem (st.open_ d) = some (cur, rest) →
      (st.mem cur).get_f ≥ st.best_cost_ →
      I { st with open_ := set_dir st.open_ d rest })
    (hbegin : ∀ st d cur rest, I st → pqueue.pop st.mem (st.open_ d) = some (cur, rest) →
      ¬ ((st.mem cur).get_f ≥ st.best_cost_) →
      J d cur (expand_begin cur { st with open_ := set_dir st.open_ d rest }))
    (hsucc : ∀ st d cur e, J d cur st →
      e ∈ (c.expander d).successors (st.mem cur).get_id →
      J d cur (expand_succ c d cur st e))
    (hend : ∀ st d cur, J d cur st → I st)
    (hphase2 : ∀ st, I st → st.phase_ = 1 → st.open_ false = [] → st.open_ true = [] →
      st.core_lb false ≠ DBL_MAX → st.core_lb true ≠ DBL_MAX → I (enter_phase2 st)) :
    (∀ st, at_loop_head c mem pi sol st → I st ∧ ctrl_inv st) ∧
    (∀ st, at_point c mem pi sol st → I st ∨ ∃ d cur, J d cur st) := by
  have hfold : ∀ (d : Bool) (cur : node_ptr) (l : List (Nat × ℚ)) (st : chase_state),
      J d cur st → (∀ e ∈ l, e ∈ (c.expander d).successors (st.mem cur).get_id) →
      J d cur (l.foldl (expand_succ c d cur) st) := by
    intro d cur l st hJ hl
    exact foldl_expand_succ_inv_rnd c d cur (J d cur) (st.mem cur).get_id
      (fun s e hs hk he => hsucc s d cur e hs (by rw [hk]; exact he)) l hl st hJ rfl
  have hpop : ∀ (d : Bool) (st st1 : chase_state), I st →
      pop_and_expand c d st = some st1 →
      I st1 ∧ st1.cannot_improve = st.cannot_improve ∧
      (st1.search_direction = 0 → st1.open_ false = [] ∧ st1.open_ true = []) ∧
      (st1.search_direction = 0 ∨ st1.search_direction = 1 ∨ st1.search_direction = 2) := by
    intro d st st1 hI hp
    unfold pop_and_expand at hp
    split at hp
    · exact absurd hp (by simp)
    · rename_i cur rest hpop
      simp only [Option.some.injEq] at hp
      subst hp
      dsimp only
      split_ifs with hf
      · refine ⟨hdir _ _ (hdrop st d cur rest hI hpop hf), rfl, ?_, ?_⟩
        · exact (next_direction_cases d _).1
        · exact (next_direction_cases d _).2
      · refine ⟨hdir _ _ (hend _ d cur (hfold d cur _ _ (hbegin st d cur rest hI hpop hf)
          (fun e he => he))), ?_, ?_, ?_⟩
        · unfold expand
          exact foldl_expand_succ_cannot_improve_rnd c d cur _ _
        · exact (next_direction_cases d _).1
        · exact (next_direction_cases d _).2
  have hhead : ∀ st, at_loop_head c mem pi sol st → I st ∧ ctrl_inv st := by
    intro st h
    induction h with
    | init =>
      refine ⟨hinit, rfl, ?_, Or.inr (Or.inl rfl)⟩
      intro h0
      exact absurd h0 (by simp [search_init])
    | @pass st st1 _ hiter ih =>
      obtain ⟨hI, hc1, hc2, hc3⟩ := ih
      rcases hc3 with h0 | h12
      · rw [search_iter_zero_rnd c st h0] at hiter
        unfold check_termination at hiter
        simp only [if_true] at hiter
        split_ifs at hiter with hp hb hl
        · injection hiter with hiter
          subst hiter
          have hl2 : st.core_lb false ≠ DBL_MAX ∧ st.core_lb true ≠ DBL_MAX := by
            constructor
            · intro h; exact hl (Or.inl h)
            · intro h; exact hl (Or.inr h)
          refine ⟨hphase2 st hI hp (hc2 h0).1 (hc2 h0).2 hl2.1 hl2.2, rfl, ?_,
            Or.inr (Or.inl rfl)⟩
          intro h
          exact absurd h (by simp [enter_phase2])
      · have hd : ∃ d : Bool, st.search_direction = if d then 2 else 1 := by
          rcases h12 with h | h
          · exact ⟨false, by simpa using h⟩
          · exact ⟨true, by simpa using h⟩
        obtain ⟨d, hd⟩ := hd
        rw [search_iter_dir_rnd c st d hd] at hiter
        split at hiter
        · cases hiter
        · rename_i st2 hp
          obtain ⟨h1, h2, h3, h4⟩ := hpop d st st2 hI hp
          rw [check_termination_of_not_cannot_improve c st2 (h2.trans hc1)] at hiter
          injection hiter with hiter
          subst hiter
          exact ⟨h1, h2.trans hc1, h3, h4⟩
  refine ⟨hhead, ?_⟩
  intro st h
  cases h with
  | head h => exact Or.inl (hhead st h).1
  | @inside st0 d cur rest done todo h0 hd hpop hf hs =>
    right
    refine ⟨d, cur, hfold d cur done _ (hbegin st0 d cur rest (hhead st0 h0).1 hpop hf) ?_⟩
    intro e he
    rw [hs]
    exact List.mem_append_left _ he
  | @final st0 st1 h0 hiter =>
    left
    obtain ⟨hI, hc1, hc2, hc3⟩ := hhead st0 h0
    rcases hc3 with h0' | h12
    · rw [search_iter_zero_rnd c st0 h0'] at hiter
      unfold check_termination at hiter
      simp only [if_true] at hiter
      split_ifs at hiter <;> injection hiter with hiter <;> subst hiter <;>
        exact hci _ _ hI
    · have hd : ∃ d : Bool, st0.search_direction = if d then 2 else 1 := by
        rcases h12 with h | h
        · exact ⟨false, by simpa using h⟩
        · exact ⟨true, by simpa using h⟩
      obtain ⟨d, hd⟩ := hd
      rw [search_iter_dir_rnd c st0 d hd] at hiter
      split at hiter
      · cases hiter
      · rename_i st2 hp
        obtain ⟨h1, h2, h3, h4⟩ := hpop d st0 st2 hI hp
        rw [check_termination_of_not_cannot_improve c st2 (h2.trans hc1)] at hiter
        cases hiter

theorem search_loop_finished_at_point_rnd {c : chase_config} {mem : node_ptr → search_node}
    {pi : problem_instance} {sol : solution} (fuel : Nat) (st0 st : chase_state)
    (h0 : at_loop_head c mem pi sol st0) (h : search_loop c fuel st0 = .finished st) :
    ∃ st1, at_loop_head c mem pi sol st1 ∧ search_iter c st1 = .break_ st := by
  induction fuel generalizing st0 with
  | zero => simp [search_loop] at h
  | succ fuel ih =>
    unfold search_loop at h
    split at h
    · rename_i st2 hi
      exact ih st2 (at_loop_head.pass h0 hi) h
    · rename_i st2 hi
      injection h with h
      subst h
      exact ⟨st0, h0, hi⟩
    · cases h

theorem search_finished_at_point_rnd {c : chase_config} {mem : node_ptr → search_node}
    {pi : problem_instance} {sol : solution} {fuel : Nat} {st : chase_state}
    (h : search c fuel mem pi sol = .finished st) : at_point c mem pi sol st := by
  obtain ⟨st1, h1, h2⟩ := search_loop_finished_at_point_rnd fuel _ st at_loop_head.init h
  exact at_point.final h1 h2

/-- The five ways lines 417-518 can go for a successor `n`: nothing changes; a node
of the open set is relaxed; a node outside the open set is relaxed in place (phase
1); the node is initialised and pushed; the node is initialised and deferred. -/
theorem rg_cases_rnd (c : chase_config) (d : Bool) (current : node_ptr) (st : chase_state)
    (e : Nat × ℚ) :
    (¬ (double_round ((st.mem current).get_g + e.2) < (st.mem ⟨d, e.1⟩).get_g) ∧
      ((⟨d, e.1⟩ : node_ptr) ∈ st.open_ d ∨
        (st.phase_ = 1 ∧
          (st.mem ⟨d, e.1⟩).get_search_id = (st.mem current).get_search_id)) ∧
      (relax_or_generate c d current st e).mem = st.mem ∧
      (relax_or_generate c d current st e).open_ = st.open_ ∧
      (relax_or_generate c d current st e).norelax_ = st.norelax_ ∧
      (relax_or_generate c d current st e).core_lb = st.core_lb) ∨
    ((⟨d, e.1⟩ : node_ptr) ∈ st.open_ d ∧
      double_round ((st.mem current).get_g + e.2) < (st.mem ⟨d, e.1⟩).get_g ∧
      (relax_or_generate c d current st e).mem = store st.mem ⟨d, e.1⟩
        (relax (st.mem ⟨d, e.1⟩) (double_round ((st.mem current).get_g + e.2)) (some current)) ∧
      (relax_or_generate c d current st e).open_ = st.open_ ∧
      (relax_or_generate c d current st e).norelax_ = st.norelax_ ∧
      (relax_or_generate c d current st e).core_lb = st.core_lb) ∨
    ((⟨d, e.1⟩ : node_ptr) ∉ st.open_ d ∧ st.phase_ = 1 ∧
      (st.mem ⟨d, e.1⟩).get_search_id = (st.mem current).get_search_id ∧
      double_round ((st.mem current).get_g + e.2) < (st.mem ⟨d, e.1⟩).get_g ∧
      (relax_or_generate c d current st e).mem = store st.mem ⟨d, e.1⟩
        (relax (st.mem ⟨d, e.1⟩) (double_round ((st.mem current).get_g + e.2)) (some current)) ∧
      (relax_or_generate c d current st e).open_ = st.open_ ∧
      (relax_or_generate c d current st e).norelax_ = st.norelax_ ∧
      (relax_or_generate c d current st e).core_lb
        = set_dir st.core_lb d (min (double_round ((st.mem current).get_g + e.2)) (st.core_lb d))) ∨
    ((⟨d, e.1⟩ : node_ptr) ∉ st.open_ d ∧
      ¬ (st.phase_ = 1 ∧
        (st.mem ⟨d, e.1⟩).get_search_id = (st.mem current).get_search_id) ∧
      (st.phase_ = 2 ∨
        (c.expander d).get_rank (st.mem ⟨d, e.1⟩).get_id < c.max_phase1_rank_) ∧
      (relax_or_generate c d current st e).mem = store st.mem ⟨d, e.1⟩
        ((st.mem ⟨d, e.1⟩).init (st.mem current).get_search_id (some current)
          (double_round ((st.mem current).get_g + e.2))
          (double_round (double_round ((st.mem current).get_g + e.2)
            + c.heuristic_ (st.mem ⟨d, e.1⟩).get_id st.pi_.target_id_))) ∧
      (relax_or_generate c d current st e).open_
        = set_dir st.open_ d (st.open_ d ++ [⟨d, e.1⟩]) ∧
      (relax_or_generate c d current st e).norelax_ = st.norelax_ ∧
      (relax_or_generate c d current st e).core_lb = st.core_lb) ∨
    ((⟨d, e.1⟩ : node_ptr) ∉ st.open_ d ∧
      ¬ (st.phase_ = 1 ∧
        (st.mem ⟨d, e.1⟩).get_search_id = (st.mem current).get_search_id) ∧
      ¬ (st.phase_ = 2 ∨
        (c.expander d).get_rank (st.mem ⟨d, e.1⟩).get_id < c.max_phase1_rank_) ∧
      (relax_or_generate c d current st e).mem = store st.mem ⟨d, e.1⟩
        ((st.mem ⟨d, e.1⟩).init (st.mem current).get_search_id (some current)
          (double_round ((st.mem current).get_g + e.2))
          (double_round (double_round ((st.mem current).get_g + e.2)
            + c.heuristic_ (st.mem ⟨d, e.1⟩).get_id st.pi_.target_id_))) ∧
      (relax_or_generate c d current st e).open_ = st.open_ ∧
      (relax_or_generate c d current st e).norelax_
        = set_dir st.norelax_ d (st.norelax_ d ++ [⟨d, e.1⟩]) ∧
      (relax_or_generate c d current st e).core_lb
        = set_dir st.core_lb d (min (double_round ((st.mem current).get_g + e.2)) (st.core_lb d))) := by
  unfold relax_or_generate
  dsimp only
  by_cases h1 : (⟨d, e.1⟩ : node_ptr) ∈ st.open_ d
  · have hc : pqueue.contains (st.open_ d) ⟨d, e.1⟩ = true := by
      simpa [pqueue.contains] using h1
    rw [hc]
    simp only [if_true]
    by_cases h2 : double_round ((st.mem current).get_g + e.2) < (st.mem ⟨d, e.1⟩).get_g
    · rw [if_pos h2]
      exact Or.inr (Or.inl ⟨h1, h2, rfl, rfl, rfl, rfl⟩)
    · rw [if_neg h2]
      exact Or.inl ⟨h2, Or.inl h1, rfl, rfl, rfl, rfl⟩
  · have hc : pqueue.contains (st.open_ d) ⟨d, e.1⟩ = false := by
      simpa [pqueue.contains] using h1
    rw [hc]
    simp only [Bool.false_eq_true, if_false]
    by_cases h3 : st.phase_ = 1 ∧
        (st.mem ⟨d, e.1⟩).get_search_id = (st.mem current).get_search_id
    · rw [if_pos h3]
      by_cases h2 : double_round ((st.mem current).get_g + e.2) < (st.mem ⟨d, e.1⟩).get_g
      · rw [if_pos h2]
        exact Or.inr (Or.inr (Or.inl ⟨h1, h3.1, h3.2, h2, rfl, rfl, rfl,
          core_lb_update_eq _ _ _⟩))
      · rw [if_neg h2]
        exact Or.inl ⟨h2, Or.inr h3, rfl, rfl, rfl, rfl⟩
    · rw [if_neg h3]
      by_cases h5 : st.phase_ = 2 ∨
          (c.expander d).get_rank (st.mem ⟨d, e.1⟩).get_id < c.max_phase1_rank_
      · rw [if_pos (by simpa using h5)]
        exact Or.inr (Or.inr (Or.inr (Or.inl ⟨h1, h3, h5, rfl, rfl, rfl, rfl⟩)))
      · rw [if_neg (by simpa using h5)]
        exact Or.inr (Or.inr (Or.inr (Or.inr ⟨h1, h3, h5, rfl, rfl, rfl,
          core_lb_update_eq _ _ _⟩)))

section lists
variable (c : chase_config) (d : Bool) (current : node_ptr) (st : chase_state) (e : Nat × ℚ)

theorem rg_open_mem_rnd {x : node_ptr} {d1 : Bool}
    (h : x ∈ (relax_or_generate c d current st e).open_ d1) :
    x ∈ st.open_ d1 ∨
      (x = ⟨d, e.1⟩ ∧ d1 = d ∧ (⟨d, e.1⟩ : node_ptr) ∉ st.open_ d ∧
        (st.phase_ = 2 ∨
          (c.expander d).get_rank (st.mem ⟨d, e.1⟩).get_id < c.max_phase1_rank_)) := by
  rcases rg_cases_rnd c d current st e with
    ⟨_, _, _, ho, _, _⟩ | ⟨_, _, _, ho, _, _⟩ | ⟨_, _, _, _, _, ho, _, _⟩ |
    ⟨h1, _, h3, _, ho, _, _⟩ | ⟨_, _, _, _, ho, _, _⟩
  · rw [ho] at h; exact Or.inl h
  · rw [ho] at h; exact Or.inl h
  · rw [ho] at h; exact Or.inl h
  · rw [ho] at h
    by_cases hd : d1 = d
    · subst hd
      rw [set_dir_same, List.mem_append, List.mem_singleton] at h
      rcases h with h | h
      · exact Or.inl h
      · exact Or.inr ⟨h, rfl, h1, h3⟩
    · rw [set_dir_other _ _ hd] at h
      exact Or.inl h
  · rw [ho] at h; exact Or.inl h

end lists

section basic_steps
variable {c : chase_config} {pi : problem_instance} {N : Nat}

theorem basic_rg_rnd {d : Bool} {cur : node_ptr} {st : chase_state} {e : Nat × ℚ}
    (hm : basic_mid c pi N d cur st.mem st.open_ st.norelax_ st.phase_)
    (he : e.1 < N) (hn : (st.mem ⟨d, e.1⟩).get_expanded = false) :
    basic_mid c pi N d cur (relax_or_generate c d cur st e).mem
      (relax_or_generate c d cur st e).open_ (relax_or_generate c d cur st e).norelax_
      (relax_or_generate c d cur st e).phase_ := by
  have hb := hm.inv
  have hnc : cur ≠ ⟨d, e.1⟩ := by
    intro h
    have := hm.cur_expanded
    rw [h, hn] at this
    cases this
  have hns : seed pi d ≠ ⟨d, e.1⟩ := by
    intro h
    have := hm.seed_expanded
    rw [h, hn] at this
    cases this
  have hidn : (st.mem ⟨d, e.1⟩).get_id = e.1 := hb.ids ⟨d, e.1⟩ he
  rw [rg_phase_rnd]
  rcases rg_cases_rnd c d cur st e with
    ⟨_, _, hmem, ho, hnr, _⟩ | ⟨_, _, hmem, ho, hnr, _⟩ | ⟨_, _, _, _, hmem, ho, hnr, _⟩ |
    ⟨h1, h2, h3, hmem, ho, hnr, _⟩ | ⟨h1, h2, h3, hmem, ho, hnr, _⟩
  · rw [hmem, ho, hnr]; exact hm
  · rw [hmem, ho, hnr]
    exact ⟨basic_inv_store hb _ _ rfl rfl id, hm.cur_bwd, hm.cur_lt,
      by rw [store_other _ _ hnc]; exact hm.cur_sid,
      by rw [store_other _ _ hnc]; exact hm.cur_expanded,
      by rw [store_other _ _ hns]; exact hm.seed_expanded⟩
  · rw [hmem, ho, hnr]
    exact ⟨basic_inv_store hb _ _ rfl rfl id, hm.cur_bwd, hm.cur_lt,
      by rw [store_other _ _ hnc]; exact hm.cur_sid,
      by rw [store_other _ _ hnc]; exact hm.cur_expanded,
      by rw [store_other _ _ hns]; exact hm.seed_expanded⟩
  · rw [hmem, ho, hnr]
    have hst := basic_inv_store hb ⟨d, e.1⟩
      ((st.mem ⟨d, e.1⟩).init (st.mem cur).get_search_id (some cur)
        (double_round ((st.mem cur).get_g + e.2))
        (double_round (double_round ((st.mem cur).get_g + e.2)
          + c.heuristic_ (st.mem ⟨d, e.1⟩).get_id st.pi_.target_id_)))
      (by simp) (by simp [hn]) (fun _ => by simp [hm.cur_sid])
    refine ⟨basic_inv_push hst d ⟨d, e.1⟩ h1 rfl he (by simp [hm.cur_sid]) (by simp)
      ?_ (by rw [store_other _ _ hns]; exact hm.seed_expanded), hm.cur_bwd, hm.cur_lt,
      by rw [store_other _ _ hnc]; exact hm.cur_sid,
      by rw [store_other _ _ hnc]; exact hm.cur_expanded,
      by rw [store_other _ _ hns]; exact hm.seed_expanded⟩
    intro hp
    constructor
    · intro hmemn
      apply h2
      exact ⟨hp, (hb.norelax_ok d _ hmemn).2.2.1.trans hm.cur_sid.symm⟩
    · rcases h3 with h3 | h3
      · rw [hp] at h3; exact absurd h3 (by decide)
      · rw [hidn] at h3; exact h3
  · rw [hmem, ho, hnr]
    have hp : st.phase_ = 1 := by
      rcases hb.phase with h | h
      · exact h
      · exact absurd (Or.inl h) h3
    have hst := basic_inv_store hb ⟨d, e.1⟩
      ((st.mem ⟨d, e.1⟩).init (st.mem cur).get_search_id (some cur)
        (double_round ((st.mem cur).get_g + e.2))
        (double_round (double_round ((st.mem cur).get_g + e.2)
          + c.heuristic_ (st.mem ⟨d, e.1⟩).get_id st.pi_.target_id_)))
      (by simp) (by simp [hn]) (fun _ => by simp [hm.cur_sid])
    refine ⟨basic_inv_defer hst d ⟨d, e.1⟩ ?_ h1 rfl he (by simp [hm.cur_sid]) (by simp)
      ?_ (by rw [store_other _ _ hns]; exact hm.seed_expanded), hm.cur_bwd, hm.cur_lt,
      by rw [store_other _ _ hnc]; exact hm.cur_sid,
      by rw [store_other _ _ hnc]; exact hm.cur_expanded,
      by rw [store_other _ _ hns]; exact hm.seed_expanded⟩
    · intro hmemn
      apply h2
      exact ⟨hp, (hb.norelax_ok d _ hmemn).2.2.1.trans hm.cur_sid.symm⟩
    · have h4 : ¬ ((c.expander d).get_rank (st.mem ⟨d, e.1⟩).get_id < c.max_phase1_rank_) :=
        fun h => h3 (Or.inr h)
      rw [hidn] at h4
      exact Nat.not_lt.mp h4

theorem basic_succ_rnd {d : Bool} {cur : node_ptr} {st : chase_state} {e : Nat × ℚ}
    (hm : basic_mid c pi N d cur st.mem st.open_ st.norelax_ st.phase_)
    (he : e.1 < N) :
    basic_mid c pi N d cur (expand_succ c d cur st e).mem
      (expand_succ c d cur st e).open_ (expand_succ c d cur st e).norelax_
      (expand_succ c d cur st e).phase_ := by
  unfold expand_succ
  dsimp only
  by_cases hn : ((touch st).mem ⟨d, e.1⟩).get_expanded = true
  · rw [if_pos hn]; exact hm
  · rw [if_neg hn]
    simp only [update_best_mem_rnd, update_best_open_rnd, update_best_norelax_rnd, update_best_phase_rnd]
    exact @basic_rg_rnd c pi N d cur (touch st) e hm he (by simpa using hn)

end basic_steps

section lists2
variable (c : chase_config) (d : Bool) (current : node_ptr) (st : chase_state) (e : Nat × ℚ)

theorem rg_open_other_rnd : (relax_or_generate c d current st e).open_ (!d) = st.open_ (!d) := by
  rcases rg_cases_rnd c d current st e with
    ⟨_, _, _, ho, _, _⟩ | ⟨_, _, _, ho, _, _⟩ | ⟨_, _, _, _, _, ho, _, _⟩ |
    ⟨_, _, _, _, ho, _, _⟩ | ⟨_, _, _, _, ho, _, _⟩ <;> rw [ho]
  rw [set_dir_not]

theorem rg_norelax_other_rnd :
    (relax_or_generate c d current st e).norelax_ (!d) = st.norelax_ (!d) := by
  rcases rg_cases_rnd c d current st e with
    ⟨_, _, _, _, ho, _⟩ | ⟨_, _, _, _, ho, _⟩ | ⟨_, _, _, _, _, _, ho, _⟩ |
    ⟨_, _, _, _, _, ho, _⟩ | ⟨_, _, _, _, _, ho, _⟩ <;> rw [ho]
  rw [set_dir_not]

theorem rg_open_sub_rnd {x : node_ptr} {d1 : Bool} (h : x ∈ st.open_ d1) :
    x ∈ (relax_or_generate c d current st e).open_ d1 := by
  rcases rg_cases_rnd c d current st e with
    ⟨_, _, _, ho, _, _⟩ | ⟨_, _, _, ho, _, _⟩ | ⟨_, _, _, _, _, ho, _, _⟩ |
    ⟨_, _, _, _, ho, _, _⟩ | ⟨_, _, _, _, ho, _, _⟩ <;> rw [ho] <;> try exact h
  by_cases hd : d1 = d
  · subst hd; rw [set_dir_same]; exact List.mem_append_left _ h
  · rw [set_dir_other _ _ hd]; exact h

theorem rg_norelax_sub_rnd {x : node_ptr} {d1 : Bool} (h : x ∈ st.norelax_ d1) :
    x ∈ (relax_or_generate c d current st e).norelax_ d1 := by
  rcases rg_cases_rnd c d current st e with
    ⟨_, _, _, _, ho, _⟩ | ⟨_, _, _, _, ho, _⟩ | ⟨_, _, _, _, _, _, ho, _⟩ |
    ⟨_, _, _, _, _, ho, _⟩ | ⟨_, _, _, _, _, ho, _⟩ <;> rw [ho] <;> try exact h
  by_cases hd : d1 = d
  · subst hd; rw [set_dir_same]; exact List.mem_append_left _ h
  · rw [set_dir_other _ _ hd]; exact h

theorem update_best_best_le_rnd :
    (update_best d current st e).best_cost_ ≤ st.best_cost_ := by
  unfold update_best
  dsimp only
  split_ifs with h1 h2
  · exact le_of_lt h2
  · exact le_refl _
  · exact le_refl _

end lists2

section cover
variable {c : chase_config} {pi : problem_instance} {N : Nat}

theorem cover_rg_rnd {d : Bool} {cur : node_ptr} {st : chase_state} {e : Nat × ℚ}
    (hm : basic_mid c pi N d cur st.mem st.open_ st.norelax_ st.phase_)
    (ht : tight_dir c pi N d st.mem st.open_ st.norelax_ st.phase_)
    (hn : (st.mem ⟨d, e.1⟩).get_expanded = false) :
    tight_dir c pi N d (relax_or_generate c d cur st e).mem
      (relax_or_generate c d cur st e).open_ (relax_or_generate c d cur st e).norelax_
      (relax_or_generate c d cur st e).phase_ := by
  intro p h1 h2 h3 h4
  rw [rg_phase_rnd]
  by_cases hp : p = ⟨d, e.1⟩
  · subst hp
    rcases rg_cases_rnd c d cur st e with
      ⟨_, _, hmem, ho, hnr, _⟩ | ⟨k1, _, hmem, ho, hnr, _⟩ |
      ⟨k1, k2, k3, _, hmem, ho, hnr, _⟩ |
      ⟨k1, k2, k3, hmem, ho, hnr, _⟩ | ⟨k1, k2, k3, hmem, ho, hnr, _⟩
    · rw [hmem] at h3 h4
      rw [ho, hnr]
      exact ht _ h1 h2 h3 h4
    · rw [ho]; exact Or.inl k1
    · rw [ho, hnr]
      exact ht _ h1 h2 (k3.trans hm.cur_sid) hn
    · rw [ho]
      left
      rw [set_dir_same]
      exact List.mem_append_right _ (List.mem_singleton_self _)
    · rw [hnr]
      right; left
      refine ⟨?_, ?_⟩
      · rcases hm.inv.phase with h | h
        · exact h
        · exact absurd (Or.inl h) k3
      · rw [set_dir_same]
        exact List.mem_append_right _ (List.mem_singleton_self _)
  · rw [rg_mem_other_rnd c d cur st e hp] at h3 h4
    exact covered_mono (ht p h1 h2 h3 h4) (fun x hx => rg_open_sub_rnd c d cur st e hx)
      (fun x hx => rg_norelax_sub_rnd c d cur st e hx)

theorem cover_succ_rnd {d : Bool} {cur : node_ptr} {st : chase_state} {e : Nat × ℚ}
    (hm : basic_mid c pi N d cur st.mem st.open_ st.norelax_ st.phase_)
    (ht : tight_dir c pi N d st.mem st.open_ st.norelax_ st.phase_)
    (hc : cover_dir c pi N (!d) st.mem st.open_ st.norelax_ st.phase_ st.best_cost_) :
    tight_dir c pi N d (expand_succ c d cur st e).mem (expand_succ c d cur st e).open_
      (expand_succ c d cur st e).norelax_ (expand_succ c d cur st e).phase_ ∧
    cover_dir c pi N (!d) (expand_succ c d cur st e).mem (expand_succ c d cur st e).open_
      (expand_succ c d cur st e).norelax_ (expand_succ c d cur st e).phase_
      (expand_succ c d cur st e).best_cost_ := by
  unfold expand_succ
  dsimp only
  by_cases hn : ((touch st).mem ⟨d, e.1⟩).get_expanded = true
  · rw [if_pos hn]; exact ⟨ht, hc⟩
  · rw [if_neg hn]
    simp only [update_best_mem_rnd, update_best_open_rnd, update_best_norelax_rnd, update_best_phase_rnd]
    refine ⟨@cover_rg_rnd c pi N d cur (touch st) e hm ht (by simpa using hn), ?_⟩
    rw [rg_phase_rnd]
    apply cover_dir_congr hc ?_ (fun p hp => (hm.inv.open_ok (!d) p hp).1)
      (rg_open_other_rnd c d cur (touch st) e) (rg_norelax_other_rnd c d cur (touch st) e)
    · exact le_trans (update_best_best_le_rnd d cur _ e) (le_of_eq (rg_best_cost_rnd c d cur _ e))
    · intro p hp
      apply rg_mem_other_rnd
      intro h
      rw [h] at hp
      cases d <;> simp at hp

end cover

section chain
variable {c : chase_config} {pi : problem_instance} {N : Nat}

theorem is_chain_cons_cons_rnd {d : Bool} {mem : node_ptr → search_node} {p q : node_ptr}
    {l : List node_ptr} :
    is_chain c pi N d mem (p :: q :: l) ↔
      ((mem p).get_parent = some q ∧ q.bwd = d ∧ q.key < N ∧
      (mem q).get_search_id = pi.instance_id_ ∧ (mem q).get_expanded = true ∧
      (∃ cost, (p.key, cost) ∈ (c.expander d).successors q.key ∧
        (mem p).get_g = double_round ((mem q).get_g + cost)) ∧
      is_chain c pi N d mem (q :: l)) := Iff.rfl

theorem is_chain_single_rnd {d : Bool} {mem : node_ptr → search_node} {p : node_ptr} :
    is_chain c pi N d mem [p] ↔
      (p = seed pi d ∧ (mem p).get_parent = none ∧ (mem p).get_g = 0) := Iff.rfl

theorem is_chain_mono_rnd {d : Bool} {mem mem1 : node_ptr → search_node} (L : List node_ptr)
    (h : is_chain c pi N d mem L)
    (hm : ∀ x ∈ L, (mem1 x).get_parent = (mem x).get_parent ∧
      (mem1 x).get_g = (mem x).get_g ∧
      (mem1 x).get_search_id = (mem x).get_search_id ∧
      ((mem x).get_expanded = true → (mem1 x).get_expanded = true)) :
    is_chain c pi N d mem1 L := by
  induction L with
  | nil => exact h
  | cons p l ih =>
    cases l with
    | nil =>
      rw [is_chain_single_rnd] at h ⊢
      obtain ⟨h1, h2, h3⟩ := h
      obtain ⟨k1, k2, _, _⟩ := hm p (List.mem_cons_self _ _)
      exact ⟨h1, k1.trans h2, k2.trans h3⟩
    | cons q l =>
      rw [is_chain_cons_cons_rnd] at h ⊢
      obtain ⟨h1, h2, h3, h4, h5, ⟨cost, h6, h7⟩, h8⟩ := h
      obtain ⟨k1, k2, _, _⟩ := hm p (List.mem_cons_self _ _)
      obtain ⟨_, j2, j3, j4⟩ := hm q (List.mem_cons_of_mem _ (List.mem_cons_self _ _))
      refine ⟨k1.trans h1, h2, h3, j3.trans h4, j4 h5, ⟨cost, h6, ?_⟩,
        ih h8 (fun x hx => hm x (List.mem_cons_of_mem _ hx))⟩
      rw [k2, j2]; exact h7

theorem is_chain_congr_rnd {d : Bool} {mem mem1 : node_ptr → search_node} (L : List node_ptr)
    (h : is_chain c pi N d mem L) (hm : ∀ x ∈ L, mem1 x = mem x) :
    is_chain c pi N d mem1 L :=
  is_chain_mono_rnd L h (fun x hx => by rw [hm x hx]; exact ⟨rfl, rfl, rfl, id⟩)

theorem is_chain_tail_rnd {d : Bool} {mem : node_ptr → search_node} (p : node_ptr)
    (l : List node_ptr) (h : is_chain c pi N d mem (p :: l)) :
    ∀ q ∈ l, q.bwd = d ∧ q.key < N ∧ (mem q).get_search_id = pi.instance_id_ ∧
      (mem q).get_expanded = true := by
  induction l generalizing p with
  | nil => intro q hq; cases hq
  | cons x xs ih =>
    rw [is_chain_cons_cons_rnd] at h
    obtain ⟨_, h2, h3, h4, h5, _, h8⟩ := h
    intro q hq
    rcases List.mem_cons.mp hq with h | h
    · rw [h]; exact ⟨h2, h3, h4, h5⟩
    · exact ih x h8 q h

theorem chain_store_link_rnd {mem : node_ptr → search_node} (hc : chain_inv c pi N mem)
    (n cur : node_ptr) (node : search_node) (cost : ℚ)
    (hn : (mem n).get_expanded = false)
    (hbwd : cur.bwd = n.bwd) (hlt : cur.key < N)
    (hsid : (mem cur).get_search_id = pi.instance_id_)
    (hexp : (mem cur).get_expanded = true)
    (hpar : node.get_parent = some cur)
    (hg : node.get_g = double_round ((mem cur).get_g + cost))
    (hedge : (n.key, cost) ∈ (c.expander n.bwd).successors cur.key) :
    chain_inv c pi N (store mem n node) := by
  have hnc : cur ≠ n := by
    intro h
    rw [h, hn] at hexp
    cases hexp
  have hfree : ∀ (p : node_ptr) (l : List node_ptr), p ≠ n →
      is_chain c pi N p.bwd mem (p :: l) → ∀ x ∈ p :: l, store mem n node x = mem x := by
    intro p l hp hch x hx
    apply store_other
    rcases List.mem_cons.mp hx with h | h
    · rw [h]; exact hp
    · intro hxn
      have := (is_chain_tail_rnd p l hch x h).2.2.2
      rw [hxn, hn] at this
      cases this
  intro p hp hs
  by_cases hpn : p = n
  · subst hpn
    obtain ⟨lc, hlc⟩ := hc cur hlt hsid
    refine ⟨cur :: lc, ?_⟩
    rw [is_chain_cons_cons_rnd]
    rw [hbwd] at hlc
    refine ⟨by rw [store_same]; exact hpar, hbwd, hlt,
      by rw [store_other _ _ hnc]; exact hsid,
      by rw [store_other _ _ hnc]; exact hexp,
      ⟨cost, hedge, by rw [store_same, store_other _ _ hnc]; exact hg⟩, ?_⟩
    apply is_chain_congr_rnd _ hlc
    have := hfree cur lc hnc (by rw [hbwd]; exact hlc)
    exact this
  · rw [store_other _ _ hpn] at hs
    obtain ⟨l, hl⟩ := hc p hp hs
    exact ⟨l, is_chain_congr_rnd _ hl (hfree p l hpn hl)⟩

theorem chain_begin_rnd {mem : node_ptr → search_node} (hc : chain_inv c pi N mem)
    (cur : node_ptr) :
    chain_inv c pi N (store mem cur ((mem cur).set_expanded true)) := by
  have hall : ∀ x, (store mem cur ((mem cur).set_expanded true) x).get_parent
        = (mem x).get_parent ∧
      (store mem cur ((mem cur).set_expanded true) x).get_g = (mem x).get_g ∧
      (store mem cur ((mem cur).set_expanded true) x).get_search_id
        = (mem x).get_search_id ∧
      ((mem x).get_expanded = true →
        (store mem cur ((mem cur).set_expanded true) x).get_expanded = true) := by
    intro x
    by_cases h : x = cur
    · subst h; rw [store_same]; exact ⟨rfl, rfl, rfl, fun _ => by simp⟩
    · rw [store_other _ _ h]; exact ⟨rfl, rfl, rfl, id⟩
  intro p hp hs
  rw [(hall p).2.2.1] at hs
  obtain ⟨l, hl⟩ := hc p hp hs
  exact ⟨l, is_chain_mono_rnd _ hl (fun x _ => hall x)⟩

theorem chain_init_rnd {mem : node_ptr → search_node} (henv : env_ok c pi N mem)
    (sol : solution) : chain_inv c pi N (search_init c mem pi sol).mem := by
  have hne : (generate_target_node pi) ≠ (generate_start_node pi) := by
    intro h
    have := congrArg node_ptr.bwd h
    simp [generate_target_node, generate_start_node] at this
  intro p hp hs
  refine ⟨[], ?_⟩
  rw [is_chain_single_rnd]
  by_cases h1 : p = generate_target_node pi
  · subst h1
    refine ⟨rfl, ?_, ?_⟩ <;> simp [search_init]
  · by_cases h2 : p = generate_start_node pi
    · subst h2
      refine ⟨rfl, ?_, ?_⟩ <;> simp [search_init, store_other _ _ hne.symm]
    · simp only [search_init] at hs
      rw [store_other _ _ h1, store_other _ _ h2] at hs
      exact absurd hs (henv.fresh p hp)

theorem chain_rg_rnd {d : Bool} {cur : node_ptr} {st : chase_state} {e : Nat × ℚ}
    (hm : basic_mid c pi N d cur st.mem st.open_ st.norelax_ st.phase_)
    (hc : chain_inv c pi N st.mem)
    (he : e ∈ (c.expander d).successors (st.mem cur).get_id)
    (hn : (st.mem ⟨d, e.1⟩).get_expanded = false) :
    chain_inv c pi N (relax_or_generate c d cur st e).mem := by
  have hedge : ((⟨d, e.1⟩ : node_ptr).key, e.2)
      ∈ (c.expander (⟨d, e.1⟩ : node_ptr).bwd).successors cur.key := by
    rw [hm.inv.ids cur hm.cur_lt] at he
    exact he
  rcases rg_cases_rnd c d cur st e with
    ⟨_, _, hmem, _⟩ | ⟨_, _, hmem, _⟩ | ⟨_, _, _, _, hmem, _⟩ |
    ⟨_, _, _, hmem, _⟩ | ⟨_, _, _, hmem, _⟩ <;> rw [hmem]
  · exact hc
  · exact chain_store_link_rnd hc ⟨d, e.1⟩ cur _ e.2 hn hm.cur_bwd hm.cur_lt hm.cur_sid
      hm.cur_expanded rfl rfl hedge
  · exact chain_store_link_rnd hc ⟨d, e.1⟩ cur _ e.2 hn hm.cur_bwd hm.cur_lt hm.cur_sid
      hm.cur_expanded rfl rfl hedge
  · exact chain_store_link_rnd hc ⟨d, e.1⟩ cur _ e.2 hn hm.cur_bwd hm.cur_lt hm.cur_sid
      hm.cur_expanded rfl rfl hedge
  · exact chain_store_link_rnd hc ⟨d, e.1⟩ cur _ e.2 hn hm.cur_bwd hm.cur_lt hm.cur_sid
      hm.cur_expanded rfl rfl hedge

theorem chain_succ_rnd {d : Bool} {cur : node_ptr} {st : chase_state} {e : Nat × ℚ}
    (hm : basic_mid c pi N d cur st.mem st.open_ st.norelax_ st.phase_)
    (hc : chain_inv c pi N st.mem)
    (he : e ∈ (c.expander d).successors (st.mem cur).get_id) :
    chain_inv c pi N (expand_succ c d cur st e).mem := by
  unfold expand_succ
  dsimp only
  by_cases hn : ((touch st).mem ⟨d, e.1⟩).get_expanded = true
  · rw [if_pos hn]; exact hc
  · rw [if_neg hn, update_best_mem_rnd]
    exact @chain_rg_rnd c pi N d cur (touch st) e hm hc he (by simpa using hn)

end chain

section meet
variable {c : chase_config} {pi : problem_instance} {N : Nat}

theorem rg_sid_mono_rnd {d : Bool} {cur : node_ptr} {st : chase_state} {e : Nat × ℚ}
    (hcur : (st.mem cur).get_search_id = pi.instance_id_) (p : node_ptr)
    (hp : (st.mem p).get_search_id = pi.instance_id_) :
    ((relax_or_generate c d cur st e).mem p).get_search_id = pi.instance_id_ := by
  by_cases hpn : p = ⟨d, e.1⟩
  · subst hpn
    rcases rg_cases_rnd c d cur st e with
      ⟨_, _, hmem, _⟩ | ⟨_, _, hmem, _⟩ | ⟨_, _, _, _, hmem, _⟩ |
      ⟨_, _, _, hmem, _⟩ | ⟨_, _, _, hmem, _⟩ <;> rw [hmem]
    · exact hp
    · rw [store_same]; exact hp
    · rw [store_same]; exact hp
    · rw [store_same]; exact hcur
    · rw [store_same]; exact hcur
  · rw [rg_mem_other_rnd c d cur st e hpn]; exact hp

theorem meet_succ_rnd {d : Bool} {cur : node_ptr} {st : chase_state} {e : Nat × ℚ}
    (hm : basic_mid c pi N d cur st.mem st.open_ st.norelax_ st.phase_)
    (hmeet : meet_inv c pi N st.mem st.v_ st.w_ st.best_cost_)
    (he : e.1 < N) :
    meet_inv c pi N (expand_succ c d cur st e).mem (expand_succ c d cur st e).v_
      (expand_succ c d cur st e).w_ (expand_succ c d cur st e).best_cost_ := by
  unfold expand_succ
  dsimp only
  by_cases hn : ((touch st).mem ⟨d, e.1⟩).get_expanded = true
  · rw [if_pos hn]; exact hmeet
  · rw [if_neg hn]
    have hn1 : (st.mem ⟨d, e.1⟩).get_expanded = false := by simpa using hn
    have h1 : meet_inv c pi N (relax_or_generate c d cur (touch st) e).mem st.v_ st.w_
        st.best_cost_ :=
      meet_inv_mem hmeet (fun p hp => @rg_sid_mono_rnd c pi d cur (touch st) e hm.cur_sid p hp)
    have hpost := @basic_rg_rnd c pi N d cur (touch st) e hm he hn1
    have hsn : ((relax_or_generate c d cur (touch st) e).mem ⟨d, e.1⟩).get_search_id
        = pi.instance_id_ := by
      rw [rg_search_id_succ_rnd c d cur (touch st) e]
      · exact hm.cur_sid
      · intro ho
        exact ((hm.inv.open_ok d _ ho).2.2.1).trans hm.cur_sid.symm
    have hidn : ((relax_or_generate c d cur (touch st) e).mem ⟨d, e.1⟩).get_id = e.1 :=
      hpost.inv.ids ⟨d, e.1⟩ he
    unfold update_best
    dsimp only
    rw [hidn, hsn]
    split_ifs with k1 k2
    · dsimp only
      have hlt : (relax_or_generate c d cur (touch st) e).best_cost_ ≤ (c.INF : ℚ) := by
        rw [rg_best_cost_rnd]; exact hmeet.1
      have hlt2 := lt_of_lt_of_le k2 hlt
      exact ⟨le_of_lt hlt2, Or.inr ⟨hlt2, d, e.1, he, rfl, rfl, hsn, k1⟩⟩
    · simpa using h1
    · simpa using h1

end meet

theorem parent_chain_of_is_chain_rnd {c : chase_config} {pi : problem_instance} {N : Nat}
    {d : Bool} {mem : node_ptr → search_node}
    (hids : ∀ p : node_ptr, p.key < N → (mem p).get_id = p.key)
    (l : List node_ptr) (p : node_ptr) (hp : p.key < N)
    (h : is_chain c pi N d mem (p :: l)) (fuel : Nat) (hf : l.length + 1 ≤ fuel) :
    parent_chain mem fuel (some p) = some ((p :: l).map node_ptr.key) := by
  induction l generalizing p fuel with
  | nil =>
    rw [is_chain_single_rnd] at h
    cases fuel with
    | zero => simp at hf
    | succ fuel =>
      have hpar : (mem p).get_parent = none := h.2.1
      unfold parent_chain
      rw [hpar]
      unfold parent_chain
      simp [hids p hp]
  | cons q l ih =>
    rw [is_chain_cons_cons_rnd] at h
    obtain ⟨h1, _, h3, _, _, _, h8⟩ := h
    cases fuel with
    | zero => simp at hf
    | succ fuel =>
      unfold parent_chain
      rw [h1, ih q h3 h8 fuel (by simpa using hf)]
      simp [hids p hp]

theorem search_loop_mono_rnd (c : chase_config) (fuel fuel2 : Nat) (st0 st : chase_state)
    (h : search_loop c fuel st0 = .finished st) (hle : fuel ≤ fuel2) :
    search_loop c fuel2 st0 = .finished st := by
  induction fuel generalizing st0 fuel2 with
  | zero => simp [search_loop] at h
  | succ fuel ih =>
    cases fuel2 with
    | zero => omega
    | succ fuel2 =>
      unfold search_loop at h ⊢
      split at h
      · rename_i st1 hi
        exact ih fuel2 st1 h (by omega)
      · exact h
      · cases h

theorem parent_chain_of_tail_rnd {c : chase_config} {pi : problem_instance} {N : Nat}
    {d : Bool} {mem : node_ptr → search_node}
    (hids : ∀ p : node_ptr, p.key < N → (mem p).get_id = p.key)
    (l : List node_ptr) (p : node_ptr)
    (h : is_chain c pi N d mem (p :: l)) (fuel : Nat) (hf : l.length + 1 ≤ fuel) :
    parent_chain mem fuel (mem p).get_parent = some (l.map node_ptr.key) := by
  cases l with
  | nil =>
    rw [is_chain_single_rnd] at h
    rw [h.2.1, parent_chain_none]
    rfl
  | cons q l =>
    rw [is_chain_cons_cons_rnd] at h
    obtain ⟨h1, _, h3, _, _, _, h8⟩ := h
    rw [h1]
    exact parent_chain_of_is_chain_rnd hids l q h3 h8 fuel (by simp at hf; omega)

theorem reconstruct_path_of_chains_rnd {c : chase_config} {pi : problem_instance} {N : Nat}
    (st : chase_state)
    (hids : ∀ p : node_ptr, p.key < N → (st.mem p).get_id = p.key)
    (k : Nat) (hk : k < N) (lf lb : List node_ptr)
    (hv : (st.v_ = some ⟨false, k⟩ ∧ st.w_ = some ⟨true, k⟩) ∨
      (st.v_ = some ⟨true, k⟩ ∧ st.w_ = some ⟨false, k⟩))
    (hf : is_chain c pi N false st.mem (⟨false, k⟩ :: lf))
    (hb : is_chain c pi N true st.mem (⟨true, k⟩ :: lb))
    (fuel : Nat) (h1 : lf.length + 1 ≤ fuel) (h2 : lb.length + 1 ≤ fuel) :
    reconstruct_path fuel st =
      .finished { st with
        v_ := some ⟨false, k⟩, w_ := some ⟨true, k⟩,
        sol := { st.sol with
          path_ := (st.sol.path_ ++ ((⟨false, k⟩ : node_ptr) :: lf).map node_ptr.key).reverse
            ++ lb.map node_ptr.key } } := by
  have hc1 := parent_chain_of_is_chain_rnd hids lf ⟨false, k⟩ hk hf fuel h1
  have hc2 := parent_chain_of_tail_rnd hids lb ⟨true, k⟩ hb fuel h2
  unfold reconstruct_path
  rcases hv with ⟨hv, hw⟩ | ⟨hv, hw⟩
  · rw [hv, hw]
    simp only [node_ptr.mk.injEq, Bool.false_eq_true, false_and, decide_False,
      if_false]
    rw [hc1]
    dsimp only
    rw [hc2]
  · rw [hv, hw]
    have : (st.mem ⟨true, k⟩).get_id = k := hids ⟨true, k⟩ hk
    simp only [this, decide_True, if_true]
    rw [hc1]
    dsimp only
    rw [hc2]

section cost
variable {c : chase_config} {pi : problem_instance} {N : Nat}

theorem rg_g_cases_rnd (c : chase_config) (d : Bool) (cur : node_ptr) (st : chase_state)
    (e : Nat × ℚ) :
    ((relax_or_generate c d cur st e).mem ⟨d, e.1⟩ = st.mem ⟨d, e.1⟩ ∧
      ¬ (double_round ((st.mem cur).get_g + e.2) < (st.mem ⟨d, e.1⟩).get_g) ∧
      ((⟨d, e.1⟩ : node_ptr) ∈ st.open_ d ∨
        (st.mem ⟨d, e.1⟩).get_search_id = (st.mem cur).get_search_id)) ∨
    (((relax_or_generate c d cur st e).mem ⟨d, e.1⟩).get_g = double_round ((st.mem cur).get_g + e.2) ∧
      double_round ((st.mem cur).get_g + e.2) < (st.mem ⟨d, e.1⟩).get_g ∧
      ((⟨d, e.1⟩ : node_ptr) ∈ st.open_ d ∨
        (st.mem ⟨d, e.1⟩).get_search_id = (st.mem cur).get_search_id)) ∨
    (((relax_or_generate c d cur st e).mem ⟨d, e.1⟩).get_g = double_round ((st.mem cur).get_g + e.2) ∧
      (⟨d, e.1⟩ : node_ptr) ∉ st.open_ d ∧
      ¬ (st.phase_ = 1 ∧
        (st.mem ⟨d, e.1⟩).get_search_id = (st.mem cur).get_search_id)) := by
  rcases rg_cases_rnd c d cur st e with
    ⟨k1, k2, hmem, _⟩ | ⟨k1, k2, hmem, _⟩ | ⟨k1, k2, k3, k4, hmem, _⟩ |
    ⟨k1, k2, _, hmem, _⟩ | ⟨k1, k2, _, hmem, _⟩
  · left
    refine ⟨by rw [hmem], k1, ?_⟩
    rcases k2 with h | h
    · exact Or.inl h
    · exact Or.inr h.2
  · right; left
    exact ⟨by rw [hmem, store_same]; rfl, k2, Or.inl k1⟩
  · right; left
    exact ⟨by rw [hmem, store_same]; rfl, k4, Or.inr k3⟩
  · right; right
    exact ⟨by rw [hmem, store_same]; rfl, k1, k2⟩
  · right; right
    exact ⟨by rw [hmem, store_same]; rfl, k1, k2⟩

theorem cost_init_rnd {mem : node_ptr → search_node} (henv : env_ok c pi N mem)
    (sol : solution) :
    cost_inv c pi N (search_init c mem pi sol).mem (search_init c mem pi sol).open_
      (search_init c mem pi sol).phase_ (search_init c mem pi sol).v_
      (search_init c mem pi sol).w_ (search_init c mem pi sol).best_cost_ := by
  have hsid : ∀ p : node_ptr, p.key < N →
      ((search_init c mem pi sol).mem p).get_search_id = pi.instance_id_ →
      p = generate_target_node pi ∨ p = generate_start_node pi := by
    intro p hp hs
    by_contra hne
    push_neg at hne
    simp only [search_init] at hs
    rw [store_other _ _ hne.1, store_other _ _ hne.2] at hs
    exact henv.fresh p hp hs
  refine ⟨?_, ?_, ?_⟩
  · intro d k hk h1 h2
    left
    have a1 := hsid ⟨d, k⟩ hk h1
    have a2 := hsid ⟨!d, k⟩ hk h2
    simp only [generate_target_node, generate_start_node, node_ptr.mk.injEq] at a1 a2
    cases d <;> simp at a1 a2 <;> exact ⟨by omega, by omega⟩
  · intro d k hv
    simp [search_init] at hv
  · intro h
    simp [search_init] at h

theorem cost_begin_rnd {st : chase_state} {d : Bool} {cur : node_ptr} {rest : List node_ptr}
    (hcost : cost_inv c pi N st.mem st.open_ st.phase_ st.v_ st.w_ st.best_cost_)
    (hpop : pqueue.pop st.mem (st.open_ d) = some (cur, rest)) :
    cost_inv c pi N (store st.mem cur ((st.mem cur).set_expanded true))
      (set_dir st.open_ d rest) st.phase_ st.v_ st.w_ st.best_cost_ ∧
    (st.phase_ = 2 → c.max_phase1_rank_ ≤ (c.expander d).get_rank cur.key) := by
  obtain ⟨hcur, hrest, _⟩ := pop_spec hpop
  obtain ⟨hM, hW, hO⟩ := hcost
  have hS : ∀ x, (store st.mem cur ((st.mem cur).set_expanded true) x).get_search_id
      = (st.mem x).get_search_id := by
    intro x
    by_cases h : x = cur
    · subst h; rw [store_same]; rfl
    · rw [store_other _ _ h]
  have hG : ∀ x, (store st.mem cur ((st.mem cur).set_expanded true) x).get_g
      = (st.mem x).get_g := by
    intro x
    by_cases h : x = cur
    · subst h; rw [store_same]; rfl
    · rw [store_other _ _ h]
  refine ⟨⟨?_, ?_, ?_⟩, fun h => hO h d cur hcur⟩
  · intro d1 k hk h1 h2
    rw [hS] at h1 h2
    rw [hG, hG]
    exact hM d1 k hk h1 h2
  · intro d1 k hv hw
    rw [hG, hG]
    exact hW d1 k hv hw
  · intro h d1 p hp
    apply hO h d1 p
    by_cases hd : d1 = d
    · subst hd
      rw [set_dir_same, hrest] at hp
      exact List.mem_of_mem_erase hp
    · rw [set_dir_other _ _ hd] at hp; exact hp

theorem cost_drop_rnd {st : chase_state} {d : Bool} {cur : node_ptr} {rest : List node_ptr}
    (hcost : cost_inv c pi N st.mem st.open_ st.phase_ st.v_ st.w_ st.best_cost_)
    (hpop : pqueue.pop st.mem (st.open_ d) = some (cur, rest)) :
    cost_inv c pi N st.mem (set_dir st.open_ d rest) st.phase_ st.v_ st.w_
      st.best_cost_ := by
  obtain ⟨_, hrest, _⟩ := pop_spec hpop
  obtain ⟨hM, hW, hO⟩ := hcost
  refine ⟨hM, hW, ?_⟩
  intro h d1 p hp
  apply hO h d1 p
  by_cases hd : d1 = d
  · subst hd
    rw [set_dir_same, hrest] at hp
    exact List.mem_of_mem_erase hp
  · rw [set_dir_other _ _ hd] at hp; exact hp

theorem cost_phase2_rnd {st : chase_state}
    (hb : basic_inv c pi N st.mem st.open_ st.norelax_ st.phase_)
    (hcost : cost_inv c pi N st.mem st.open_ st.phase_ st.v_ st.w_ st.best_cost_) :
    cost_inv c pi N st.mem (fun d => (st.norelax_ d).foldl pqueue.push []) 2 st.v_ st.w_
      st.best_cost_ := by
  obtain ⟨hM, hW, _⟩ := hcost
  refine ⟨hM, hW, ?_⟩
  intro _ d p hp
  simp only [foldl_push_nil] at hp
  exact (hb.norelax_ok d p hp).2.2.2

end cost

section cost2
variable {c : chase_config} {pi : problem_instance} {N : Nat}

theorem cost_succ_rnd {d : Bool} {cur : node_ptr} {st : chase_state} {e : Nat × ℚ}
    (hup : upward c)
    (hm : basic_mid c pi N d cur st.mem st.open_ st.norelax_ st.phase_)
    (ht : tight_dir c pi N d st.mem st.open_ st.norelax_ st.phase_)
    (hmeet : meet_inv c pi N st.mem st.v_ st.w_ st.best_cost_)
    (hcost : cost_inv c pi N st.mem st.open_ st.phase_ st.v_ st.w_ st.best_cost_)
    (hcur2 : st.phase_ = 2 → c.max_phase1_rank_ ≤ (c.expander d).get_rank cur.key)
    (he : e ∈ (c.expander d).successors (st.mem cur).get_id) (hlt : e.1 < N) :
    cost_inv c pi N (expand_succ c d cur st e).mem (expand_succ c d cur st e).open_
      (expand_succ c d cur st e).phase_ (expand_succ c d cur st e).v_
      (expand_succ c d cur st e).w_ (expand_succ c d cur st e).best_cost_ := by
  unfold expand_succ
  dsimp only
  by_cases hn : ((touch st).mem ⟨d, e.1⟩).get_expanded = true
  · rw [if_pos hn]; exact hcost
  rw [if_neg hn]
  have hn1 : (st.mem ⟨d, e.1⟩).get_expanded = false := by simpa using hn
  obtain ⟨hM, hW, hO⟩ := hcost
  have hb := hm.inv
  -- the nodes involved
  have hnc : cur ≠ ⟨d, e.1⟩ := by
    intro h
    have := hm.cur_expanded
    rw [h, hn1] at this
    cases this
  have hns : (⟨d, e.1⟩ : node_ptr) ≠ seed pi d := by
    intro h
    have := hm.seed_expanded
    rw [← h, hn1] at this
    cases this
  have hrn : (⟨!d, e.1⟩ : node_ptr) ≠ ⟨d, e.1⟩ := by
    intro h
    have := congrArg node_ptr.bwd h
    simp at this
  have hoth : ∀ p : node_ptr, p ≠ ⟨d, e.1⟩ →
      (relax_or_generate c d cur (touch st) e).mem p = st.mem p :=
    fun p hp => rg_mem_other_rnd c d cur (touch st) e hp
  have hpost := @basic_rg_rnd c pi N d cur (touch st) e hm hlt hn1
  have hidn : ((relax_or_generate c d cur (touch st) e).mem ⟨d, e.1⟩).get_id = e.1 :=
    hpost.inv.ids ⟨d, e.1⟩ hlt
  have hsn : ((relax_or_generate c d cur (touch st) e).mem ⟨d, e.1⟩).get_search_id
      = pi.instance_id_ := by
    rw [rg_search_id_succ_rnd c d cur (touch st) e]
    · exact hm.cur_sid
    · intro ho
      exact ((hb.open_ok d _ ho).2.2.1).trans hm.cur_sid.symm
  have hsid_mono : ∀ p : node_ptr, p ≠ ⟨d, e.1⟩ →
      (((relax_or_generate c d cur (touch st) e).mem p).get_search_id = pi.instance_id_ ↔
        (st.mem p).get_search_id = pi.instance_id_) := by
    intro p hp
    rw [hoth p hp]
  -- ranks
  have hrank : st.phase_ = 2 → c.max_phase1_rank_ ≤ (c.expander d).get_rank e.1 := by
    intro h2
    have h3 := hup d _ e he
    rw [hb.ids cur hm.cur_lt] at h3
    exact le_trans (hcur2 h2) (le_of_lt h3)
  have hexcl : (st.mem ⟨d, e.1⟩).get_search_id = pi.instance_id_ →
      (⟨d, e.1⟩ : node_ptr) ∉ st.open_ d → st.phase_ = 1 := by
    intro hs ho
    rcases hb.phase with h | h
    · exact h
    · rcases ht ⟨d, e.1⟩ rfl hlt hs hn1 with h1 | h1 | h1
      · exact absurd h1 ho
      · exact h1.1
      · exact absurd (hrank h) (Nat.not_le.mpr h1.2)
  have hexc : ¬ (e.1 = pi.start_id_ ∧ e.1 = pi.target_id_) := by
    intro h
    apply hns
    cases d
    · simp [seed, generate_start_node, h.1.symm]
    · simp [seed, generate_target_node, h.2.symm]
  -- the three ways the g-value of the successor can come out
  have hcases : ((relax_or_generate c d cur (touch st) e).mem ⟨d, e.1⟩ = st.mem ⟨d, e.1⟩ ∧
        ¬ (double_round ((st.mem cur).get_g + e.2) < (st.mem ⟨d, e.1⟩).get_g) ∧
        (st.mem ⟨d, e.1⟩).get_search_id = pi.instance_id_) ∨
      (((relax_or_generate c d cur (touch st) e).mem ⟨d, e.1⟩).get_g
          = double_round ((st.mem cur).get_g + e.2) ∧
        double_round ((st.mem cur).get_g + e.2) < (st.mem ⟨d, e.1⟩).get_g ∧
        (st.mem ⟨d, e.1⟩).get_search_id = pi.instance_id_) ∨
      (((relax_or_generate c d cur (touch st) e).mem ⟨d, e.1⟩).get_g
          = double_round ((st.mem cur).get_g + e.2) ∧
        (st.mem ⟨d, e.1⟩).get_search_id ≠ pi.instance_id_) := by
    have hs_of : ((⟨d, e.1⟩ : node_ptr) ∈ st.open_ d ∨
        (st.mem ⟨d, e.1⟩).get_search_id = (st.mem cur).get_search_id) →
        (st.mem ⟨d, e.1⟩).get_search_id = pi.instance_id_ := by
      intro h
      rcases h with h | h
      · exact (hb.open_ok d _ h).2.2.1
      · exact h.trans hm.cur_sid
    rcases rg_g_cases_rnd c d cur (touch st) e with ⟨a1, a2, a3⟩ | ⟨a1, a2, a3⟩ | ⟨a1, a2, a3⟩
    · exact Or.inl ⟨a1, a2, hs_of a3⟩
    · exact Or.inr (Or.inl ⟨a1, a2, hs_of a3⟩)
    · right; right
      refine ⟨a1, ?_⟩
      intro hs
      exact a3 ⟨hexcl hs a2, hs.trans hm.cur_sid.symm⟩
  -- the open sets in phase 2
  have hO1 : (relax_or_generate c d cur (touch st) e).phase_ = 2 → ∀ d1 p,
      p ∈ (relax_or_generate c d cur (touch st) e).open_ d1 →
      c.max_phase1_rank_ ≤ (c.expander d1).get_rank p.key := by
    intro h2 d1 p hp
    rw [rg_phase_rnd] at h2
    rcases rg_open_mem_rnd c d cur (touch st) e hp with h | ⟨h3, h4, _, _⟩
    · exact hO h2 d1 p h
    · subst h3 h4; exact hrank h2
  -- what the recorded meeting says about the successor
  have hvw_sid : ∀ (d1 : Bool) (k1 : Nat), st.v_ = some ⟨d1, k1⟩ → st.w_ = some ⟨!d1, k1⟩ →
      (st.mem ⟨d1, k1⟩).get_search_id = pi.instance_id_ ∧
      (st.mem ⟨!d1, k1⟩).get_search_id = pi.instance_id_ := by
    intro d1 k1 hv hw
    rcases hmeet.2 with h | ⟨_, d2, k2, _, hv2, _, h6, h7⟩
    · rw [h.2.1] at hv; cases hv
    · rw [hv2] at hv
      simp only [Option.some.injEq, node_ptr.mk.injEq] at hv
      obtain ⟨hv1, hv3⟩ := hv
      subst hv1 hv3
      exact ⟨h6, h7⟩
  have hcur1 := hoth cur hnc
  have hrn1 := hoth ⟨!d, e.1⟩ hrn
  unfold update_best
  dsimp only
  rw [hidn, hsn, hrn1, hcur1, rg_best_cost_rnd]
  have hbest : (touch st).best_cost_ = st.best_cost_ := rfl
  rw [hbest]
  by_cases k1 : (st.mem ⟨!d, e.1⟩).get_search_id = pi.instance_id_
  · rw [if_pos k1]
    by_cases k2 : double_round (double_round ((st.mem cur).get_g + e.2)
        + (st.mem ⟨!d, e.1⟩).get_g) < st.best_cost_
    · -- a better meeting is recorded
      rw [if_pos k2]
      dsimp only
      have hgn : ((relax_or_generate c d cur (touch st) e).mem ⟨d, e.1⟩).get_g
          = double_round ((st.mem cur).get_g + e.2) := by
        rcases hcases with ⟨a1, a2, a3⟩ | ⟨a1, _, _⟩ | ⟨a1, _⟩
        · exfalso
          rcases hM d e.1 hlt a3 k1 with h | h
          · exact hexc h
          · have h5 : (st.mem ⟨d, e.1⟩).get_g ≤ double_round ((st.mem cur).get_g + e.2) :=
              not_lt.mp a2
            have h6 := double_round_mono (add_le_add_right h5 (st.mem ⟨!d, e.1⟩).get_g)
            linarith
        · exact a1
        · exact a1
      refine ⟨?_, ?_, hO1⟩
      · intro d1 k hk h1 h2
        rcases pair_cases d d1 e.1 k with ⟨p1, p2⟩ | ⟨p1, p2⟩ | ⟨p1, p2⟩
        · rw [hoth _ p1] at h1 ⊢
          rw [hoth _ p2] at h2 ⊢
          rcases hM d1 k hk h1 h2 with h | h
          · exact Or.inl h
          · exact Or.inr (le_trans (le_of_lt k2) h)
        · subst p1 p2
          right
          rw [hgn, hrn1]
        · subst p1 p2
          right
          simp only [Bool.not_not]
          rw [hgn, hrn1]
          exact le_of_eq (congrArg double_round (add_comm _ _))
      · intro d1 k hv hw
        simp only [Option.some.injEq, node_ptr.mk.injEq] at hv
        obtain ⟨hv1, hv2⟩ := hv
        subst hv1 hv2
        rw [hgn, hrn1]
    · -- the candidate does not improve
      rw [if_neg k2]
      have hk2 : st.best_cost_ ≤ double_round (double_round ((st.mem cur).get_g + e.2)
          + (st.mem ⟨!d, e.1⟩).get_g) := not_lt.mp k2
      refine ⟨?_, ?_, hO1⟩
      · intro d1 k hk h1 h2
        rw [rg_best_cost_rnd, hbest]
        rcases pair_cases d d1 e.1 k with ⟨p1, p2⟩ | ⟨p1, p2⟩ | ⟨p1, p2⟩
        · rw [hoth _ p1] at h1 ⊢
          rw [hoth _ p2] at h2 ⊢
          exact hM d1 k hk h1 h2
        · subst p1 p2
          rw [hrn1]
          rcases hcases with ⟨a1, _, a3⟩ | ⟨a1, _, _⟩ | ⟨a1, _⟩
          · rw [a1]; exact hM d1 e.1 hlt a3 k1
          · right; rw [a1]; exact hk2
          · right; rw [a1]; exact hk2
        · subst p1 p2
          simp only [Bool.not_not]
          rw [hrn1]
          rcases hcases with ⟨a1, _, a3⟩ | ⟨a1, _, _⟩ | ⟨a1, _⟩
          · rw [a1]
            rcases hM d e.1 hlt a3 k1 with h | h
            · exact Or.inl h
            · right
              exact le_of_le_of_eq h (congrArg double_round (add_comm _ _))
          · right; rw [a1]
            exact le_of_le_of_eq hk2 (congrArg double_round (add_comm _ _))
          · right; rw [a1]
            exact le_of_le_of_eq hk2 (congrArg double_round (add_comm _ _))
      · intro d1 k hv hw
        rw [rg_v_rnd] at hv
        rw [rg_w_rnd] at hw
        rw [rg_best_cost_rnd, hbest]
        have hold := hW d1 k hv hw
        obtain ⟨s1, s2⟩ := hvw_sid d1 k hv hw
        rcases pair_cases d d1 e.1 k with ⟨p1, p2⟩ | ⟨p1, p2⟩ | ⟨p1, p2⟩
        · rw [hoth _ p1, hoth _ p2]; exact hold
        · subst p1 p2
          rw [hrn1]
          rcases hcases with ⟨a1, _, _⟩ | ⟨a1, a2, _⟩ | ⟨_, a3⟩
          · rw [a1]; exact hold
          · rw [a1]
            apply le_antisymm hk2
            rw [hold]
            exact double_round_mono (add_le_add_right (le_of_lt a2) _)
          · exact absurd s1 a3
        · subst p1 p2
          simp only [Bool.not_not] at hold s2 ⊢
          rw [hrn1]
          rcases hcases with ⟨a1, _, _⟩ | ⟨a1, a2, _⟩ | ⟨_, a3⟩
          · rw [a1]; exact hold
          · rw [a1]
            apply le_antisymm
            · exact le_of_le_of_eq hk2 (congrArg double_round (add_comm _ _))
            · rw [hold]
              exact double_round_mono (add_le_add_left (le_of_lt a2) _)
          · exact absurd s2 a3
  · -- the opposite node has not been generated in this search
    rw [if_neg k1]
    refine ⟨?_, ?_, hO1⟩
    · intro d1 k hk h1 h2
      rw [rg_best_cost_rnd, hbest]
      rcases pair_cases d d1 e.1 k with ⟨p1, p2⟩ | ⟨p1, p2⟩ | ⟨p1, p2⟩
      · rw [hoth _ p1] at h1 ⊢
        rw [hoth _ p2] at h2 ⊢
        exact hM d1 k hk h1 h2
      · subst p1 p2
        rw [hrn1] at h2
        exact absurd h2 k1
      · subst p1 p2
        rw [hrn1] at h1
        exact absurd h1 k1
    · intro d1 k hv hw
      rw [rg_v_rnd] at hv
      rw [rg_w_rnd] at hw
      rw [rg_best_cost_rnd, hbest]
      have hold := hW d1 k hv hw
      obtain ⟨s1, s2⟩ := hvw_sid d1 k hv hw
      rcases pair_cases d d1 e.1 k with ⟨p1, p2⟩ | ⟨p1, p2⟩ | ⟨p1, p2⟩
      · rw [hoth _ p1, hoth _ p2]; exact hold
      · subst p1 p2
        exact absurd s2 k1
      · subst p1 p2
        exact absurd s1 k1

end cost2

section cost3
variable {c : chase_config} {pi : problem_instance} {N : Nat}

theorem cost_invariant_rnd {mem : node_ptr → search_node} (sol : solution)
    (henv : env_ok c pi N mem) (hup : upward c)
    (st : chase_state) (h : at_point c mem pi sol st) :
    basic_inv c pi N st.mem st.open_ st.norelax_ st.phase_ ∧
    chain_inv c pi N st.mem ∧
    meet_inv c pi N st.mem st.v_ st.w_ st.best_cost_ ∧
    cost_inv c pi N st.mem st.open_ st.phase_ st.v_ st.w_ st.best_cost_ := by
  have key := (@search_invariant_rnd c mem pi sol
    (fun st => basic_inv c pi N st.mem st.open_ st.norelax_ st.phase_ ∧
      (∀ d1, cover_dir c pi N d1 st.mem st.open_ st.norelax_ st.phase_ st.best_cost_) ∧
      chain_inv c pi N st.mem ∧
      meet_inv c pi N st.mem st.v_ st.w_ st.best_cost_ ∧
      cost_inv c pi N st.mem st.open_ st.phase_ st.v_ st.w_ st.best_cost_)
    (fun d cur st => basic_mid c pi N d cur st.mem st.open_ st.norelax_ st.phase_ ∧
      tight_dir c pi N d st.mem st.open_ st.norelax_ st.phase_ ∧
      cover_dir c pi N (!d) st.mem st.open_ st.norelax_ st.phase_ st.best_cost_ ∧
      chain_inv c pi N st.mem ∧
      meet_inv c pi N st.mem st.v_ st.w_ st.best_cost_ ∧
      cost_inv c pi N st.mem st.open_ st.phase_ st.v_ st.w_ st.best_cost_ ∧
      (st.phase_ = 2 → c.max_phase1_rank_ ≤ (c.expander d).get_rank cur.key))
    ?_ ?_ ?_ ?_ ?_ ?_ ?_ ?_).2 st h
  · rcases key with h | ⟨_, _, h⟩
    · exact ⟨h.1, h.2.2.1, h.2.2.2.1, h.2.2.2.2⟩
    · exact ⟨h.1.inv, h.2.2.2.1, h.2.2.2.2.1, h.2.2.2.2.2.1⟩
  · exact ⟨basic_init henv sol, fun d1 => tight_imp_cover _ (cover_init henv sol d1),
      chain_init_rnd henv sol, ⟨le_refl _, Or.inl ⟨rfl, rfl, rfl⟩⟩, cost_init_rnd henv sol⟩
  · intro st k h; exact h
  · intro st b h; exact h
  · intro st d cur rest hI hpop hf
    obtain ⟨hb, hc, hch, hm, hcost⟩ := hI
    refine ⟨?_, cover_drop hb hc hpop hf, hch, hm, cost_drop_rnd hcost hpop⟩
    rw [(pop_spec hpop).2.1]
    exact basic_inv_erase hb d cur
  · intro st d cur rest hI hpop hf
    obtain ⟨hb, hc, hch, hm, hcost⟩ := hI
    obtain ⟨h1, h2⟩ := cover_begin hb hc hpop hf
    obtain ⟨h3, h4⟩ := cost_begin_rnd hcost hpop
    refine ⟨?_, h1, h2, chain_begin_rnd hch cur, meet_begin hm cur, h3, h4⟩
    have := basic_begin hb d cur (pop_spec hpop).1
    rw [← (pop_spec hpop).2.1] at this
    exact this
  · intro st d cur e hJ he
    obtain ⟨hm, ht, hc, hch, hmeet, hcost, hcur2⟩ := hJ
    have hlt := henv.succ_lt d _ e he
    obtain ⟨h1, h2⟩ := @cover_succ_rnd c pi N d cur st e hm ht hc
    refine ⟨basic_succ_rnd hm hlt, h1, h2, chain_succ_rnd hm hch he, meet_succ_rnd hm hmeet hlt,
      cost_succ_rnd hup hm ht hmeet hcost hcur2 he hlt, ?_⟩
    intro h2
    apply hcur2
    rw [← h2]
    exact (expand_succ_phase_rnd c d cur st e).symm
  · intro st d cur hJ
    obtain ⟨hm, ht, hc, hch, hmeet, hcost, _⟩ := hJ
    refine ⟨hm.inv, ?_, hch, hmeet, hcost⟩
    intro d1
    by_cases hd : d1 = d
    · subst hd; exact tight_imp_cover _ ht
    · have : d1 = !d := by cases d <;> cases d1 <;> simp_all
      subst this; exact hc
  · intro st hI hph ho1 ho2 _ _
    obtain ⟨hb, hc, hch, hm, hcost⟩ := hI
    refine ⟨basic_phase2 hb hph, ?_, hch, hm, @cost_phase2_rnd c pi N st hb hcost⟩
    intro d1
    exact cover_phase2 hb hc hph (fun d2 => by cases d2 <;> assumption) d1

end cost3

theorem costed_path_of_bwd_chain_rnd {c : chase_config} {pi : problem_instance} {N : Nat}
    {mem : node_ptr → search_node} (l : List node_ptr) (p : node_ptr)
    (h : is_chain c pi N true mem (p :: l)) :
    ∃ cs, costed_path c ((p :: l).map node_ptr.key) cs ∧
      backward_sum cs = (mem p).get_g := by
  induction l generalizing p with
  | nil =>
    rw [is_chain_single_rnd] at h
    exact ⟨[], by simp [costed_path], by simp [backward_sum, h.2.2]⟩
  | cons q l ih =>
    rw [is_chain_cons_cons_rnd] at h
    obtain ⟨_, _, _, _, _, ⟨cost, hc1, hc2⟩, h8⟩ := h
    obtain ⟨cs, hcs, hsum⟩ := ih q h8
    refine ⟨cost :: cs, ?_, ?_⟩
    · rw [show (p :: q :: l).map node_ptr.key = p.key :: q.key :: l.map node_ptr.key
        from rfl, costed_path_cons_cons]
      exact ⟨cost, cs, rfl, Or.inr hc1, hcs⟩
    · show double_round (backward_sum cs + cost) = _
      rw [hsum, hc2]

theorem costed_path_of_fwd_chain_rnd {c : chase_config} {pi : problem_instance} {N : Nat}
    {mem : node_ptr → search_node} (l : List node_ptr) (p : node_ptr)
    (h : is_chain c pi N false mem (p :: l)) :
    ∃ cs, costed_path c ((l.map node_ptr.key).reverse ++ [p.key]) cs ∧
      forward_sum cs = (mem p).get_g := by
  induction l generalizing p with
  | nil =>
    rw [is_chain_single_rnd] at h
    exact ⟨[], by simp [costed_path], by simp [forward_sum, h.2.2]⟩
  | cons q l ih =>
    rw [is_chain_cons_cons_rnd] at h
    obtain ⟨_, _, _, _, _, ⟨cost, hc1, hc2⟩, h8⟩ := h
    obtain ⟨cs, hcs, hsum⟩ := ih q h8
    refine ⟨cs ++ [cost], ?_, ?_⟩
    · have h2 : costed_path c (q.key :: [p.key]) [cost] := by
        rw [costed_path_cons_cons]
        exact ⟨cost, [], rfl, Or.inl hc1, by simp [costed_path]⟩
      have := costed_path_append c q.key [p.key] [cost] h2 _ cs hcs
      simpa using this
    · have e1 : forward_sum (cs ++ [cost]) = double_round (forward_sum cs + cost) := by
        simp [forward_sum, List.foldl_append]
      rw [e1, hsum, hc2]

end rounded

namespace chase_search

open examples

/-- C3, evaluated on the code: on `core_target_graph` with start 0 and target 39,
chase_search ends with `best_cost_ = INF` (no path) although the plain bidirectional
search ends with cost 2: the target is itself a core node, the backward search
defers nothing, and the test "either `core_lb` is `DBL_MAX`" stops the search before
phase 2. -/
theorem chase_differs_from_bch_on_core_target :
    (final_state (search core_target 100 (fresh_pool INF32) ⟨0, 39, 1⟩
        (fresh_solution INF32))).map (fun st => st.best_cost_) = some (INF32 : ℚ)
    ∧ (final_state (bch_search core_target 100 (fresh_pool INF32) ⟨0, 39, 1⟩
        (fresh_solution INF32))).map (fun st => st.best_cost_) = some 2 := by
  decide!

/-- C9, evaluated on the code: on `fractional_graph` with start 0 and target 1, phase
1 ends (pass 5 starts with `search_direction = 0`) with the real-valued best bound
5/2 and `best_cost_ = 9/4`, so the bound is not below the cost; yet the next pass
enters phase 2, because the bounds are stored in `uint32_t` variables and 5/2 is
truncated to 2. -/
theorem phase2_entered_although_bound_reaches_cost :
    (run_passes fractional 4 (search_init fractional (fresh_pool INF32) ⟨0, 1, 1⟩
        (fresh_solution INF32))).map
      (fun st => (st.phase_, st.search_direction, best_bound_real st, st.best_cost_))
      = some (1, 0, 5 / 2, 9 / 4)
    ∧ (run_passes fractional 5 (search_init fractional (fresh_pool INF32) ⟨0, 1, 1⟩
        (fresh_solution INF32))).map (fun st => st.phase_) = some 2 := by
  decide!

/-- C4: when `search` ends with `best_cost_ = INF`, `get_path` returns what `search`
left, cleaned up: for a solution that came in with an empty path the path is still
empty and `sum_of_edge_costs_` still holds the value it came in with. When `search`
ends with another `best_cost_`, and only then, the outcome of `get_path` is that of
`reconstruct_path`, run after the cost has been written. -/
theorem get_path_reports_no_path_iff_best_cost_inf (c : chase_config) (fuel : Nat)
    (mem : node_ptr → search_node) (pi : problem_instance) (sol : solution)
    (st : chase_state) (hempty : sol.path_ = [])
    (hs : search c fuel mem pi sol = .finished st) :
    (st.best_cost_ = c.INF →
      get_path c fuel mem pi sol = .finished (cleanup st) ∧
      (cleanup st).sol.path_ = [] ∧
      (cleanup st).sol.sum_of_edge_costs_ = sol.sum_of_edge_costs_) ∧
    (st.best_cost_ ≠ c.INF →
      get_path c fuel mem pi sol =
        match reconstruct_path fuel
            { st with sol := { st.sol with sum_of_edge_costs_ := st.best_cost_ } } with
        | .finished st1 => .finished (cleanup st1)
        | .null_deref => .null_deref
        | .out_of_fuel => .out_of_fuel) := by
  have hfr := search_loop_report c fuel _ st hs
  constructor
  · intro hb
    refine ⟨?_, ?_, ?_⟩
    · unfold get_path
      rw [hs]
      simp [report, hb]
    · simpa [cleanup, search_init, hempty] using hfr.1
    · simpa [cleanup, search_init] using hfr.2
  · intro hb
    unfold get_path
    rw [hs]
    simp [report, hb]

/-- Witness for C4: the search on `core_target_graph` from 0 to 39 ends with
`best_cost_ = INF`. -/
theorem get_path_reports_no_path_iff_best_cost_inf_witness :
    ∃ st, search core_target 100 (fresh_pool INF32) ⟨0, 39, 1⟩ (fresh_solution INF32)
        = .finished st ∧
      st.best_cost_ = core_target.INF ∧
      get_path core_target 100 (fresh_pool INF32) ⟨0, 39, 1⟩ (fresh_solution INF32)
        = .finished (cleanup st) ∧
      (cleanup st).sol.path_ = [] ∧
      (cleanup st).sol.sum_of_edge_costs_ = (fresh_solution INF32).sum_of_edge_costs_ := by
  have hb : (final_state (search core_target 100 (fresh_pool INF32) ⟨0, 39, 1⟩
      (fresh_solution INF32))).map (fun s => s.best_cost_) = some (core_target.INF : ℚ) := by
    decide!
  cases hs : search core_target 100 (fresh_pool INF32) ⟨0, 39, 1⟩ (fresh_solution INF32) with
  | finished st =>
    rw [hs] at hb
    simp only [final_state, Option.map_some', Option.some.injEq] at hb
    exact ⟨st, rfl, hb, (get_path_reports_no_path_iff_best_cost_inf core_target 100
      (fresh_pool INF32) ⟨0, 39, 1⟩ (fresh_solution INF32) st rfl hs).1 hb⟩
  | null_deref => rw [hs] at hb; simp [final_state] at hb
  | out_of_fuel => rw [hs] at hb; simp [final_state] at hb

/-- C6 as stated fails: with three nodes the product 0.95 * 3 = 2.85 is truncated to
`max_phase1_rank_ = 2`, and the successor of rank 2, generated for the first time in
phase 1, is deferred to the norelax list although its rank is below 2.85. -/
theorem rank_below_095_num_nodes_is_deferred :
    three_node_mid.phase_ = 1 ∧
    (three_node_mid.mem ⟨false, 2⟩).get_search_id
      ≠ (three_node_mid.mem ⟨false, 0⟩).get_search_id ∧
    (⟨false, 2⟩ : node_ptr) ∈
      (expand_succ three_node false ⟨false, 0⟩ three_node_mid (2, 1)).norelax_ false ∧
    (⟨false, 2⟩ : node_ptr) ∉
      (expand_succ three_node false ⟨false, 0⟩ three_node_mid (2, 1)).open_ false ∧
    ¬ ((19 / 20 : ℚ) * (three_node.fexpander_.get_num_nodes : ℚ)
        ≤ ((three_node.expander false).get_rank
            (three_node_mid.mem ⟨false, 2⟩).get_id : ℚ)) := by
  decide!

/-- C6, amended: the cutoff is the product 0.95 * num_nodes truncated to an integer.
For every number of nodes below 2^32 and every rank, a successor generated for the
first time in a search (its search id is not the current one; it is neither expanded
nor on a list) is deferred to the norelax list and not pushed onto the open set if and
only if the phase is 1 and its rank is at least `19 * num_nodes / 20` (integer
division); otherwise it is pushed onto the open set and not deferred. -/
theorem deferred_iff_phase1_and_rank_at_least_truncated_cutoff (c : chase_config)
    (d : Bool) (current : node_ptr) (st : chase_state) (e : Nat × ℚ)
    (hN : c.fexpander_.get_num_nodes < 2 ^ 32)
    (hphase : st.phase_ = 1 ∨ st.phase_ = 2)
    (hn : (st.mem ⟨d, e.1⟩).get_expanded = false)
    (hnew : (st.mem ⟨d, e.1⟩).get_search_id ≠ (st.mem current).get_search_id)
    (hopen : (⟨d, e.1⟩ : node_ptr) ∉ st.open_ d)
    (hnr : (⟨d, e.1⟩ : node_ptr) ∉ st.norelax_ d) :
    (((⟨d, e.1⟩ : node_ptr) ∈ (expand_succ c d current st e).norelax_ d ∧
        (⟨d, e.1⟩ : node_ptr) ∉ (expand_succ c d current st e).open_ d) ↔
      (st.phase_ = 1 ∧
        19 * c.fexpander_.get_num_nodes / 20
          ≤ (c.expander d).get_rank (st.mem ⟨d, e.1⟩).get_id)) ∧
    (((⟨d, e.1⟩ : node_ptr) ∈ (expand_succ c d current st e).open_ d ∧
        (⟨d, e.1⟩ : node_ptr) ∉ (expand_succ c d current st e).norelax_ d) ↔
      ¬ (st.phase_ = 1 ∧
        19 * c.fexpander_.get_num_nodes / 20
          ≤ (c.expander d).get_rank (st.mem ⟨d, e.1⟩).get_id)) := by
  have hcut := max_phase1_rank_eq c hN
  have ht : (touch st).mem = st.mem := rfl
  unfold expand_succ
  dsimp only
  rw [ht, hn]
  simp only [Bool.false_eq_true, if_false, update_best_norelax, update_best_open]
  unfold relax_or_generate
  dsimp only
  have ho : pqueue.contains ((touch st).open_ d) ⟨d, e.1⟩ = false := by
    simpa [pqueue.contains, touch] using hopen
  rw [ho]
  simp only [Bool.false_eq_true, if_false]
  rw [if_neg (by simp only [ht]; exact fun h => hnew h.2)]
  rw [hcut]
  have hp : (touch st).phase_ = st.phase_ := rfl
  have hnr2 : (touch st).norelax_ = st.norelax_ := rfl
  have hop2 : (touch st).open_ = st.open_ := rfl
  simp only [hp, ht, search_node.get_id_init]
  rcases hphase with h1 | h2
  · by_cases hr : (c.expander d).get_rank (st.mem ⟨d, e.1⟩).get_id
        < 19 * c.fexpander_.get_num_nodes / 20
    · simp [h1, hr, hnr2, hop2, hnr, hopen, pqueue.push]
    · simp [h1, hr, hnr2, hop2, hnr, hopen, pqueue.push, Nat.not_lt.mp hr]
  · simp [h2, hnr2, hop2, hnr, hopen, pqueue.push]

/-- Witness for C6 (amended): the successor of rank 2 on `three_node_graph`. -/
theorem deferred_iff_phase1_and_rank_at_least_truncated_cutoff_witness :
    (((⟨false, 2⟩ : node_ptr) ∈
          (expand_succ three_node false ⟨false, 0⟩ three_node_mid (2, 1)).norelax_ false ∧
        (⟨false, 2⟩ : node_ptr) ∉
          (expand_succ three_node false ⟨false, 0⟩ three_node_mid (2, 1)).open_ false) ↔
      (three_node_mid.phase_ = 1 ∧
        19 * three_node.fexpander_.get_num_nodes / 20
          ≤ (three_node.expander false).get_rank (three_node_mid.mem ⟨false, 2⟩).get_id)) :=
  (deferred_iff_phase1_and_rank_at_least_truncated_cutoff three_node false ⟨false, 0⟩
    three_node_mid (2, 1) (by decide!) (by decide!) (by decide!) (by decide!) (by decide!)
    (by decide!)).1

/-- C10 as stated fails: on `one_sided_graph` phase 1 ends with the `best_bound` test
failing and `bwd_core_lb = DBL_MAX`; the search stops in phase 1, but `get_path`
reports the path 0, 2, 1 of cost 5 found in phase 1, not the absence of a path. -/
theorem search_stops_with_the_path_found_in_phase1 :
    one_sided_phase1_end.phase_ = 1 ∧
    one_sided_phase1_end.search_direction = 0 ∧
    ¬ (((best_bound one_sided { one_sided_phase1_end with cannot_improve := true } : Nat) : ℚ)
        ≥ one_sided_phase1_end.best_cost_) ∧
    one_sided_phase1_end.core_lb true = DBL_MAX ∧
    (final_state (get_path one_sided 100 (fresh_pool INF32) ⟨0, 1, 1⟩
        (fresh_solution INF32))).map
      (fun st => (st.phase_, st.sol.path_, st.sol.sum_of_edge_costs_))
      = some (1, [0, 2, 1], 5) := by
  decide!

/-- C10, amended: when phase 1 ends (a pass that starts with `search_direction = 0`
in phase 1) without the `best_bound` test succeeding and either direction's `core_lb`
is `DBL_MAX`, the search stops in that pass: phase 2 is not entered and `best_cost_`,
`v_`, `w_` stay as phase 1 left them. What `get_path` then reports depends on
`best_cost_` alone: no path (the solution is not written) when it is `INF`, and
otherwise the outcome of `reconstruct_path` for the meeting found in phase 1. -/
theorem search_stops_when_a_core_lb_is_dbl_max (c : chase_config) (st : chase_state)
    (fuel fuel2 : Nat)
    (hdir : st.search_direction = 0) (hphase : st.phase_ = 1)
    (hbound : ¬ (((best_bound c { st with cannot_improve := true } : Nat) : ℚ)
        ≥ st.best_cost_))
    (hlb : st.core_lb false = DBL_MAX ∨ st.core_lb true = DBL_MAX) :
    search_loop c (fuel + 1) st = .finished { st with cannot_improve := true } ∧
    (st.best_cost_ = c.INF →
      report c fuel2 (search_loop c (fuel + 1) st)
        = .finished (cleanup { st with cannot_improve := true })) ∧
    (st.best_cost_ ≠ c.INF →
      report c fuel2 (search_loop c (fuel + 1) st) =
        match reconstruct_path fuel2
            { st with cannot_improve := true,
                      sol := { st.sol with sum_of_edge_costs_ := st.best_cost_ } } with
        | .finished st1 => .finished (cleanup st1)
        | .null_deref => .null_deref
        | .out_of_fuel => .out_of_fuel) := by
  have hloop : search_loop c (fuel + 1) st = .finished { st with cannot_improve := true } := by
    have hi : search_iter c st = .break_ { st with cannot_improve := true } := by
      rw [search_iter_zero c st hdir]
      unfold check_termination
      rw [if_pos rfl, if_pos (show ({ st with cannot_improve := true } : chase_state).phase_ = 1
        from hphase), if_neg hbound, if_pos hlb]
    unfold search_loop
    rw [hi]
  refine ⟨hloop, ?_, ?_⟩
  · intro hb
    rw [hloop]
    simp [report, hb]
  · intro hb
    rw [hloop]
    simp [report, hb]

/-- Witness for C10 (amended): the end of phase 1 on `one_sided_graph`. -/
theorem search_stops_when_a_core_lb_is_dbl_max_witness :
    search_loop one_sided (0 + 1) one_sided_phase1_end
      = .finished { one_sided_phase1_end with cannot_improve := true } :=
  (search_stops_when_a_core_lb_is_dbl_max one_sided one_sided_phase1_end 0 100
    (by decide!) (by decide!) (by decide!) (Or.inr (by decide!))).1

/-- C8: at every point of a search in phase 1 (the head of the loop, the points
between the passes of the successor loop of `expand`, so also right after an in-place
relaxation of a norelax node), each direction's core lower bound is the least g-value
over the nodes of that direction's norelax list, the minimum being taken with
`DBL_MAX`, the bound of every finite double: it is `DBL_MAX` when the list is empty,
it is at most the g-value of every node of the list, and it is the g-value of one of
them when the list is not empty. -/
theorem core_lb_is_least_g_of_norelax (c : chase_config) (pi : problem_instance)
    (N : Nat) (mem : node_ptr → search_node) (sol : solution) (henv : env_ok c pi N mem)
    (st : chase_state) (h : at_point c mem pi sol st) (hph : st.phase_ = 1) (d : Bool) :
    st.core_lb d = min_g st.mem (st.norelax_ d) ∧
    (st.norelax_ d = [] → st.core_lb d = DBL_MAX) ∧
    (∀ p ∈ st.norelax_ d, st.core_lb d ≤ (st.mem p).get_g) ∧
    (st.norelax_ d ≠ [] → (∀ p ∈ st.norelax_ d, (st.mem p).get_g ≤ DBL_MAX) →
      ∃ p ∈ st.norelax_ d, st.core_lb d = (st.mem p).get_g) := by
  have hl := (phase1_invariant sol henv st h).2 hph d
  refine ⟨hl, ?_, ?_, ?_⟩
  · intro he
    rw [hl, he]
    rfl
  · intro p hp
    rw [hl]
    exact min_g_le_of_mem hp
  · intro hne hle
    rw [hl]
    exact min_g_attained st.mem _ hne hle

/-- Witness for C8: after the first pass on `fractional_graph` the forward norelax
list holds node 38 with g = 5/2. -/
theorem core_lb_is_least_g_of_norelax_witness :
    fractional_pass1.core_lb false
        = min_g fractional_pass1.mem (fractional_pass1.norelax_ false) ∧
    (fractional_pass1.norelax_ false = [] → fractional_pass1.core_lb false = DBL_MAX) ∧
    (∀ p ∈ fractional_pass1.norelax_ false,
      fractional_pass1.core_lb false ≤ (fractional_pass1.mem p).get_g) ∧
    (fractional_pass1.norelax_ false ≠ [] →
      (∀ p ∈ fractional_pass1.norelax_ false, (fractional_pass1.mem p).get_g ≤ DBL_MAX) →
      ∃ p ∈ fractional_pass1.norelax_ false,
        fractional_pass1.core_lb false = (fractional_pass1.mem p).get_g) :=
  core_lb_is_least_g_of_norelax fractional ⟨0, 1, 1⟩ 40 (fresh_pool INF32)
    (fresh_solution INF32)
    (env_ok_fresh fractional_graph id INF32 (fun _ => 0) ⟨0, 1, 1⟩ 40 (by decide)
      (by decide) (by decide) (by decide) (by decide))
    fractional_pass1 (at_point.head (run_passes_getD_at_loop_head 1 (by decide!)))
    (by decide!) false

/-- C2, evaluated on the code: on `tenths_graph` from 0 to 1, `get_path` ends with a
finite `best_cost_` and the path 0, 2, 1. The only edge a policy produces for the pair
(0, 2) costs 3602879701896397 / 2^55 and the only one for (2, 1) costs
3602879701896397 / 2^54 (the doubles `0.1` and `0.2`); their exact sum is
10808639105689191 / 2^55, which is not a double. `sum_of_edge_costs_` is the double
next to it, 1351079888211149 / 2^52: no choice of edge costs for the consecutive pairs
of the path has `sum_of_edge_costs_` as its exact sum. -/
theorem sum_of_edge_costs_is_not_the_exact_sum_on_tenths :
    ∃ r, rounded.get_path tenths 100 (fresh_pool INF32) ⟨0, 1, 1⟩ (fresh_solution INF32)
        = .finished r ∧
      r.best_cost_ ≠ tenths.INF ∧
      r.sol.path_ = [0, 2, 1] ∧
      r.sol.sum_of_edge_costs_ = 1351079888211149 / 4503599627370496 ∧
      costed_path tenths r.sol.path_
        [3602879701896397 / 36028797018963968, 3602879701896397 / 18014398509481984] ∧
      (3602879701896397 / 36028797018963968 + 3602879701896397 / 18014398509481984 : ℚ)
        = 10808639105689191 / 36028797018963968 ∧
      ¬ ∃ costs : List ℚ, costed_path tenths r.sol.path_ costs ∧
          costs.sum = r.sol.sum_of_edge_costs_ := by
  have hb : (final_state (rounded.get_path tenths 100 (fresh_pool INF32) ⟨0, 1, 1⟩
      (fresh_solution INF32))).map
        (fun s => (s.sol.path_, s.sol.sum_of_edge_costs_, s.best_cost_))
      = some ([0, 2, 1], (1351079888211149 / 4503599627370496 : ℚ),
          (1351079888211149 / 4503599627370496 : ℚ)) := by
    decide!
  have hf0 : tenths.fexpander_.successors 0
      = [(2, 3602879701896397 / 36028797018963968), (38, 5 / 2)] := by decide!
  have hb2 : tenths.bexpander_.successors 2 = [] := by decide!
  have hf2 : tenths.fexpander_.successors 2 = [] := by decide!
  have hb1 : tenths.bexpander_.successors 1
      = [(2, 3602879701896397 / 18014398509481984), (38, 5 / 2)] := by decide!
  have e1 : ∀ x : ℚ, policy_edge tenths 0 2 x ↔ x = 3602879701896397 / 36028797018963968 := by
    intro x
    unfold policy_edge
    rw [hf0, hb2]
    simp
  have e2 : ∀ y : ℚ, policy_edge tenths 2 1 y ↔ y = 3602879701896397 / 18014398509481984 := by
    intro y
    unfold policy_edge
    rw [hf2, hb1]
    simp
  cases hs : rounded.get_path tenths 100 (fresh_pool INF32) ⟨0, 1, 1⟩
      (fresh_solution INF32) with
  | finished r =>
    rw [hs] at hb
    simp only [final_state, Option.map_some', Option.some.injEq, Prod.mk.injEq] at hb
    obtain ⟨hp, hsum, hbest⟩ := hb
    refine ⟨r, rfl, ?_, hp, hsum, ?_, by norm_num, ?_⟩
    · rw [hbest]
      decide!
    · rw [hp]
      exact ⟨(e1 _).mpr rfl, (e2 _).mpr rfl, trivial⟩
    · rintro ⟨costs, hc, hs2⟩
      rw [hp] at hc
      rw [hsum] at hs2
      match costs, hc, hs2 with
      | [x, y], hc, hs2 =>
        obtain ⟨h1, h2, _⟩ := hc
        rw [(e1 x).mp h1, (e2 y).mp h2] at hs2
        norm_num at hs2
      | [], hc, _ => exact hc
      | [_], hc, _ => exact hc.2
      | _ :: _ :: _ :: _, hc, _ => exact hc.2.2
  | null_deref => rw [hs] at hb; simp [final_state] at hb
  | out_of_fuel => rw [hs] at hb; simp [final_state] at hb

/-- C2, amended: when `search` ends with a `best_cost_` other than `INF` (expansion
policies that keep the BCH contract of yielding only successors of higher rank, pools
that carry no node of the current search id at the start, a solution that comes in
with an empty path), `get_path`, given fuel for the loops of `reconstruct_path`, ends
with `sum_of_edge_costs_` equal to `best_cost_`, and there are costs `fwd ++ bwd`, one
for each consecutive pair of the returned path and each the cost of an edge that the
forward or the backward expansion policy produced for the pair, of which
`sum_of_edge_costs_` is the sum at type `double` in the order the search adds them:
`fwd` from the start on, `bwd` from the target back, then the two partial sums, every
addition rounded to the nearest double. -/
theorem sum_of_edge_costs_is_double_sum_along_returned_path (c : chase_config)
    (pi : problem_instance) (N : Nat) (mem : node_ptr → search_node) (sol : solution)
    (henv : env_ok c pi N mem) (hup : upward c) (hempty : sol.path_ = [])
    (fuel : Nat) (st : chase_state)
    (hs : rounded.search c fuel mem pi sol = .finished st) (hfin : st.best_cost_ ≠ c.INF) :
    ∃ fuel1, ∀ fuel2, fuel1 ≤ fuel2 →
      ∃ (r : chase_state) (fwd bwd : List ℚ),
        rounded.get_path c fuel2 mem pi sol = .finished r ∧
        r.sol.sum_of_edge_costs_ = st.best_cost_ ∧
        costed_path c r.sol.path_ (fwd ++ bwd) ∧
        r.sol.sum_of_edge_costs_
          = double_round (rounded.forward_sum fwd + rounded.backward_sum bwd) := by
  obtain ⟨hb, hc, hmeet, hcost⟩ :=
    rounded.cost_invariant_rnd sol henv hup st (rounded.search_finished_at_point_rnd hs)
  obtain ⟨_, hm2⟩ := hmeet
  rcases hm2 with ⟨h, _⟩ | ⟨_, d, k, hk, hv, hw, hsv, hsw⟩
  · exact absurd h hfin
  have hsum0 := hcost.2.1 d k hv hw
  have hsf : (st.mem ⟨false, k⟩).get_search_id = pi.instance_id_ := by
    cases d
    · exact hsv
    · exact hsw
  have hsb : (st.mem ⟨true, k⟩).get_search_id = pi.instance_id_ := by
    cases d
    · exact hsw
    · exact hsv
  have hsum : st.best_cost_
      = double_round ((st.mem ⟨false, k⟩).get_g + (st.mem ⟨true, k⟩).get_g) := by
    cases d
    · exact hsum0
    · rw [hsum0]; exact congrArg double_round (add_comm _ _)
  obtain ⟨lf, hlf⟩ := hc ⟨false, k⟩ hk hsf
  obtain ⟨lb, hlb⟩ := hc ⟨true, k⟩ hk hsb
  have hvw : (st.v_ = some ⟨false, k⟩ ∧ st.w_ = some ⟨true, k⟩) ∨
      (st.v_ = some ⟨true, k⟩ ∧ st.w_ = some ⟨false, k⟩) := by
    cases d
    · exact Or.inl ⟨hv, hw⟩
    · exact Or.inr ⟨hv, hw⟩
  obtain ⟨cs1, hcs1, hsum1⟩ := rounded.costed_path_of_fwd_chain_rnd lf _ hlf
  obtain ⟨cs2, hcs2, hsum2⟩ := rounded.costed_path_of_bwd_chain_rnd lb _ hlb
  refine ⟨max fuel (max (lf.length + 1) (lb.length + 1)), ?_⟩
  intro fuel2 hfuel
  have hf0 : fuel ≤ fuel2 := le_trans (le_max_left _ _) hfuel
  have hf1 : lf.length + 1 ≤ fuel2 :=
    le_trans (le_trans (le_max_left _ _) (le_max_right _ _)) hfuel
  have hf2 : lb.length + 1 ≤ fuel2 :=
    le_trans (le_trans (le_max_right _ _) (le_max_right _ _)) hfuel
  have hpath : st.sol.path_ = [] := by
    have := (rounded.search_loop_report_rnd c fuel _ st hs).1
    rw [this]
    exact hempty
  have hrec := @rounded.reconstruct_path_of_chains_rnd c pi N
    { st with sol := { st.sol with sum_of_edge_costs_ := st.best_cost_ } }
    hb.ids k hk lf lb hvw hlf hlb fuel2 hf1 hf2
  have hget : rounded.get_path c fuel2 mem pi sol = report c fuel2 (.finished st) := by
    unfold rounded.get_path
    rw [show rounded.search c fuel2 mem pi sol = .finished st from
      rounded.search_loop_mono_rnd c fuel fuel2 _ st hs hf0]
  have hrep : report c fuel2 (.finished st) =
      match reconstruct_path fuel2
          { st with sol := { st.sol with sum_of_edge_costs_ := st.best_cost_ } } with
      | .finished st1 => .finished (cleanup st1)
      | .null_deref => .null_deref
      | .out_of_fuel => .out_of_fuel := by
    simp [report, hfin]
  rw [hget, hrep, hrec]
  refine ⟨_, cs1, cs2, rfl, rfl, ?_, ?_⟩
  · have := costed_path_append c k (lb.map node_ptr.key) cs2 hcs2 _ cs1 hcs1
    simpa [cleanup, hpath] using this
  · simp only [cleanup]
    rw [hsum1, hsum2, hsum]

/-- Witness for C2 (amended): the search on `tenths_graph` from 0 to 1 ends with the
cost 1351079888211149 / 2^52, the double sum of the costs along the path 0, 2, 1. -/
theorem sum_of_edge_costs_is_double_sum_along_returned_path_witness :
    ∃ st, rounded.search tenths 100 (fresh_pool INF32) ⟨0, 1, 1⟩ (fresh_solution INF32)
        = .finished st ∧ st.best_cost_ ≠ tenths.INF ∧
      ∃ fuel1, ∀ fuel2, fuel1 ≤ fuel2 →
        ∃ (r : chase_state) (fwd bwd : List ℚ),
          rounded.get_path tenths fuel2 (fresh_pool INF32) ⟨0, 1, 1⟩ (fresh_solution INF32)
            = .finished r ∧
          r.sol.sum_of_edge_costs_ = st.best_cost_ ∧
          costed_path tenths r.sol.path_ (fwd ++ bwd) ∧
          r.sol.sum_of_edge_costs_
            = double_round (rounded.forward_sum fwd + rounded.backward_sum bwd) := by
  have hb : (final_state (rounded.search tenths 100 (fresh_pool INF32) ⟨0, 1, 1⟩
      (fresh_solution INF32))).map (fun s => s.best_cost_)
      = some (1351079888211149 / 4503599627370496 : ℚ) := by
    decide!
  cases hs : rounded.search tenths 100 (fresh_pool INF32) ⟨0, 1, 1⟩
      (fresh_solution INF32) with
  | finished st =>
    rw [hs] at hb
    simp only [final_state, Option.map_some', Option.some.injEq] at hb
    have hne : st.best_cost_ ≠ tenths.INF := by
      rw [hb]
      decide!
    exact ⟨st, rfl, hne, sum_of_edge_costs_is_double_sum_along_returned_path tenths
      ⟨0, 1, 1⟩ 40 (fresh_pool INF32) (fresh_solution INF32)
      (env_ok_fresh tenths_graph id INF32 (fun _ => 0) ⟨0, 1, 1⟩ 40 (by decide)
        (by decide) (by decide) (by decide) (by decide))
      (upward_chase_over tenths_graph id INF32 (fun _ => 0))
      rfl 100 st hs hne⟩
  | null_deref => rw [hs] at hb; simp [final_state] at hb
  | out_of_fuel => rw [hs] at hb; simp [final_state] at hb

/-- C14: `operator<` orders nodes by f ascending, ties broken in favour of the larger
g: `a < b` holds if and only if `a.f < b.f`, or `a.f = b.f` and `a.g > b.g`. The
values are exact rationals, so none is a NaN. -/
theorem lt_iff_f_less_or_f_equal_and_g_greater (a other : search_node) :
    a.lt other = true ↔
      a.get_f < other.get_f ∨ (a.get_f = other.get_f ∧ a.get_g > other.get_g) := by
  unfold search_node.lt search_node.get_f search_node.get_g
  split_ifs with h1 h2 h3
  · simp [h1]
  · simp only [Bool.false_eq_true, false_iff, not_or, not_and]
    exact ⟨h1, fun h => absurd h (ne_of_gt h2)⟩
  · simp only [true_iff]
    exact Or.inr ⟨le_antisymm (not_lt.mp h2) (not_lt.mp h1), h3⟩
  · simp only [Bool.false_eq_true, false_iff, not_or, not_and]
    exact ⟨h1, fun _ => h3⟩

/-- C15, evaluated on the code: `far_node` has g = 2 and f = 2^57, both doubles, and
1 < 2. `relax(1, null)` computes `f - g = 2^57 - 2`, which rounds to the double 2^57,
then `2^57 + 1`, which rounds to 2^57 again: f is left at 2^57. It has not decreased,
it is not `f_old - g_old + g = 2^57 - 1`, and `f - g` went from 2^57 - 2 to
2^57 - 1. -/
theorem relax_leaves_f_of_far_node_unchanged :
    far_node.get_g = 2 ∧ far_node.get_f = 2 ^ 57 ∧ (1 : ℚ) < far_node.get_g ∧
    (rounded.relax far_node 1 none).get_g = 1 ∧
    (rounded.relax far_node 1 none).get_f = far_node.get_f ∧
    ¬ ((rounded.relax far_node 1 none).get_f < far_node.get_f) ∧
    (rounded.relax far_node 1 none).get_f ≠ far_node.get_f - far_node.get_g + 1 ∧
    (rounded.relax far_node 1 none).get_f - (rounded.relax far_node 1 none).get_g
      ≠ far_node.get_f - far_node.get_g := by
  decide!

/-- C15, amended: for a node with values `g_old`, `f_old` and every `g < g_old`,
`relax(g, p)` leaves `g_ = g`, `parent_ = p` and `f_` the double nearest to `d + g`,
where `d` is the double nearest to `f_old - g_old`; when neither operation rounds
(`f_old - g_old` and `f_old - g_old + g` are doubles), `f_ = f_old - g_old + g`, so
the heuristic part `f - g` is unchanged and f strictly decreases; id, expanded flag,
parent direction, priority and search id are unchanged. -/
theorem relax_sets_g_and_parent_and_shifts_f_in_double (n : search_node) (g : ℚ)
    (p : Option node_ptr) (h : g < n.get_g) :
    (rounded.relax n g p).get_g = g ∧
    (rounded.relax n g p).get_parent = p ∧
    (rounded.relax n g p).get_f = double_round (double_round (n.get_f - n.get_g) + g) ∧
    (double_round (n.get_f - n.get_g) = n.get_f - n.get_g →
      double_round (n.get_f - n.get_g + g) = n.get_f - n.get_g + g →
        (rounded.relax n g p).get_f = n.get_f - n.get_g + g ∧
        (rounded.relax n g p).get_f - (rounded.relax n g p).get_g = n.get_f - n.get_g ∧
        (rounded.relax n g p).get_f < n.get_f) ∧
    (rounded.relax n g p).get_id = n.get_id ∧
    (rounded.relax n g p).get_expanded = n.get_expanded ∧
    (rounded.relax n g p).get_pdir = n.get_pdir ∧
    (rounded.relax n g p).get_priority = n.get_priority ∧
    (rounded.relax n g p).get_search_id = n.get_search_id := by
  refine ⟨rfl, rfl, rfl, ?_, rfl, rfl, rfl, rfl, rfl⟩
  intro h1 h2
  have hf : (rounded.relax n g p).get_f = n.get_f - n.get_g + g := by
    rw [rounded.get_f_relax_rnd, h1, h2]
  rw [hf, rounded.get_g_relax_rnd]
  refine ⟨rfl, by ring, by linarith⟩

/-- Witness for C15 (amended): a node with g = f = 10 relaxed to g = 5; `10 - 10`
and `0 + 5` are doubles, and f comes out as 5. -/
theorem relax_sets_g_and_parent_and_shifts_f_in_double_witness :
    (5 : ℚ) < (search_node.mk_node 10 3).get_g ∧
    (rounded.relax (search_node.mk_node 10 3) 5 (some ⟨false, 0⟩)).get_g = 5 ∧
    (rounded.relax (search_node.mk_node 10 3) 5 (some ⟨false, 0⟩)).get_f = 5 ∧
    (rounded.relax (search_node.mk_node 10 3) 5 (some ⟨false, 0⟩)).get_f
      < (search_node.mk_node 10 3).get_f :=
  have h : (5 : ℚ) < (search_node.mk_node 10 3).get_g := by decide!
  have k := relax_sets_g_and_parent_and_shifts_f_in_double (search_node.mk_node 10 3) 5
    (some ⟨false, 0⟩) h
  have k4 := k.2.2.2.1 (by decide!) (by decide!)
  ⟨h, k.1, by rw [k4.1]; decide!, k4.2.2⟩

/-- C16: `init(searchid, parent, g, f)` sets the search id, the parent, g and f to its
arguments and clears the expanded flag; the node's id, parent direction and priority
are unchanged. -/
theorem init_sets_fields_and_keeps_id_pdir_priority (n : search_node) (searchid : Nat)
    (parent : Option node_ptr) (g f : ℚ) :
    (n.init searchid parent g f).get_search_id = searchid ∧
    (n.init searchid parent g f).get_parent = parent ∧
    (n.init searchid parent g f).get_g = g ∧
    (n.init searchid parent g f).get_f = f ∧
    (n.init searchid parent g f).get_expanded = false ∧
    (n.init searchid parent g f).get_id = n.get_id ∧
    (n.init searchid parent g f).get_pdir = n.get_pdir ∧
    (n.init searchid parent g f).get_priority = n.get_priority :=
  ⟨rfl, rfl, rfl, rfl, search_node.get_expanded_init n searchid parent g f,
    search_node.get_id_init n searchid parent g f,
    search_node.get_pdir_init n searchid parent g f, rfl⟩

/-- C17, evaluated on the code: a node constructed with the id 2^23 = 8388608, which
is below 2^31 - 1, answers `get_id() = 0`. The constructor's `set_pdir` overwrites
byte 3 of `id_and_status_`, where bits 23 to 30 of the id lie, and `get_id` masks
with `(1 << 24) - 1`; the largest id that survives is 2^23 - 1. -/
theorem constructed_node_loses_id_bit_23 :
    (search_node.mk_node INF32 8388608).get_id = 0 ∧
    (8388608 : Nat) < 2 ^ 31 - 1 ∧
    (search_node.mk_node INF32 8388607).get_id = 8388607 := by
  decide

/-- C18, evaluated on the code: with `precision = 1` the tolerance the function
computes is 0, not `10^(-precision) / 2 = 1/20`: `1 / (int)pow(10, precision)` is a
division of integers. A computed cost of 10.04 against an optimum of 10 is within
1/20 of it, yet the check fails. -/
theorem check_optimality_epsilon_is_zero :
    check_optimality.precision = 1 ∧
    check_optimality.epsilon = 0 ∧
    (10 : ℚ) ^ (-(check_optimality.precision : Int)) / 2 = 1 / 20 ∧
    check_optimality { fresh_solution INF32 with sum_of_edge_costs_ := 251 / 25 } 10
      = .error 1 := by
  refine ⟨rfl, check_optimality_epsilon_eq, ?_, ?_⟩
  · norm_num [check_optimality.precision]
  · unfold check_optimality
    rw [check_optimality_epsilon_eq]
    norm_num [check_optimality.delta]

/-- C19: for every computed cost `sol.sum_of_edge_costs_` and every scenario optimum
`distance`, with `delta = |computed - optimal|` and `epsilon` the tolerance the function
computed, `check_optimality` fails (exits with code 1) if and only if
`delta - epsilon > epsilon`, and otherwise returns true. The tolerance computed is 0,
so the check fails exactly when the computed cost differs from the optimum; there is
no third outcome. -/
theorem check_optimality_fails_iff_delta_exceeds_tolerance (sol : solution)
    (distance : ℚ) :
    (check_optimality sol distance = .error 1 ↔
      |sol.sum_of_edge_costs_ - distance| - check_optimality.epsilon
        > check_optimality.epsilon) ∧
    (¬ (|sol.sum_of_edge_costs_ - distance| - check_optimality.epsilon
        > check_optimality.epsilon) → check_optimality sol distance = .ok true) ∧
    (check_optimality sol distance = .error 1 ↔ sol.sum_of_edge_costs_ ≠ distance) ∧
    (check_optimality sol distance = .ok true ↔ sol.sum_of_edge_costs_ = distance) := by
  have hd : 0 ≤ |sol.sum_of_edge_costs_ - distance| := abs_nonneg _
  have he := check_optimality_epsilon_eq
  have key : |check_optimality.delta sol distance - check_optimality.epsilon|
        > check_optimality.epsilon ↔
      |sol.sum_of_edge_costs_ - distance| - check_optimality.epsilon
        > check_optimality.epsilon := by
    unfold check_optimality.delta
    rw [he, sub_zero, abs_of_nonneg hd]
  have key2 : |sol.sum_of_edge_costs_ - distance| - check_optimality.epsilon
        > check_optimality.epsilon ↔ sol.sum_of_edge_costs_ ≠ distance := by
    rw [he, sub_zero, gt_iff_lt, abs_pos, sub_ne_zero]
  unfold check_optimality
  refine ⟨?_, ?_, ?_, ?_⟩
  · rw [← key]
    split_ifs with h
    · simp [h]
    · simp [h]
  · intro h
    rw [if_neg (fun k => h (key.mp k))]
  · rw [← key2, ← key]
    split_ifs with h
    · simp [h]
    · simp [h]
  · rw [← not_not (a := sol.sum_of_edge_costs_ = distance), ← ne_eq, ← key2, ← key]
    split_ifs with h
    · simp [h]
    · simp [h]

/-- C11: on the transition from phase 1 to phase 2 (a pass of the loop that starts in
phase 1 and leaves the search in phase 2) each open set becomes exactly the norelax
list of its direction, whatever it held before; the phase is 2, both core lower bounds
are `DBL_MAX`, and `search_direction` is 1: the coming pass pops from the forward open
set, which is not empty. The nodes, the norelax lists and the best meeting are left as
they were. -/
theorem phase2_open_sets_are_the_norelax_lists (c : chase_config) (pi : problem_instance)
    (N : Nat) (mem : node_ptr → search_node) (sol : solution) (henv : env_ok c pi N mem)
    (st st1 : chase_state) (h : at_loop_head c mem pi sol st)
    (hs : search_iter c st = .continue_ st1) (h1 : st.phase_ = 1) (h2 : st1.phase_ = 2) :
    (∀ d, st1.open_ d = st.norelax_ d) ∧
    (∀ d, st1.norelax_ d = st.norelax_ d) ∧
    st1.phase_ = 2 ∧
    (∀ d, st1.core_lb d = DBL_MAX) ∧
    st1.search_direction = 1 ∧ pop_dir st1 = some false ∧ st1.open_ false ≠ [] ∧
    st1.mem = st.mem ∧ st1.best_cost_ = st.best_cost_ ∧ st1.v_ = st.v_ ∧
    st1.w_ = st.w_ := by
  rcases search_iter_continue_cases c st st1 (ctrl_inv_at_loop_head st h) hs with
    ⟨_, _, hf, _, rfl⟩ | ⟨d, _, hp⟩
  · have hl := (phase1_invariant sol henv st (at_point.head h)).2 h1 false
    refine ⟨fun d => foldl_push_nil _, fun _ => rfl, rfl, fun _ => rfl, rfl, rfl, ?_,
      rfl, rfl, rfl, rfl⟩
    simp only [enter_phase2, foldl_push_nil]
    intro he
    apply hf
    rw [hl, he]
    rfl
  · have := (pop_and_expand_ctrl c d st st1 hp).2.1
    rw [h1, h2] at this
    exact absurd this (by decide)

/-- Witness for C11: the fifth pass of the search on `fractional_graph` switches to
phase 2. -/
theorem phase2_open_sets_are_the_norelax_lists_witness :
    ∃ st1, search_iter fractional fractional_phase1_end = .continue_ st1 ∧
      fractional_phase1_end.phase_ = 1 ∧ st1.phase_ = 2 ∧
      (∀ d, st1.open_ d = fractional_phase1_end.norelax_ d) ∧
      (∀ d, st1.core_lb d = DBL_MAX) ∧
      st1.search_direction = 1 ∧ st1.open_ false ≠ [] := by
  have hp : (run_passes fractional 1 fractional_phase1_end).map (fun s => s.phase_)
      = some 2 := by decide!
  have h1 : fractional_phase1_end.phase_ = 1 := by decide!
  cases hr : run_passes fractional 1 fractional_phase1_end with
  | none => rw [hr] at hp; cases hp
  | some st1 =>
    rw [hr] at hp
    simp only [Option.map_some', Option.some.injEq] at hp
    have hs := (run_passes_one fractional fractional_phase1_end st1).mp hr
    have k := phase2_open_sets_are_the_norelax_lists fractional ⟨0, 1, 1⟩ 40
      (fresh_pool INF32) (fresh_solution INF32)
      (env_ok_fresh fractional_graph id INF32 (fun _ => 0) ⟨0, 1, 1⟩ 40 (by decide)
        (by decide) (by decide) (by decide) (by decide))
      fractional_phase1_end st1 (run_passes_getD_at_loop_head 4 (by decide!)) hs h1 hp
    exact ⟨st1, hs, h1, hp, k.1, k.2.2.2.1, k.2.2.2.2.1, k.2.2.2.2.2.2.1⟩

/-- C12 as stated fails: on `forward_chain_graph` with start 0 and target 1 the
backward open set is empty after the second pass; the third pass pops from the
forward open set, and so do the fourth and the fifth, all in phase 1. -/
theorem consecutive_pops_from_the_forward_open_set :
    (run_passes forward_chain 2 forward_chain_start).map
        (fun st => (st.phase_, pop_dir st, st.open_ true)) = some (1, some false, []) ∧
    (run_passes forward_chain 3 forward_chain_start).map
        (fun st => (st.phase_, pop_dir st, st.open_ true)) = some (1, some false, []) ∧
    (run_passes forward_chain 4 forward_chain_start).map
        (fun st => (st.phase_, pop_dir st, st.open_ true)) = some (1, some false, []) ∧
    (run_passes forward_chain 5 forward_chain_start).isSome = true := by
  decide!

/-- C12, amended: the search starts with a pop from the forward open set, and so does
phase 2. A pass that pops from the open set of direction `d` stays in its phase, and
the coming pass pops from the other open set whenever that one is not empty; it pops
from the open set of `d` again only when the other one is empty and that of `d` is
not, and there is no pop when both are empty. -/
theorem next_pop_is_from_the_other_open_set_unless_it_is_empty (c : chase_config)
    (pi : problem_instance) (N : Nat) (mem : node_ptr → search_node) (sol : solution)
    (henv : env_ok c pi N mem) (st st1 : chase_state) (h : at_loop_head c mem pi sol st)
    (hs : search_iter c st = .continue_ st1) :
    pop_dir (search_init c mem pi sol) = some false ∧
    (∀ d, pop_dir st = some d →
      (∃ cur rest, pqueue.pop st.mem (st.open_ d) = some (cur, rest)) ∧
      st1.phase_ = st.phase_ ∧
      (st1.open_ (!d) ≠ [] → pop_dir st1 = some (!d)) ∧
      (st1.open_ (!d) = [] → st1.open_ d ≠ [] → pop_dir st1 = some d) ∧
      (st1.open_ (!d) = [] → st1.open_ d = [] → pop_dir st1 = none)) ∧
    (pop_dir st = none →
      st.phase_ = 1 ∧ st1.phase_ = 2 ∧ pop_dir st1 = some false ∧
      st1.open_ false ≠ []) := by
  refine ⟨rfl, ?_, ?_⟩
  · intro d hd
    rcases search_iter_continue_cases c st st1 (ctrl_inv_at_loop_head st h) hs with
      ⟨h0, _⟩ | ⟨d1, hd1, hp⟩
    · simp [pop_dir, h0] at hd
    · have hdd : d1 = d := by
        cases d1 <;> cases d <;> simp_all [pop_dir]
      subst hdd
      obtain ⟨_, k2, k3, k4⟩ := pop_and_expand_ctrl c d1 st st1 hp
      refine ⟨k4, k2, ?_, ?_, ?_⟩
      · intro hne
        have hl : (st1.open_ (!d1)).length > 0 := List.length_pos.mpr hne
        unfold pop_dir
        rw [k3]
        unfold next_direction
        rw [if_pos hl]
        cases d1 <;> rfl
      · intro he hne
        have hl : (st1.open_ d1).length > 0 := List.length_pos.mpr hne
        unfold pop_dir
        rw [k3]
        unfold next_direction
        rw [if_neg (by simp [he]), if_pos hl]
        cases d1 <;> rfl
      · intro he he2
        unfold pop_dir
        rw [k3]
        unfold next_direction
        rw [if_neg (by simp [he]), if_neg (by simp [he2])]
  · intro hn
    rcases search_iter_continue_cases c st st1 (ctrl_inv_at_loop_head st h) hs with
      ⟨_, hph, hf, _, rfl⟩ | ⟨d1, hd1, _⟩
    · have hl := (phase1_invariant sol henv st (at_point.head h)).2 hph false
      refine ⟨hph, rfl, rfl, ?_⟩
      simp only [enter_phase2, foldl_push_nil]
      intro he
      apply hf
      rw [hl, he]
      rfl
    · cases d1 <;> simp_all [pop_dir]

/-- Witness for C12 (amended): the first pass on `fractional_graph` pops from the
forward open set and the second from the backward one. -/
theorem next_pop_is_from_the_other_open_set_unless_it_is_empty_witness :
    ∃ st1, search_iter fractional fractional_start = .continue_ st1 ∧
      pop_dir fractional_start = some false ∧ st1.open_ true ≠ [] ∧
      pop_dir st1 = some true := by
  have hp : (run_passes fractional 1 fractional_start).map (fun s => s.open_ true)
      = some [⟨true, 1⟩] := by decide!
  cases hr : run_passes fractional 1 fractional_start with
  | none => rw [hr] at hp; cases hp
  | some st1 =>
    rw [hr] at hp
    simp only [Option.map_some', Option.some.injEq] at hp
    have hs := (run_passes_one fractional fractional_start st1).mp hr
    have hne : st1.open_ true ≠ [] := by rw [hp]; simp
    have k := next_pop_is_from_the_other_open_set_unless_it_is_empty fractional ⟨0, 1, 1⟩
      40 (fresh_pool INF32) (fresh_solution INF32)
      (env_ok_fresh fractional_graph id INF32 (fun _ => 0) ⟨0, 1, 1⟩ 40 (by decide)
        (by decide) (by decide) (by decide) (by decide))
      fractional_start st1 at_loop_head.init hs
    exact ⟨st1, hs, rfl, hne, (k.2.1 false rfl).2.2.1 hne⟩

/-- C13, evaluated on the code: two consecutive queries on `reuse_graph` through the
same pools. The first (0 to 3, search id 1) expands the forward node 2 and leaves it
with its expanded flag set. The second (1 to 3, search id 2) finds the stale flag on
its successor 2 at line 399, before any test of the search id, and skips the node: it
returns the path 1, 3 of cost 5, where the same query on fresh pools returns
1, 2, 3 of cost 2. -/
theorem second_search_skips_node_with_stale_expanded_flag :
    (final_state reuse_first).map
        (fun r => (r.sol.path_, r.sol.sum_of_edge_costs_,
          (r.mem ⟨false, 2⟩).get_expanded, (r.mem ⟨false, 2⟩).get_search_id))
      = some ([0, 2, 3], 2, true, 1) ∧
    (final_state reuse_second_fresh).map
        (fun r => (r.sol.path_, r.sol.sum_of_edge_costs_)) = some ([1, 2, 3], 2) ∧
    (reuse_second.bind final_state).map
        (fun r => (r.sol.path_, r.sol.sum_of_edge_costs_)) = some ([1, 3], 5) := by
  decide!

/-- C20: at every point of a search, a pass of the successor loop for a successor
whose expanded flag is set changes nothing but `nodes_touched_`; no node of an open
set has its expanded flag set, in phase 1 and in phase 2, and in phase 1 no node of a
norelax list has, so the seeding of phase 2 pushes no expanded node; and a flag that
is set stays set through every pass of the successor loop and every pass of the
search loop. Hence a node that has been expanded is not on an open set again. -/
theorem expanded_successor_is_skipped_and_never_reopened (c : chase_config)
    (pi : problem_instance) (N : Nat) (mem : node_ptr → search_node) (sol : solution)
    (henv : env_ok c pi N mem) (st : chase_state) (h : at_point c mem pi sol st) :
    (∀ d current e, (st.mem ⟨d, e.1⟩).get_expanded = true →
      expand_succ c d current st e
        = { st with sol := { st.sol with nodes_touched_ := st.sol.nodes_touched_ + 1 } }) ∧
    (∀ d p, p ∈ st.open_ d → (st.mem p).get_expanded = false) ∧
    (st.phase_ = 1 → ∀ d p, p ∈ (enter_phase2 st).open_ d →
      ((enter_phase2 st).mem p).get_expanded = false) ∧
    (∀ p, (st.mem p).get_expanded = true →
      (∀ d current e, ((expand_succ c d current st e).mem p).get_expanded = true) ∧
      (∀ st1, search_iter c st = .continue_ st1 → (st1.mem p).get_expanded = true) ∧
      (∀ st1, search_iter c st = .break_ st1 → (st1.mem p).get_expanded = true)) := by
  have hb := (phase1_invariant sol henv st h).1
  refine ⟨?_, ?_, ?_, ?_⟩
  · intro d current e he
    unfold expand_succ
    dsimp only
    rw [if_pos (show ((touch st).mem ⟨d, e.1⟩).get_expanded = true from he)]
    rfl
  · intro d p hp
    exact (hb.open_ok d p hp).2.2.2
  · intro hph d p hp
    simp only [enter_phase2, foldl_push_nil] at hp ⊢
    exact (hb.norelax_p1 hph d p hp).1
  · intro p hp
    exact ⟨fun d current e => expand_succ_expanded_mono c d current st e p hp,
      (search_iter_expanded_mono c st p hp).1, (search_iter_expanded_mono c st p hp).2⟩

/-- Witness for C20: after the first pass on `fractional_graph` the start node is
expanded and is on no open set. -/
theorem expanded_successor_is_skipped_and_never_reopened_witness :
    (fractional_pass1.mem ⟨false, 0⟩).get_expanded = true ∧
    (∀ d, (⟨false, 0⟩ : node_ptr) ∉ fractional_pass1.open_ d) ∧
    expand_succ fractional false ⟨false, 2⟩ fractional_pass1 (0, 1)
      = { fractional_pass1 with
          sol := { fractional_pass1.sol with
            nodes_touched_ := fractional_pass1.sol.nodes_touched_ + 1 } } := by
  have he : (fractional_pass1.mem ⟨false, 0⟩).get_expanded = true := by decide!
  have k := expanded_successor_is_skipped_and_never_reopened fractional ⟨0, 1, 1⟩ 40
    (fresh_pool INF32) (fresh_solution INF32)
    (env_ok_fresh fractional_graph id INF32 (fun _ => 0) ⟨0, 1, 1⟩ 40 (by decide)
      (by decide) (by decide) (by decide) (by decide))
    fractional_pass1 (at_point.head (run_passes_getD_at_loop_head 1 (by decide!)))
  refine ⟨he, ?_, ?_⟩
  · intro d hm
    have := k.2.1 d _ hm
    rw [he] at this
    cases this
  · exact k.1 false ⟨false, 2⟩ (0, 1) he

/-- C23: the id, the expanded flag and the parent direction share the word
`id_and_status_` without disturbing one another: `set_expanded(b)` makes
`get_expanded() = b` and leaves `get_id()` and `get_pdir()` as they were, and
`set_pdir(d)`, for each of the nine directions, makes `get_pdir()` the value of `d` and
leaves `get_id()` and `get_expanded()` as they were. -/
theorem set_expanded_and_set_pdir_are_independent (n : search_node) (b : Bool)
    (d : jps.direction) :
    (n.set_expanded b).get_expanded = b ∧
    (n.set_expanded b).get_id = n.get_id ∧
    (n.set_expanded b).get_pdir = n.get_pdir ∧
    (n.set_pdir d).get_pdir = d.code ∧
    (n.set_pdir d).get_id = n.get_id ∧
    (n.set_pdir d).get_expanded = n.get_expanded :=
  ⟨search_node.get_expanded_set_expanded n b, search_node.get_id_set_expanded n b,
    search_node.get_pdir_set_expanded n b, search_node.get_pdir_set_pdir n d,
    search_node.get_id_set_pdir n d, search_node.get_expanded_set_pdir n d⟩

/-- C25: in the dispatch on `--alg` the weighted SSSP branch is unreachable: no value
of `--alg` selects `run_wgm_sssp`, and `--alg sssp` selects `run_sssp`. -/
theorem weighted_sssp_branch_is_unreachable (alg : String) :
    main_dispatch alg ≠ .run_wgm_sssp ∧ main_dispatch "sssp" = .run_sssp := by
  refine ⟨?_, ?_⟩
  · unfold main_dispatch
    by_cases hs : alg = "sssp"
    · subst hs
      simp
    · simp only [hs, if_false]
      repeat' apply ite_ne_of
      all_goals simp
  · unfold main_dispatch
    simp

/-- C21: in a pass of the loop that pops `current` from the open set of direction `d`:
when `f(current) >= best_cost_` the node is dropped, no node changes, `current` is
not expanded and is not on the open set afterwards, the other open set being left as
it was; and every node whose expanded flag the pass sets is the popped node, popped
with `f < best_cost_`. A pass without a pop (`search_direction = 0`) changes no node.
The loop is left, and the phase changes, only in a pass that starts with both open
sets empty. -/
theorem only_nodes_popped_below_best_cost_are_expanded (c : chase_config)
    (pi : problem_instance) (N : Nat) (mem : node_ptr → search_node) (sol : solution)
    (henv : env_ok c pi N mem) (st : chase_state) (h : at_loop_head c mem pi sol st) :
    (∀ d current rest st1, pop_dir st = some d →
      pqueue.pop st.mem (st.open_ d) = some (current, rest) →
      search_iter c st = .continue_ st1 →
      ((st.mem current).get_f ≥ st.best_cost_ →
        st1.mem = st.mem ∧ (st1.mem current).get_expanded = false ∧
        st1.open_ d = rest ∧ current ∉ st1.open_ d ∧ st1.open_ (!d) = st.open_ (!d)) ∧
      (∀ p, (st.mem p).get_expanded = false → (st1.mem p).get_expanded = true →
        p = current ∧ (st.mem current).get_f < st.best_cost_)) ∧
    (pop_dir st = none →
      (∀ st1, search_iter c st = .continue_ st1 → st1.mem = st.mem) ∧
      (∀ st1, search_iter c st = .break_ st1 → st1.mem = st.mem)) ∧
    (∀ st1, search_iter c st = .break_ st1 → st.open_ false = [] ∧ st.open_ true = []) ∧
    (∀ st1, search_iter c st = .continue_ st1 → st1.phase_ ≠ st.phase_ →
      st.open_ false = [] ∧ st.open_ true = []) := by
  have hc := ctrl_inv_at_loop_head st h
  have hb := (phase1_invariant sol henv st (at_point.head h)).1
  refine ⟨?_, ?_, ?_, ?_⟩
  · intro d current rest st1 hd hpop hs
    rcases search_iter_continue_cases c st st1 hc hs with ⟨h0, _⟩ | ⟨d1, hd1, hp⟩
    · rw [(pop_dir_eq_some st d).mp hd] at h0
      cases d <;> simp at h0
    · have hdd : d1 = d := by
        have := (pop_dir_eq_some st d).mp hd
        rw [hd1] at this
        cases d <;> cases d1 <;> simp_all
      subst hdd
      constructor
      · intro hf
        obtain ⟨k1, k2, _⟩ := pop_and_expand_drop c d1 st st1 current rest hpop hf hp
        obtain ⟨p1, p2, _⟩ := pop_spec hpop
        refine ⟨k1, ?_, ?_, ?_, ?_⟩
        · rw [k1]
          exact (hb.open_ok d1 current p1).2.2.2
        · rw [k2, set_dir_same]
        · rw [k2, set_dir_same, p2]
          exact (hb.open_nodup d1).not_mem_erase
        · rw [k2]
          exact set_dir_not _ _ _
      · intro p h0 h1
        exact pop_and_expand_newly_expanded c d1 st st1 current rest hpop hp p h0 h1
  · intro hn
    have h0 := (pop_dir_eq_none st hc).mp hn
    rw [search_iter_zero c st h0]
    exact check_termination_mem c _
  · intro st1 hs
    obtain ⟨_, k1, k2, _⟩ := search_iter_break_cases c st st1 hc hs
    exact ⟨k1, k2⟩
  · intro st1 hs hne
    rcases search_iter_continue_cases c st st1 hc hs with ⟨h0, _⟩ | ⟨d1, _, hp⟩
    · exact hc.2.1 h0
    · exact absurd (pop_and_expand_ctrl c d1 st st1 hp).2.1 hne

/-- Witness for C21: on `fractional_graph` the pass after the fourth, which ends
phase 1, starts with both open sets empty. -/
theorem only_nodes_popped_below_best_cost_are_expanded_witness :
    (∀ st1, search_iter fractional fractional_phase1_end = .break_ st1 →
      fractional_phase1_end.open_ false = [] ∧ fractional_phase1_end.open_ true = []) ∧
    (∀ st1, search_iter fractional fractional_phase1_end = .continue_ st1 →
      st1.phase_ ≠ fractional_phase1_end.phase_ →
      fractional_phase1_end.open_ false = [] ∧ fractional_phase1_end.open_ true = []) :=
  (only_nodes_popped_below_best_cost_are_expanded fractional ⟨0, 1, 1⟩ 40
    (fresh_pool INF32) (fresh_solution INF32)
    (env_ok_fresh fractional_graph id INF32 (fun _ => 0) ⟨0, 1, 1⟩ 40 (by decide)
      (by decide) (by decide) (by decide) (by decide))
    fractional_phase1_end (run_passes_getD_at_loop_head 4 (by decide!))).2.2

/-- C22 as stated fails: after `get_path` has returned on `fractional_graph` both
open sets are empty, but each norelax list still holds the node 38 that phase 1
deferred. -/
theorem norelax_lists_are_not_empty_after_get_path :
    (final_state (get_path fractional 100 (fresh_pool INF32) ⟨0, 1, 1⟩
        (fresh_solution INF32))).map
      (fun r => (r.open_ false, r.open_ true, r.norelax_ false, r.norelax_ true))
      = some ([], [], [⟨false, 38⟩], [⟨true, 38⟩]) := by
  decide!

/-- C22, amended: when `get_path` returns both open sets are empty; the norelax lists
are as `search` left them, and they are cleared where the next `search` starts (lines
170-171): whatever the pools, the instance and the solution, the state a search
starts its loop in has both norelax lists empty. -/
theorem get_path_clears_open_sets_and_search_clears_norelax (c : chase_config)
    (fuel : Nat) (mem : node_ptr → search_node) (pi : problem_instance) (sol : solution)
    (r : chase_state) (h : get_path c fuel mem pi sol = .finished r) :
    (∀ d, r.open_ d = []) ∧
    (∃ st, search c fuel mem pi sol = .finished st ∧ r.norelax_ = st.norelax_) ∧
    (∀ (pi2 : problem_instance) (sol2 : solution) (d : Bool),
      (search_init c r.mem pi2 sol2).norelax_ d = []) := by
  unfold get_path at h
  cases hs : search c fuel mem pi sol with
  | finished st =>
    rw [hs] at h
    obtain ⟨_, k2, k3, _⟩ := report_frame c fuel st r h
    exact ⟨k2, ⟨st, rfl, k3⟩, fun _ _ _ => rfl⟩
  | null_deref => rw [hs] at h; cases h
  | out_of_fuel => rw [hs] at h; cases h

/-- Witness for C22 (amended): `get_path` on `fractional_graph`. -/
theorem get_path_clears_open_sets_and_search_clears_norelax_witness :
    ∃ r, get_path fractional 100 (fresh_pool INF32) ⟨0, 1, 1⟩ (fresh_solution INF32)
        = .finished r ∧ (∀ d, r.open_ d = []) := by
  have hb : (final_state (get_path fractional 100 (fresh_pool INF32) ⟨0, 1, 1⟩
      (fresh_solution INF32))).isSome = true := by decide!
  cases hs : get_path fractional 100 (fresh_pool INF32) ⟨0, 1, 1⟩ (fresh_solution INF32) with
  | finished r =>
    exact ⟨r, rfl, (get_path_clears_open_sets_and_search_clears_norelax fractional 100
      (fresh_pool INF32) ⟨0, 1, 1⟩ (fresh_solution INF32) r hs).1⟩
  | null_deref => rw [hs] at hb; simp [final_state] at hb
  | out_of_fuel => rw [hs] at hb; simp [final_state] at hb

/-- C26: at the head of every pass of the loop of a search, the open set the pass
pops from is not empty, so `pop` returns a node and the pass does not dereference a
null pointer; this holds for the first forward pop, for every pop the direction
switch chooses and for the forward pop after the switch to phase 2, where the forward
norelax list is not empty. Hence `search` never ends in a null dereference. -/
theorem every_pop_is_on_a_non_empty_open_set (c : chase_config) (pi : problem_instance)
    (N : Nat) (mem : node_ptr → search_node) (sol : solution) (henv : env_ok c pi N mem)
    (st : chase_state) (h : at_loop_head c mem pi sol st) :
    (∀ d, pop_dir st = some d →
      st.open_ d ≠ [] ∧ ∃ cur rest, pqueue.pop st.mem (st.open_ d) = some (cur, rest)) ∧
    search_iter c st ≠ .null_deref ∧
    (∀ st1, search_iter c st = .continue_ st1 → st.phase_ = 1 → st1.phase_ = 2 →
      st.norelax_ false ≠ [] ∧ pop_dir st1 = some false ∧ st1.open_ false ≠ []) ∧
    (∀ fuel, search c fuel mem pi sol ≠ .null_deref) := by
  refine ⟨?_, search_iter_ne_null_deref sol henv st h, ?_, ?_⟩
  · intro d hd
    have hne := open_nonempty_at_loop_head sol henv st h d ((pop_dir_eq_some st d).mp hd)
    exact ⟨hne, pop_of_ne_nil st.mem _ hne⟩
  · intro st1 hs h1 h2
    have hd : pop_dir st1 = some false := by
      rcases search_iter_continue_cases c st st1 (ctrl_inv_at_loop_head st h) hs with
        ⟨_, _, _, _, rfl⟩ | ⟨d, _, hp⟩
      · rfl
      · have := (pop_and_expand_ctrl c d st st1 hp).2.1
        rw [h1, h2] at this
        exact absurd this (by decide)
    have hne := open_nonempty_at_loop_head sol henv st1 (at_loop_head.pass h hs) false
      ((pop_dir_eq_some st1 false).mp hd)
    refine ⟨?_, hd, hne⟩
    rcases search_iter_continue_cases c st st1 (ctrl_inv_at_loop_head st h) hs with
      ⟨_, _, _, _, rfl⟩ | ⟨d, _, hp⟩
    · simpa [enter_phase2, foldl_push_nil] using hne
    · have := (pop_and_expand_ctrl c d st st1 hp).2.1
      rw [h1, h2] at this
      exact absurd this (by decide)
  · intro fuel
    exact search_loop_ne_null_deref sol henv fuel _ at_loop_head.init

/-- Witness for C26: the first pass on `fractional_graph` pops the start node from
the forward open set. -/
theorem every_pop_is_on_a_non_empty_open_set_witness :
    fractional_start.open_ false ≠ [] ∧
    (∃ cur rest, pqueue.pop fractional_start.mem (fractional_start.open_ false)
      = some (cur, rest)) ∧
    search_iter fractional fractional_start ≠ .null_deref :=
  have k := every_pop_is_on_a_non_empty_open_set fractional ⟨0, 1, 1⟩ 40
    (fresh_pool INF32) (fresh_solution INF32)
    (env_ok_fresh fractional_graph id INF32 (fun _ => 0) ⟨0, 1, 1⟩ 40 (by decide)
      (by decide) (by decide) (by decide) (by decide))
    fractional_start at_loop_head.init
  ⟨(k.1 false rfl).1, (k.1 false rfl).2, k.2.1⟩

/-- C27: when `search` ends, the assertion of line 360 holds, and more: `best_cost_`
is `INF` if and only if `v_` and `w_` are both null; `v_` is null exactly when `w_`
is; when they are not null they are the two nodes of one id, one in each pool, in
either order; and `reconstruct_path`, which `get_path` runs when `best_cost_` is not
`INF`, does not dereference a null `w_`, nor does `get_path` after this search. -/
theorem best_cost_is_inf_iff_v_and_w_are_null (c : chase_config) (pi : problem_instance)
    (N : Nat) (mem : node_ptr → search_node) (sol : solution) (henv : env_ok c pi N mem)
    (fuel : Nat) (st : chase_state) (hs : search c fuel mem pi sol = .finished st) :
    (st.best_cost_ ≠ c.INF ∨ (st.v_ = none ∧ st.w_ = none)) ∧
    (st.best_cost_ = c.INF ↔ (st.v_ = none ∧ st.w_ = none)) ∧
    (st.v_ = none ↔ st.w_ = none) ∧
    (∀ v w, st.v_ = some v → st.w_ = some w →
      v.key = w.key ∧ v.bwd = !w.bwd ∧ v.key < N ∧
      (st.mem v).get_id = v.key ∧ (st.mem w).get_id = v.key) ∧
    (st.best_cost_ ≠ c.INF → ∀ fuel2,
      reconstruct_path fuel2
        { st with sol := { st.sol with sum_of_edge_costs_ := st.best_cost_ } }
        ≠ .null_deref) ∧
    (∀ fuel2, report c fuel2 (.finished st) ≠ .null_deref) := by
  obtain ⟨hb, _, hmeet⟩ := path_invariant sol henv st (search_finished_at_point hs)
  obtain ⟨_, hm2⟩ := hmeet
  have hrec : st.w_ ≠ none → st.v_ ≠ none → ∀ fuel2,
      reconstruct_path fuel2
        { st with sol := { st.sol with sum_of_edge_costs_ := st.best_cost_ } }
        ≠ .null_deref := by
    intro hw hv fuel2
    unfold reconstruct_path
    dsimp only
    intro hr
    split at hr
    · cases hr
    · split at hr
      · rename_i hnone
        split_ifs at hnone with hsw
        · exact hv hnone
        · exact hw hnone
      · split at hr <;> cases hr
  rcases hm2 with ⟨h1, h2, h3⟩ | ⟨h1, d, k, hk, hv, hw, _, _⟩
  · refine ⟨Or.inr ⟨h2, h3⟩, ⟨fun _ => ⟨h2, h3⟩, fun _ => h1⟩, ⟨fun _ => h3, fun _ => h2⟩,
      ?_, fun hne => absurd h1 hne, ?_⟩
    · intro v w hv
      rw [h2] at hv
      cases hv
    · intro fuel2
      unfold report
      simp [h1]
  · have hne : st.best_cost_ ≠ c.INF := ne_of_lt h1
    have hvn : st.v_ ≠ none := by rw [hv]; simp
    have hwn : st.w_ ≠ none := by rw [hw]; simp
    refine ⟨Or.inl hne, ⟨fun h => absurd h hne, fun h => absurd h.1 hvn⟩,
      ⟨fun h => absurd h hvn, fun h => absurd h hwn⟩, ?_, fun _ => hrec hwn hvn, ?_⟩
    · intro v w hv2 hw2
      rw [hv] at hv2
      rw [hw] at hw2
      simp only [Option.some.injEq] at hv2 hw2
      subst hv2 hw2
      refine ⟨rfl, by simp, hk, hb.ids _ hk, hb.ids ⟨!d, k⟩ hk⟩
    · intro fuel2
      have hr := hrec hwn hvn fuel2
      unfold report
      dsimp only
      rw [if_pos hne]
      intro hx
      split at hx
      · cases hx
      · rename_i hy
        exact hr hy
      · cases hx

/-- Witness for C27: the search on `fractional_graph` from 0 to 1 ends with cost 9/4
and a meeting recorded. -/
theorem best_cost_is_inf_iff_v_and_w_are_null_witness :
    ∃ st, search fractional 100 (fresh_pool INF32) ⟨0, 1, 1⟩ (fresh_solution INF32)
        = .finished st ∧
      (st.best_cost_ = fractional.INF ↔ (st.v_ = none ∧ st.w_ = none)) ∧
      (∀ fuel2, report fractional fuel2 (.finished st) ≠ .null_deref) := by
  have hb : (final_state (search fractional 100 (fresh_pool INF32) ⟨0, 1, 1⟩
      (fresh_solution INF32))).isSome = true := by decide!
  cases hs : search fractional 100 (fresh_pool INF32) ⟨0, 1, 1⟩ (fresh_solution INF32) with
  | finished st =>
    have k := best_cost_is_inf_iff_v_and_w_are_null fractional ⟨0, 1, 1⟩ 40
      (fresh_pool INF32) (fresh_solution INF32)
      (env_ok_fresh fractional_graph id INF32 (fun _ => 0) ⟨0, 1, 1⟩ 40 (by decide)
        (by decide) (by decide) (by decide) (by decide))
      100 st hs
    exact ⟨st, rfl, k.2.1, k.2.2.2.2.2⟩
  | null_deref => rw [hs] at hb; simp [final_state] at hb
  | out_of_fuel => rw [hs] at hb; simp [final_state] at hb

/-- C28 as stated fails: after the switch to phase 2 on `fractional_graph` the
forward node 38 is on the forward norelax list and on the forward open set; and when
the search on `round_trip_graph` from 0 to 0 ends, the forward node 38 is on the
forward norelax list and expanded. -/
theorem norelax_node_is_on_open_set_in_phase2 :
    (run_passes fractional 5 fractional_start).map
        (fun st => (st.phase_, st.norelax_ false, st.open_ false))
      = some (2, [⟨false, 38⟩], [⟨false, 38⟩]) ∧
    (final_state (search round_trip 100 (fresh_pool INF32) ⟨0, 0, 1⟩
        (fresh_solution INF32))).map
        (fun st => (st.phase_, st.norelax_ false, (st.mem ⟨false, 38⟩).get_expanded))
      = some (2, [⟨false, 38⟩], true) := by
  decide!

/-- C28, amended: at every point of a search each node appears at most once in its
direction's norelax list, and each open set is free of duplicates; throughout phase 1
no node of a norelax list is on the open set of its direction or expanded, so the
seeding of phase 2 makes each open set its norelax list, every node pushed once. -/
theorem norelax_nodes_are_unique_and_closed_off_in_phase1 (c : chase_config)
    (pi : problem_instance) (N : Nat) (mem : node_ptr → search_node) (sol : solution)
    (henv : env_ok c pi N mem) (st : chase_state) (h : at_point c mem pi sol st) :
    (∀ d, (st.norelax_ d).Nodup) ∧
    (∀ d, (st.open_ d).Nodup) ∧
    (st.phase_ = 1 → ∀ d p, p ∈ st.norelax_ d →
      p ∉ st.open_ d ∧ (st.mem p).get_expanded = false) ∧
    (st.phase_ = 1 → ∀ d,
      (enter_phase2 st).open_ d = st.norelax_ d ∧ ((enter_phase2 st).open_ d).Nodup) := by
  have hb := (phase1_invariant sol henv st h).1
  refine ⟨hb.norelax_nodup, hb.open_nodup, ?_, ?_⟩
  · intro hph d p hp
    exact ⟨(hb.norelax_p1 hph d p hp).2, (hb.norelax_p1 hph d p hp).1⟩
  · intro _ d
    simp only [enter_phase2, foldl_push_nil]
    exact ⟨trivial, hb.norelax_nodup d⟩

/-- Witness for C28 (amended): after the first pass on `fractional_graph` the
forward norelax list holds node 38, which is not on the open set and not expanded. -/
theorem norelax_nodes_are_unique_and_closed_off_in_phase1_witness :
    (⟨false, 38⟩ : node_ptr) ∉ fractional_pass1.open_ false ∧
    (fractional_pass1.mem ⟨false, 38⟩).get_expanded = false :=
  (norelax_nodes_are_unique_and_closed_off_in_phase1 fractional ⟨0, 1, 1⟩ 40
    (fresh_pool INF32) (fresh_solution INF32)
    (env_ok_fresh fractional_graph id INF32 (fun _ => 0) ⟨0, 1, 1⟩ 40 (by decide)
      (by decide) (by decide) (by decide) (by decide))
    fractional_pass1 (at_point.head (run_passes_getD_at_loop_head 1 (by decide!)))).2.2.1
    (by decide!) false ⟨false, 38⟩ (by decide!)

/-- C30, evaluated on the code: with start and target both 0, `get_path` on
`no_return_graph` ends with `best_cost_ = INF` and reports no path, and on
`round_trip_graph` it reports the path 0, 38, 0 of cost 2. In neither run is the
cost 0 or the path the single node 0: a meeting is recorded only when a successor is
generated (lines 520-541), and the start node is never a successor of itself. -/
theorem start_equal_target_is_not_reported_as_cost_zero :
    (final_state (get_path no_return 100 (fresh_pool INF32) ⟨0, 0, 1⟩
        (fresh_solution INF32))).map
        (fun r => (r.best_cost_, r.sol.path_, r.sol.sum_of_edge_costs_))
      = some ((INF32 : ℚ), [], (INF32 : ℚ)) ∧
    (final_state (get_path round_trip 100 (fresh_pool INF32) ⟨0, 0, 1⟩
        (fresh_solution INF32))).map
        (fun r => (r.best_cost_, r.sol.path_, r.sol.sum_of_edge_costs_))
      = some (2, [0, 38, 0], 2) := by
  decide!

/-- C29: on a graph with node ids below `N`, whatever the edge costs, the ranks and
the heuristic, the loop of `search` ends: with room for `8 N^2 + 6 N + 4` passes, or
more, `search` returns. Every pass that continues brings `passes_left` down: an
expansion sets an expanded flag that is never cleared, a dropped pop shrinks an open
set, and the phase is switched once. -/
theorem search_terminates (c : chase_config) (pi : problem_instance) (N : Nat)
    (mem : node_ptr → search_node) (sol : solution) (henv : env_ok c pi N mem)
    (fuel : Nat) (hfuel : 8 * N * N + 6 * N + 4 ≤ fuel) :
    (∃ st, search c fuel mem pi sol = .finished st) ∧
    (∀ st st1, at_loop_head c mem pi sol st → search_iter c st = .continue_ st1 →
      passes_left N st1 < passes_left N st) := by
  refine ⟨?_, fun st st1 h hs => passes_left_decreases sol henv st st1 h hs⟩
  unfold search
  exact search_loop_terminates sol henv fuel _ at_loop_head.init
    (lt_of_lt_of_le (passes_left_init mem sol) hfuel)

/-- Witness for C29: the search on `fractional_graph`, forty nodes. -/
theorem search_terminates_witness :
    ∃ st, search fractional 13044 (fresh_pool INF32) ⟨0, 1, 1⟩ (fresh_solution INF32)
      = .finished st :=
  (search_terminates fractional ⟨0, 1, 1⟩ 40 (fresh_pool INF32) (fresh_solution INF32)
    (env_ok_fresh fractional_graph id INF32 (fun _ => 0) ⟨0, 1, 1⟩ 40 (by decide)
      (by decide) (by decide) (by decide) (by decide))
    13044 (by decide)).1

/-- C24: for a `jpst_gridmap` whose rotated map has the dimensions of the unrotated
one swapped, and whose padded grid fits the 32-bit ids below `INF32`, and for every
in-bounds `(x, y)`: the image of the cell under `map_id_to_rmap_id` is the cell
`(height - 1 - y, x)` of the rotated map; after `add_obstacle(x, y, ...)` the label of
the cell in `t_gm_` and the label of its image in `t_gm_r_` are set, after
`clear_obstacles(x, y)` both are cleared, the labels of all other cells of both maps
are unchanged, and when the rotated map was a copy of the unrotated one before the
call it is one after it. -/
theorem add_obstacle_and_clear_obstacles_keep_rotated_copy (INF32 : Nat)
    (j : jpst_gridmap) (x y : Nat)
    (hw : j.t_gm_r_.header_width = j.t_gm_.header_height)
    (hh : j.t_gm_r_.header_height = j.t_gm_.header_width)
    (hfit : (j.t_gm_.header_height + 2) * (j.t_gm_.header_width + 2) < 2 ^ 32)
    (hinf : (j.t_gm_.header_height + 2) * (j.t_gm_.header_width + 2) ≤ INF32)
    (hx : x < j.t_gm_.header_width) (hy : y < j.t_gm_.header_height) :
    j.map_id_to_rmap_id INF32 (j.t_gm_.to_padded_id_xy x y)
      = j.t_gm_r_.to_padded_id_xy (j.t_gm_.header_height - 1 - y) x ∧
    (j.add_obstacle INF32 x y).t_gm_.get_label (j.t_gm_.to_padded_id_xy x y) = true ∧
    (j.add_obstacle INF32 x y).t_gm_r_.get_label
      (j.map_id_to_rmap_id INF32 (j.t_gm_.to_padded_id_xy x y)) = true ∧
    (j.clear_obstacles INF32 x y).t_gm_.get_label (j.t_gm_.to_padded_id_xy x y) = false ∧
    (j.clear_obstacles INF32 x y).t_gm_r_.get_label
      (j.map_id_to_rmap_id INF32 (j.t_gm_.to_padded_id_xy x y)) = false ∧
    (∀ i, i ≠ j.t_gm_.to_padded_id_xy x y →
      (j.add_obstacle INF32 x y).t_gm_.get_label i = j.t_gm_.get_label i ∧
      (j.clear_obstacles INF32 x y).t_gm_.get_label i = j.t_gm_.get_label i) ∧
    (∀ i, i ≠ j.map_id_to_rmap_id INF32 (j.t_gm_.to_padded_id_xy x y) →
      (j.add_obstacle INF32 x y).t_gm_r_.get_label i = j.t_gm_r_.get_label i ∧
      (j.clear_obstacles INF32 x y).t_gm_r_.get_label i = j.t_gm_r_.get_label i) ∧
    (j.rotated_copy INF32 →
      (j.add_obstacle INF32 x y).rotated_copy INF32 ∧
      (j.clear_obstacles INF32 x y).rotated_copy INF32) := by
  simp only [gridmap.header_width, gridmap.header_height] at hw hh hfit hinf hx hy
  have hid := gridmap.to_padded_id_xy_eq j.t_gm_ x y hfit hx hy
  have hid2 := gridmap.to_padded_id_eq j.t_gm_ x y hfit hx hy
  have hrid := jpst_gridmap.map_id_to_rmap_id_eq INF32 j x y hw hh hfit hinf hx hy
  have hfit2 : (j.t_gm_r_.header_height_ + 2) * (j.t_gm_r_.header_width_ + 2) < 2 ^ 32 := by
    rw [hw, hh, Nat.mul_comm]
    exact hfit
  have hadd_t : (j.add_obstacle INF32 x y).t_gm_
      = j.t_gm_.set_label (j.t_gm_.to_padded_id_xy x y) true := by
    unfold jpst_gridmap.add_obstacle
    dsimp only
    rw [hid2, hid]
  have hadd_r : (j.add_obstacle INF32 x y).t_gm_r_
      = j.t_gm_r_.set_label
          (j.map_id_to_rmap_id INF32 (j.t_gm_.to_padded_id_xy x y)) true := by
    unfold jpst_gridmap.add_obstacle
    dsimp only
    rw [hid2, hid]
  have hclr_t : (j.clear_obstacles INF32 x y).t_gm_
      = j.t_gm_.set_label (j.t_gm_.to_padded_id_xy x y) false := by
    unfold jpst_gridmap.clear_obstacles
    dsimp only
    rw [hid2, hid]
  have hclr_r : (j.clear_obstacles INF32 x y).t_gm_r_
      = j.t_gm_r_.set_label
          (j.map_id_to_rmap_id INF32 (j.t_gm_.to_padded_id_xy x y)) false := by
    unfold jpst_gridmap.clear_obstacles
    dsimp only
    rw [hid2, hid]
  have hkey : ∀ (j1 : jpst_gridmap) (b : Bool),
      j1.t_gm_ = j.t_gm_.set_label (j.t_gm_.to_padded_id_xy x y) b →
      j1.t_gm_r_ = j.t_gm_r_.set_label
        (j.map_id_to_rmap_id INF32 (j.t_gm_.to_padded_id_xy x y)) b →
      j.rotated_copy INF32 → j1.rotated_copy INF32 := by
    intro j1 b h1 h2 hrot x1 y1 hx1 hy1
    have hx1' : x1 < j.t_gm_.header_width_ := by rw [h1] at hx1; exact hx1
    have hy1' : y1 < j.t_gm_.header_height_ := by rw [h1] at hy1; exact hy1
    have hmap : ∀ i, j1.map_id_to_rmap_id INF32 i = j.map_id_to_rmap_id INF32 i := by
      intro i
      unfold jpst_gridmap.map_id_to_rmap_id
      rw [h1, h2]
      rfl
    have hpad : j1.t_gm_.to_padded_id_xy x1 y1 = j.t_gm_.to_padded_id_xy x1 y1 := by
      rw [h1]
      rfl
    rw [hmap, hpad, h1, h2]
    have hold := hrot x1 y1 hx1' hy1'
    have hid1 := gridmap.to_padded_id_xy_eq j.t_gm_ x1 y1 hfit hx1' hy1'
    have hrid1 := jpst_gridmap.map_id_to_rmap_id_eq INF32 j x1 y1 hw hh hfit hinf hx1' hy1'
    unfold gridmap.get_label at hold ⊢
    unfold gridmap.set_label
    dsimp only
    by_cases he : x1 = x ∧ y1 = y
    · obtain ⟨e1, e2⟩ := he
      subst e1 e2
      simp
    · have hne1 : j.t_gm_.to_padded_id_xy x1 y1 ≠ j.t_gm_.to_padded_id_xy x y := by
        rw [hid1, hid]
        intro heq
        obtain ⟨k1, k2⟩ := mul_add_inj _ _ _ _ _ (by omega) (by omega) heq
        exact he ⟨by omega, by omega⟩
      have hne2 : j.map_id_to_rmap_id INF32 (j.t_gm_.to_padded_id_xy x1 y1)
          ≠ j.map_id_to_rmap_id INF32 (j.t_gm_.to_padded_id_xy x y) := by
        rw [hid1, hid, hrid1, hrid]
        intro heq
        obtain ⟨k1, k2⟩ := mul_add_inj _ _ _ _ _ (by omega) (by omega) heq
        exact he ⟨by omega, by omega⟩
      rw [if_neg hne1, if_neg hne2]
      exact hold
  refine ⟨?_, ?_, ?_, ?_, ?_, ?_, ?_, ?_⟩
  · rw [hid, hrid]
    unfold gridmap.header_height
    rw [gridmap.to_padded_id_xy_eq _ _ _ hfit2 (by omega) (by omega), hw]
    omega
  · rw [hadd_t]; simp [gridmap.get_label, gridmap.set_label]
  · rw [hadd_r]; simp [gridmap.get_label, gridmap.set_label]
  · rw [hclr_t]; simp [gridmap.get_label, gridmap.set_label]
  · rw [hclr_r]; simp [gridmap.get_label, gridmap.set_label]
  · intro i hi
    rw [hadd_t, hclr_t]
    simp [gridmap.get_label, gridmap.set_label, hi]
  · intro i hi
    rw [hadd_r, hclr_r]
    simp [gridmap.get_label, gridmap.set_label, hi]
  · intro hrot
    exact ⟨hkey _ true hadd_t hadd_r hrot, hkey _ false hclr_t hclr_r hrot⟩

/-- Witness for C24: the cell (1, 1) of a map of three columns and two rows; its
padded id is 12 and its image in the rotated map, the cell (0, 1), has padded id 9. -/
theorem add_obstacle_and_clear_obstacles_keep_rotated_copy_witness :
    small_jpst.t_gm_.to_padded_id_xy 1 1 = 12 ∧
    small_jpst.map_id_to_rmap_id INF32 12 = 9 ∧
    (small_jpst.add_obstacle INF32 1 1).t_gm_.get_label
      (small_jpst.t_gm_.to_padded_id_xy 1 1) = true ∧
    (small_jpst.add_obstacle INF32 1 1).t_gm_r_.get_label
      (small_jpst.map_id_to_rmap_id INF32 (small_jpst.t_gm_.to_padded_id_xy 1 1)) = true ∧
    (small_jpst.add_obstacle INF32 1 1).rotated_copy INF32 := by
  have hrot : small_jpst.rotated_copy INF32 := by
    intro x y _ _
    unfold gridmap.get_label
    rfl
  have k := add_obstacle_and_clear_obstacles_keep_rotated_copy INF32 small_jpst 1 1
    (by decide) (by decide) (by decide) (by decide) (by decide) (by decide)
  exact ⟨by decide, by decide, k.2.1, k.2.2.1, (k.2.2.2.2.2.2.2 hrot).1⟩

/-- C31: `operator<` is a strict weak ordering: it is irreflexive, asymmetric and
transitive; two nodes are incomparable (neither is below the other) exactly when
their f-values are equal and their g-values are equal; and incomparability is
transitive. The values are exact rationals, so none is a NaN. -/
theorem lt_is_a_strict_weak_ordering (a b c : search_node) :
    a.lt a = false ∧
    (a.lt b = true → b.lt a = false) ∧
    (a.lt b = true → b.lt c = true → a.lt c = true) ∧
    ((a.lt b = false ∧ b.lt a = false) ↔ (a.get_f = b.get_f ∧ a.get_g = b.get_g)) ∧
    (a.lt b = false ∧ b.lt a = false → b.lt c = false ∧ c.lt b = false →
      a.lt c = false ∧ c.lt a = false) := by
  have hinc : ∀ x y : search_node,
      (x.lt y = false ∧ y.lt x = false) ↔ (x.f_ = y.f_ ∧ x.g_ = y.g_) := by
    intro x y
    rw [search_node.lt_eq_false_iff, search_node.lt_eq_false_iff]
    constructor
    · rintro ⟨h1, h2⟩
      rw [not_or, not_and] at h1 h2
      have hf : x.f_ = y.f_ := le_antisymm (not_lt.mp h2.1) (not_lt.mp h1.1)
      exact ⟨hf, le_antisymm (not_lt.mp (h1.2 hf)) (not_lt.mp (h2.2 hf.symm))⟩
    · rintro ⟨h1, h2⟩
      rw [h1, h2]
      simp
  refine ⟨?_, ?_, ?_, hinc a b, ?_⟩
  · rw [search_node.lt_eq_false_iff]
    simp
  · intro h
    rw [search_node.lt_eq_true_iff] at h
    rw [search_node.lt_eq_false_iff, not_or, not_and]
    rcases h with h | ⟨h1, h2⟩
    · exact ⟨not_lt.mpr (le_of_lt h), fun e => absurd h (by rw [e]; exact lt_irrefl _)⟩
    · exact ⟨by rw [h1]; exact lt_irrefl _, fun _ => not_lt.mpr (le_of_lt h2)⟩
  · intro h1 h2
    rw [search_node.lt_eq_true_iff] at h1 h2 ⊢
    rcases h1 with h1 | ⟨h1, k1⟩ <;> rcases h2 with h2 | ⟨h2, k2⟩
    · exact Or.inl (lt_trans h1 h2)
    · exact Or.inl (by rw [← h2]; exact h1)
    · exact Or.inl (by rw [h1]; exact h2)
    · exact Or.inr ⟨h1.trans h2, lt_trans k2 k1⟩
  · intro h1 h2
    obtain ⟨e1, e2⟩ := (hinc a b).mp h1
    obtain ⟨e3, e4⟩ := (hinc b c).mp h2
    exact (hinc a c).mpr ⟨e1.trans e3, e2.trans e4⟩

/-- C32, evaluated on the code: for a node `a` with f = 2, g = 2 and a node `b` with
f = 2, g = 1, both `a < b` and `a > b` hold while `b < a` does not; `b == a` holds
although `a < b`, and `a == b` does not hold, so `==` is not symmetric; `b <= a` holds
although `a < b`; and `a >= b` holds although `a < b`. `operator>` breaks ties on
equal f with `g_ > other.g_`, the very test of `operator<`. -/
theorem derived_comparisons_disagree_with_lt_on_equal_f :
    tie_deep.lt tie_shallow = true ∧ tie_shallow.lt tie_deep = false ∧
    tie_deep.gt tie_shallow = true ∧
    tie_shallow.eq tie_deep = true ∧ tie_deep.eq tie_shallow = false ∧
    tie_shallow.le tie_deep = true ∧
    tie_deep.ge tie_shallow = true := by
  decide!

/-- C33: for a `jpst_gridmap` whose rotated map has the dimensions of the unrotated
one swapped and whose padded grid fits the 32-bit ids below `INF32`, the two id
conversions undo one another: `rmap_id_to_map_id(map_id_to_rmap_id(id)) = id` for the
padded id of every in-bounds cell, `map_id_to_rmap_id(rmap_id_to_map_id(rid)) = rid`
for the padded id of every in-bounds cell of the rotated map, and both map `INF32`
to itself. -/
theorem map_id_and_rmap_id_conversions_are_inverse (INF32 : Nat) (j : jpst_gridmap)
    (hw : j.t_gm_r_.header_width = j.t_gm_.header_height)
    (hh : j.t_gm_r_.header_height = j.t_gm_.header_width)
    (hfit : (j.t_gm_.header_height + 2) * (j.t_gm_.header_width + 2) < 2 ^ 32)
    (hinf : (j.t_gm_.header_height + 2) * (j.t_gm_.header_width + 2) ≤ INF32) :
    (∀ x y, x < j.t_gm_.header_width → y < j.t_gm_.header_height →
      j.rmap_id_to_map_id INF32 (j.map_id_to_rmap_id INF32 (j.t_gm_.to_padded_id_xy x y))
        = j.t_gm_.to_padded_id_xy x y) ∧
    (∀ rx ry, rx < j.t_gm_r_.header_width → ry < j.t_gm_r_.header_height →
      j.map_id_to_rmap_id INF32
          (j.rmap_id_to_map_id INF32 (j.t_gm_r_.to_padded_id_xy rx ry))
        = j.t_gm_r_.to_padded_id_xy rx ry) ∧
    j.map_id_to_rmap_id INF32 INF32 = INF32 ∧
    j.rmap_id_to_map_id INF32 INF32 = INF32 := by
  simp only [gridmap.header_width, gridmap.header_height] at hw hh hfit hinf ⊢
  have hfit2 : (j.t_gm_r_.header_height_ + 2) * (j.t_gm_r_.header_width_ + 2) < 2 ^ 32 := by
    rw [hw, hh, Nat.mul_comm]
    exact hfit
  refine ⟨?_, ?_, ?_, ?_⟩
  · intro x y hx hy
    rw [gridmap.to_padded_id_xy_eq j.t_gm_ x y hfit hx hy,
      jpst_gridmap.map_id_to_rmap_id_eq INF32 j x y hw hh hfit hinf hx hy]
    have e : (x + 1) * (j.t_gm_.header_height_ + 2) + (j.t_gm_.header_height_ - y)
        = (x + 1) * (j.t_gm_r_.header_width_ + 2)
          + (j.t_gm_r_.header_width_ - 1 - y + 1) := by
      rw [hw]
      omega
    rw [e, jpst_gridmap.rmap_id_to_map_id_eq INF32 j (j.t_gm_r_.header_width_ - 1 - y) x
      hw hh hfit hinf (by omega) (by omega), hw]
    have e2 : j.t_gm_.header_height_ - (j.t_gm_.header_height_ - 1 - y) = y + 1 := by omega
    rw [e2]
  · intro rx ry hx hy
    rw [gridmap.to_padded_id_xy_eq j.t_gm_r_ rx ry hfit2 hx hy,
      jpst_gridmap.rmap_id_to_map_id_eq INF32 j rx ry hw hh hfit hinf hx hy]
    have e : (j.t_gm_r_.header_width_ - rx) * (j.t_gm_.header_width_ + 2) + (ry + 1)
        = (j.t_gm_r_.header_width_ - rx - 1 + 1) * (j.t_gm_.header_width_ + 2)
          + (ry + 1) := by
      have : j.t_gm_r_.header_width_ - rx - 1 + 1 = j.t_gm_r_.header_width_ - rx := by
        omega
      rw [this]
    rw [e, jpst_gridmap.map_id_to_rmap_id_eq INF32 j ry (j.t_gm_r_.header_width_ - rx - 1)
      hw hh hfit hinf (by omega) (by omega), hw]
    have e2 : j.t_gm_.header_height_ - (j.t_gm_.header_height_ - rx - 1) = rx + 1 := by
      omega
    rw [e2]
  · unfold jpst_gridmap.map_id_to_rmap_id
    rw [if_pos rfl]
  · unfold jpst_gridmap.rmap_id_to_map_id
    rw [if_pos rfl]

/-- Witness for C33: on a map of three columns and two rows the cell (1, 1), padded
id 12, goes to the padded id 9 of the rotated map and back. -/
theorem map_id_and_rmap_id_conversions_are_inverse_witness :
    small_jpst.t_gm_.to_padded_id_xy 1 1 = 12 ∧
    small_jpst.map_id_to_rmap_id INF32 12 = 9 ∧
    small_jpst.rmap_id_to_map_id INF32
        (small_jpst.map_id_to_rmap_id INF32 (small_jpst.t_gm_.to_padded_id_xy 1 1))
      = small_jpst.t_gm_.to_padded_id_xy 1 1 := by
  have k := map_id_and_rmap_id_conversions_are_inverse INF32 small_jpst
    (by decide) (by decide) (by decide) (by decide)
  exact ⟨by decide, by decide, k.1 1 1 (by decide) (by decide)⟩

/-- C34, evaluated on the code: `set_id(2)` on a node constructed with the id 1
leaves `get_id() = 3`: the new id is or-ed into `id_and_status_`, whose old id bits
are not cleared. Only on a node whose id is 0 does `set_id(2)` give `get_id() = 2`.
The expanded flag and the parent direction are as before. -/
theorem set_id_ors_the_new_id_into_the_old :
    ((search_node.mk_node INF32 1).set_id 2).get_id = 3 ∧
    ((search_node.mk_node INF32 0).set_id 2).get_id = 2 ∧
    ((search_node.mk_node INF32 1).set_id 2).get_expanded
      = (search_node.mk_node INF32 1).get_expanded ∧
    ((search_node.mk_node INF32 1).set_id 2).get_pdir
      = (search_node.mk_node INF32 1).get_pdir := by
  decide

end chase_search

end warthog
